import Mathlib

/-!
# Shukuchi: streaming layer-weight pipeline

Shallow embedding of the prefetcher (`engine/src/prefetch.c`), of the per-token layer
sweep of `engine_generate`, its choice of the next token and the inferred feed-forward
width (`engine/src/engine.c`), of the quantized KV cache (`engine/src/kv_cache.c`), of the
operators on quantized blocks, softmax, attention, rotary embedding and token embedding
(`engine/src/ops.c`), of the container reader (`engine/src/gguf_reader.c`), of the tensor
map (`engine/src/llama_tensor_map.c`) and of the layer functions, `model_get_info` and the
tokenizer of the model loader (`engine/src/model_loader.c`).

Conventions of the embedding.
* `uint32_t` / `uint64_t` / `size_t` values are natural numbers; where the C arithmetic can
  wrap the reduction `% 2^32` / `% 2^64` is written out. An `int` result is reduced to 32
  bits, two's complement (`to_int`).
* `float` values are exact rationals (the claims about numerics are stated in exact
  arithmetic); `lrintf` is rounding to the nearest integer, ties to even.
* Heap allocation (`malloc`, `calloc`, `realloc`) is taken to succeed.
* The pool mutex makes every pool operation atomic; the worker thread is a separate event
  (`worker_step`) that the environment interleaves with the compute thread.
* In the K-quant decoders and products, in `op_rope` and in `op_embed` every array access
  is checked: a function returns `none` as soon as a read or a write falls outside its
  array. The same holds for the `memcpy` calls of the model loader.
* `op_softmax` and `op_attention` take the function `expf` as a parameter, `op_rope` the
  functions `powf`, `cosf` and `sinf`; their theorems are stated on the reals with the real
  functions. `ops.c` is read on its portable path (the `__APPLE__` Metal branches are left
  out).
* A C string is a list of characters; the characters after the list are NUL, and a NUL
  inside the list ends the string.
* A file is the list of its bytes; reads of the container are little-endian.
-/

set_option autoImplicit false

namespace Shukuchi

/-! ## prefetch.h / model_loader.h : data -/

/-- The enum buffer_state of prefetch.h. -/
inductive buffer_state where
  | BUF_EMPTY
  | BUF_LOADING
  | BUF_READY
  | BUF_IN_USE
  | BUF_ERROR
  deriving DecidableEq, Repr

open buffer_state

/-- The struct layer_view of model_loader.h. A pointer is the offset of the tensor inside
the layer buffer, `none` being the null pointer. -/
structure layer_view where
  layer_id : Nat := 0
  attn_norm : Option Nat := none
  attn_q : Option Nat := none
  attn_k : Option Nat := none
  attn_v : Option Nat := none
  attn_o : Option Nat := none
  ffn_norm : Option Nat := none
  ffn_gate : Option Nat := none
  ffn_up : Option Nat := none
  ffn_down : Option Nat := none
  attn_norm_dtype : Nat := 0
  attn_q_dtype : Nat := 0
  attn_k_dtype : Nat := 0
  attn_v_dtype : Nat := 0
  attn_o_dtype : Nat := 0
  ffn_norm_dtype : Nat := 0
  ffn_gate_dtype : Nat := 0
  ffn_up_dtype : Nat := 0
  ffn_down_dtype : Nat := 0
  attn_q_size : Nat := 0
  attn_k_size : Nat := 0
  attn_v_size : Nat := 0
  attn_o_size : Nat := 0
  ffn_gate_size : Nat := 0
  ffn_up_size : Nat := 0
  ffn_down_size : Nat := 0
  deriving DecidableEq, Repr

/-- The all-zero view left by `memset(&view, 0, sizeof(view))`. -/
def layer_view.zero : layer_view := {}

/-- The struct streaming_stats of model_loader.h. -/
structure streaming_stats where
  layer_loads : Nat := 0
  layer_bytes_read : Nat := 0
  max_layer_size : Nat := 0
  peak_buffer_usage : Nat := 0
  peak_rss : Nat := 0
  max_concurrent_buffers : Nat := 0
  prefetch_hits : Nat := 0
  prefetch_misses : Nat := 0
  deriving DecidableEq, Repr

/-- The struct layer_buffer of prefetch.h (the storage `data` itself is not modelled, only
its `capacity`). -/
structure layer_buffer where
  state : buffer_state
  layer_id : Nat
  size : Nat
  capacity : Nat
  view : layer_view
  deriving DecidableEq, Repr

/-- The struct prefetcher of prefetch.c: `cfg.depth` is the length of `buffers`, `stats` is
the target of the optional pointer `p->stats`. -/
structure prefetcher where
  buffers : List layer_buffer
  cancel : Bool
  stats : Option streaming_stats
  deriving DecidableEq, Repr

/-- The field `cfg.depth`. -/
def prefetcher.depth (p : prefetcher) : Nat := p.buffers.length

/-- The struct prefetch_request: the slot index (the back pointer to the pool is implicit). -/
structure prefetch_request where
  buf_index : Nat
  deriving DecidableEq, Repr

/-- The struct prefetcher_config; `has_model` says that `cfg->model` is not null. -/
structure prefetcher_config where
  depth : Nat
  has_model : Bool
  buffer_size : Nat
  stats : Option streaming_stats

/-! ## prefetch.c : operations -/

/-- Whether a buffer counts as active (line 32). -/
def is_active (b : layer_buffer) : Bool :=
  b.state = buffer_state.BUF_LOADING || b.state = buffer_state.BUF_IN_USE

/-- count_active_buffers, lines 28-37. -/
def count_active_buffers (p : prefetcher) : Nat :=
  (p.buffers.filter is_active).length

/-- prefetcher_create, lines 88-142. `max_layer` is the result of
`model_get_max_layer_size`, consulted when `cfg.buffer_size` is zero. -/
def prefetcher_create (cfg : prefetcher_config) (max_layer : Option Nat) : Option prefetcher :=
  if cfg.depth = 0 || !cfg.has_model then none
  else
    let sz : Option Nat :=
      if cfg.buffer_size = 0 then
        (match max_layer with
         | some s => if s = 0 then none else some s
         | none => none)
      else some cfg.buffer_size
    match sz with
    | none => none
    | some buf_size =>
      let empty : layer_buffer :=
        { state := buffer_state.BUF_EMPTY, layer_id := 0, size := 0,
          capacity := buf_size, view := layer_view.zero }
      let stats := cfg.stats.map fun s =>
        let total_buf := (cfg.depth * buf_size) % 2 ^ 64
        let s1 := if total_buf > s.peak_buffer_usage then
                    { s with peak_buffer_usage := total_buf } else s
        if buf_size > s1.max_layer_size then { s1 with max_layer_size := buf_size } else s1
      some { buffers := List.replicate cfg.depth empty, cancel := false, stats := stats }

/-- The scan of lines 161-167: index of the first EMPTY buffer. -/
def find_empty : List layer_buffer → Option Nat
  | [] => none
  | b :: bs =>
    if b.state = buffer_state.BUF_EMPTY then some 0
    else (find_empty bs).map (· + 1)

/-- The statistics update of lines 174-179 and 214-217. -/
def record_concurrency (p : prefetcher) : prefetcher :=
  match p.stats with
  | none => p
  | some s =>
    let concurrent := count_active_buffers p
    if concurrent > s.max_concurrent_buffers then
      { p with stats := some { s with max_concurrent_buffers := concurrent } }
    else p

/-- The two writes of lines 172-173 to the chosen buffer. -/
def mark_loading (layer_id : Nat) (b : layer_buffer) : layer_buffer :=
  { b with layer_id := layer_id, state := buffer_state.BUF_LOADING }

/-- prefetcher_request, lines 156-190. -/
def prefetcher_request (p : prefetcher) (layer_id : Nat) :
    prefetcher × Option prefetch_request :=
  match find_empty p.buffers with
  | none => (p, none)
  | some idx =>
    let bs := p.buffers.modify (mark_loading layer_id) idx
    (record_concurrency { p with buffers := bs }, some { buf_index := idx })

/-- What one call of `model_load_layer` hands back to the worker: whether it returned 0,
the view it wrote and the number of bytes used. -/
structure load_result where
  ok : Bool
  view : layer_view
  used : Nat
  deriving DecidableEq, Repr

/-- What lines 65-80 do to one buffer when they are taken as one step: nothing unless it
is LOADING; otherwise the load result `r` is stored and the buffer becomes READY or ERROR.
The worker gives up the lock between the look at the state (line 65) and the writes (lines
72-80), which do not look at the state again; prefetch_thread_check and
prefetch_thread_finish are the two halves. Taken as one step they are what the worker
does as long as the buffer is still LOADING when the load ends, which is so when the
compute thread releases only buffers that a wait has returned (thread_run_atomic). -/
def store_load (r : load_result) (b : layer_buffer) : layer_buffer :=
  if b.state = buffer_state.BUF_LOADING then
    { b with view := r.view,
             size := if r.ok then r.used else b.size,
             state := if r.ok then buffer_state.BUF_READY else buffer_state.BUF_ERROR }
  else b

/-- One iteration of the worker loop body, lines 63-82, for buffer `i`, taken as one
step, the call of `model_load_layer` having produced `r`. -/
def worker_complete (p : prefetcher) (i : Nat) (r : load_result) : prefetcher :=
  { p with buffers := p.buffers.modify (store_load r) i }

/-- Result of one inspection of the buffer inside the loop of prefetcher_wait. -/
inductive wait_poll where
  | got (idx : Nat)
  | null
  | again
  deriving DecidableEq, Repr

/-- The write of line 207. -/
def mark_in_use (b : layer_buffer) : layer_buffer :=
  { b with state := buffer_state.BUF_IN_USE }

/-- One pass through the loop body of prefetcher_wait, lines 204-229, for slot `idx`;
`waited` is the flag of line 202. -/
def prefetcher_wait_poll (p : prefetcher) (idx : Nat) (waited : Bool) :
    prefetcher × wait_poll :=
  match p.buffers[idx]? with
  | none => (p, wait_poll.null)
  | some b =>
    if b.state = buffer_state.BUF_READY then
      let bs := p.buffers.modify mark_in_use idx
      let stats := p.stats.map fun s =>
        if waited then { s with prefetch_misses := (s.prefetch_misses + 1) % 2 ^ 32 }
        else { s with prefetch_hits := (s.prefetch_hits + 1) % 2 ^ 32 }
      (record_concurrency { p with buffers := bs, stats := stats }, wait_poll.got idx)
    else if b.state = buffer_state.BUF_ERROR || p.cancel then (p, wait_poll.null)
    else (p, wait_poll.again)

/-- The four writes of lines 238-241. -/
def clear_buffer (b : layer_buffer) : layer_buffer :=
  { b with state := buffer_state.BUF_EMPTY, layer_id := 0, size := 0,
           view := layer_view.zero }

/-- prefetcher_release, lines 233-243, applied to the buffer in slot `idx`. -/
def prefetcher_release (p : prefetcher) (idx : Nat) : prefetcher :=
  { p with buffers := p.buffers.modify clear_buffer idx }

/-- prefetcher_cancel, lines 245-253. -/
def prefetcher_cancel (p : prefetcher) : prefetcher := { p with cancel := true }

/-- The operations that act on the pool: the three calls of the compute thread and the
completion of a load by the worker. -/
inductive pool_event where
  | request (layer_id : Nat)
  | worker_done (i : Nat) (r : load_result)
  | wait (idx : Nat) (waited : Bool)
  | release (idx : Nat)
  deriving DecidableEq, Repr

/-- Effect of one pool operation. -/
def pool_step (p : prefetcher) : pool_event → prefetcher
  | pool_event.request l => (prefetcher_request p l).1
  | pool_event.worker_done i r => worker_complete p i r
  | pool_event.wait idx waited => (prefetcher_wait_poll p idx waited).1
  | pool_event.release idx => prefetcher_release p idx

/-- Effect of a sequence of pool operations. -/
def pool_run (p : prefetcher) (evs : List pool_event) : prefetcher :=
  evs.foldl pool_step p

/-- The five edges of the buffer life cycle. -/
def buffer_edge : buffer_state → buffer_state → Bool
  | buffer_state.BUF_EMPTY, buffer_state.BUF_LOADING => true
  | buffer_state.BUF_LOADING, buffer_state.BUF_READY => true
  | buffer_state.BUF_LOADING, buffer_state.BUF_ERROR => true
  | buffer_state.BUF_READY, buffer_state.BUF_IN_USE => true
  | buffer_state.BUF_IN_USE, buffer_state.BUF_EMPTY => true
  | _, _ => false

/-! ## engine.c : the layer sweep of engine_generate -/

/-- What the compute thread does during a sweep, in order: `l` is the loop index and
`layer_id` the layer recorded in the pool buffer concerned. -/
inductive sweep_event where
  | wait (l layer_id : Nat)
  | forward (l layer_id pos : Nat)
  | release (l layer_id : Nat)
  deriving DecidableEq, Repr

/-- The collaborators of the sweep that are taken as given: `load l` is the result of
`model_load_layer` for layer `l`, `forward lv l pos` says that
`forward_layer_view(h, lv, l, pos, hidden)` returned 0. -/
structure sweep_env where
  load : Nat → load_result
  forward : layer_view → Nat → Nat → Bool

/-- The state shared by the compute thread and the worker: the pool `h->prefetch`, the
counter `m->stats.layer_loads` of the model handle, the worker activity still to come
(`sched`: before each pool call of the compute thread the worker visits the listed slots)
and the record of what the compute thread did. -/
structure engine_world where
  p : prefetcher
  layer_loads : Nat
  sched : List (List Nat)
  log : List sweep_event
  deriving DecidableEq, Repr

/-- The worker visits slot `i` (prefetch.c lines 63-82): a LOADING buffer is loaded with
`model_load_layer`, which counts the load when it succeeds (model_loader.c line 314). -/
def worker_step (env : sweep_env) (w : engine_world) (i : Nat) : engine_world :=
  match w.p.buffers[i]? with
  | none => w
  | some b =>
    if b.state = buffer_state.BUF_LOADING then
      let r := env.load b.layer_id
      { w with p := worker_complete w.p i r,
               layer_loads := if r.ok then (w.layer_loads + 1) % 2 ^ 64 else w.layer_loads }
    else w

/-- The worker activity scheduled before the next pool call of the compute thread. -/
def tick (env : sweep_env) (w : engine_world) : engine_world :=
  match w.sched with
  | [] => w
  | s :: rest => s.foldl (worker_step env) { w with sched := rest }

/-- A call of prefetcher_request by the compute thread. -/
def do_request (env : sweep_env) (w : engine_world) (layer_id : Nat) :
    engine_world × Option prefetch_request :=
  let w1 := tick env w
  let r := prefetcher_request w1.p layer_id
  ({ w1 with p := r.1 }, r.2)

/-- How a call of prefetcher_wait ends: with a buffer, with NULL, or never. -/
inductive wait_outcome where
  | buf (idx : Nat)
  | null
  | hang
  deriving DecidableEq, Repr

/-- A call of prefetcher_wait by the compute thread (lines 192-231). The first inspection
sees the pool after the scheduled worker activity. If the buffer is then neither READY nor
ERROR the call sleeps and polls: a LOADING buffer is completed by the worker, after which
the next inspection decides; a buffer that is EMPTY or IN_USE is changed by nobody while
the compute thread sits in the loop, so the call never returns. -/
def do_wait (env : sweep_env) (w : engine_world) (req : Option prefetch_request) :
    engine_world × wait_outcome :=
  match req with
  | none => (w, wait_outcome.null)
  | some r =>
    let w1 := tick env w
    match prefetcher_wait_poll w1.p r.buf_index false with
    | (p1, wait_poll.got i) => ({ w1 with p := p1 }, wait_outcome.buf i)
    | (p1, wait_poll.null) => ({ w1 with p := p1 }, wait_outcome.null)
    | (_, wait_poll.again) =>
      let w2 := worker_step env w1 r.buf_index
      match prefetcher_wait_poll w2.p r.buf_index true with
      | (p2, wait_poll.got i) => ({ w2 with p := p2 }, wait_outcome.buf i)
      | (p2, wait_poll.null) => ({ w2 with p := p2 }, wait_outcome.null)
      | (_, wait_poll.again) => (w2, wait_outcome.hang)

/-- A call of prefetcher_release by the compute thread on the buffer in slot `idx`. -/
def do_release (w : engine_world) (idx : Nat) : engine_world :=
  { w with p := prefetcher_release w.p idx }

/-- Appends an entry to the record of the sweep. -/
def note (w : engine_world) (e : sweep_event) : engine_world :=
  { w with log := w.log ++ [e] }

/-- How a sweep (or a whole generate call) ends: return value 0, return value -1, or
no return. -/
inductive run_status where
  | ok
  | fail
  | hang
  deriving DecidableEq, Repr

/-- The loop of engine.c lines 359-384 (prefill) and 451-476 (decode), from index `l`
with `fuel` iterations left (`fuel = n_layers - l`). -/
def sweep_loop (env : sweep_env) (n_layers pos : Nat) :
    Nat → Nat → Option prefetch_request → Option prefetch_request → engine_world →
    run_status × engine_world
  | 0, _, _, _, w => (run_status.ok, w)
  | fuel + 1, l, req0, req1, w =>
    let ahead := (l + 2) % 2 ^ 32
    let a := if ahead < n_layers then do_request env w ahead else (w, none)
    let next_req := a.2
    match do_wait env a.1 req0 with
    | (w2, wait_outcome.hang) => (run_status.hang, w2)
    | (w2, wait_outcome.null) => (run_status.fail, w2)
    | (w2, wait_outcome.buf idx) =>
      match w2.p.buffers[idx]? with
      | none => (run_status.fail, w2)
      | some b =>
        let w3 := note w2 (sweep_event.wait l b.layer_id)
        let w4 := note w3 (sweep_event.forward l b.layer_id pos)
        if env.forward b.view l pos then
          let w5 := note (do_release w4 idx) (sweep_event.release l b.layer_id)
          if l + 1 < n_layers ∧ req1 = none then (run_status.fail, w5)
          else sweep_loop env n_layers pos fuel (l + 1) req1 next_req w5
        else
          (run_status.fail, note (do_release w4 idx) (sweep_event.release l b.layer_id))

/-- The layer sweep for one token at position `pos`: engine.c lines 352-384 and 444-476. -/
def layer_sweep (env : sweep_env) (n_layers pos : Nat) (w : engine_world) :
    run_status × engine_world :=
  let r0 := do_request env w 0
  let r1 := if n_layers > 1 then do_request env r0.1 1 else (r0.1, none)
  if r0.2 = none then (run_status.fail, r1.1)
  else sweep_loop env n_layers pos n_layers 0 r0.2 r1.2 r1.1

/-- The pool and counters right after engine_open with prefetch depth `depth`
(engine.c lines 273-283: zeroed statistics, `buffer_size = 0`); `max_layer` is the value of
`model_get_max_layer_size`. -/
def engine_open_world (depth max_layer : Nat) (sched : List (List Nat)) :
    Option engine_world :=
  let d := if depth ≠ 0 then depth else 2
  match prefetcher_create
      { depth := d, has_model := true, buffer_size := 0, stats := some {} }
      (some max_layer) with
  | none => none
  | some p => some { p := p, layer_loads := 0, sched := sched, log := [] }

/-- A load that always succeeds, with a view naming the layer. -/
def load_always (l : Nat) : load_result :=
  { ok := true, view := { layer_view.zero with layer_id := l, attn_q := some 0 }, used := 1 }

/-- An environment in which every load and every forward pass succeeds. -/
def env_all_ok : sweep_env := { load := load_always, forward := fun _ _ _ => true }

/-- The collaborators of engine_generate beyond the sweep: `n_vocab` is the value of
`model_get_vocab_size` (0 when it fails), `tokenize` the token list handed back by
`model_tokenize` for the stored prompt (`none` when it fails), `embed tok` says that
`op_embed` returned 0 for the token, and `lm_head t` is the outcome of the LM-head
product and argmax of decode step `t` (`none` when the product fails, else the token). -/
structure generate_env extends sweep_env where
  n_vocab : Nat
  tokenize : Option (List Nat)
  embed : Nat → Bool
  lm_head : Nat → Option Nat

/-- The prefill loop of engine_generate, lines 343-394, over the remaining prompt tokens;
returns the position reached. -/
def prefill (env : generate_env) (n_layers : Nat) :
    List Nat → Nat → engine_world → run_status × Nat × engine_world
  | [], pos, w => (run_status.ok, pos, w)
  | tok :: rest, pos, w =>
    if env.embed tok then
      match layer_sweep env.tosweep_env n_layers pos w with
      | (run_status.ok, w1) => prefill env n_layers rest ((pos + 1) % 2 ^ 32) w1
      | (st, w1) => (st, pos, w1)
    else (run_status.fail, pos, w)

/-- The decode loop of engine_generate, lines 403-495, from step `t` with `fuel` steps
left (`fuel = max_tokens - t`). -/
def decode (env : generate_env) (n_layers : Nat) :
    Nat → Nat → Nat → engine_world → run_status × engine_world
  | 0, _, _, w => (run_status.ok, w)
  | fuel + 1, t, pos, w =>
    match env.lm_head t with
    | none => (run_status.fail, w)
    | some next =>
      if env.embed next then
        match layer_sweep env.tosweep_env n_layers pos w with
        | (run_status.ok, w1) => decode env n_layers fuel (t + 1) ((pos + 1) % 2 ^ 32) w1
        | (st, w1) => (st, w1)
      else (run_status.fail, w)

/-- The tokens that prefill processes: the tokenizer output, or the single token 1 when
that is empty (lines 331-339). -/
def prompt_tokens (toks : List Nat) : List Nat :=
  if toks.length = 0 then [1] else toks

/-- engine_generate, lines 306-501, for a handle whose prefetcher exists (the branch for
`h->prefetch == NULL` is not part of the model). -/
def engine_generate (env : generate_env) (n_layers : Nat) (w : engine_world)
    (max_tokens : Nat) : run_status × engine_world :=
  if max_tokens = 0 then (run_status.fail, w)
  else if env.n_vocab = 0 then (run_status.fail, w)
  else
    match env.tokenize with
    | none => (run_status.fail, w)
    | some toks =>
      match prefill env n_layers (prompt_tokens toks) 0 w with
      | (run_status.ok, pos, w1) => decode env n_layers max_tokens 0 pos w1
      | (st, _, w1) => (st, w1)

/-- An environment of engine_generate in which everything succeeds; the prompt tokenizes
to `toks` and every decode step picks token 0. -/
def genv_all_ok (toks : List Nat) : generate_env :=
  { load := load_always, forward := fun _ _ _ => true, n_vocab := 8,
    tokenize := some toks, embed := fun _ => true, lm_head := fun _ => some 0 }

/-! ## kv_cache.c : data and operations -/

/-- The struct q8_block: a scale and 32 signed bytes. -/
structure q8_block where
  scale : ℚ
  data : List ℤ
  deriving DecidableEq, Repr

/-- A q8_block as calloc leaves it. -/
def q8_block.zero : q8_block := { scale := 0, data := List.replicate 32 0 }

/-- The struct kv_block: the Q8_0 arrays `k` and `v` and the count `seq_len`. -/
structure kv_block where
  k : List q8_block
  v : List q8_block
  seq_len : Nat
  deriving DecidableEq, Repr

/-- The struct kv_cache_config (the field `quant` plays no role in the code). -/
structure kv_cache_config where
  n_layers : Nat
  n_kv_heads : Nat
  head_dim : Nat
  block_size : Nat
  max_seq_len : Nat
  deriving DecidableEq, Repr

/-- The struct kv_cache. -/
structure kv_cache where
  cfg : kv_cache_config
  n_blocks : Nat
  vec_dim : Nat
  q8_blocks_per_token : Nat
  q8_blocks_per_block : Nat
  blocks : List kv_block
  layer_seq_len : List Nat
  deriving DecidableEq, Repr

/-- The function lrintf in the default rounding mode: the nearest integer, ties to even. -/
def lrintf (q : ℚ) : ℤ :=
  let f := ⌊q⌋
  let r := q - f
  if r < 1 / 2 then f
  else if 1 / 2 < r then f + 1
  else if f % 2 = 0 then f else f + 1

/-- The value `v` of lines 35 and 48: lane `idx` of the input, 0 past the end. -/
def q8_lane (x : List ℚ) (n idx : Nat) : ℚ :=
  if idx < n then x.getD idx 0 else 0

/-- The loop of lines 32-40: the largest absolute value over the 32 lanes from `base`. -/
def q8_max_abs (x : List ℚ) (n base : Nat) : ℚ :=
  (List.range 32).foldl
    (fun max_abs i => if |q8_lane x n (base + i)| > max_abs then |q8_lane x n (base + i)|
                      else max_abs) 0

/-- The scale of lines 41-44 in exact arithmetic, where the quotient is zero for an
all-zero group only; q8_scale_f32 is the scale in binary32, where the quotient of a small
`max_abs` is zero as well. -/
def q8_scale (x : List ℚ) (n base : Nat) : ℚ :=
  if q8_max_abs x n base / 127 = 0 then 1 else q8_max_abs x n base / 127

/-- The quantized lane of lines 49-52 in exact arithmetic. -/
def q8_quant (v scale : ℚ) : ℤ :=
  let q := lrintf (v / scale)
  let q1 := if q > 127 then 127 else q
  if q1 < -127 then -127 else q1

/-- The block written by one pass of the outer loop of q8_quantize_vec, lines 31-53, in
exact arithmetic. -/
def q8_quantize_block (x : List ℚ) (n base : Nat) : q8_block :=
  { scale := q8_scale x n base,
    data := (List.range 32).map fun i => q8_quant (q8_lane x n (base + i)) (q8_scale x n base) }

/-- q8_quantize_vec, lines 28-55, in exact arithmetic: `dst` is the array that `out`
points into and `off` the position of `out` in it; block `b` of the row is written to
`dst[off + b]`. -/
def q8_quantize_vec (x : List ℚ) (n : Nat) (dst : List q8_block) (off : Nat) :
    List q8_block :=
  (List.range ((n + 31) % 2 ^ 32 / 32)).foldl
    (fun acc b => acc.set (off + b) (q8_quantize_block x n (b * 32 % 2 ^ 32))) dst

/-- The value stored by line 65 for lane `i` of a block. -/
def q8_value (blk : q8_block) (i : Nat) : ℚ := (blk.data.getD i 0 : ℚ) * blk.scale

/-- q8_dequantize_vec, lines 57-69: `src` is the array that `in` points into and `off` the
position of `in` in it; `dst` is the array that `out` points into and `o` the position of
`out` in it. -/
def q8_dequantize_vec (src : List q8_block) (off n : Nat) (dst : List ℚ) (o : Nat) :
    List ℚ :=
  (List.range ((n + 31) % 2 ^ 32 / 32)).foldl
    (fun acc b =>
      (List.range 32).foldl
        (fun acc2 i =>
          if b * 32 % 2 ^ 32 + i < n then
            acc2.set (o + (b * 32 % 2 ^ 32 + i)) (q8_value (src.getD (off + b) q8_block.zero) i)
          else acc2) acc) dst

/-- kv_cache_create, lines 71-112. -/
def kv_cache_create (cfg : kv_cache_config) : Option kv_cache :=
  if cfg.block_size = 0 ∨ cfg.max_seq_len = 0 then none
  else
    let vec_dim := cfg.n_kv_heads * cfg.head_dim % 2 ^ 32
    let n_blocks := (cfg.max_seq_len + cfg.block_size - 1) % 2 ^ 32 / cfg.block_size
    let per_token := (vec_dim + 31) % 2 ^ 32 / 32
    let per_block := per_token * cfg.block_size % 2 ^ 32
    let total_blocks := cfg.n_layers * n_blocks % 2 ^ 32
    let blk : kv_block :=
      { k := List.replicate per_block q8_block.zero,
        v := List.replicate per_block q8_block.zero, seq_len := 0 }
    some { cfg := cfg, n_blocks := n_blocks, vec_dim := vec_dim,
           q8_blocks_per_token := per_token, q8_blocks_per_block := per_block,
           blocks := List.replicate total_blocks blk,
           layer_seq_len := List.replicate cfg.n_layers 0 }

/-- Index into `c->blocks` of the block of `(layer, pos)`, lines 138-140. -/
def kv_block_index (c : kv_cache) (layer pos : Nat) : Nat :=
  (layer * c.n_blocks + pos / c.cfg.block_size) % 2 ^ 32

/-- Position inside the block arrays of the slot of `pos`, lines 139 and 142. -/
def kv_slot_offset (c : kv_cache) (pos : Nat) : Nat :=
  pos % c.cfg.block_size * c.q8_blocks_per_token % 2 ^ 32

/-- What lines 142-150 do to the block of the slot. -/
def kv_block_append (c : kv_cache) (pos : Nat) (k v : List ℚ) (blk : kv_block) : kv_block :=
  { k := q8_quantize_vec k c.vec_dim blk.k (kv_slot_offset c pos),
    v := q8_quantize_vec v c.vec_dim blk.v (kv_slot_offset c pos),
    seq_len := if pos % c.cfg.block_size + 1 > blk.seq_len then pos % c.cfg.block_size + 1
               else blk.seq_len }

/-- kv_cache_append, lines 130-155, for non-null arguments: the return value and the
cache afterwards. -/
def kv_cache_append (c : kv_cache) (layer pos : Nat) (k v : List ℚ) : Int × kv_cache :=
  if layer ≥ c.cfg.n_layers ∨ pos ≥ c.cfg.max_seq_len then (-1, c)
  else
    (0, { c with
      blocks := c.blocks.modify (kv_block_append c pos k v) (kv_block_index c layer pos),
      layer_seq_len := c.layer_seq_len.modify
        (fun len => if pos + 1 > len then pos + 1 else len) layer })

/-- The block of `(layer, pos)`. -/
def kv_block_at (c : kv_cache) (layer pos : Nat) : kv_block :=
  c.blocks.getD (kv_block_index c layer pos) { k := [], v := [], seq_len := 0 }

/-- One pass of the loop of kv_cache_read_range, lines 189-196; `acc` holds `out_idx` and
the two output arrays. -/
def kv_read_step (c : kv_cache) (layer : Nat) (acc : Nat × List ℚ × List ℚ) (pos : Nat) :
    Nat × List ℚ × List ℚ :=
  ((acc.1 + 1) % 2 ^ 32,
   q8_dequantize_vec (kv_block_at c layer pos).k (kv_slot_offset c pos) c.vec_dim
     acc.2.1 (acc.1 * c.vec_dim % 2 ^ 32),
   q8_dequantize_vec (kv_block_at c layer pos).v (kv_slot_offset c pos) c.vec_dim
     acc.2.2 (acc.1 * c.vec_dim % 2 ^ 32))

/-- kv_cache_read_range, lines 175-199, for non-null arguments: the return value and the
contents of the arrays behind `k_out` and `v_out` afterwards. -/
def kv_cache_read_range (c : kv_cache) (layer seq_start seq_end : Nat)
    (k_out v_out : List ℚ) : Int × List ℚ × List ℚ :=
  if seq_end < seq_start then (-1, k_out, v_out)
  else if layer ≥ c.cfg.n_layers then (-1, k_out, v_out)
  else if seq_end > c.cfg.max_seq_len then (-1, k_out, v_out)
  else
    let r := (List.range' seq_start (seq_end - seq_start)).foldl (kv_read_step c layer)
      (0, k_out, v_out)
    (0, r.2.1, r.2.2)

/-- The assignment `c->blocks[i].seq_len = 0` of line 236. -/
def kv_block_reset (blk : kv_block) : kv_block := { blk with seq_len := 0 }

/-- kv_cache_clear, lines 230-241, for a non-null cache: one loop over the
`n_layers * n_blocks` blocks and one over the `n_layers` layer counters. -/
def kv_cache_clear (c : kv_cache) : kv_cache :=
  { c with
    blocks := (List.range (c.cfg.n_layers * c.n_blocks % 2 ^ 32)).foldl
      (fun bs i => bs.modify kv_block_reset i) c.blocks,
    layer_seq_len := (List.range c.cfg.n_layers).foldl (fun ls l => ls.set l 0)
      c.layer_seq_len }

/-- kv_cache_get_seq_len, lines 243-248. -/
def kv_cache_get_seq_len (c : kv_cache) (layer : Nat) : Nat :=
  if layer ≥ c.cfg.n_layers then 0 else c.layer_seq_len.getD layer 0

/-! ## ops.c : memory accesses and loops -/

/-- The read `a[i]`; `none` when `i` is outside the array. -/
def rd {α : Type} (a : List α) (i : Nat) : Option α := a[i]?

/-- The write `a[i] = v`; `none` when `i` is outside the array. -/
def wr {α : Type} (a : List α) (i : Nat) (v : α) : Option (List α) :=
  if i < a.length then some (a.set i v) else none

/-- The loop `for (i = 0; i < n; ++i) s = body i s`; `none` as soon as a pass fails. -/
def loop {σ : Type} (n : Nat) (body : Nat → σ → Option σ) (s : σ) : Option σ :=
  (List.range n).foldlM (fun s i => body i s) s

/-- The loop `for (l = 0; l < n; ++l) *y++ = val l`, on the pair of the array behind `y`
and the position of `y` in it. -/
def emit_run (n : Nat) (val : Nat → Option ℚ) (s : List ℚ × Nat) : Option (List ℚ × Nat) :=
  loop n (fun l s => do
    let v ← val l
    let y ← wr s.1 s.2 v
    pure (y, s.2 + 1)) s

/-! ## ops.c : half precision -/

/-- The normalisation loop of half_to_float, lines 71-74, on `(h_sig, shift)`; `h_sig` is a
uint16_t. The first argument bounds the number of passes. -/
def half_normalize : Nat → Nat → Nat → Nat × Nat
  | 0, h_sig, shift => (h_sig, shift)
  | fuel + 1, h_sig, shift =>
    if h_sig &&& 0x0400 = 0 then half_normalize fuel (h_sig <<< 1 % 2 ^ 16) (shift + 1)
    else (h_sig, shift)

/-- The 32-bit pattern `f` that half_to_float builds from the 16-bit pattern `h`, lines
59-87. A non-zero `h_sig` below `0x0400` reaches bit 10 within 10 shifts, so the bound of
16 passes is never met. -/
def half_to_float_bits (h : Nat) : Nat :=
  let h_exp := h &&& 0x7C00
  let h_sig := h &&& 0x03FF
  let f_sgn := (h &&& 0x8000) <<< 16 % 2 ^ 32
  let f_exp_sig : Nat × Nat :=
    if h_exp = 0 then
      if h_sig = 0 then (0, 0)
      else
        let r := half_normalize 16 h_sig 0
        ((127 - 15 - r.2) <<< 23 % 2 ^ 32, (r.1 &&& 0x03FF) <<< 13 % 2 ^ 32)
    else if h_exp = 0x7C00 then (0xFF <<< 23 % 2 ^ 32, h_sig <<< 13 % 2 ^ 32)
    else (((h_exp >>> 10) + (127 - 15)) <<< 23 % 2 ^ 32, h_sig <<< 13 % 2 ^ 32)
  f_sgn ||| f_exp_sig.1 ||| f_exp_sig.2

/-- The number that a 32-bit pattern denotes as an IEEE-754 binary32 (the `memcpy` of line
89). Patterns with exponent field 255 denote infinities and NaNs, which have no rational
value; they are given the value of the formula for normal numbers. -/
def f32_value (f : Nat) : ℚ :=
  let sign : ℚ := if f / 2 ^ 31 % 2 = 1 then -1 else 1
  let e : Nat := f / 2 ^ 23 % 256
  let m : Nat := f % 2 ^ 23
  if e = 0 then sign * (m : ℚ) / (2 : ℚ) ^ 149
  else sign * ((2 ^ 23 + m : Nat) : ℚ) * (2 : ℚ) ^ e / (2 : ℚ) ^ 150

/-- half_to_float, lines 58-91: the value of the float returned for the pattern `h`. -/
def half_to_float (h : Nat) : ℚ := f32_value (half_to_float_bits h)

/-! ## ops.c : the K-quant block formats -/

/-- The constant QK_K. -/
def QK_K : Nat := 256

/-- The struct block_q4_k; `d` and `dmin` are half-precision patterns, the arrays hold
bytes. -/
structure block_q4_k where
  d : Nat
  dmin : Nat
  scales : List Nat
  qs : List Nat
  deriving DecidableEq, Repr, Inhabited

/-- The struct block_q5_k. -/
structure block_q5_k where
  d : Nat
  dmin : Nat
  scales : List Nat
  qh : List Nat
  qs : List Nat
  deriving DecidableEq, Repr, Inhabited

/-- The struct block_q6_k; `scales` holds signed bytes. -/
structure block_q6_k where
  ql : List Nat
  qh : List Nat
  scales : List Int
  d : Nat
  deriving DecidableEq, Repr, Inhabited

/-- The conversion of an `int` in [0, 255] to int8_t. -/
def to_int8 (v : Nat) : Int := if v % 256 ≥ 128 then (v % 256 : Nat) - 256 else (v % 256 : Nat)

/-- get_scale_min_k4, lines 107-115: the pair `(*d, *m)`; both are uint8_t. The argument
`j` is an `int` that no caller makes negative; `none` when a read falls outside `q`. -/
def get_scale_min_k4 (j : Nat) (q : List Nat) : Option (Nat × Nat) :=
  if j < 4 then do
    let q0 ← rd q j
    let q1 ← rd q (j + 4)
    pure ((q0 &&& 63) % 256, (q1 &&& 63) % 256)
  else do
    let q0 ← rd q (j + 4)
    let q1 ← rd q (j - 4)
    let q2 ← rd q (j + 4)
    let q3 ← rd q (j - 0)
    pure (((q0 &&& 0xF) ||| ((q1 >>> 6) <<< 4)) % 256, ((q2 >>> 4) ||| ((q3 >>> 6) <<< 4)) % 256)

/-- One pass of the loop over `j` of dequantize_row_q4_k, lines 126-139, on the state
`(y array, position of y, position of q in qs, is)`. -/
def q4_k_chunk (blk : block_q4_k) (d min : ℚ) (s : List ℚ × Nat × Nat × Nat) :
    Option (List ℚ × Nat × Nat × Nat) := do
  let sm1 ← get_scale_min_k4 (s.2.2.2 + 0) blk.scales
  let d1 := d * sm1.1
  let m1 := min * sm1.2
  let sm2 ← get_scale_min_k4 (s.2.2.2 + 1) blk.scales
  let d2 := d * sm2.1
  let m2 := min * sm2.2
  let s1 ← emit_run 32 (fun l => do
    let b ← rd blk.qs (s.2.2.1 + l)
    pure (d1 * ((b &&& 0xF : Nat) : ℚ) - m1)) (s.1, s.2.1)
  let s2 ← emit_run 32 (fun l => do
    let b ← rd blk.qs (s.2.2.1 + l)
    pure (d2 * ((b >>> 4 : Nat) : ℚ) - m2)) s1
  pure (s2.1, s2.2, s.2.2.1 + 32, s.2.2.2 + 2)

/-- One pass of the loop over the blocks of dequantize_row_q4_k, lines 119-140, on the
pair of the array behind `y` and the position of `y` in it. -/
def q4_k_block (x : List block_q4_k) (i : Nat) (s : List ℚ × Nat) : Option (List ℚ × Nat) := do
  let blk ← rd x i
  let d := half_to_float blk.d
  let min := half_to_float blk.dmin
  let r ← loop (QK_K / 64) (fun _ s => q4_k_chunk blk d min s) (s.1, s.2, 0, 0)
  pure (r.1, r.2.1)

/-- dequantize_row_q4_k, lines 117-142: the array behind `y` afterwards, `y` pointing to
its start; `none` when an access falls outside `x`, a block array or `y`. -/
def dequantize_row_q4_k (x : List block_q4_k) (y : List ℚ) (k : Nat) : Option (List ℚ) :=
  (loop (k / QK_K) (q4_k_block x) (y, 0)).map Prod.fst

/-- The body of the loop over `l` of dequantize_row_q5_k, lines 155-161. -/
def q5_k_lane (blk : block_q5_k) (i sb : Nat) (d1 m1 : ℚ) (l : Nat) (y : List ℚ) :
    Option (List ℚ) := do
  let idx := (sb * 32 + l) % 2 ^ 32
  let b ← rd blk.qs (idx / 2)
  let ql := if idx &&& 1 ≠ 0 then (b >>> 4) &&& 0xF else b &&& 0xF
  let h ← rd blk.qh (idx / 8)
  let qh := (h >>> (idx &&& 7)) &&& 0x1
  let qv := (ql ||| (qh <<< 4)) % 256
  wr y ((i * QK_K % 2 ^ 32 + idx) % 2 ^ 32) (d1 * (qv : ℚ) - m1)

/-- One pass of the loop over the blocks of dequantize_row_q5_k, lines 146-163. -/
def q5_k_block (x : List block_q5_k) (i : Nat) (y : List ℚ) : Option (List ℚ) := do
  let blk ← rd x i
  let d := half_to_float blk.d
  let min := half_to_float blk.dmin
  loop 8 (fun sb y => do
    let sm ← get_scale_min_k4 sb blk.scales
    let d1 := d * sm.1
    let m1 := min * sm.2
    loop 32 (q5_k_lane blk i sb d1 m1) y) y

/-- dequantize_row_q5_k, lines 144-165. -/
def dequantize_row_q5_k (x : List block_q5_k) (y : List ℚ) (k : Nat) : Option (List ℚ) :=
  loop (k / QK_K) (q5_k_block x) y

/-- The four values `q1 .. q4` of lines 178-181; `qlo` and `qho` are the positions of
`ql` and `qh`. -/
def q6_k_lane_q (blk : block_q6_k) (qlo qho : Nat) (l : Nat) :
    Option (Int × Int × Int × Int) := do
  let a0 ← rd blk.ql (qlo + l + 0)
  let h0 ← rd blk.qh (qho + l)
  let q1 : Int := to_int8 ((a0 &&& 0xF) ||| (((h0 >>> 0) &&& 3) <<< 4)) - 32
  let a1 ← rd blk.ql (qlo + l + 32)
  let h1 ← rd blk.qh (qho + l)
  let q2 : Int := to_int8 ((a1 &&& 0xF) ||| (((h1 >>> 2) &&& 3) <<< 4)) - 32
  let a2 ← rd blk.ql (qlo + l + 0)
  let h2 ← rd blk.qh (qho + l)
  let q3 : Int := to_int8 ((a2 >>> 4) ||| (((h2 >>> 4) &&& 3) <<< 4)) - 32
  let a3 ← rd blk.ql (qlo + l + 32)
  let h3 ← rd blk.qh (qho + l)
  let q4 : Int := to_int8 ((a3 >>> 4) ||| (((h3 >>> 6) &&& 3) <<< 4)) - 32
  pure (q1, q2, q3, q4)

/-- The body of the loop over `l` of dequantize_row_q6_k, lines 176-186; `yo`, `qlo`,
`qho` and `sco` are the positions of `y`, `ql`, `qh` and `sc`. -/
def q6_k_lane (blk : block_q6_k) (d : ℚ) (yo qlo qho sco : Nat) (l : Nat) (y : List ℚ) :
    Option (List ℚ) := do
  let is := l / 16
  let q ← q6_k_lane_q blk qlo qho l
  let s0 ← rd blk.scales (sco + is + 0)
  let y ← wr y (yo + l + 0) (d * (s0 : ℚ) * (q.1 : ℚ))
  let s2 ← rd blk.scales (sco + is + 2)
  let y ← wr y (yo + l + 32) (d * (s2 : ℚ) * (q.2.1 : ℚ))
  let s4 ← rd blk.scales (sco + is + 4)
  let y ← wr y (yo + l + 64) (d * (s4 : ℚ) * (q.2.2.1 : ℚ))
  let s6 ← rd blk.scales (sco + is + 6)
  wr y (yo + l + 96) (d * (s6 : ℚ) * (q.2.2.2 : ℚ))

/-- One pass of the loop over `n` of dequantize_row_q6_k, lines 175-191, on the state
`(y array, position of y, position of ql, position of qh, position of sc)`. -/
def q6_k_chunk (blk : block_q6_k) (d : ℚ) (s : List ℚ × Nat × Nat × Nat × Nat) :
    Option (List ℚ × Nat × Nat × Nat × Nat) := do
  let y ← loop 32 (q6_k_lane blk d s.2.1 s.2.2.1 s.2.2.2.1 s.2.2.2.2) s.1
  pure (y, s.2.1 + 128, s.2.2.1 + 64, s.2.2.2.1 + 32, s.2.2.2.2 + 8)

/-- One pass of the loop over the blocks of dequantize_row_q6_k, lines 169-192, on the
pair of the array behind `y` and the position of `y` in it. -/
def q6_k_block (x : List block_q6_k) (i : Nat) (s : List ℚ × Nat) : Option (List ℚ × Nat) := do
  let blk ← rd x i
  let d := half_to_float blk.d
  let r ← loop (QK_K / 128) (fun _ s => q6_k_chunk blk d s) (s.1, s.2, 0, 0, 0)
  pure (r.1, r.2.1)

/-- dequantize_row_q6_k, lines 167-193. -/
def dequantize_row_q6_k (x : List block_q6_k) (y : List ℚ) (k : Nat) : Option (List ℚ) :=
  (loop (k / QK_K) (q6_k_block x) (y, 0)).map Prod.fst

/-! ## ops.c : the K-quant matrix-vector products -/

/-- The body shared by op_matmul_q4_k (lines 289-313), op_matmul_q5_k (lines 337-358) and
op_matmul_q6_k (lines 382-403), which differ only in the block type and in the decoder
`deq` they call. This is the portable path, for non-null arguments; the result is the
return value and the array behind `c` afterwards, `none` when an access falls outside an
array. `tmp` is the local array of QK_K floats. -/
def op_matmul_k {β : Type} (deq : List β → List ℚ → Nat → Option (List ℚ))
    (a : List β) (b_f32 c : List ℚ) (m k : Nat) : Option (Int × List ℚ) :=
  if k = 0 ∨ k % QK_K ≠ 0 then some (-1, c)
  else
    let nb := k / QK_K
    (loop m (fun row (s : List ℚ × List ℚ) => do
      let r ← loop nb (fun b (t : ℚ × List ℚ) => do
        let tmp ← deq (a.drop (row * nb + b)) t.2 QK_K
        let sum ← loop QK_K (fun i sum => do
          let w ← rd tmp i
          let bv ← rd b_f32 (b * QK_K + i)
          pure (sum + w * bv)) t.1
        pure (sum, tmp)) (0, s.2)
      let c ← wr s.1 row r.1
      pure (c, r.2)) (c, List.replicate QK_K 0)).map fun s => (0, s.1)

/-- op_matmul_q4_k, lines 266-314. -/
def op_matmul_q4_k (a : List block_q4_k) (b_f32 c : List ℚ) (m k : Nat) :
    Option (Int × List ℚ) :=
  op_matmul_k dequantize_row_q4_k a b_f32 c m k

/-- op_matmul_q5_k, lines 316-359. -/
def op_matmul_q5_k (a : List block_q5_k) (b_f32 c : List ℚ) (m k : Nat) :
    Option (Int × List ℚ) :=
  op_matmul_k dequantize_row_q5_k a b_f32 c m k

/-- op_matmul_q6_k, lines 361-404. -/
def op_matmul_q6_k (a : List block_q6_k) (b_f32 c : List ℚ) (m k : Nat) :
    Option (Int × List ℚ) :=
  op_matmul_k dequantize_row_q6_k a b_f32 c m k

/-! ## ops.c : softmax and attention

These two functions are written over an arbitrary ordered field `F` with a function
`expf`; the theorems take the reals with the real exponential. Reads outside an array
give 0 and writes outside an array are dropped; the theorems assume arrays of the sizes
that the call implies. The 64-bit index computations of lines 422, 425 and 452 are
written without reduction: they stay below `2 ^ 64` for arrays that exist. -/

/-- The loop of lines 512-517 and of lines 436-441: the largest of `x[0 .. n-1]`. -/
def max_loop {F : Type} [LinearOrderedField F] (x : List F) (n : Nat) : F :=
  (List.range' 1 (n - 1)).foldl
    (fun maxv i => if x.getD i 0 > maxv then x.getD i 0 else maxv) (x.getD 0 0)

/-- One pass of the loop of lines 519-522 and of lines 443-446, on the pair of the array
and `sum`. -/
def exp_sum_step {F : Type} [LinearOrderedField F] (expf : F → F) (maxv : F)
    (s : List F × F) (i : Nat) : List F × F :=
  ((s.1.set i (expf (s.1.getD i 0 - maxv))),
   s.2 + (s.1.set i (expf (s.1.getD i 0 - maxv))).getD i 0)

/-- The loop of lines 519-522 and of lines 443-446: the array and `sum` afterwards. -/
def exp_sum_loop {F : Type} [LinearOrderedField F] (expf : F → F) (x : List F) (n : Nat)
    (maxv : F) : List F × F :=
  (List.range n).foldl (exp_sum_step expf maxv) (x, 0)

/-- op_softmax, lines 507-531, for a non-null `x`: the return value and the array
afterwards. -/
def op_softmax {F : Type} [LinearOrderedField F] (expf : F → F) (x : List F) (n : Nat) :
    Int × List F :=
  if n = 0 then (-1, x)
  else
    let maxv := max_loop x n
    let r := exp_sum_loop expf x n maxv
    if r.2 = 0 then (-1, r.1)
    else
      let inv := 1 / r.2
      (0, (List.range n).foldl (fun y i => y.set i (y.getD i 0 * inv)) r.1)

/-- The loop of lines 426-429: the dot product of the `head_dim` floats at `qo` in `q` and
at `ko` in `k`. -/
def attn_dot {F : Type} [LinearOrderedField F] (q k : List F) (qo ko head_dim : Nat) : F :=
  (List.range head_dim).foldl (fun dot d => dot + q.getD (qo + d) 0 * k.getD (ko + d) 0) 0

/-- The value stored in `scores[i]` by lines 425-434 for head `h`. -/
def attn_score {F : Type} [LinearOrderedField F] (q k : List F)
    (n_kv_heads head_dim : Nat) (scale : F) (mask : Option (List F)) (h i : Nat) : F :=
  let s := attn_dot q k (h * head_dim) ((i * n_kv_heads + h % n_kv_heads) * head_dim) head_dim
    * scale
  match mask with
  | some mk => s + mk.getD i 0
  | none => s

/-- One pass of the loop over the heads of op_attention, lines 421-458, on the pair of
the array behind `out` and the array `scores`. -/
def attn_head {F : Type} [LinearOrderedField F] (expf : F → F) (q k v : List F)
    (n_kv_heads head_dim seq_len : Nat) (scale : F) (mask : Option (List F))
    (s : List F × List F) (h : Nat) : List F × List F :=
  let kvh := h % n_kv_heads
  let scores := (List.range seq_len).foldl
    (fun sc i => sc.set i (attn_score q k n_kv_heads head_dim scale mask h i)) s.2
  let maxv := max_loop scores seq_len
  let r := exp_sum_loop expf scores seq_len maxv
  let inv := if r.2 = 0 then 0 else 1 / r.2
  let out0 := (List.range head_dim).foldl
    (fun o d => o.set ((h * head_dim + d) % 2 ^ 32) 0) s.1
  let out1 := (List.range seq_len).foldl
    (fun o i =>
      (List.range head_dim).foldl
        (fun o d => o.set ((h * head_dim + d) % 2 ^ 32)
          (o.getD ((h * head_dim + d) % 2 ^ 32) 0
            + r.1.getD i 0 * inv * v.getD ((i * n_kv_heads + kvh) * head_dim + d) 0)) o) out0
  (out1, r.1)

/-- op_attention, lines 406-461, for non-null `q`, `k`, `v` and `out` (`mask` may be
NULL): the return value and the array behind `out` afterwards. The array `scores` is
allocated uninitialised; it is written before it is read. -/
def op_attention {F : Type} [LinearOrderedField F] (expf : F → F) (q k v out : List F)
    (n_heads n_kv_heads head_dim seq_len : Nat) (scale : F) (mask : Option (List F)) :
    Int × List F :=
  if head_dim = 0 ∨ n_heads = 0 ∨ seq_len = 0 then (-1, out)
  else if n_kv_heads = 0 then (-1, out)
  else
    (0, ((List.range n_heads).foldl
      (attn_head expf q k v n_kv_heads head_dim seq_len scale mask)
      (out, List.replicate seq_len 0)).1)

/-! ## llama_tensor_map.c : tensor names -/

/-- The character that ends a C string. -/
def NUL : Char := Char.ofNat 0

/-- The string a `char *` denotes: the characters of the array before its first NUL. A
`char` array is a list of characters; the characters after the list are NUL. -/
def c_str (p : List Char) : List Char := p.takeWhile (fun c => c ≠ NUL)

/-- The library function strcmp: 0 exactly when the two strings are equal (the sign of a
non-zero result is not modelled). -/
def strcmp (p q : List Char) : Int := if c_str p = c_str q then 0 else 1

/-- The library function strncmp: 0 exactly when the two strings agree on their first `n`
characters (the sign of a non-zero result is not modelled). -/
def strncmp (p q : List Char) (n : Nat) : Int :=
  if (c_str p).take n = (c_str q).take n then 0 else 1

/-- The value of an `int` expression: the result reduced to 32 bits, two's complement. -/
def to_int (x : Int) : Int := (x + 2 ^ 31) % 2 ^ 32 - 2 ^ 31

/-- The enum llama_tensor_field. -/
inductive llama_tensor_field where
  | LLAMA_TF_UNKNOWN
  | LLAMA_TF_ATTN_NORM
  | LLAMA_TF_ATTN_Q
  | LLAMA_TF_ATTN_K
  | LLAMA_TF_ATTN_V
  | LLAMA_TF_ATTN_O
  | LLAMA_TF_FFN_NORM
  | LLAMA_TF_FFN_GATE
  | LLAMA_TF_FFN_UP
  | LLAMA_TF_FFN_DOWN
  deriving DecidableEq, Repr, Inhabited

open llama_tensor_field

/-- The loop `while (*p >= '0' && *p <= '9') { id = id * 10 + (*p - '0'); p++; }` of
parse_layer_id, lines 41-44, on the pair of `id` and `p`. -/
def parse_layer_id_digits : List Char → Int → Int × List Char
  | [], id => (id, [])
  | c :: p, id =>
    if '0' ≤ c ∧ c ≤ '9' then
      parse_layer_id_digits p (to_int (id * 10 + ((c.toNat : Int) - ('0'.toNat : Int))))
    else (id, c :: p)

/-- parse_layer_id, lines 32-50, for a non-null name. -/
def parse_layer_id (tensor_name : List Char) : Int :=
  if strncmp tensor_name "blk.".toList 4 ≠ 0 then -1
  else
    let p := tensor_name.drop 4
    if p.headD NUL < '0' ∨ p.headD NUL > '9' then -1
    else
      let r := parse_layer_id_digits p 0
      if r.2.headD NUL ≠ '.' then -1 else r.1

/-- The loop `while (*p >= '0' && *p <= '9') p++;` of map_tensor_to_field, lines 58-60. -/
def map_tensor_to_field_digits : List Char → List Char
  | [] => []
  | c :: p => if '0' ≤ c ∧ c ≤ '9' then map_tensor_to_field_digits p else c :: p

/-- The comparisons of map_tensor_to_field, lines 66-93, on the text after `blk.<digits>.`. -/
def map_tensor_to_field_suffix (p : List Char) : llama_tensor_field :=
  if strcmp p "attn_norm.weight".toList = 0 then LLAMA_TF_ATTN_NORM
  else if strcmp p "attn_q.weight".toList = 0 then LLAMA_TF_ATTN_Q
  else if strcmp p "attn_k.weight".toList = 0 then LLAMA_TF_ATTN_K
  else if strcmp p "attn_v.weight".toList = 0 then LLAMA_TF_ATTN_V
  else if strcmp p "attn_output.weight".toList = 0 then LLAMA_TF_ATTN_O
  else if strcmp p "ffn_norm.weight".toList = 0 then LLAMA_TF_FFN_NORM
  else if strcmp p "ffn_gate.weight".toList = 0 then LLAMA_TF_FFN_GATE
  else if strcmp p "ffn_up.weight".toList = 0 then LLAMA_TF_FFN_UP
  else if strcmp p "ffn_down.weight".toList = 0 then LLAMA_TF_FFN_DOWN
  else LLAMA_TF_UNKNOWN

/-- map_tensor_to_field, lines 52-94, for a non-null name. -/
def map_tensor_to_field (tensor_name : List Char) : llama_tensor_field :=
  if strncmp tensor_name "blk.".toList 4 ≠ 0 then LLAMA_TF_UNKNOWN
  else
    let p := map_tensor_to_field_digits (tensor_name.drop 4)
    if p.headD NUL ≠ '.' then LLAMA_TF_UNKNOWN
    else map_tensor_to_field_suffix (p.drop 1)

/-! ## ops.c : rotary embedding -/

/-- The body of the inner loop of op_rope, lines 226-234, for the lane `i = 2 * p` of the
head whose lanes start at `base` in `q` (`qh = q + base`). -/
def op_rope_pair {F : Type} [Field F] (powf : F → F → F) (cosf sinf : F → F)
    (head_dim pos : Nat) (inv_theta : F) (base p : Nat) (q : List F) : Option (List F) := do
  let i := 2 * p
  let freq := powf inv_theta ((i : F) / (head_dim : F))
  let angle := (pos : F) * freq
  let c := cosf angle
  let s := sinf angle
  let x0 ← rd q (base + i)
  let x1 ← rd q (base + (i + 1))
  let q ← wr q (base + i) (x0 * c - x1 * s)
  wr q (base + (i + 1)) (x0 * s + x1 * c)

/-- op_rope, lines 216-238, for a non-null `qk`, with the functions `powf`, `cosf` and
`sinf` as parameters. The loop `for (i = 0; i + 1 < head_dim; i += 2)` makes
`head_dim / 2` passes, with `i = 2 * p` in pass `p`; `i + 1 < head_dim` keeps the uint32_t
`i` from wrapping, and `(uint64_t)h * head_dim` is the product of two uint32_t values. The
result is the return value and the array behind `qk` afterwards, `none` when an access
falls outside the array. -/
def op_rope {F : Type} [Field F] (powf : F → F → F) (cosf sinf : F → F)
    (qk : List F) (n_heads head_dim pos : Nat) (rope_theta : F) : Option (Int × List F) :=
  if head_dim = 0 then some (-1, qk)
  else
    let inv_theta := 1 / rope_theta
    (loop n_heads (fun h q =>
      loop (head_dim / 2) (fun p q =>
        op_rope_pair powf cosf sinf head_dim pos inv_theta (h * head_dim) p q) q) qk).map
      fun q => (0, q)

/-! ## ops.c : token embedding -/

/-- dequant_q8_row, lines 93-105: the array behind `out` afterwards, `out` pointing to its
start; `none` when an access falls outside `row`, a block or `out`. -/
def dequant_q8_row (row : List q8_block) (n_embd : Nat) (out : List ℚ) : Option (List ℚ) :=
  let n_blocks := (n_embd + 31) % 2 ^ 32 / 32
  loop n_blocks (fun b out => do
    let blk ← rd row b
    let scale := blk.scale
    let base := b * 32 % 2 ^ 32
    loop 32 (fun i out =>
      let idx := (base + i) % 2 ^ 32
      if idx < n_embd then do
        let v ← rd blk.data i
        wr out idx ((v : ℚ) * scale)
      else pure out) out) out

/-- The memory behind the argument `table` of op_embed, a `void *`, with the type of its
elements: halves (as 16-bit patterns), Q8_0 blocks or Q4_K blocks. -/
inductive embed_table where
  | f16 (t : List Nat)
  | q8_0 (t : List q8_block)
  | q4_k (t : List block_q4_k)

/-- op_embed, lines 533-577, for non-null arguments: the return value and the array behind
`out` afterwards. `tok * n_embd` and `i * n_embd` are products of two uint32_t values in
64 bits. A call `g(row, dst)` with `dst = out + o` runs `g` on the part of `out` from `o`
on. The result is `none` when an access falls outside an array, and when `table_dtype`
makes the function read the table with another element type than its own (reading memory
through another type is not modelled). -/
def op_embed (table : embed_table) (table_dtype : Nat) (tokens : List Nat) (out : List ℚ)
    (seq_len n_embd : Nat) : Option (Int × List ℚ) :=
  if table_dtype = 1 then
    match table with
    | .f16 t =>
      (loop seq_len (fun i out => do
        let tok ← rd tokens i
        loop n_embd (fun j out => do
          let h ← rd t (tok * n_embd + j)
          wr out (i * n_embd + j) (half_to_float h)) out) out).map fun out => (0, out)
    | _ => none
  else if table_dtype = 10 then
    match table with
    | .q8_0 t =>
      let blocks_per_row := (n_embd + 31) % 2 ^ 32 / 32
      (loop seq_len (fun i out => do
        let tok ← rd tokens i
        let dst ← dequant_q8_row (t.drop (tok * blocks_per_row)) n_embd (out.drop (i * n_embd))
        pure (out.take (i * n_embd) ++ dst)) out).map fun out => (0, out)
    | _ => none
  else if table_dtype = 12 then
    if n_embd % QK_K ≠ 0 then some (-1, out)
    else
      match table with
      | .q4_k t =>
        let blocks_per_row := n_embd / QK_K
        (loop seq_len (fun i out => do
          let tok ← rd tokens i
          let dst ← dequantize_row_q4_k (t.drop (tok * blocks_per_row)) (out.drop (i * n_embd))
            n_embd
          pure (out.take (i * n_embd) ++ dst)) out).map fun out => (0, out)
      | _ => none
  else some (-1, out)

/-! ## gguf_reader.c : the container

A `FILE *` is the list of the bytes of the file and a position in it. An array of the
container (`kvs`, `tensors`, the strings of an array value) is a list, and the count that
the C struct keeps next to it (`n_kv`, `n_tensors`, `arr.n`) is the length of the list. A
function that returns 0 or -1 and fills an object returns `some` of the object for 0 and
`none` for -1. The host is little-endian. -/

/-- A `FILE *` opened for reading: the bytes of the file and the read position. -/
structure c_file where
  bytes : List Nat
  pos : Nat
  deriving DecidableEq, Repr, Inhabited

/-- The library call `fread(buf, 1, n, fp)` compared with `n`, and `fread(buf, n, 1, fp)`
compared with 1: the `n` bytes read and the stream after them, `none` when fewer than `n`
bytes are left (every caller then abandons the stream). -/
def fread (fp : c_file) (n : Nat) : Option (List Nat × c_file) :=
  if fp.pos + n ≤ fp.bytes.length then
    some ((fp.bytes.drop fp.pos).take n, { fp with pos := fp.pos + n })
  else none

/-- The unsigned number that a little-endian byte sequence holds. -/
def le_value (bs : List Nat) : Nat := bs.foldr (fun b v => b + 256 * v) 0

/-- read_u32, lines 76-78. -/
def read_u32 (fp : c_file) : Option (Nat × c_file) :=
  (fread fp 4).map fun r => (le_value r.1, r.2)

/-- read_u64, lines 84-86. -/
def read_u64 (fp : c_file) : Option (Nat × c_file) :=
  (fread fp 8).map fun r => (le_value r.1, r.2)

/-- read_i64, lines 80-82: the eight bytes as a two's complement number. -/
def read_i64 (fp : c_file) : Option (Int × c_file) :=
  (fread fp 8).map fun r =>
    (if le_value r.1 < 2 ^ 63 then (le_value r.1 : Int) else (le_value r.1 : Int) - 2 ^ 64, r.2)

/-- read_string, lines 88-107: the `len` characters read (the array that the function
allocates holds them followed by a NUL), `none` for the null pointer. -/
def read_string (fp : c_file) : Option (List Char × c_file) := do
  let (len, fp) ← read_u64 fp
  if len > 1024 * 1024 then none
  else if len > 0 then do
    let (s, fp) ← fread fp len
    pure (s.map Char.ofNat, fp)
  else pure ([], fp)

/-- gguf_type_size, lines 109-124. -/
def gguf_type_size (type : Nat) : Nat :=
  if type = 0 then 1 else if type = 1 then 1 else if type = 2 then 2 else if type = 3 then 2
  else if type = 4 then 4 else if type = 5 then 4 else if type = 6 then 4
  else if type = 7 then 1 else if type = 10 then 8 else if type = 11 then 8
  else if type = 12 then 8 else 0

/-- align_up, lines 126-129: `x` is a uint64_t, `a` a uint32_t; `~mask` is
`2^64 - 1 - mask`. -/
def align_up (x a : Nat) : Nat :=
  let mask := (a + 2 ^ 64 - 1) % 2 ^ 64
  ((x + mask) % 2 ^ 64) &&& (2 ^ 64 - 1 - mask)

/-- The struct gguf_array of gguf_reader.h: `data` holds the bytes of an array of numbers,
`strs` the strings of an array of strings. -/
structure gguf_array where
  type : Nat := 0
  n : Nat := 0
  data : List Nat := []
  strs : List (List Char) := []
  deriving DecidableEq, Repr, Inhabited

/-- The struct gguf_kv_internal: `value` holds the bytes behind the pointer `value` (the
bytes of a number, or the characters of a string). -/
structure gguf_kv_internal where
  key : List Char
  type : Nat
  is_array : Bool
  arr : gguf_array
  value : List Nat
  deriving DecidableEq, Repr, Inhabited

/-- The struct gguf_tensor_internal. -/
structure gguf_tensor_internal where
  name : List Char
  dtype : Nat
  n_dims : Nat
  dims : List Int
  offset : Nat
  size : Nat
  deriving DecidableEq, Repr, Inhabited

/-- The struct gguf_file: `fp` and `fd` are the same open file; `map_base` says whether the
file is mapped, the mapping then being the `map_size` first bytes of the file. The scratch
buffer `map_buf` of gguf_map_tensor is left out. -/
structure gguf_file where
  fp : c_file
  use_mmap : Bool
  version : Nat
  data_start : Nat
  file_size : Nat
  alignment : Nat
  kvs : List gguf_kv_internal
  tensors : List gguf_tensor_internal
  map_base : Bool
  map_size : Nat
  deriving DecidableEq, Repr, Inhabited

/-- The struct gguf_kv_pair of gguf_reader.h: `value` holds the bytes behind the pointer
`value` when the entry is not an array, `arr` the array behind it when it is. -/
structure gguf_kv_pair where
  key : List Char
  value : List Nat
  arr : gguf_array
  type : Nat
  deriving DecidableEq, Repr, Inhabited

/-- The struct gguf_tensor of gguf_reader.h. -/
structure gguf_tensor where
  name : List Char
  dtype : Nat
  offset : Nat
  size : Nat
  deriving DecidableEq, Repr, Inhabited

/-- The constant GGUF_TYPE_UINT32. -/
def GGUF_TYPE_UINT32 : Nat := 4

/-- The constant GGUF_TYPE_STRING. -/
def GGUF_TYPE_STRING : Nat := 8

/-- The constant GGUF_TYPE_ARRAY. -/
def GGUF_TYPE_ARRAY : Nat := 9

/-- The constant GGUF_DEFAULT_ALIGNMENT. -/
def GGUF_DEFAULT_ALIGNMENT : Nat := 32

/-- The value of an array entry, lines 250-290 of gguf_read_header. -/
def gguf_read_header_array (fp : c_file) : Option (gguf_array × c_file) := do
  let (arr_type, fp) ← read_u32 fp
  let (n, fp) ← read_u64 fp
  if arr_type = GGUF_TYPE_STRING then do
    let (strs, fp) ← loop n (fun _ (s : List (List Char) × c_file) => do
      let (str, fp) ← read_string s.2
      pure (s.1 ++ [str], fp)) ([], fp)
    pure ({ type := arr_type, n := n, data := [], strs := strs }, fp)
  else
    let esz := gguf_type_size arr_type
    if esz = 0 then none
    else
      let total := n * esz % 2 ^ 64
      if total > 0 then do
        let (buf, fp) ← fread fp total
        pure ({ type := arr_type, n := n, data := buf, strs := [] }, fp)
      else pure ({ type := arr_type, n := n, data := [], strs := [] }, fp)

/-- One pass of the loop over the metadata entries, lines 235-311 of gguf_read_header. -/
def gguf_read_header_kv (fp : c_file) : Option (gguf_kv_internal × c_file) := do
  let (key, fp) ← read_string fp
  let (type, fp) ← read_u32 fp
  if type = GGUF_TYPE_ARRAY then do
    let (arr, fp) ← gguf_read_header_array fp
    pure ({ key := key, type := type, is_array := true, arr := arr, value := [] }, fp)
  else if type = GGUF_TYPE_STRING then do
    let (val, fp) ← read_string fp
    pure ({ key := key, type := type, is_array := false, arr := {},
            value := val.map Char.toNat }, fp)
  else
    let esz := gguf_type_size type
    if esz = 0 then none
    else do
      let (val, fp) ← fread fp esz
      pure ({ key := key, type := type, is_array := false, arr := {}, value := val }, fp)

/-- One pass of the loop over the tensor descriptors, lines 321-361 of gguf_read_header;
`size` is still the 0 of calloc. -/
def gguf_read_header_tensor (fp : c_file) : Option (gguf_tensor_internal × c_file) := do
  let (name, fp) ← read_string fp
  let (n_dims, fp) ← read_u32 fp
  let (dims, fp) ← loop n_dims (fun _ (s : List Int × c_file) => do
    let (d, fp) ← read_i64 s.2
    pure (s.1 ++ [d], fp)) ([], fp)
  let (ttype, fp) ← read_u32 fp
  let (offset, fp) ← read_u64 fp
  pure ({ name := name, dtype := ttype, n_dims := n_dims, dims := dims, offset := offset,
          size := 0 }, fp)

/-- The alignment that lines 228 and 364-371 of gguf_read_header settle on: the value of
the first entry with key `general.alignment` and type UINT32, else the default. -/
def gguf_read_header_alignment (kvs : List gguf_kv_internal) : Nat :=
  match kvs.find? (fun kv =>
      strcmp kv.key "general.alignment".toList = 0 ∧ kv.type = GGUF_TYPE_UINT32) with
  | some kv => le_value (kv.value.take 4)
  | none => GGUF_DEFAULT_ALIGNMENT

/-- gguf_read_header up to line 374, for an open file: magic, version, counts, metadata
entries, tensor descriptors, alignment and the start of the data region. -/
def gguf_read_header_meta (f : gguf_file) : Option gguf_file := do
  let (magic, fp) ← fread f.fp 4
  if magic ≠ "GGUF".toList.map Char.toNat then none
  else do
    let (version, fp) ← read_u32 fp
    let (n_tensors, fp) ← read_i64 fp
    let (n_kv, fp) ← read_i64 fp
    if n_kv < 0 ∨ n_tensors < 0 then none
    else do
      let (kvs, fp) ← loop n_kv.toNat (fun _ (s : List gguf_kv_internal × c_file) => do
        let (kv, fp) ← gguf_read_header_kv s.2
        pure (s.1 ++ [kv], fp)) ([], fp)
      let (tensors, fp) ← loop n_tensors.toNat
        (fun _ (s : List gguf_tensor_internal × c_file) => do
          let (t, fp) ← gguf_read_header_tensor s.2
          pure (s.1 ++ [t], fp)) ([], fp)
      let alignment := gguf_read_header_alignment kvs
      let meta_end := fp.pos
      pure { f with fp := fp, version := version, alignment := alignment, kvs := kvs,
                    tensors := tensors, data_start := align_up meta_end alignment }

/-- The value of `next` in pass `i` of the loop of lines 377-391 of gguf_read_header:
the offset of the following tensor, or the size of the data region after the last one. -/
def gguf_read_header_next (f : gguf_file) (i : Nat) (ts : List gguf_tensor_internal) :
    Option Nat :=
  if i + 1 < f.tensors.length then (rd ts (i + 1)).map fun u => u.offset
  else
    let data_size := if f.file_size > f.data_start then f.file_size - f.data_start else 0
    some data_size

/-- Pass `i` of the loop of lines 377-391 of gguf_read_header on the array `tensors`:
`none` for the `return -1` of line 388. The reads `tensors[i]` and `tensors[i + 1]` are
inside the array. -/
def gguf_read_header_size (f : gguf_file) (i : Nat) (ts : List gguf_tensor_internal) :
    Option (List gguf_tensor_internal) := do
  let t ← rd ts i
  let next ← gguf_read_header_next f i ts
  if next < t.offset then none
  else wr ts i { t with size := next - t.offset }

/-- The loop of lines 376-391 of gguf_read_header, which computes the tensor sizes from
the offsets. -/
def gguf_read_header_sizes (f : gguf_file) : Option gguf_file :=
  (loop f.tensors.length (gguf_read_header_size f) f.tensors).map
    fun ts => { f with tensors := ts }

/-- gguf_read_header, lines 198-394, for an open file: `some` of the file afterwards when
it returns 0, `none` when it returns -1. -/
def gguf_read_header (f : gguf_file) : Option gguf_file :=
  (gguf_read_header_meta f).bind gguf_read_header_sizes

/-- gguf_open, lines 131-155, on a file that exists with the bytes `bytes`; `mmap_ok` says
whether the call of mmap succeeds. -/
def gguf_open (bytes : List Nat) (use_mmap mmap_ok : Bool) : gguf_file :=
  let mapped := use_mmap && decide (bytes.length > 0) && mmap_ok
  { fp := { bytes := bytes, pos := 0 },
    use_mmap := use_mmap && (decide (bytes.length = 0) || mmap_ok),
    version := 0, data_start := 0, file_size := bytes.length, alignment := 0,
    kvs := [], tensors := [],
    map_base := mapped, map_size := if mapped then bytes.length else 0 }

/-- gguf_find_kv, lines 396-414. -/
def gguf_find_kv (f : gguf_file) (key : List Char) : Option gguf_kv_pair :=
  (f.kvs.find? fun kv => strcmp kv.key key = 0).map fun kv =>
    if kv.is_array then { key := kv.key, type := GGUF_TYPE_ARRAY, value := [], arr := kv.arr }
    else { key := kv.key, type := kv.type, value := kv.value, arr := {} }

/-- gguf_find_tensor, lines 416-430. -/
def gguf_find_tensor (f : gguf_file) (name : List Char) : Option gguf_tensor :=
  (f.tensors.find? fun t => strcmp t.name name = 0).map fun t =>
    { name := t.name, dtype := t.dtype, offset := t.offset, size := t.size }

/-- gguf_get_n_tensors, lines 513-515. -/
def gguf_get_n_tensors (f : gguf_file) : Int := f.tensors.length

/-- gguf_get_tensor, lines 517-526. -/
def gguf_get_tensor (f : gguf_file) (idx : Int) : Option gguf_tensor :=
  if idx < 0 ∨ idx ≥ (f.tensors.length : Int) then none
  else (f.tensors[idx.toNat]?).map fun t =>
    { name := t.name, dtype := t.dtype, offset := t.offset, size := t.size }

/-- The library function memcpy on arrays: `n` bytes from `src + soff` to `dst + doff`;
`none` when a byte lies outside its array. -/
def memcpy (dst : List Nat) (doff : Nat) (src : List Nat) (soff n : Nat) : Option (List Nat) :=
  if soff + n ≤ src.length ∧ doff + n ≤ dst.length then
    some (dst.take doff ++ (src.drop soff).take n ++ dst.drop (doff + n))
  else none

/-- gguf_read_span, lines 490-511, for an open file and a non-null `dst`: the return value
and the array behind `dst` afterwards, `none` when a byte is copied from or to outside an
array. Without a mapping the loop over pread copies the bytes that the file holds from
`file_off` on, at most `size`, and returns -1 when they are fewer than `size`. -/
def gguf_read_span (f : gguf_file) (offset size : Nat) (dst : List Nat) :
    Option (Int × List Nat) :=
  if size = 0 then some (-1, dst)
  else
    let file_off := (f.data_start + offset) % 2 ^ 64
    if f.use_mmap ∧ f.map_base ∧ (file_off + size) % 2 ^ 64 ≤ f.map_size then
      (memcpy dst 0 (f.fp.bytes.take f.map_size) file_off size).map fun d => (0, d)
    else if file_off + size ≤ f.fp.bytes.length then
      (memcpy dst 0 f.fp.bytes file_off size).map fun d => (0, d)
    else if file_off < f.fp.bytes.length then
      (memcpy dst 0 f.fp.bytes file_off (f.fp.bytes.length - file_off)).map fun d => (-1, d)
    else some (-1, dst)

/-! ## model_loader.c : the layer functions

`size_t` has 64 bits. The array `layers` of a model is a list and `n_layers` is its length;
the staging buffer `layer_io_buf` is a list of bytes and `layer_io_buf_size` is its
length. -/

/-- The struct tensor_ref of model_loader.h. -/
structure tensor_ref where
  offset : Nat := 0
  size : Nat := 0
  dtype : Nat := 0
  deriving DecidableEq, Repr, Inhabited

/-- The struct layer_spec of model_loader.h. -/
structure layer_spec where
  attn_norm : tensor_ref := {}
  attn_q : tensor_ref := {}
  attn_k : tensor_ref := {}
  attn_v : tensor_ref := {}
  attn_o : tensor_ref := {}
  ffn_norm : tensor_ref := {}
  ffn_gate : tensor_ref := {}
  ffn_up : tensor_ref := {}
  ffn_down : tensor_ref := {}
  deriving DecidableEq, Repr, Inhabited

/-- The struct resident_spec of model_loader.h. -/
structure resident_spec where
  token_embd : tensor_ref := {}
  output_norm : tensor_ref := {}
  lm_head : tensor_ref := {}
  deriving DecidableEq, Repr, Inhabited

/-- The struct model_handle, lines 13-29: the fields that the layer functions, model_get_info
and the tokenizer use. `n_layers` is the length of `layers`; `tokens` is the array of the
vocabulary strings and `n_tokens` its length (empty when the pointer is null). -/
structure model_handle where
  gguf : gguf_file
  layers : List layer_spec
  stats : streaming_stats
  layer_io_buf : List Nat
  tokens : List (List Char) := []
  bos_token_id : Nat := 0
  has_bos : Bool := false
  deriving DecidableEq, Repr

/-- The constant UINT64_MAX, which is 2^64 - 1. -/
def UINT64_MAX : Nat := 18446744073709551615

/-- align_up_size, lines 35-38: `x` and `a` are size_t values; `~mask` is
`2^64 - 1 - mask`. -/
def align_up_size (x a : Nat) : Nat :=
  let mask := (a + 2 ^ 64 - 1) % 2 ^ 64
  ((x + mask) % 2 ^ 64) &&& (2 ^ 64 - 1 - mask)

/-- ensure_io_buf, lines 50-61: the model afterwards (realloc succeeds, so the function
returns 0). The bytes that realloc adds, which C leaves indeterminate, are 0. -/
def ensure_io_buf (m : model_handle) (size : Nat) : model_handle :=
  if m.layer_io_buf.length ≥ size then m
  else { m with layer_io_buf :=
    m.layer_io_buf ++ List.replicate (size - m.layer_io_buf.length) 0 }

/-- The array `refs` of model_get_layer_buffer_size, lines 188-191, which is also the
column `ref` of the array `fields` of model_load_layer, lines 253-263. -/
def layer_refs (ls : layer_spec) : List tensor_ref :=
  [ls.attn_norm, ls.attn_q, ls.attn_k, ls.attn_v, ls.attn_o,
   ls.ffn_norm, ls.ffn_gate, ls.ffn_up, ls.ffn_down]

/-- One pass of the loop of model_get_layer_buffer_size, lines 193-197, on `total`: `none`
for the `return -1` of line 194. -/
def model_get_layer_buffer_size_step (total : Nat) (ref : tensor_ref) : Option Nat :=
  if ref.size = 0 then none
  else some ((align_up_size total 32 + ref.size) % 2 ^ 64)

/-- model_get_layer_buffer_size, lines 181-201, for non-null arguments: the value stored in
`*out` when the function returns 0, `none` when it returns -1. -/
def model_get_layer_buffer_size (m : model_handle) (layer_id : Nat) : Option Nat :=
  match m.layers[layer_id]? with
  | none => none
  | some ls => (layer_refs ls).foldlM model_get_layer_buffer_size_step 0

/-- model_get_max_layer_size, lines 203-219, for non-null arguments: the value stored in
`*out` when the function returns 0, `none` when it returns -1. -/
def model_get_max_layer_size (m : model_handle) : Option Nat :=
  loop m.layers.length (fun i max_size => do
    let sz ← model_get_layer_buffer_size m i
    pure (if sz > max_size then sz else max_size)) 0

/-- What a call of model_load_layer leaves behind besides its return value: a call of
gguf_read_span, with its offset and size, or a line printed to stderr, with its
arguments. -/
inductive load_event where
  | size_failed (layer_id : Nat)
  | buffer_too_small (layer_id need have_size : Nat)
  | span_read (offset size : Nat)
  | read_span_failed (layer_id offset size : Nat)
  | span_bounds_error (layer_id : Nat)
  deriving DecidableEq, Repr

/-- What a call of model_load_layer reads and changes: the model, the array behind
`buffer`, the objects behind `out_view` and `out_used`, and the events so far. -/
structure load_state where
  m : model_handle
  buffer : List Nat
  out_view : layer_view
  out_used : Nat
  trace : List load_event
  deriving DecidableEq, Repr

/-- One pass of the loop of model_load_layer over the spans, lines 267-279, on
`(span_start, span_end)`: `none` for the `return -1` of line 270. -/
def model_load_layer_span_step (sp : Nat × Nat) (ref : tensor_ref) : Option (Nat × Nat) :=
  if ref.size = 0 then none
  else
    let span_start := if ref.offset < sp.1 then ref.offset else sp.1
    let e := (ref.offset + ref.size) % 2 ^ 64
    let span_end := if e > sp.2 then e else sp.2
    some (span_start, span_end)

/-- The loop of model_load_layer over the spans, lines 265-279. -/
def model_load_layer_span (refs : List tensor_ref) : Option (Nat × Nat) :=
  refs.foldlM model_load_layer_span_step (UINT64_MAX, 0)

/-- The stores of lines 306-310 for the entry `i` of the array `fields`, lines 253-263:
the pointer, the dtype and, for the entries that have one, the size. -/
def layer_view_store (i : Nat) (dst : Nat) (ref : tensor_ref) (v : layer_view) : layer_view :=
  match i with
  | 0 => { v with attn_norm := some dst, attn_norm_dtype := ref.dtype }
  | 1 => { v with attn_q := some dst, attn_q_dtype := ref.dtype, attn_q_size := ref.size }
  | 2 => { v with attn_k := some dst, attn_k_dtype := ref.dtype, attn_k_size := ref.size }
  | 3 => { v with attn_v := some dst, attn_v_dtype := ref.dtype, attn_v_size := ref.size }
  | 4 => { v with attn_o := some dst, attn_o_dtype := ref.dtype, attn_o_size := ref.size }
  | 5 => { v with ffn_norm := some dst, ffn_norm_dtype := ref.dtype }
  | 6 => { v with ffn_gate := some dst, ffn_gate_dtype := ref.dtype,
                  ffn_gate_size := ref.size }
  | 7 => { v with ffn_up := some dst, ffn_up_dtype := ref.dtype, ffn_up_size := ref.size }
  | 8 => { v with ffn_down := some dst, ffn_down_dtype := ref.dtype,
                  ffn_down_size := ref.size }
  | _ => v

/-- The state of the copy loop of model_load_layer, lines 296-312: whether the function has
returned -1 at line 303, the cursor `off`, the array behind `buffer` and the view. -/
structure load_cursor where
  returned : Bool
  off : Nat
  buffer : List Nat
  view : layer_view
  deriving DecidableEq, Repr

/-- Pass `i` of the copy loop of model_load_layer, lines 297-311; `io` is the staging
buffer. The result is `none` when memcpy reads or writes outside an array. -/
def model_load_layer_copy (io : List Nat) (span_start span_size : Nat)
    (refs : List tensor_ref) (i : Nat) (c : load_cursor) : Option load_cursor :=
  if c.returned then some c
  else do
    let ref ← rd refs i
    let off := align_up_size c.off 32
    let rel := (ref.offset + 2 ^ 64 - span_start) % 2 ^ 64
    if (rel + ref.size) % 2 ^ 64 > span_size then some { c with returned := true, off := off }
    else do
      let buffer ← memcpy c.buffer off io rel ref.size
      pure { returned := false, off := (off + ref.size) % 2 ^ 64, buffer := buffer,
             view := layer_view_store i off ref c.view }

/-- model_load_layer from line 294 on, the span being read into the staging buffer: the
count of bytes read, the copy loop and the final stores. -/
def model_load_layer_fill (s : load_state) (layer_id : Nat) (ls : layer_spec)
    (span_start span_size : Nat) : Option (Int × load_state) :=
  let stats := { s.m.stats with
    layer_bytes_read := (s.m.stats.layer_bytes_read + span_size) % 2 ^ 64 }
  (loop 9 (model_load_layer_copy s.m.layer_io_buf span_start span_size (layer_refs ls))
    { returned := false, off := 0, buffer := s.buffer, view := s.out_view }).map fun c =>
    if c.returned then
      (-1, { s with m := { s.m with stats := stats }, buffer := c.buffer, out_view := c.view,
                    trace := s.trace ++ [load_event.span_bounds_error layer_id] })
    else
      (0, { s with
        m := { s.m with stats := { stats with
          layer_loads := (stats.layer_loads + 1) % 2 ^ 64 } },
        buffer := c.buffer, out_view := c.view, out_used := c.off })

/-- model_load_layer from line 265 to line 293, the size checks being passed: the span of
the layer, the staging buffer and the one call of gguf_read_span. -/
def model_load_layer_read (s : load_state) (layer_id : Nat) (ls : layer_spec) :
    Option (Int × load_state) :=
  match model_load_layer_span (layer_refs ls) with
  | none => some (-1, s)
  | some (span_start, span_end) =>
    if span_start = UINT64_MAX ∨ span_end ≤ span_start then some (-1, s)
    else
      let span_size := span_end - span_start
      let m := ensure_io_buf s.m span_size
      let trace := s.trace ++ [load_event.span_read span_start span_size]
      (gguf_read_span m.gguf span_start span_size m.layer_io_buf).bind fun r =>
        let s := { s with m := { m with layer_io_buf := r.2 }, trace := trace }
        if r.1 ≠ 0 then
          some (-1, { s with trace :=
            s.trace ++ [load_event.read_span_failed layer_id span_start span_size] })
        else model_load_layer_fill s layer_id ls span_start span_size

/-- model_load_layer, lines 221-319, for non-null `m`, `buffer`, `out_view` and
`out_used`: the return value and the state afterwards, `none` when memcpy reads or writes
outside an array. -/
def model_load_layer (s : load_state) (layer_id buffer_size : Nat) :
    Option (Int × load_state) :=
  match s.m.layers[layer_id]? with
  | none => some (-1, s)
  | some ls =>
    match model_get_layer_buffer_size s.m layer_id with
    | none => some (-1, { s with trace := s.trace ++ [load_event.size_failed layer_id] })
    | some need =>
      if buffer_size < need then
        some (-1, { s with trace :=
          s.trace ++ [load_event.buffer_too_small layer_id need buffer_size] })
      else
        let stats := { s.m.stats with
          max_layer_size :=
            if need > s.m.stats.max_layer_size then need else s.m.stats.max_layer_size,
          peak_buffer_usage :=
            if buffer_size > s.m.stats.peak_buffer_usage then buffer_size
            else s.m.stats.peak_buffer_usage }
        model_load_layer_read
          { s with m := { s.m with stats := stats },
                   out_view := { layer_view.zero with layer_id := layer_id } }
          layer_id ls

/-! ## llama_tensor_map.c : build_layer_specs -/

/-- The constant GGUF_KV_UINT32 of gguf_reader.h. -/
def GGUF_KV_UINT32 : Nat := 4

/-- get_kv_u32, lines 20-30: the value stored in `*out` when the function returns 0, `none`
when it returns -1. -/
def get_kv_u32 (f : gguf_file) (key : List Char) : Option Nat :=
  match gguf_find_kv f key with
  | none => none
  | some kv => if kv.type ≠ GGUF_KV_UINT32 then none else some (le_value (kv.value.take 4))

/-- map_tensor, lines 96-107, for a non-null `out_ref`: the return value and the ref
afterwards. -/
def map_tensor (f : gguf_file) (name : List Char) (out_ref : tensor_ref) : Int × tensor_ref :=
  match gguf_find_tensor f name with
  | none => (-1, out_ref)
  | some t => (0, { offset := t.offset, size := t.size, dtype := t.dtype })

/-- The value of a constant of the enum llama_tensor_field. -/
def llama_tensor_field.toNat : llama_tensor_field → Nat
  | LLAMA_TF_UNKNOWN => 0
  | LLAMA_TF_ATTN_NORM => 1
  | LLAMA_TF_ATTN_Q => 2
  | LLAMA_TF_ATTN_K => 3
  | LLAMA_TF_ATTN_V => 4
  | LLAMA_TF_ATTN_O => 5
  | LLAMA_TF_FFN_NORM => 6
  | LLAMA_TF_FFN_GATE => 7
  | LLAMA_TF_FFN_UP => 8
  | LLAMA_TF_FFN_DOWN => 9

/-- The switch of build_layer_specs, lines 152-199: the ref of `field` takes the offset, the
size and the dtype of the tensor. -/
def layer_spec_store (field : llama_tensor_field) (t : gguf_tensor) (lv : layer_spec) :
    layer_spec :=
  match field with
  | LLAMA_TF_ATTN_NORM => { lv with attn_norm := ⟨t.offset, t.size, t.dtype⟩ }
  | LLAMA_TF_ATTN_Q => { lv with attn_q := ⟨t.offset, t.size, t.dtype⟩ }
  | LLAMA_TF_ATTN_K => { lv with attn_k := ⟨t.offset, t.size, t.dtype⟩ }
  | LLAMA_TF_ATTN_V => { lv with attn_v := ⟨t.offset, t.size, t.dtype⟩ }
  | LLAMA_TF_ATTN_O => { lv with attn_o := ⟨t.offset, t.size, t.dtype⟩ }
  | LLAMA_TF_FFN_NORM => { lv with ffn_norm := ⟨t.offset, t.size, t.dtype⟩ }
  | LLAMA_TF_FFN_GATE => { lv with ffn_gate := ⟨t.offset, t.size, t.dtype⟩ }
  | LLAMA_TF_FFN_UP => { lv with ffn_up := ⟨t.offset, t.size, t.dtype⟩ }
  | LLAMA_TF_FFN_DOWN => { lv with ffn_down := ⟨t.offset, t.size, t.dtype⟩ }
  | LLAMA_TF_UNKNOWN => lv

/-- The mask `required_mask` of build_layer_specs, lines 125-133. -/
def required_mask : Nat :=
  (1 <<< LLAMA_TF_ATTN_NORM.toNat) ||| (1 <<< LLAMA_TF_ATTN_Q.toNat) |||
  (1 <<< LLAMA_TF_ATTN_K.toNat) ||| (1 <<< LLAMA_TF_ATTN_V.toNat) |||
  (1 <<< LLAMA_TF_ATTN_O.toNat) ||| (1 <<< LLAMA_TF_FFN_NORM.toNat) |||
  (1 <<< LLAMA_TF_FFN_GATE.toNat) ||| (1 <<< LLAMA_TF_FFN_UP.toNat) |||
  (1 <<< LLAMA_TF_FFN_DOWN.toNat)

/-- Pass `i` of the loop of build_layer_specs over the tensors, lines 142-201, on the
arrays `layers` and `seen`. The index `layer_id` is below `n_layers`, the length of both
arrays. -/
def build_layer_specs_tensor (f : gguf_file) (n_layers : Nat) (i : Nat)
    (s : List layer_spec × List Nat) : List layer_spec × List Nat :=
  match gguf_get_tensor f i with
  | none => s
  | some t =>
    let layer_id := parse_layer_id t.name
    if layer_id < 0 ∨ layer_id.toNat % 2 ^ 32 ≥ n_layers then s
    else
      let field := map_tensor_to_field t.name
      if field = LLAMA_TF_UNKNOWN then s
      else
        (s.1.modify (layer_spec_store field t) layer_id.toNat,
         s.2.modify (fun v => (v ||| (1 <<< field.toNat)) % 2 ^ 32) layer_id.toNat)

/-- What a call of build_layer_specs leaves: the return value, the object behind
`resident` and, when they are stored, the array behind `*layers_out`, whose length is
`*n_layers_out`. -/
structure build_result where
  status : Int
  resident : resident_spec
  layers_out : Option (List layer_spec)
  deriving DecidableEq, Repr

/-- build_layer_specs, lines 109-233, for non-null arguments. -/
def build_layer_specs (f : gguf_file) (resident : resident_spec) : build_result :=
  match get_kv_u32 f "llama.block_count".toList with
  | none => { status := -1, resident := resident, layers_out := none }
  | some n_layers =>
    if n_layers = 0 then { status := -1, resident := resident, layers_out := none }
    else
      let layers := List.replicate n_layers ({} : layer_spec)
      let resident : resident_spec :=
        { token_embd := (map_tensor f "token_embd.weight".toList resident.token_embd).2,
          output_norm := (map_tensor f "output_norm.weight".toList resident.output_norm).2,
          lm_head := (map_tensor f "output.weight".toList resident.lm_head).2 }
      let seen := List.replicate n_layers 0
      let r := (List.range f.tensors.length).foldl
        (fun s i => build_layer_specs_tensor f n_layers i s) (layers, seen)
      let ok : Int :=
        if (List.range n_layers).any
            (fun i => decide ((r.2.getD i 0 &&& required_mask) ≠ required_mask)) then -1
        else 0
      let ok : Int :=
        if resident.token_embd.size = 0 ∨ resident.output_norm.size = 0 ∨
            resident.lm_head.size = 0 then -1
        else ok
      if ok ≠ 0 then { status := -1, resident := resident, layers_out := none }
      else { status := 0, resident := resident, layers_out := some r.1 }

/-! ## engine.c : the inferred feed-forward width and the decode step -/

/-- q4k_rows_from_bytes, engine.c lines 53-61: `size_bytes` is a uint64_t, `k` and the
result are uint32_t. -/
def q4k_rows_from_bytes (size_bytes k : Nat) : Nat :=
  let block_bytes := 144
  if k = 0 ∨ size_bytes = 0 then 0
  else
    let blocks := size_bytes / block_bytes
    let values := blocks * 256 % 2 ^ 64
    values / k % 2 ^ 32

/-- One pass of the loop of engine.c lines 426-431 on the pair `(next, maxv)`. -/
def engine_generate_argmax_step (logits : List ℚ) (s : Nat × ℚ) (i : Nat) : Nat × ℚ :=
  if logits.getD i 0 > s.2 then (i, logits.getD i 0) else s

/-- The choice of the next token, engine.c lines 424-431: the value of `next` after the
loop over `i = 1 .. n_vocab_use - 1`. -/
def engine_generate_argmax (logits : List ℚ) (n_vocab_use : Nat) : Nat :=
  ((List.range' 1 (n_vocab_use - 1)).foldl (engine_generate_argmax_step logits)
    (0, logits.getD 0 0)).1

/-! ## model_loader.c : model_get_info, and its use in engine.c -/

/-- The struct model_info of model_loader.h; `rope_theta` is a float. -/
structure model_info where
  n_layers : Nat := 0
  n_vocab : Nat := 0
  n_embd : Nat := 0
  n_heads : Nat := 0
  n_kv_heads : Nat := 0
  head_dim : Nat := 0
  rope_theta : ℚ := 0
  deriving DecidableEq, Repr

/-- One of the three conditional assignments of model_get_info, lines 336-347: the value
of the entry `key` when it is found and has type UINT32, else the value `old` of the
field. -/
def model_get_info_u32 (f : gguf_file) (key : List Char) (old : Nat) : Nat :=
  match gguf_find_kv f key with
  | none => old
  | some kv => if kv.type = GGUF_KV_UINT32 then le_value (kv.value.take 4) else old

/-- model_get_info, lines 329-352, for non-null arguments: the object behind `out`
afterwards (the function returns 0). The `memset` zeroes every field; `n_vocab` and
`rope_theta` are not assigned after it. -/
def model_get_info (m : model_handle) : model_info :=
  let out : model_info := {}
  let out := { out with n_layers := m.layers.length }
  let out := { out with
    n_embd := model_get_info_u32 m.gguf "llama.embedding_length".toList out.n_embd }
  let out := { out with
    n_heads := model_get_info_u32 m.gguf "llama.attention.head_count".toList out.n_heads }
  let out := { out with
    n_kv_heads :=
      model_get_info_u32 m.gguf "llama.attention.head_count_kv".toList out.n_kv_heads }
  if out.n_heads ≠ 0 ∧ out.n_embd ≠ 0 then { out with head_dim := out.n_embd / out.n_heads }
  else out

/-- The local `rope_theta` of forward_layer_view, engine.c line 86, which both calls of
op_rope receive; `info` is `h->info`, which engine_open fills with model_get_info
(line 255) and nothing else writes. -/
def forward_layer_view_rope_theta (info : model_info) : ℚ :=
  if info.rope_theta > 0 then info.rope_theta else 10000

/-! ## model_loader.c : the tokenizer -/

/-- The pool together with the worker thread: `loading` is the slot of the buffer whose
load is under way, the worker being between the unlock of line 70 and the lock of line 74;
`none` when the worker is not inside model_load_layer. -/
structure thread_pool where
  pool : prefetcher
  loading : Option Nat
  deriving DecidableEq, Repr

/-- Lines 63-70 of the worker for buffer `i`: under the lock it looks at the state, and it
goes on to load the buffer when the state is LOADING. The worker is one thread, so it
looks at no buffer while a load is under way. -/
def prefetch_thread_check (w : thread_pool) (i : Nat) : thread_pool :=
  match w.loading with
  | some _ => w
  | none =>
    match w.pool.buffers[i]? with
    | some b => if b.state = BUF_LOADING then { w with loading := some i } else w
    | none => w

/-- What lines 72-80 write to the buffer: model_load_layer stores the view and the size,
and the state becomes READY or ERROR, without a second look at the state. -/
def prefetch_thread_store (r : load_result) (b : layer_buffer) : layer_buffer :=
  { b with view := r.view,
           size := if r.ok then r.used else b.size,
           state := if r.ok then BUF_READY else BUF_ERROR }

/-- Lines 72-82 of the worker: the load under way ends, model_load_layer having produced
`r`. -/
def prefetch_thread_finish (w : thread_pool) (r : load_result) : thread_pool :=
  match w.loading with
  | none => w
  | some i =>
    { pool := { w.pool with buffers := w.pool.buffers.modify (prefetch_thread_store r) i },
      loading := none }

/-- The steps that act on the pool, each under the lock: the three calls of the compute
thread and the two halves of a load by the worker. -/
inductive thread_event where
  | request (layer_id : Nat)
  | check (i : Nat)
  | finish (r : load_result)
  | wait (idx : Nat) (waited : Bool)
  | release (idx : Nat)
  deriving DecidableEq, Repr

/-- Effect of one step on the pool and the worker. -/
def thread_step (w : thread_pool) : thread_event → thread_pool
  | thread_event.request l => { w with pool := (prefetcher_request w.pool l).1 }
  | thread_event.check i => prefetch_thread_check w i
  | thread_event.finish r => prefetch_thread_finish w r
  | thread_event.wait idx waited => { w with pool := (prefetcher_wait_poll w.pool idx waited).1 }
  | thread_event.release idx => { w with pool := prefetcher_release w.pool idx }

/-- Effect of a sequence of steps. -/
def thread_run (w : thread_pool) (evs : List thread_event) : thread_pool :=
  evs.foldl thread_step w

/-- The binary exponent of the binary32 numbers next to `q`: the largest `e` with
`2^e <= |q|`, and -126 for `|q| < 2^-126`, where the numbers are subnormal, and for 0. -/
def f32_exponent (q : ℚ) : Int :=
  if q = 0 then -126 else max (Int.log 2 |q|) (-126)

/-- The configuration of tests/kv_cache_test.c. -/
def kv_test_cfg : kv_cache_config :=
  { n_layers := 1, n_kv_heads := 2, head_dim := 4, block_size := 4, max_seq_len := 8 }

/-- The vectors appended by the test for token `t`: `k[i] = 0.1 * (10 t + i)`. -/
def kv_test_vec (t : Nat) : List ℚ :=
  (List.range 8).map fun i => ((10 * t + i : Nat) : ℚ) / 10

/-- A pool of depth 2 after: request(0), the load succeeds, wait, release, request(1). -/
def pool_after_rerequest : prefetcher :=
  pool_run
    { buffers := List.replicate 2
        { state := BUF_EMPTY, layer_id := 0, size := 0, capacity := 64,
          view := layer_view.zero },
      cancel := false, stats := none }
    [pool_event.request 0, pool_event.worker_done 0 (load_always 0),
     pool_event.wait 0 false, pool_event.release 0, pool_event.request 1]

/-- The block of tests/ops_test.c: `d = 1.0` and `dmin = 0.0` in half precision, scale 1
and minimum 0 for every sub-block, `qs[0] = 0xF0`. -/
def q4_k_test_block : block_q4_k :=
  { d := 0x3C00, dmin := 0, scales := [1, 1, 1, 1, 0, 0, 0, 0, 1, 1, 1, 1],
    qs := 0xF0 :: List.replicate 127 0 }

/-- The input vector of tests/ops_test.c: 1 at indices 0 and 32, 0 elsewhere. -/
def q4_k_test_x : List ℚ := (List.range 256).map fun i => if i = 0 ∨ i = 32 then 1 else 0

/-! ## Predicates on the pool and the sweep used in the statements and proofs -/

/-- The largest value that `max_concurrent_buffers` and the active count can take. -/
def within_depth (d : Nat) (p : prefetcher) : Prop :=
  p.buffers.length = d ∧ count_active_buffers p ≤ d ∧
  ∀ s, p.stats = some s → s.max_concurrent_buffers ≤ d

/-- Whether a buffer is READY. -/
def is_ready (b : layer_buffer) : Bool := b.state = BUF_READY

/-- Number of READY buffers. -/
def ready_count (p : prefetcher) : Nat := p.buffers.countP is_ready

/-- Slot `s` holds a requested layer `l` that is being loaded or is loaded. -/
def pending (p : prefetcher) (s l : Nat) : Prop :=
  ∃ b, p.buffers[s]? = some b ∧ b.layer_id = l ∧
    (b.state = BUF_LOADING ∨ b.state = BUF_READY)

/-- Slot `s`, if it exists, is EMPTY. -/
def idle (p : prefetcher) (s : Nat) : Prop :=
  ∀ b, p.buffers[s]? = some b → b.state = BUF_EMPTY

/-- Slot `s` is IN_USE for layer `l`. -/
def in_use (p : prefetcher) (s l : Nat) : Prop :=
  ∃ b, p.buffers[s]? = some b ∧ b.layer_id = l ∧ b.state = BUF_IN_USE

/-- The load counter accounts for `c` loads already consumed plus the READY buffers. -/
def loads_inv (c : Nat) (w : engine_world) : Prop :=
  w.layer_loads = (c + ready_count w.p) % 2 ^ 64

/-- What the worker may do between two pool calls when every load succeeds. -/
structure stable (w w1 : engine_world) : Prop where
  len : w1.p.buffers.length = w.p.buffers.length
  cancel : w1.p.cancel = w.p.cancel
  log : w1.log = w.log
  pend : ∀ s l, pending w.p s l → pending w1.p s l
  idl : ∀ s, idle w.p s → idle w1.p s
  inuse : ∀ s l, in_use w.p s l → in_use w1.p s l
  loads : ∀ c, loads_inv c w → loads_inv c w1

/-- The effect of a pool call of the compute thread on the slots other than `s`. -/
structure frame (s : Nat) (w w1 : engine_world) : Prop where
  len : w1.p.buffers.length = w.p.buffers.length
  cancel : w1.p.cancel = w.p.cancel
  log : w1.log = w.log
  pend : ∀ t l, t ≠ s → pending w.p t l → pending w1.p t l
  idl : ∀ t, t ≠ s → idle w.p t → idle w1.p t

/-- The handle kept for layer `lay` of `n`: a slot where that layer is pending when the
layer exists, NULL otherwise. -/
def req_for (p : prefetcher) (req : Option prefetch_request) (lay n : Nat) : Prop :=
  if lay < n then ∃ s, req = some { buf_index := s } ∧ pending p s lay else req = none

/-- Every slot not named by one of the handles is EMPTY. -/
def others_idle (p : prefetcher) (reqs : List (Option prefetch_request)) : Prop :=
  ∀ t, (∀ r ∈ reqs, r ≠ some { buf_index := t }) → idle p t

/-- The record of a sweep over layers `l, l+1, ..., l+fuel-1`. -/
def expected_log (pos l fuel : Nat) : List sweep_event :=
  (List.range' l fuel).flatMap fun k =>
    [sweep_event.wait k k, sweep_event.forward k k pos, sweep_event.release k k]

/-- A pool at rest between two sweeps over `n` layers: all buffers EMPTY, no cancel, and
enough buffers for the look-ahead of the sweep (three, or `n` when there are fewer than
three layers). -/
def at_rest (n : Nat) (w : engine_world) : Prop :=
  min n 3 ≤ w.p.buffers.length ∧ w.p.cancel = false ∧ ∀ t, idle w.p t

/-- No buffer of the pool is IN_USE. -/
def no_in_use (p : prefetcher) : Prop :=
  ∀ (j : Nat) (b : layer_buffer), p.buffers[j]? = some b → b.state ≠ BUF_IN_USE

/-- No buffer other than slot `s` is IN_USE. -/
def only_in_use (p : prefetcher) (s : Nat) : Prop :=
  ∀ (j : Nat) (b : layer_buffer), p.buffers[j]? = some b → b.state = BUF_IN_USE → j = s

/-- The states of the pool buffers, in slot order. -/
def pool_states (w : engine_world) : List buffer_state :=
  w.p.buffers.map fun b => b.state

/-- A pool of depth 3 at rest, with some worker activity scheduled. -/
def world_depth_three : engine_world :=
  { p := { buffers := List.replicate 3
             { state := BUF_EMPTY, layer_id := 0, size := 0, capacity := 64,
               view := layer_view.zero },
           cancel := false, stats := some {} },
    layer_loads := 0, sched := [[0, 1], [2], [], [1, 0]], log := [] }

/-- An environment in which every load succeeds and every forward pass fails. -/
def env_forward_fails : sweep_env := { load := load_always, forward := fun _ _ _ => false }

/-- An environment in which every forward pass succeeds and the load of layer 0 fails. -/
def env_load_fails : sweep_env :=
  { load := fun l => if l = 0 then { ok := false, view := layer_view.zero, used := 0 }
                     else load_always l,
    forward := fun _ _ _ => true }

/-! ## Predicates on the KV cache used in the statements and proofs -/

/-- The first `m` passes of the outer loop of q8_dequantize_vec. -/
def q8_dequantize_upto (src : List q8_block) (off n : Nat) (dst : List ℚ) (o m : Nat) :
    List ℚ :=
  (List.range m).foldl
    (fun acc b =>
      (List.range 32).foldl
        (fun acc2 i =>
          if b * 32 % 2 ^ 32 + i < n then
            acc2.set (o + (b * 32 % 2 ^ 32 + i)) (q8_value (src.getD (off + b) q8_block.zero) i)
          else acc2) acc) dst

/-- A cache as kv_cache_create builds it when none of its 32-bit size computations wraps,
with the block counters within their range. -/
structure kv_wf (c : kv_cache) : Prop where
  bs_pos : 0 < c.cfg.block_size
  vec : c.vec_dim + 31 < 2 ^ 32
  per_token : c.q8_blocks_per_token = (c.vec_dim + 31) / 32
  per_block : c.q8_blocks_per_block = c.q8_blocks_per_token * c.cfg.block_size
  per_block_lt : c.q8_blocks_per_token * c.cfg.block_size < 2 ^ 32
  nblk : c.n_blocks = (c.cfg.max_seq_len + c.cfg.block_size - 1) / c.cfg.block_size
  total : c.blocks.length = c.cfg.n_layers * c.n_blocks
  total_lt : c.cfg.n_layers * c.n_blocks < 2 ^ 32
  blk : ∀ b ∈ c.blocks, b.k.length = c.q8_blocks_per_block ∧
    b.v.length = c.q8_blocks_per_block ∧ b.seq_len ≤ c.cfg.block_size
  lens : c.layer_seq_len.length = c.cfg.n_layers
  max_lt : c.cfg.max_seq_len < 2 ^ 32

/-- The sizes of a configuration fit 32 bits. -/
def kv_cfg_fits (cfg : kv_cache_config) : Prop :=
  cfg.n_kv_heads * cfg.head_dim + 31 < 2 ^ 32 ∧
  cfg.max_seq_len + cfg.block_size - 1 < 2 ^ 32 ∧
  (cfg.n_kv_heads * cfg.head_dim + 31) / 32 * cfg.block_size < 2 ^ 32 ∧
  cfg.n_layers * ((cfg.max_seq_len + cfg.block_size - 1) / cfg.block_size) < 2 ^ 32

/-- Q8 block `b` of the K row stored for `(layer, pos)`. -/
def kv_slot_k (c : kv_cache) (layer pos b : Nat) : q8_block :=
  (kv_block_at c layer pos).k.getD (kv_slot_offset c pos + b) q8_block.zero

/-- Q8 block `b` of the V row stored for `(layer, pos)`. -/
def kv_slot_v (c : kv_cache) (layer pos b : Nat) : q8_block :=
  (kv_block_at c layer pos).v.getD (kv_slot_offset c pos + b) q8_block.zero

/-- The first `m` rows of `out` hold the values `val i t`; the rest of `out` is as in
`out0`. -/
def rows_written (vd m : Nat) (val : Nat → Nat → ℚ) (out0 out : List ℚ) : Prop :=
  out.length = out0.length ∧
  (∀ j, m * vd ≤ j → out[j]? = out0[j]?) ∧
  (∀ i t, i < m → t < vd → i * vd + t < out0.length → out[i * vd + t]? = some (val i t))

/-- One call of kv_cache_append. -/
structure kv_op where
  layer : Nat
  pos : Nat
  k : List ℚ
  v : List ℚ

/-- The cache after the call `op` (unchanged when the call returns -1). -/
def kv_apply (c : kv_cache) (op : kv_op) : kv_cache :=
  (kv_cache_append c op.layer op.pos op.k op.v).2

/-- The cache after a sequence of calls of kv_cache_append. -/
def kv_run (c : kv_cache) (ops : List kv_op) : kv_cache := ops.foldl kv_apply c

/-- The cache of tests/kv_cache_test.c right after kv_cache_create. -/
def kv_test_cache : kv_cache :=
  match kv_cache_create kv_test_cfg with
  | some c => c
  | none => { cfg := kv_test_cfg, n_blocks := 0, vec_dim := 0, q8_blocks_per_token := 0,
              q8_blocks_per_block := 0, blocks := [], layer_seq_len := [] }

/-- The four appends of tests/kv_cache_test.c: positions 0..3 of layer 0. -/
def kv_test_ops : List kv_op :=
  (List.range 4).map fun t =>
    { layer := 0, pos := t, k := kv_test_vec t, v := (kv_test_vec t).map fun x => -x }

/-! ## Predicates on the K-quant blocks used in the statements and proofs -/

/-- A Q4_K block with arrays of the declared sizes, holding bytes. -/
def q4_k_wf (blk : block_q4_k) : Prop :=
  blk.scales.length = 12 ∧ blk.qs.length = 128 ∧
  (∀ v ∈ blk.scales, v < 256) ∧ (∀ v ∈ blk.qs, v < 256)

instance (blk : block_q4_k) : Decidable (q4_k_wf blk) := by
  unfold q4_k_wf
  infer_instance

/-- The nibble of `qs` used for output `t` of a Q4_K block: byte `32 * (j / 2) + l` with
`j = t / 32` and `l = t % 32`, low half for even `j`, high half for odd `j`. -/
def q4_k_nibble (blk : block_q4_k) (t : Nat) : Nat :=
  if t / 32 % 2 = 0 then blk.qs.getD (32 * (t / 32 / 2) + t % 32) 0 &&& 0xF
  else blk.qs.getD (32 * (t / 32 / 2) + t % 32) 0 >>> 4

/-- The value `d * sc * nib - dmin * m` of output `t` of a Q4_K block, with `(sc, m)` the
result of get_scale_min_k4 for sub-block `t / 32`. -/
def q4_k_value (blk : block_q4_k) (t : Nat) : ℚ :=
  half_to_float blk.d * (((get_scale_min_k4 (t / 32) blk.scales).getD (0, 0)).1 : ℚ)
      * (q4_k_nibble blk t : ℚ)
    - half_to_float blk.dmin * (((get_scale_min_k4 (t / 32) blk.scales).getD (0, 0)).2 : ℚ)

/-- A Q5_K block with arrays of the declared sizes. -/
def q5_k_wf (blk : block_q5_k) : Prop :=
  blk.scales.length = 12 ∧ blk.qh.length = 32 ∧ blk.qs.length = 128

instance (blk : block_q5_k) : Decidable (q5_k_wf blk) := by
  unfold q5_k_wf
  infer_instance

/-- The 4-bit part of output `t` of a Q5_K block: byte `t / 2` of `qs`, low half for even
`t`, high half for odd `t`. -/
def q5_k_nibble (blk : block_q5_k) (t : Nat) : Nat :=
  if t % 2 = 1 then blk.qs.getD (t / 2) 0 / 16 % 16 else blk.qs.getD (t / 2) 0 % 16

/-- The fifth bit of output `t` of a Q5_K block: bit `t % 8` of byte `t / 8` of `qh`. -/
def q5_k_bit (blk : block_q5_k) (t : Nat) : Nat :=
  blk.qh.getD (t / 8) 0 / 2 ^ (t % 8) % 2

/-- The 5-bit value `v` of output `t` of a Q5_K block. -/
def q5_k_quant (blk : block_q5_k) (t : Nat) : Nat :=
  q5_k_nibble blk t + 16 * q5_k_bit blk t

/-- The value `d * sc * v - dmin * m` of output `t` of a Q5_K block, with `(sc, m)` the
result of get_scale_min_k4 for sub-block `t / 32`. -/
def q5_k_value (blk : block_q5_k) (t : Nat) : ℚ :=
  half_to_float blk.d * (((get_scale_min_k4 (t / 32) blk.scales).getD (0, 0)).1 : ℚ)
      * (q5_k_quant blk t : ℚ)
    - half_to_float blk.dmin * (((get_scale_min_k4 (t / 32) blk.scales).getD (0, 0)).2 : ℚ)

/-- A Q5_K block for examples: scale 1 and minimum 0 for every sub-block, the fifth bit
of output 0 set, and `qs[0] = 0xF0`. -/
def q5_k_test_block : block_q5_k :=
  { d := 0x3C00, dmin := 0, scales := [1, 1, 1, 1, 0, 0, 0, 0, 1, 1, 1, 1],
    qh := 1 :: List.replicate 31 0, qs := 0xF0 :: List.replicate 127 0 }

/-- A Q6_K block with arrays of the declared sizes, `ql` holding bytes. -/
def q6_k_wf (blk : block_q6_k) : Prop :=
  blk.ql.length = 128 ∧ blk.qh.length = 64 ∧ blk.scales.length = 16 ∧
  (∀ v ∈ blk.ql, v < 256)

instance (blk : block_q6_k) : Decidable (q6_k_wf blk) := by
  unfold q6_k_wf
  infer_instance

/-- The byte of `ql` used for output `t` of a Q6_K block. -/
def q6_k_ql_index (t : Nat) : Nat := 64 * (t / 128) + t % 32 + 32 * (t % 128 / 32 % 2)

/-- Whether output `t` of a Q6_K block uses the high nibble of its `ql` byte. -/
def q6_k_ql_high (t : Nat) : Bool := decide (2 ≤ t % 128 / 32)

/-- The byte of `qh` used for output `t` of a Q6_K block. -/
def q6_k_qh_index (t : Nat) : Nat := 32 * (t / 128) + t % 32

/-- The position in its `qh` byte of the two-bit field used for output `t`. -/
def q6_k_qh_shift (t : Nat) : Nat := 2 * (t % 128 / 32)

/-- The 4 low bits of output `t` of a Q6_K block. -/
def q6_k_low4 (blk : block_q6_k) (t : Nat) : Nat :=
  if q6_k_ql_high t then blk.ql.getD (q6_k_ql_index t) 0 >>> 4
  else blk.ql.getD (q6_k_ql_index t) 0 &&& 0xF

/-- The 2 high bits of output `t` of a Q6_K block. -/
def q6_k_high2 (blk : block_q6_k) (t : Nat) : Nat :=
  (blk.qh.getD (q6_k_qh_index t) 0 >>> q6_k_qh_shift t) &&& 3

/-- The signed 6-bit value `q` of output `t` of a Q6_K block. -/
def q6_k_quant (blk : block_q6_k) (t : Nat) : Int :=
  ((q6_k_low4 blk t ||| (q6_k_high2 blk t <<< 4) : Nat) : Int) - 32

/-- The value `d * scales[t / 16] * q` of output `t` of a Q6_K block. -/
def q6_k_value (blk : block_q6_k) (t : Nat) : ℚ :=
  half_to_float blk.d * ((blk.scales.getD (t / 16) 0 : Int) : ℚ) * (q6_k_quant blk t : ℚ)

/-- A Q6_K block for examples: `d = 1.0`, every scale 2, `ql[0] = 0x21`, `qh[0] = 0x1B`. -/
def q6_k_test_block : block_q6_k :=
  { ql := 0x21 :: List.replicate 127 0, qh := 0x1B :: List.replicate 63 0,
    scales := List.replicate 16 2, d := 0x3C00 }

/-- The 256 values that dequantize_row_q4_k yields for one block (the array `tmp` of
op_matmul_q4_k after the call of line 305). -/
def q4_k_dequant (blk : block_q4_k) : List ℚ :=
  (dequantize_row_q4_k [blk] (List.replicate 256 0) 256).getD []

/-! ## Softmax and attention: the quantities used in the statements -/

/-- The softmax of the values `s 0 .. s (n-1)`: `exp (s i)` over the sum of the
`exp (s j)`. -/
def softmax_weight {F : Type} [LinearOrderedField F] (expf : F → F) (s : Nat → F)
    (n i : Nat) : F :=
  expf (s i) / ∑ j in Finset.range n, expf (s j)

/-- The weight `w` of line 453 for head `h` and position `i`: the array `scores` after
lines 424-446, times `inv`. -/
def attn_weight {F : Type} [LinearOrderedField F] (expf : F → F) (q k : List F)
    (n_kv_heads head_dim seq_len : Nat) (scale : F) (mask : Option (List F)) (h i : Nat) : F :=
  let scores := (List.range seq_len).map (attn_score q k n_kv_heads head_dim scale mask h)
  let r := exp_sum_loop expf scores seq_len (max_loop scores seq_len)
  r.1.getD i 0 * (if r.2 = 0 then 0 else 1 / r.2)

/-- The logit `scale * <Q_h, K[i][h mod n_kv_heads]>` of head `h` and position `i`. -/
def attn_logit {F : Type} [LinearOrderedField F] (q k : List F)
    (n_kv_heads head_dim : Nat) (scale : F) (h i : Nat) : F :=
  scale * ∑ d in Finset.range head_dim,
    q.getD (h * head_dim + d) 0 * k.getD ((i * n_kv_heads + h % n_kv_heads) * head_dim + d) 0

/-! ## Tensor names: the quantities used in the statements -/

/-- A decimal digit. -/
def is_digit (c : Char) : Prop := '0' ≤ c ∧ c ≤ '9'

instance (c : Char) : Decidable (is_digit c) := by unfold is_digit; infer_instance

/-- The nine per-layer field names of a llama container, each with the slot of the layer
that holds it. -/
def layer_field_names : List (String × llama_tensor_field) :=
  [("attn_norm", LLAMA_TF_ATTN_NORM), ("attn_q", LLAMA_TF_ATTN_Q),
   ("attn_k", LLAMA_TF_ATTN_K), ("attn_v", LLAMA_TF_ATTN_V),
   ("attn_output", LLAMA_TF_ATTN_O), ("ffn_norm", LLAMA_TF_FFN_NORM),
   ("ffn_gate", LLAMA_TF_FFN_GATE), ("ffn_up", LLAMA_TF_FFN_UP),
   ("ffn_down", LLAMA_TF_FFN_DOWN)]

/-- The name `blk.<digits>.<field>.weight`. -/
def layer_tensor_name_of (digits : List Char) (field : String) : List Char :=
  "blk.".toList ++ digits ++ '.' :: (field.toList ++ ".weight".toList)

/-- The name `blk.N.<field>.weight`, with `N` in decimal. -/
def layer_tensor_name (N : Nat) (field : String) : List Char :=
  layer_tensor_name_of (Nat.toDigits 10 N) field

/-- The number that the digits `ds` denote after the digits already read as `acc`. -/
def digits_value (acc : Nat) (ds : List Char) : Nat :=
  ds.foldl (fun a c => a * 10 + (c.toNat - 48)) acc

/-! ## Rotary embedding: the quantities used in the statements -/

/-- The angle of the pair `p` as op_rope computes it. -/
def rope_angle {F : Type} [Field F] (powf : F → F → F) (head_dim pos : Nat) (rope_theta : F)
    (p : Nat) : F :=
  (pos : F) * powf (1 / rope_theta) (((2 * p : Nat) : F) / (head_dim : F))

/-- The value that the rotation of the pair holding lane `l` of the head at `base` leaves
in that lane: the first component in an even lane, the second in an odd lane. -/
def rope_lane {F : Type} [Field F] (powf : F → F → F) (cosf sinf : F → F) (qk : List F)
    (head_dim pos : Nat) (rope_theta : F) (base l : Nat) : F :=
  let a := rope_angle powf head_dim pos rope_theta (l / 2)
  let x0 := qk.getD (base + 2 * (l / 2)) 0
  let x1 := qk.getD (base + 2 * (l / 2) + 1) 0
  if l % 2 = 0 then x0 * cosf a - x1 * sinf a else x0 * sinf a + x1 * cosf a

/-! ## The container: the quantities used in the statements -/

/-- The size of the data region: the bytes of the file from `data_start` on (none when the
file ends before `data_start`). -/
def gguf_data_size (f : gguf_file) : Nat := f.file_size - f.data_start

/-- The offset of tensor `i`. -/
def gguf_offset (f : gguf_file) (i : Nat) : Nat := (f.tensors.getD i default).offset

/-- The size of tensor `i`. -/
def gguf_size (f : gguf_file) (i : Nat) : Nat := (f.tensors.getD i default).size

/-- Where tensor `i` has to end: at the offset of its successor, the last tensor at the end
of the data region. -/
def gguf_next_offset (f : gguf_file) (i : Nat) : Nat :=
  if i + 1 < f.tensors.length then gguf_offset f (i + 1) else gguf_data_size f

/-- A container of two tensors `a` and `b` at offsets 0 and 32, without metadata entries,
followed by 64 bytes of data. -/
def gguf_test_bytes : List Nat :=
  [71, 71, 85, 70, 3, 0, 0, 0, 2, 0, 0, 0, 0, 0, 0, 0, 0, 0, 0, 0, 0, 0, 0, 0,
   1, 0, 0, 0, 0, 0, 0, 0, 97, 0, 0, 0, 0, 0, 0, 0, 0, 0, 0, 0, 0, 0, 0, 0, 0,
   1, 0, 0, 0, 0, 0, 0, 0, 98, 0, 0, 0, 0, 0, 0, 0, 0, 32, 0, 0, 0, 0, 0, 0, 0] ++
  List.replicate 86 0

/-- The test container after the descriptors are parsed: the metadata ends at byte 74 and
the data region starts at byte 96. -/
def gguf_test_meta : gguf_file :=
  { fp := { bytes := gguf_test_bytes, pos := 74 },
    use_mmap := false, version := 3, data_start := 96, file_size := 160, alignment := 32,
    kvs := [],
    tensors := [{ name := ['a'], dtype := 0, n_dims := 0, dims := [], offset := 0, size := 0 },
                { name := ['b'], dtype := 0, n_dims := 0, dims := [], offset := 32, size := 0 }],
    map_base := false, map_size := 0 }

/-! ## The layer functions: the quantities used in the statements -/

/-- The least multiple of 32 that is not below `x`. -/
def round_up_32 (x : Nat) : Nat := (x + 31) / 32 * 32

/-- The destination offsets of a layout of tensors of the given sizes: `off_0 = 0` and
`off_(i+1) = round_up_32 (off_i + size_i)`. -/
def layout_offset (sizes : List Nat) : Nat → Nat
  | 0 => 0
  | i + 1 => round_up_32 (layout_offset sizes i + sizes.getD i 0)

/-- The write cursor of a layout after its first `n` tensors. -/
def layout_cursor (sizes : List Nat) : Nat → Nat
  | 0 => 0
  | n + 1 => round_up_32 (layout_cursor sizes n) + sizes.getD n 0

/-- The sizes of the nine tensors of a layer, in the order of the layout. -/
def layer_sizes (ls : layer_spec) : List Nat := (layer_refs ls).map fun r => r.size

/-- The destination offset of tensor `i` of a layer. -/
def layer_offset (ls : layer_spec) (i : Nat) : Nat := layout_offset (layer_sizes ls) i

/-- The final write cursor of a layer: the end of its last tensor in the layout. -/
def layer_cursor (ls : layer_spec) : Nat := layer_offset ls 8 + (layer_sizes ls).getD 8 0

/-- The start of the byte span of a layer: the least offset of its nine tensors. -/
def layer_span_start (ls : layer_spec) : Nat :=
  ((layer_refs ls).map fun r => r.offset).foldl min UINT64_MAX

/-- The end of the byte span of a layer: the largest end of its nine tensors. -/
def layer_span_end (ls : layer_spec) : Nat :=
  ((layer_refs ls).map fun r => r.offset + r.size).foldl max 0

/-- Tensor `i` of a layer, in the order of the layout. -/
def layer_ref (ls : layer_spec) (i : Nat) : tensor_ref := (layer_refs ls).getD i default

/-- The view after the stores of the first `n` passes of the copy loop on the view `v`. -/
def copy_view (ls : layer_spec) (v : layer_view) (n : Nat) : layer_view :=
  (List.range n).foldl
    (fun v j => layer_view_store j (layer_offset ls j) (layer_ref ls j) v) v

/-- The view of a loaded layer: the tensor pointers are the offsets of the layout, the
dtypes and sizes those of the tensor refs. -/
def layer_view_loaded (ls : layer_spec) (layer_id : Nat) : layer_view :=
  { layer_id := layer_id,
    attn_norm := some (layer_offset ls 0), attn_q := some (layer_offset ls 1),
    attn_k := some (layer_offset ls 2), attn_v := some (layer_offset ls 3),
    attn_o := some (layer_offset ls 4), ffn_norm := some (layer_offset ls 5),
    ffn_gate := some (layer_offset ls 6), ffn_up := some (layer_offset ls 7),
    ffn_down := some (layer_offset ls 8),
    attn_norm_dtype := ls.attn_norm.dtype, attn_q_dtype := ls.attn_q.dtype,
    attn_k_dtype := ls.attn_k.dtype, attn_v_dtype := ls.attn_v.dtype,
    attn_o_dtype := ls.attn_o.dtype, ffn_norm_dtype := ls.ffn_norm.dtype,
    ffn_gate_dtype := ls.ffn_gate.dtype, ffn_up_dtype := ls.ffn_up.dtype,
    ffn_down_dtype := ls.ffn_down.dtype,
    attn_q_size := ls.attn_q.size, attn_k_size := ls.attn_k.size,
    attn_v_size := ls.attn_v.size, attn_o_size := ls.attn_o.size,
    ffn_gate_size := ls.ffn_gate.size, ffn_up_size := ls.ffn_up.size,
    ffn_down_size := ls.ffn_down.size }

/-- What holds after `i` passes of the copy loop that have not returned: the cursor is that
of the layout, the tensors copied so far are in place and the view holds their entries.
`io` is the staging buffer, `buf0` and `v0` the buffer and the view before the loop. -/
structure copy_inv (io : List Nat) (span_start : Nat) (ls : layer_spec) (buf0 : List Nat)
    (v0 : layer_view) (i : Nat) (c : load_cursor) : Prop where
  returned : c.returned = false
  off : c.off = layout_cursor (layer_sizes ls) i
  off_le : c.off ≤ buf0.length
  length : c.buffer.length = buf0.length
  bytes : ∀ j, j < i → ∀ k, k < (layer_ref ls j).size →
    c.buffer.getD (layer_offset ls j + k) 0 =
      io.getD ((layer_ref ls j).offset - span_start + k) 0
  view : c.view = copy_view ls v0 i

/-- A file of 16 bytes whose data region starts at byte 4. -/
def load_test_file : gguf_file :=
  { fp := { bytes := List.range 16, pos := 0 }, use_mmap := false, version := 3,
    data_start := 4, file_size := 16, alignment := 4, kvs := [], tensors := [],
    map_base := false, map_size := 0 }

/-- A layer of nine tensors of one byte each, at the offsets 0 to 8 of the data region. -/
def load_test_layer : layer_spec :=
  { attn_norm := ⟨0, 1, 0⟩, attn_q := ⟨1, 1, 1⟩, attn_k := ⟨2, 1, 1⟩, attn_v := ⟨3, 1, 1⟩,
    attn_o := ⟨4, 1, 1⟩, ffn_norm := ⟨5, 1, 0⟩, ffn_gate := ⟨6, 1, 12⟩, ffn_up := ⟨7, 1, 12⟩,
    ffn_down := ⟨8, 1, 12⟩ }

/-- A model of one layer on the test file. -/
def load_test_model : model_handle :=
  { gguf := load_test_file, layers := [load_test_layer], stats := {}, layer_io_buf := [] }

/-- A call state with a buffer of 257 bytes. -/
def load_test_state : load_state :=
  { m := load_test_model, buffer := List.replicate 257 0, out_view := {}, out_used := 0,
    trace := [] }

/-- The test state after the layer is loaded into the buffer: tensor `i`, the byte `4 + i`
of the file, is at offset `32 * i`. -/
def load_test_loaded : load_state :=
  { m := { load_test_model with
      stats := { layer_loads := 1, layer_bytes_read := 9, max_layer_size := 257,
                 peak_buffer_usage := 257 },
      layer_io_buf := [4, 5, 6, 7, 8, 9, 10, 11, 12] },
    buffer := (List.range 257).map fun t => if t % 32 = 0 then 4 + t / 32 else 0,
    out_view := layer_view_loaded load_test_layer 0,
    out_used := 257,
    trace := [load_event.span_read 0 9] }

/-- A call of model_load_layer that stays inside its arrays: the layer exists, its tensors
lie below 2^64 in the file and their layout ends below 2^63, the buffer has at least
`buffer_size` bytes and fewer than 2^63, and the mapping of the file lies inside the file. -/
structure load_valid (s : load_state) (layer_id buffer_size : Nat) (ls : layer_spec) :
    Prop where
  layer : s.m.layers[layer_id]? = some ls
  fits : ∀ r ∈ layer_refs ls, s.m.gguf.data_start + r.offset + r.size < 2 ^ 64
  cursor : layer_cursor ls < 2 ^ 63
  buffer : buffer_size ≤ s.buffer.length
  buffer_lt : s.buffer.length < 2 ^ 63
  mapping : s.m.gguf.map_size ≤ s.m.gguf.fp.bytes.length

/-! ## build_layer_specs: the example used in the statement -/

/-- The `n` little-endian bytes of `v`. -/
def le_bytes (n v : Nat) : List Nat := (List.range n).map fun i => v / 256 ^ i % 256

/-- A string as the container stores it: the length in 8 bytes, then the characters. -/
def gguf_string_bytes (s : String) : List Nat :=
  le_bytes 8 s.length ++ s.toList.map Char.toNat

/-- A tensor descriptor without dimensions as the container stores it. -/
def gguf_tensor_bytes (name : String) (dtype offset : Nat) : List Nat :=
  gguf_string_bytes name ++ le_bytes 4 0 ++ le_bytes 4 dtype ++ le_bytes 8 offset

/-- The bytes of a container of version 3 with the entry `llama.block_count = 1`, the three
resident tensors, the nine tensors of layer 0 and, after them, a tensor that names the
layer 4294967296. The metadata ends at byte 630, the data region starts at byte 640 and
holds 32 bytes for each of the 13 tensors. -/
def overflow_bytes : List Nat :=
  "GGUF".toList.map Char.toNat ++ le_bytes 4 3 ++ le_bytes 8 13 ++ le_bytes 8 1 ++
  (gguf_string_bytes "llama.block_count" ++ le_bytes 4 4 ++ le_bytes 4 1) ++
  (gguf_tensor_bytes "token_embd.weight" 1 0 ++
   gguf_tensor_bytes "output_norm.weight" 1 32 ++
   gguf_tensor_bytes "output.weight" 1 64 ++
   gguf_tensor_bytes "blk.0.attn_norm.weight" 1 96 ++
   gguf_tensor_bytes "blk.0.attn_q.weight" 1 128 ++
   gguf_tensor_bytes "blk.0.attn_k.weight" 1 160 ++
   gguf_tensor_bytes "blk.0.attn_v.weight" 1 192 ++
   gguf_tensor_bytes "blk.0.attn_output.weight" 1 224 ++
   gguf_tensor_bytes "blk.0.ffn_norm.weight" 1 256 ++
   gguf_tensor_bytes "blk.0.ffn_gate.weight" 1 288 ++
   gguf_tensor_bytes "blk.0.ffn_up.weight" 1 320 ++
   gguf_tensor_bytes "blk.0.ffn_down.weight" 1 352 ++
   gguf_tensor_bytes "blk.4294967296.attn_q.weight" 2 384) ++
  List.replicate 10 0 ++ List.replicate 416 0

/-- A tensor descriptor of 32 bytes, without dimensions. -/
def overflow_tensor (name : String) (dtype offset : Nat) : gguf_tensor_internal :=
  { name := name.toList, dtype := dtype, n_dims := 0, dims := [], offset := offset,
    size := 32 }

/-- The container of `overflow_bytes` after gguf_read_header. -/
def overflow_file : gguf_file :=
  { fp := { bytes := overflow_bytes, pos := 630 }, use_mmap := false, version := 3,
    data_start := 640, file_size := 1056, alignment := 32,
    kvs := [{ key := "llama.block_count".toList, type := 4, is_array := false, arr := {},
              value := [1, 0, 0, 0] }],
    tensors :=
      [overflow_tensor "token_embd.weight" 1 0,
       overflow_tensor "output_norm.weight" 1 32,
       overflow_tensor "output.weight" 1 64,
       overflow_tensor "blk.0.attn_norm.weight" 1 96,
       overflow_tensor "blk.0.attn_q.weight" 1 128,
       overflow_tensor "blk.0.attn_k.weight" 1 160,
       overflow_tensor "blk.0.attn_v.weight" 1 192,
       overflow_tensor "blk.0.attn_output.weight" 1 224,
       overflow_tensor "blk.0.ffn_norm.weight" 1 256,
       overflow_tensor "blk.0.ffn_gate.weight" 1 288,
       overflow_tensor "blk.0.ffn_up.weight" 1 320,
       overflow_tensor "blk.0.ffn_down.weight" 1 352,
       overflow_tensor "blk.4294967296.attn_q.weight" 2 384],
    map_base := false, map_size := 0 }

/-- The test container with the four bytes of the version field replaced by those of
`v`. -/
def gguf_version_bytes (v : Nat) : List Nat :=
  gguf_test_bytes.take 4 ++ le_bytes 4 v ++ gguf_test_bytes.drop 8

/-- What the pair `(next, maxv)` satisfies when the loop of the decode step has looked at
the logits below `m`. -/
structure argmax_inv (logits : List ℚ) (m : Nat) (s : Nat × ℚ) : Prop where
  lt : s.1 < m
  val : s.2 = logits.getD s.1 0
  max : ∀ j, j < m → logits.getD j 0 ≤ s.2
  first : ∀ j, j < s.1 → logits.getD j 0 < s.2

/-- Four logits whose maximum occurs twice. -/
def argmax_test_logits : List ℚ := [2, 5, 3, 5]

/-- The Q4_K super-block with the fields `d`, `dmin`, `scales` and `qs` of a Q5_K
super-block. -/
def q5_k_as_q4_k (blk : block_q5_k) : block_q4_k :=
  { d := blk.d, dmin := blk.dmin, scales := blk.scales, qs := blk.qs }

/-- A Q5_K block whose `qh` bytes are all zero: `d = 1.0`, `dmin = 0.0`, scale 1 and
minimum 0 for every sub-block, and `qs[0] = 0x10`. -/
def q5_k_zero_qh_block : block_q5_k :=
  { d := 0x3C00, dmin := 0, scales := [1, 1, 1, 1, 0, 0, 0, 0, 1, 1, 1, 1],
    qh := List.replicate 32 0, qs := 0x10 :: List.replicate 127 0 }

/-- The number that a 16-bit pattern denotes as an IEEE-754 binary16: sign bit 15, exponent
field `e` in bits 10-14, fraction `m` in bits 0-9; `(-1)^s * m * 2^-24` for `e = 0` (zeros
and subnormals) and `(-1)^s * (1024 + m) * 2^(e - 25)` otherwise. Patterns with `e = 31`
denote infinities and NaNs, which have no rational value; they are given the value of the
formula for normal numbers. -/
def half_value (h : Nat) : ℚ :=
  let sign : ℚ := if h / 2 ^ 15 % 2 = 1 then -1 else 1
  let e : Nat := h / 2 ^ 10 % 32
  let m : Nat := h % 2 ^ 10
  if e = 0 then sign * (m : ℚ) / (2 : ℚ) ^ 24
  else sign * ((2 ^ 10 + m : Nat) : ℚ) * (2 : ℚ) ^ e / (2 : ℚ) ^ 25

/-- The slots of the buffers that the compute thread holds after a pool operation: a wait
that returns a buffer adds its slot, a release removes it. -/
def held_after (p : prefetcher) (held : List Nat) : pool_event → List Nat
  | pool_event.wait idx waited =>
    match (prefetcher_wait_poll p idx waited).2 with
    | wait_poll.got k => k :: held
    | _ => held
  | pool_event.release idx => held.filter fun j => j ≠ idx
  | _ => held

/-- Whether a pool operation is allowed to the compute thread that holds the buffers
`held`: a release has to be of one of them. -/
def release_held (held : List Nat) : pool_event → Bool
  | pool_event.release idx => decide (idx ∈ held)
  | _ => true

/-- A sequence of pool operations in which every release is of a buffer that a wait has
returned and that was not released since. -/
def releases_held : prefetcher → List Nat → List pool_event → Bool
  | _, _, [] => true
  | p, held, ev :: evs =>
    release_held held ev && releases_held (pool_step p ev) (held_after p held ev) evs

/-- The buffers that the compute thread holds are IN_USE. -/
def held_in_use (p : prefetcher) (held : List Nat) : Prop :=
  ∀ idx ∈ held, ∀ b, p.buffers[idx]? = some b → b.state = BUF_IN_USE

/-- Whether a pool operation is a load failure: the worker completes a load for a buffer
that is LOADING, model_load_layer having returned non-zero. -/
def is_load_failure (p : prefetcher) : pool_event → Bool
  | pool_event.worker_done i r =>
    (p.buffers[i]?).any (fun b => decide (b.state = BUF_LOADING)) && !r.ok
  | _ => false

/-- The number of load failures in a sequence of pool operations. -/
def load_failures : prefetcher → List pool_event → Nat
  | _, [] => 0
  | p, ev :: evs =>
    (if is_load_failure p ev then 1 else 0) + load_failures (pool_step p ev) evs

/-- A pool of two EMPTY buffers. -/
def pool_error_test : prefetcher :=
  { buffers := List.replicate 2
      { state := BUF_EMPTY, layer_id := 0, size := 0, capacity := 64,
        view := layer_view.zero },
    cancel := false, stats := none }

/-- A load that fails. -/
def load_fails : load_result := { ok := false, view := layer_view.zero, used := 0 }

/-- A sequence of pool operations with two load failures: the load of layer 0 fails in
slot 0; layer 1 is loaded into slot 1, waited for and released; the wait for layer 0
returns NULL; the load of layer 2 fails in slot 1. -/
def pool_error_events : List pool_event :=
  [pool_event.request 0, pool_event.worker_done 0 load_fails,
   pool_event.request 1, pool_event.worker_done 1 (load_always 1),
   pool_event.wait 1 false, pool_event.release 1, pool_event.wait 0 false,
   pool_event.request 2, pool_event.worker_done 1 load_fails]

/-- Whether a buffer is in ERROR. -/
def is_error (b : layer_buffer) : Bool := b.state = BUF_ERROR

/-- The number of buffers of the pool that are in ERROR. -/
def error_count (p : prefetcher) : Nat := p.buffers.countP is_error

/-- The type tag of a FLOAT32 metadata entry. -/
def GGUF_TYPE_FLOAT32 : Nat := 6

/-- The rope theta that the metadata of a container asks for: the value of the FLOAT32
entry `llama.rope.freq_base` when it is present, 10000 when it is absent. -/
def metadata_rope_theta (f : gguf_file) : ℚ :=
  match gguf_find_kv f "llama.rope.freq_base".toList with
  | none => 10000
  | some kv =>
    if kv.type = GGUF_TYPE_FLOAT32 then f32_value (le_value (kv.value.take 4)) else 10000

/-- The bytes of a container of version 3 with the entries `llama.block_count = 1` and
`llama.rope.freq_base = 500000.0` (the binary32 pattern 0x48F42400), the three resident
tensors and the nine tensors of layer 0. The metadata ends at byte 614, the data region
starts at byte 640 and holds 32 bytes for each of the 12 tensors. -/
def rope_bytes : List Nat :=
  "GGUF".toList.map Char.toNat ++ le_bytes 4 3 ++ le_bytes 8 12 ++ le_bytes 8 2 ++
  (gguf_string_bytes "llama.block_count" ++ le_bytes 4 4 ++ le_bytes 4 1) ++
  (gguf_string_bytes "llama.rope.freq_base" ++ le_bytes 4 6 ++ le_bytes 4 0x48F42400) ++
  (gguf_tensor_bytes "token_embd.weight" 1 0 ++
   gguf_tensor_bytes "output_norm.weight" 1 32 ++
   gguf_tensor_bytes "output.weight" 1 64 ++
   gguf_tensor_bytes "blk.0.attn_norm.weight" 1 96 ++
   gguf_tensor_bytes "blk.0.attn_q.weight" 1 128 ++
   gguf_tensor_bytes "blk.0.attn_k.weight" 1 160 ++
   gguf_tensor_bytes "blk.0.attn_v.weight" 1 192 ++
   gguf_tensor_bytes "blk.0.attn_output.weight" 1 224 ++
   gguf_tensor_bytes "blk.0.ffn_norm.weight" 1 256 ++
   gguf_tensor_bytes "blk.0.ffn_gate.weight" 1 288 ++
   gguf_tensor_bytes "blk.0.ffn_up.weight" 1 320 ++
   gguf_tensor_bytes "blk.0.ffn_down.weight" 1 352) ++
  List.replicate 26 0 ++ List.replicate 384 0

/-- The container of `rope_bytes` after gguf_read_header. -/
def rope_file : gguf_file :=
  { fp := { bytes := rope_bytes, pos := 614 }, use_mmap := false, version := 3,
    data_start := 640, file_size := 1024, alignment := 32,
    kvs := [{ key := "llama.block_count".toList, type := 4, is_array := false, arr := {},
              value := [1, 0, 0, 0] },
            { key := "llama.rope.freq_base".toList, type := 6, is_array := false, arr := {},
              value := [0x00, 0x24, 0xF4, 0x48] }],
    tensors :=
      [overflow_tensor "token_embd.weight" 1 0,
       overflow_tensor "output_norm.weight" 1 32,
       overflow_tensor "output.weight" 1 64,
       overflow_tensor "blk.0.attn_norm.weight" 1 96,
       overflow_tensor "blk.0.attn_q.weight" 1 128,
       overflow_tensor "blk.0.attn_k.weight" 1 160,
       overflow_tensor "blk.0.attn_v.weight" 1 192,
       overflow_tensor "blk.0.attn_output.weight" 1 224,
       overflow_tensor "blk.0.ffn_norm.weight" 1 256,
       overflow_tensor "blk.0.ffn_gate.weight" 1 288,
       overflow_tensor "blk.0.ffn_up.weight" 1 320,
       overflow_tensor "blk.0.ffn_down.weight" 1 352],
    map_base := false, map_size := 0 }

/-- The layer of the container `rope_file`, as build_layer_specs maps it. -/
def rope_layer : layer_spec :=
  { attn_norm := ⟨96, 32, 1⟩, attn_q := ⟨128, 32, 1⟩, attn_k := ⟨160, 32, 1⟩,
    attn_v := ⟨192, 32, 1⟩, attn_o := ⟨224, 32, 1⟩, ffn_norm := ⟨256, 32, 1⟩,
    ffn_gate := ⟨288, 32, 1⟩, ffn_up := ⟨320, 32, 1⟩, ffn_down := ⟨352, 32, 1⟩ }

/-- The model that model_open builds on the container `rope_file`. -/
def rope_model : model_handle :=
  { gguf := rope_file, layers := [rope_layer], stats := {}, layer_io_buf := [] }

/-- A 16-bit pattern that denotes a finite binary16 number which is not subnormal: the
exponent field is not 31, and the fraction is 0 when the exponent field is 0. -/
def half_not_subnormal (h : Nat) : Prop :=
  h < 2 ^ 16 ∧ h / 2 ^ 10 % 32 ≠ 31 ∧ (h / 2 ^ 10 % 32 = 0 → h % 2 ^ 10 = 0)

/-- A Q4_K block whose `d` is the smallest subnormal half 0x0001 (the number 2^-24):
`dmin = 0.0`, scale 1 and minimum 0 for every sub-block, `qs[0] = 0x01`. -/
def q4_k_subnormal_block : block_q4_k :=
  { d := 0x0001, dmin := 0, scales := [1, 1, 1, 1, 0, 0, 0, 0, 1, 1, 1, 1],
    qs := 0x01 :: List.replicate 127 0 }

/-- A Q5_K block whose `d` is the smallest subnormal half 0x0001 (the number 2^-24):
`dmin = 0.0`, scale 1 and minimum 0 for every sub-block, `qh = 0`, `qs[0] = 0x01`. -/
def q5_k_subnormal_block : block_q5_k :=
  { d := 0x0001, dmin := 0, scales := [1, 1, 1, 1, 0, 0, 0, 0, 1, 1, 1, 1],
    qh := List.replicate 32 0, qs := 0x01 :: List.replicate 127 0 }

/-- A Q6_K block whose `d` is the smallest subnormal half 0x0001 (the number 2^-24):
every scale 1, `ql[0] = 0x01`, `qh[0] = 0x02`, so that output 0 has `q = 33 - 32 = 1`. -/
def q6_k_subnormal_block : block_q6_k :=
  { ql := 0x01 :: List.replicate 127 0, qh := 0x02 :: List.replicate 63 0,
    scales := List.replicate 16 1, d := 0x0001 }

/-- The bytes of a file with the four bytes of the version field, bytes 4 to 7, replaced
by those of `v`. -/
def with_version (v : Nat) (bytes : List Nat) : List Nat :=
  bytes.take 4 ++ le_bytes 4 v ++ bytes.drop 8

/-- A stream over the file with the version field replaced, at the same position. -/
def stream_with_version (v : Nat) (fp : c_file) : c_file :=
  { fp with bytes := with_version v fp.bytes }

/-- A reader that does not look at the version field: started after the field, it reads
the same from the file with another version, and it leaves the stream after the field
and the file as it was. -/
def past_version {α : Type} (v : Nat) (R : c_file → Option (α × c_file)) : Prop :=
  ∀ fp : c_file, 8 ≤ fp.pos → 8 ≤ fp.bytes.length →
    R (stream_with_version v fp) = (R fp).map (fun r => (r.1, stream_with_version v r.2)) ∧
    ∀ r, R fp = some r → 8 ≤ r.2.pos ∧ r.2.bytes = fp.bytes

/-- The part of gguf_read_header_meta after the version field, lines 217-361: the two
counts, the metadata entries and the tensor descriptors. -/
def gguf_read_header_body (fp : c_file) :
    Option ((List gguf_kv_internal × List gguf_tensor_internal) × c_file) :=
  (read_i64 fp).bind fun r1 =>
    (read_i64 r1.2).bind fun r2 =>
      if r2.1 < 0 ∨ r1.1 < 0 then none
      else
        (loop r2.1.toNat (fun _ (s : List gguf_kv_internal × c_file) =>
            (gguf_read_header_kv s.2).bind fun r => some (s.1 ++ [r.1], r.2)) ([], r2.2)).bind
          fun r3 =>
            (loop r1.1.toNat (fun _ (s : List gguf_tensor_internal × c_file) =>
                (gguf_read_header_tensor s.2).bind fun r => some (s.1 ++ [r.1], r.2))
              ([], r3.2)).bind
              fun r4 => some ((r3.1, r4.1), r4.2)

/-- The edge that a step may make in the state of a buffer. -/
def event_edge : thread_event → buffer_state → buffer_state → Bool
  | thread_event.request _, BUF_EMPTY, BUF_LOADING => true
  | thread_event.finish r, BUF_LOADING, BUF_READY => r.ok
  | thread_event.finish r, BUF_LOADING, BUF_ERROR => !r.ok
  | thread_event.wait _ _, BUF_READY, BUF_IN_USE => true
  | thread_event.release _, BUF_IN_USE, BUF_EMPTY => true
  | _, _, _ => false

/-- The slots of the buffers that the compute thread holds after a step: a wait that
returns a buffer adds its slot, a release removes it. -/
def thread_held_after (w : thread_pool) (held : List Nat) : thread_event → List Nat
  | thread_event.wait idx waited => held_after w.pool held (pool_event.wait idx waited)
  | thread_event.release idx => held.filter fun j => j ≠ idx
  | _ => held

/-- Whether a step is allowed to the compute thread that holds the buffers `held`: a
release has to be of one of them. -/
def thread_release_held (held : List Nat) : thread_event → Bool
  | thread_event.release idx => decide (idx ∈ held)
  | _ => true

/-- A sequence of steps in which every release is of a buffer that a wait has returned and
that was not released since. -/
def thread_releases_held : thread_pool → List Nat → List thread_event → Bool
  | _, _, [] => true
  | w, held, ev :: evs =>
    thread_release_held held ev &&
      thread_releases_held (thread_step w ev) (thread_held_after w held ev) evs

/-- The buffers that the compute thread holds are IN_USE and the buffer whose load is
under way is LOADING. -/
def thread_inv (w : thread_pool) (held : List Nat) : Prop :=
  held_in_use w.pool held ∧
  ∀ i, w.loading = some i → ∃ b, w.pool.buffers[i]? = some b ∧ b.state = BUF_LOADING

/-- Every step of the sequence leaves each buffer as it is or moves its state along the
edge of the step. -/
def thread_edges : thread_pool → List thread_event → Prop
  | _, [] => True
  | w, ev :: evs =>
    (∀ (i : Nat) (b c : layer_buffer), w.pool.buffers[i]? = some b →
      (thread_step w ev).pool.buffers[i]? = some c →
      c = b ∨ event_edge ev b.state c.state = true) ∧
    thread_edges (thread_step w ev) evs

/-- The pool of two EMPTY buffers with the worker idle. -/
def thread_pool_test : thread_pool := { pool := pool_error_test, loading := none }

/-- The pool after: request(0), the worker finds slot 0 LOADING and starts the load, the
load ends well, wait, release, request(1), the worker finds slot 0 LOADING again and
starts the load of layer 1. -/
def thread_pool_mid_load : thread_pool :=
  thread_run thread_pool_test
    [thread_event.request 0, thread_event.check 0, thread_event.finish (load_always 0),
     thread_event.wait 0 false, thread_event.release 0, thread_event.request 1,
     thread_event.check 0]
/-- The single steps of the pool that a step of the pool with the worker amounts to: the
look of the worker at a buffer changes nothing, the end of a load is the completed load of
the buffer that was being loaded. -/
def thread_atomic (w : thread_pool) : thread_event → List pool_event
  | thread_event.request l => [pool_event.request l]
  | thread_event.check _ => []
  | thread_event.finish r =>
    match w.loading with
    | some i => [pool_event.worker_done i r]
    | none => []
  | thread_event.wait idx waited => [pool_event.wait idx waited]
  | thread_event.release idx => [pool_event.release idx]

/-- The single steps of the pool that a sequence of steps amounts to. -/
def thread_atomic_run : thread_pool → List thread_event → List pool_event
  | _, [] => []
  | w, ev :: evs => thread_atomic w ev ++ thread_atomic_run (thread_step w ev) evs

@[simp] theorem record_concurrency_buffers (p : prefetcher) :
    (record_concurrency p).buffers = p.buffers := by
  unfold record_concurrency
  cases p.stats with
  | none => rfl
  | some s => dsimp only; split <;> rfl

@[simp] theorem record_concurrency_cancel (p : prefetcher) :
    (record_concurrency p).cancel = p.cancel := by
  unfold record_concurrency
  cases p.stats with
  | none => rfl
  | some s => dsimp only; split <;> rfl

theorem find_empty_some {bs : List layer_buffer} {i : Nat} (h : find_empty bs = some i) :
    (∃ b, bs[i]? = some b ∧ b.state = BUF_EMPTY) ∧
    ∀ j, j < i → ∀ b, bs[j]? = some b → b.state ≠ BUF_EMPTY := by
  induction bs generalizing i with
  | nil => simp [find_empty] at h
  | cons a as ih =>
    unfold find_empty at h
    by_cases ha : a.state = BUF_EMPTY
    · rw [if_pos ha] at h
      have hi : i = 0 := by simpa using h.symm
      subst hi
      exact ⟨⟨a, by simp, ha⟩, fun j hj => absurd hj (Nat.not_lt_zero j)⟩
    · rw [if_neg ha] at h
      cases hfe : find_empty as with
      | none => rw [hfe] at h; simp at h
      | some k =>
        rw [hfe] at h
        have hi : i = k + 1 := by simpa using h.symm
        subst hi
        obtain ⟨⟨b, hb, hbe⟩, hlt⟩ := ih hfe
        refine ⟨⟨b, by simpa using hb, hbe⟩, ?_⟩
        intro j hj b' hb'
        cases j with
        | zero =>
          have : a = b' := by simpa using hb'
          subst this
          exact ha
        | succ j => exact hlt j (by omega) b' (by simpa using hb')

theorem find_empty_none {bs : List layer_buffer} :
    find_empty bs = none ↔ ∀ b ∈ bs, b.state ≠ BUF_EMPTY := by
  induction bs with
  | nil => simp [find_empty]
  | cons a as ih =>
    unfold find_empty
    by_cases ha : a.state = BUF_EMPTY
    · simp [ha]
    · simp [ha, ih]

theorem find_empty_isSome {bs : List layer_buffer} :
    (find_empty bs).isSome ↔ ∃ b ∈ bs, b.state = BUF_EMPTY := by
  rw [← not_iff_not]
  simp only [Option.not_isSome_iff_eq_none, find_empty_none]
  push_neg
  rfl

theorem request_buffers (p : prefetcher) (l : Nat) :
    (prefetcher_request p l).1.buffers =
      match find_empty p.buffers with
      | none => p.buffers
      | some idx => p.buffers.modify (mark_loading l) idx := by
  unfold prefetcher_request
  cases find_empty p.buffers <;> simp

theorem request_result (p : prefetcher) (l : Nat) :
    (prefetcher_request p l).2 = (find_empty p.buffers).map (fun i => { buf_index := i }) := by
  unfold prefetcher_request
  cases find_empty p.buffers <;> simp

@[simp] theorem request_cancel (p : prefetcher) (l : Nat) :
    (prefetcher_request p l).1.cancel = p.cancel := by
  unfold prefetcher_request
  cases find_empty p.buffers <;> simp

@[simp] theorem worker_complete_cancel (p : prefetcher) (i : Nat) (r : load_result) :
    (worker_complete p i r).cancel = p.cancel := rfl

@[simp] theorem release_cancel (p : prefetcher) (i : Nat) :
    (prefetcher_release p i).cancel = p.cancel := rfl

theorem wait_poll_cancel (p : prefetcher) (idx : Nat) (wtd : Bool) :
    (prefetcher_wait_poll p idx wtd).1.cancel = p.cancel := by
  unfold prefetcher_wait_poll
  cases p.buffers[idx]? with
  | none => rfl
  | some b =>
    dsimp only
    split
    · simp
    · split <;> rfl

theorem wait_poll_buffers (p : prefetcher) (idx : Nat) (wtd : Bool) :
    (prefetcher_wait_poll p idx wtd).1.buffers =
      p.buffers.modify (fun b =>
        if b.state = BUF_READY then mark_in_use b else b) idx := by
  unfold prefetcher_wait_poll
  cases hb : p.buffers[idx]? with
  | none =>
    simp only
    apply List.ext_getElem?
    intro j
    rw [List.getElem?_modify]
    by_cases hj : idx = j
    · subst hj; simp [hb]
    · cases p.buffers[j]? <;> simp [hj]
  | some b =>
    dsimp only
    by_cases hs : b.state = BUF_READY
    · rw [if_pos hs]
      simp only [record_concurrency_buffers]
      apply List.ext_getElem?
      intro j
      rw [List.getElem?_modify, List.getElem?_modify]
      by_cases hj : idx = j
      · subst hj; simp [hb, hs]
      · cases p.buffers[j]? <;> simp [hj]
    · rw [if_neg hs]
      have : (if b.state = BUF_ERROR || p.cancel then (p, wait_poll.null)
              else (p, wait_poll.again)).1 = p := by split <;> rfl
      rw [this]
      apply List.ext_getElem?
      intro j
      rw [List.getElem?_modify]
      by_cases hj : idx = j
      · subst hj; simp [hb, hs]
      · cases p.buffers[j]? <;> simp [hj]

theorem wait_poll_result (p : prefetcher) (idx : Nat) (wtd : Bool) :
    (prefetcher_wait_poll p idx wtd).2 =
      match p.buffers[idx]? with
      | none => wait_poll.null
      | some b =>
        if b.state = BUF_READY then wait_poll.got idx
        else if b.state = BUF_ERROR || p.cancel then wait_poll.null
        else wait_poll.again := by
  unfold prefetcher_wait_poll
  cases p.buffers[idx]? with
  | none => rfl
  | some b =>
    dsimp only
    split
    · rfl
    · split <;> rfl

@[simp] theorem pool_step_length (p : prefetcher) (ev : pool_event) :
    (pool_step p ev).buffers.length = p.buffers.length := by
  cases ev with
  | request l =>
    simp only [pool_step, request_buffers]
    cases find_empty p.buffers <;> simp
  | worker_done i r => simp [pool_step, worker_complete]
  | wait idx wtd => simp [pool_step, wait_poll_buffers]
  | release idx => simp [pool_step, prefetcher_release]

@[simp] theorem pool_run_length (p : prefetcher) (evs : List pool_event) :
    (pool_run p evs).buffers.length = p.buffers.length := by
  induction evs generalizing p with
  | nil => rfl
  | cons e es ih => simp [pool_run, List.foldl] at ih ⊢; rw [ih]; simp

theorem count_active_le (p : prefetcher) : count_active_buffers p ≤ p.buffers.length := by
  unfold count_active_buffers
  exact List.length_filter_le _ _

theorem pool_step_edges_wait (p : prefetcher) (idx : Nat) (waited : Bool) (k : Nat)
    (h : (prefetcher_wait_poll p idx waited).2 = wait_poll.got k) :
    k = idx ∧ ∃ b, p.buffers[idx]? = some b ∧ b.state = BUF_READY ∧
      (prefetcher_wait_poll p idx waited).1.buffers[idx]? = some (mark_in_use b) := by
  rw [wait_poll_result] at h
  cases hb : p.buffers[idx]? with
  | none => rw [hb] at h; simp at h
  | some b =>
    rw [hb] at h
    simp only at h
    by_cases hs : b.state = BUF_READY
    · rw [if_pos hs] at h
      refine ⟨by simpa using h.symm, b, rfl, hs, ?_⟩
      rw [wait_poll_buffers]
      simp [List.getElem?_modify, hb, hs]
    · rw [if_neg hs] at h
      split at h <;> simp at h

/-! ## Claims about the pool operations -/

/-- C4. prefetcher_request hands out a handle exactly when some buffer is EMPTY. In that
case the handle names the lowest-indexed EMPTY slot, that buffer becomes LOADING with the
requested layer id (its other fields kept) and every other buffer is unchanged; when no
buffer is EMPTY the result is NULL and the pool is unchanged. -/
theorem prefetcher_request_spec (p : prefetcher) (layer_id : Nat) :
    (((prefetcher_request p layer_id).2).isSome ↔ ∃ b ∈ p.buffers, b.state = BUF_EMPTY) ∧
    (∀ idx, (prefetcher_request p layer_id).2 = some { buf_index := idx } →
      (∃ b, p.buffers[idx]? = some b ∧ b.state = BUF_EMPTY ∧
        (prefetcher_request p layer_id).1.buffers[idx]? =
          some { b with layer_id := layer_id, state := BUF_LOADING }) ∧
      (∀ j, j < idx → ∀ b, p.buffers[j]? = some b → b.state ≠ BUF_EMPTY) ∧
      (∀ j, j ≠ idx → (prefetcher_request p layer_id).1.buffers[j]? = p.buffers[j]?) ∧
      (prefetcher_request p layer_id).1.buffers.length = p.buffers.length) ∧
    ((∀ b ∈ p.buffers, b.state ≠ BUF_EMPTY) → prefetcher_request p layer_id = (p, none)) := by
  refine ⟨?_, ?_, ?_⟩
  · rw [request_result, ← find_empty_isSome]
    cases find_empty p.buffers <;> simp
  · intro idx h
    rw [request_result] at h
    cases hfe : find_empty p.buffers with
    | none => rw [hfe] at h; simp at h
    | some k =>
      rw [hfe] at h
      have hk : k = idx := by simpa using h
      subst hk
      obtain ⟨⟨b, hb, hbe⟩, hlt⟩ := find_empty_some hfe
      rw [request_buffers, hfe]
      refine ⟨⟨b, hb, hbe, ?_⟩, hlt, ?_, ?_⟩
      · simp [List.getElem?_modify, hb, mark_loading]
      · intro j hj
        rw [List.getElem?_modify]
        cases p.buffers[j]? <;> simp [Ne.symm hj]
      · simp
  · intro h
    have hfe := find_empty_none.mpr h
    unfold prefetcher_request
    rw [hfe]

/-- The single steps of the pool, the load of a buffer taken as one step. A request, a
completed load and a wait change a buffer state only along one of the five edges, and a
wait hands out a buffer only by moving it from READY to IN_USE. A release does not look at
the state: it sets the buffer to EMPTY and clears layer id, size and view whatever the
state was, which is the edge IN_USE -> EMPTY when the buffer is IN_USE. -/
theorem pool_step_edges (p : prefetcher) :
    (∀ (ev : pool_event) (i : Nat) (b c : layer_buffer),
        (∀ idx, ev ≠ pool_event.release idx) →
        p.buffers[i]? = some b → (pool_step p ev).buffers[i]? = some c →
        c.state = b.state ∨ buffer_edge b.state c.state = true) ∧
    (∀ (idx : Nat) (waited : Bool) (k : Nat),
        (prefetcher_wait_poll p idx waited).2 = wait_poll.got k →
        k = idx ∧ ∃ b, p.buffers[idx]? = some b ∧ b.state = BUF_READY ∧
          (prefetcher_wait_poll p idx waited).1.buffers[idx]? =
            some { b with state := BUF_IN_USE }) ∧
    (∀ (idx : Nat) (b : layer_buffer), p.buffers[idx]? = some b →
        (prefetcher_release p idx).buffers[idx]? =
          some { b with state := BUF_EMPTY, layer_id := 0, size := 0,
                        view := layer_view.zero } ∧
        (b.state = BUF_IN_USE → buffer_edge b.state BUF_EMPTY = true) ∧
        ∀ j, j ≠ idx → (prefetcher_release p idx).buffers[j]? = p.buffers[j]?) := by
  refine ⟨?_, ?_, ?_⟩
  · intro ev i b c hne hb hc
    cases ev with
    | release idx => exact absurd rfl (hne idx)
    | request l =>
      simp only [pool_step, request_buffers] at hc
      cases hfe : find_empty p.buffers with
      | none => rw [hfe] at hc; simp only at hc; rw [hb] at hc; left; cases hc; rfl
      | some k =>
        rw [hfe] at hc
        simp only [List.getElem?_modify, hb, Option.map_eq_map, Option.map_some] at hc
        by_cases hki : k = i
        · subst hki
          obtain ⟨⟨b0, hb0, hbe⟩, _⟩ := find_empty_some hfe
          rw [hb] at hb0
          cases hb0
          simp only [if_true, Option.some.injEq] at hc
          subst hc
          right; simp [hbe, buffer_edge, mark_loading]
        · simp only [hki, if_false, Option.some.injEq] at hc
          subst hc; left; rfl
    | worker_done k r =>
      simp only [pool_step, worker_complete, List.getElem?_modify, hb, Option.map_eq_map,
        Option.map_some, Option.some.injEq] at hc
      by_cases hki : k = i
      · simp only [hki, if_true] at hc
        by_cases hl : b.state = BUF_LOADING
        · simp only [store_load, hl, if_true] at hc
          subst hc
          right
          cases r.ok <;> simp [hl, buffer_edge]
        · simp only [store_load, hl, if_false] at hc
          subst hc; left; rfl
      · simp only [hki, if_false] at hc
        subst hc; left; rfl
    | wait k wtd =>
      simp only [pool_step, wait_poll_buffers, List.getElem?_modify, hb, Option.map_eq_map,
        Option.map_some, Option.some.injEq] at hc
      by_cases hki : k = i
      · simp only [hki, if_true] at hc
        by_cases hl : b.state = BUF_READY
        · simp only [hl, if_true] at hc
          subst hc
          right; simp [hl, buffer_edge, mark_in_use]
        · simp only [hl, if_false] at hc
          subst hc; left; rfl
      · simp only [hki, if_false] at hc
        subst hc; left; rfl
  · intro idx waited k h
    rw [wait_poll_result] at h
    cases hb : p.buffers[idx]? with
    | none => rw [hb] at h; simp at h
    | some b =>
      rw [hb] at h
      simp only at h
      by_cases hs : b.state = BUF_READY
      · rw [if_pos hs] at h
        refine ⟨by simpa using h.symm, b, rfl, hs, ?_⟩
        rw [wait_poll_buffers]
        simp [List.getElem?_modify, hb, hs, mark_in_use]
      · rw [if_neg hs] at h
        split at h <;> simp at h
  · intro idx b hb
    refine ⟨?_, ?_, ?_⟩
    · simp [prefetcher_release, List.getElem?_modify, hb, clear_buffer]
    · intro h; simp [h, buffer_edge]
    · intro j hj
      simp only [prefetcher_release, List.getElem?_modify]
      cases p.buffers[j]? <;> simp [Ne.symm hj]

theorem record_concurrency_stats (p : prefetcher) (d : Nat) (hlen : p.buffers.length = d)
    (h : ∀ s, p.stats = some s → s.max_concurrent_buffers ≤ d) :
    ∀ s, (record_concurrency p).stats = some s → s.max_concurrent_buffers ≤ d := by
  intro s hs
  unfold record_concurrency at hs
  cases hst : p.stats with
  | none => rw [hst] at hs; simp only at hs; rw [hst] at hs; cases hs
  | some s0 =>
    rw [hst] at hs
    dsimp only at hs
    split at hs
    · cases hs
      simpa [hlen] using count_active_le p
    · rw [hst] at hs
      cases hs
      exact h _ hst

theorem pool_step_within (d : Nat) (p : prefetcher) (ev : pool_event)
    (h : within_depth d p) : within_depth d (pool_step p ev) := by
  obtain ⟨hlen, _, hst⟩ := h
  have hlen2 : (pool_step p ev).buffers.length = d := by simp [hlen]
  refine ⟨hlen2, hlen2 ▸ count_active_le _, ?_⟩
  cases ev with
  | request l =>
    simp only [pool_step]
    unfold prefetcher_request
    cases find_empty p.buffers with
    | none => exact hst
    | some k =>
      dsimp only
      exact record_concurrency_stats _ d (by simp [hlen]) hst
  | worker_done i r => exact hst
  | wait idx wtd =>
    simp only [pool_step]
    unfold prefetcher_wait_poll
    cases p.buffers[idx]? with
    | none => exact hst
    | some b =>
      dsimp only
      split
      · apply record_concurrency_stats _ d (by simp [hlen])
        intro s hs
        dsimp only at hs
        cases hp : p.stats with
        | none => rw [hp] at hs; simp at hs
        | some s0 =>
          rw [hp] at hs
          have h0 := hst s0 hp
          cases wtd <;> simp at hs <;> subst hs <;> exact h0
      · split <;> exact hst
  | release idx => exact hst

theorem pool_run_within (d : Nat) (evs : List pool_event) (p : prefetcher)
    (h : within_depth d p) : within_depth d (pool_run p evs) := by
  induction evs generalizing p with
  | nil => exact h
  | cons e es ih => exact ih _ (pool_step_within d p e h)

theorem prefetcher_create_some {cfg : prefetcher_config} {max_layer : Option Nat}
    {p : prefetcher} (h : prefetcher_create cfg max_layer = some p) :
    p.buffers.length = cfg.depth ∧
    ∀ s, p.stats = some s →
      ∃ s0, cfg.stats = some s0 ∧ s.max_concurrent_buffers = s0.max_concurrent_buffers := by
  unfold prefetcher_create at h
  split at h
  · cases h
  · dsimp only at h
    split at h
    · cases h
    · simp only [Option.some.injEq] at h
      subst h
      refine ⟨by simp, ?_⟩
      intro s hs
      dsimp only at hs
      cases hc : cfg.stats with
      | none => rw [hc] at hs; simp at hs
      | some s0 =>
        rw [hc] at hs
        simp only [Option.map_some', Option.some.injEq] at hs
        subst hs
        refine ⟨s0, rfl, ?_⟩
        split <;> split <;> rfl

/-- C6. A pool made by prefetcher_create with depth D (in particular 2 or 3), whose
statistics record starts with `max_concurrent_buffers <= D` (engine_open zeroes it), keeps
D buffers through every sequence of request, load completion, wait and release; at every
reachable state at most D buffers are LOADING or IN_USE and the recorded
`max_concurrent_buffers` is at most D. -/
theorem pool_concurrency_bounded (cfg : prefetcher_config) (max_layer : Option Nat)
    (p : prefetcher) (evs : List pool_event)
    (hcreate : prefetcher_create cfg max_layer = some p)
    (hstats : ∀ s, cfg.stats = some s → s.max_concurrent_buffers ≤ cfg.depth) :
    (pool_run p evs).buffers.length = cfg.depth ∧
    count_active_buffers (pool_run p evs) ≤ cfg.depth ∧
    ∀ s, (pool_run p evs).stats = some s → s.max_concurrent_buffers ≤ cfg.depth := by
  apply pool_run_within
  obtain ⟨hlen, hst⟩ := prefetcher_create_some hcreate
  refine ⟨hlen, hlen ▸ count_active_le p, ?_⟩
  intro s hs
  obtain ⟨s0, hs0, heq⟩ := hst s hs
  rw [heq]
  exact hstats s0 hs0

/-- C6 at depth 3: after request, request, load, wait, request the pool created by
engine_open still has three buffers, three of them active, and records at most 3. -/
theorem pool_concurrency_bounded_witness :
    (pool_run
        { buffers := List.replicate 3
            { state := BUF_EMPTY, layer_id := 0, size := 0, capacity := 64,
              view := layer_view.zero },
          cancel := false,
          stats := some { peak_buffer_usage := 192, max_layer_size := 64 } }
        [pool_event.request 0, pool_event.request 1,
         pool_event.worker_done 0 (load_always 0), pool_event.wait 0 false,
         pool_event.request 2]).buffers.length = 3 ∧
    count_active_buffers (pool_run
        { buffers := List.replicate 3
            { state := BUF_EMPTY, layer_id := 0, size := 0, capacity := 64,
              view := layer_view.zero },
          cancel := false,
          stats := some { peak_buffer_usage := 192, max_layer_size := 64 } }
        [pool_event.request 0, pool_event.request 1,
         pool_event.worker_done 0 (load_always 0), pool_event.wait 0 false,
         pool_event.request 2]) ≤ 3 ∧
    ∀ s, (pool_run
        { buffers := List.replicate 3
            { state := BUF_EMPTY, layer_id := 0, size := 0, capacity := 64,
              view := layer_view.zero },
          cancel := false,
          stats := some { peak_buffer_usage := 192, max_layer_size := 64 } }
        [pool_event.request 0, pool_event.request 1,
         pool_event.worker_done 0 (load_always 0), pool_event.wait 0 false,
         pool_event.request 2]).stats = some s → s.max_concurrent_buffers ≤ 3 :=
  pool_concurrency_bounded
    { depth := 3, has_model := true, buffer_size := 0, stats := some {} } (some 64) _
    [pool_event.request 0, pool_event.request 1,
     pool_event.worker_done 0 (load_always 0), pool_event.wait 0 false,
     pool_event.request 2]
    (by decide) (by decide)

/-! ## The sweep: how the pool evolves -/

theorem modify_of_none {α : Type} (f : α → α) (l : List α) (i : Nat) (h : l[i]? = none) :
    l.modify f i = l := by
  apply List.ext_getElem?
  intro j
  rw [List.getElem?_modify]
  by_cases hj : i = j
  · subst hj; simp [h]
  · cases l[j]? <;> simp [hj]

theorem getElem?_modify_some {α : Type} (f : α → α) (l : List α) (i j : Nat) (b : α)
    (h : l[i]? = some b) :
    (l.modify f i)[j]? = if i = j then some (f b) else l[j]? := by
  rw [List.getElem?_modify]
  by_cases hj : i = j
  · subst hj; simp [h]
  · cases l[j]? <;> simp [hj]

theorem countP_modify {α : Type} (q : α → Bool) (f : α → α) (l : List α) (i : Nat) (b : α)
    (h : l[i]? = some b) :
    (l.modify f i).countP q + (if q b then 1 else 0) =
      l.countP q + (if q (f b) then 1 else 0) := by
  induction l generalizing i with
  | nil => simp at h
  | cons a as ih =>
    cases i with
    | zero =>
      have : a = b := by simpa using h
      subst this
      simp only [List.modify_zero_cons, List.countP_cons]
      omega
    | succ i =>
      have h2 : as[i]? = some b := by simpa using h
      have := ih i h2
      simp only [List.modify_succ_cons, List.countP_cons]
      omega

theorem stable_refl (w : engine_world) : stable w w :=
  ⟨rfl, rfl, rfl, fun _ _ h => h, fun _ h => h, fun _ _ h => h, fun _ h => h⟩

theorem stable_trans {a b c : engine_world} (h1 : stable a b) (h2 : stable b c) :
    stable a c :=
  ⟨h2.len.trans h1.len, h2.cancel.trans h1.cancel, h2.log.trans h1.log,
   fun s l h => h2.pend s l (h1.pend s l h), fun s h => h2.idl s (h1.idl s h),
   fun s l h => h2.inuse s l (h1.inuse s l h), fun c h => h2.loads c (h1.loads c h)⟩

theorem worker_step_stable (env : sweep_env) (hok : ∀ l, (env.load l).ok = true)
    (w : engine_world) (i : Nat) : stable w (worker_step env w i) := by
  unfold worker_step
  cases hb : w.p.buffers[i]? with
  | none => exact stable_refl w
  | some b =>
    dsimp only
    by_cases hl : b.state = BUF_LOADING
    · rw [if_pos hl]
      have hsl : store_load (env.load b.layer_id) b =
          { b with view := (env.load b.layer_id).view, size := (env.load b.layer_id).used,
                   state := BUF_READY } := by
        simp [store_load, hl, hok]
      have hget : ∀ j, (worker_complete w.p i (env.load b.layer_id)).buffers[j]? =
          if i = j then some (store_load (env.load b.layer_id) b)
          else w.p.buffers[j]? := by
        intro j
        exact getElem?_modify_some _ _ _ _ _ hb
      refine ⟨by simp [worker_complete], rfl, rfl, ?_, ?_, ?_, ?_⟩
      · rintro s l ⟨b0, hb0, hl0, hs0⟩
        by_cases hj : i = s
        · subst hj
          rw [hb] at hb0; cases hb0
          refine ⟨_, by rw [hget, if_pos rfl], ?_, Or.inr ?_⟩
          · rw [hsl]; exact hl0
          · rw [hsl]
        · exact ⟨b0, by rw [hget, if_neg hj]; exact hb0, hl0, hs0⟩
      · intro s hs c hc
        rw [hget] at hc
        by_cases hj : i = s
        · subst hj
          have := hs b hb
          rw [hl] at this; cases this
        · rw [if_neg hj] at hc
          exact hs c hc
      · rintro s l ⟨b0, hb0, hl0, hs0⟩
        by_cases hj : i = s
        · subst hj
          rw [hb] at hb0; cases hb0
          rw [hl] at hs0; cases hs0
        · exact ⟨b0, by rw [hget, if_neg hj]; exact hb0, hl0, hs0⟩
      · intro c hc
        unfold loads_inv at hc ⊢
        have hcnt := countP_modify is_ready (store_load (env.load b.layer_id))
          w.p.buffers i b hb
        have h1 : is_ready b = false := by simp [is_ready, hl]
        have h2 : is_ready (store_load (env.load b.layer_id) b) = true := by
          rw [hsl]; simp [is_ready]
        rw [h1, h2] at hcnt
        simp only [if_true, Bool.false_eq_true, if_false, Nat.add_zero] at hcnt
        have hr : ready_count (worker_complete w.p i (env.load b.layer_id)) =
            ready_count w.p + 1 := hcnt
        simp only [hok, if_true, hr, hc]
        omega
    · rw [if_neg hl]
      exact stable_refl w

theorem worker_steps_stable (env : sweep_env) (hok : ∀ l, (env.load l).ok = true)
    (is : List Nat) (w : engine_world) : stable w (is.foldl (worker_step env) w) := by
  induction is generalizing w with
  | nil => exact stable_refl w
  | cons i rest ih =>
    exact stable_trans (worker_step_stable env hok w i) (ih _)

theorem tick_stable (env : sweep_env) (hok : ∀ l, (env.load l).ok = true)
    (w : engine_world) : stable w (tick env w) := by
  unfold tick
  cases hs : w.sched with
  | nil => exact stable_refl w
  | cons a rest =>
    dsimp only
    have h0 : stable w { w with sched := rest } :=
      ⟨rfl, rfl, rfl, fun _ _ h => h, fun _ h => h, fun _ _ h => h, fun _ h => h⟩
    exact stable_trans h0 (worker_steps_stable env hok a _)

theorem modify_frame (f : layer_buffer → layer_buffer) (s : Nat) (w w1 : engine_world)
    (hb : w1.p.buffers = w.p.buffers.modify f s) (hc : w1.p.cancel = w.p.cancel)
    (hl : w1.log = w.log) : frame s w w1 := by
  have hget : ∀ t, t ≠ s → w1.p.buffers[t]? = w.p.buffers[t]? := by
    intro t ht
    rw [hb, List.getElem?_modify]
    cases w.p.buffers[t]? <;> simp [Ne.symm ht]
  refine ⟨by rw [hb]; simp, hc, hl, ?_, ?_⟩
  · rintro t l ht ⟨b, hb0, h1, h2⟩
    exact ⟨b, by rw [hget t ht]; exact hb0, h1, h2⟩
  · intro t ht h b hb0
    exact h b (by rw [← hget t ht]; exact hb0)

theorem stable_frame {s : Nat} {a b c : engine_world} (h1 : stable a b) (h2 : frame s b c) :
    frame s a c :=
  ⟨h2.len.trans h1.len, h2.cancel.trans h1.cancel, h2.log.trans h1.log,
   fun t l ht h => h2.pend t l ht (h1.pend t l h), fun t ht h => h2.idl t ht (h1.idl t h)⟩

theorem do_request_spec (env : sweep_env) (hok : ∀ l, (env.load l).ok = true)
    (w : engine_world) (l : Nat) (hex : ∃ j, j < w.p.buffers.length ∧ idle w.p j) :
    ∃ s, (do_request env w l).2 = some { buf_index := s } ∧
      pending (do_request env w l).1.p s l ∧
      frame s w (do_request env w l).1 ∧
      (∀ t l0, pending w.p t l0 → t ≠ s) ∧
      (∀ c, loads_inv c w → loads_inv c (do_request env w l).1) := by
  have hst := tick_stable env hok w
  obtain ⟨j, hj, hidle⟩ := hex
  have hj1 : j < (tick env w).p.buffers.length := by rw [hst.len]; exact hj
  have hidle1 := hst.idl j hidle
  have hbj : (tick env w).p.buffers[j]? = some ((tick env w).p.buffers[j]) :=
    List.getElem?_eq_getElem hj1
  have hne : find_empty (tick env w).p.buffers ≠ none := by
    intro hnone
    exact find_empty_none.mp hnone _ (List.getElem_mem hj1) (hidle1 _ hbj)
  obtain ⟨s, hs⟩ := Option.ne_none_iff_exists'.mp hne
  obtain ⟨⟨b, hb, hbe⟩, _⟩ := find_empty_some hs
  have hbuf : (do_request env w l).1.p.buffers =
      (tick env w).p.buffers.modify (mark_loading l) s := by
    simp only [do_request, request_buffers, hs]
  have hfr : frame s (tick env w) (do_request env w l).1 :=
    modify_frame _ s _ _ hbuf (by simp [do_request]) rfl
  refine ⟨s, ?_, ?_, stable_frame hst hfr, ?_, ?_⟩
  · simp only [do_request, request_result, hs, Option.map_some']
  · refine ⟨mark_loading l b, ?_, rfl, Or.inl rfl⟩
    rw [hbuf, getElem?_modify_some _ _ _ _ _ hb, if_pos rfl]
  · rintro t l0 hp rfl
    obtain ⟨b0, hb0, _, h0⟩ := hst.pend _ _ hp
    rw [hb] at hb0; cases hb0
    rw [hbe] at h0
    rcases h0 with h0 | h0 <;> cases h0
  · intro c hc
    have hc1 := hst.loads c hc
    unfold loads_inv at hc1 ⊢
    have hcnt := countP_modify is_ready (mark_loading l) (tick env w).p.buffers s b hb
    have h1 : is_ready b = false := by simp [is_ready, hbe]
    have h2 : is_ready (mark_loading l b) = false := by simp [is_ready, mark_loading]
    rw [h1, h2] at hcnt
    simp only [Bool.false_eq_true, if_false, Nat.add_zero] at hcnt
    have hr : ready_count (do_request env w l).1.p = ready_count (tick env w).p := by
      unfold ready_count; rw [hbuf]; exact hcnt
    rw [hr]
    exact hc1

theorem worker_step_loading (env : sweep_env) (hok : ∀ l, (env.load l).ok = true)
    (w : engine_world) (i : Nat) (b : layer_buffer) (hb : w.p.buffers[i]? = some b)
    (hl : b.state = BUF_LOADING) :
    ∃ c, (worker_step env w i).p.buffers[i]? = some c ∧ c.state = BUF_READY ∧
      c.layer_id = b.layer_id := by
  refine ⟨store_load (env.load b.layer_id) b, ?_, ?_, ?_⟩
  · simp only [worker_step, hb, hl, if_true, worker_complete]
    rw [getElem?_modify_some _ _ _ _ _ hb, if_pos rfl]
  · simp [store_load, hl, hok]
  · simp [store_load, hl]

theorem poll_ready (w : engine_world) (s : Nat) (wtd : Bool) (b : layer_buffer)
    (hb : w.p.buffers[s]? = some b) (hr : b.state = BUF_READY) :
    (prefetcher_wait_poll w.p s wtd).2 = wait_poll.got s ∧
    (prefetcher_wait_poll w.p s wtd).1.buffers = w.p.buffers.modify mark_in_use s ∧
    (prefetcher_wait_poll w.p s wtd).1.cancel = w.p.cancel := by
  refine ⟨?_, ?_, wait_poll_cancel _ _ _⟩
  · rw [wait_poll_result, hb]; simp [hr]
  · rw [wait_poll_buffers]
    apply List.ext_getElem?
    intro j
    rw [getElem?_modify_some _ _ _ _ _ hb, getElem?_modify_some _ _ _ _ _ hb]
    simp [hr]

theorem take_ready (w w1 : engine_world) (s l : Nat) (b : layer_buffer)
    (hb : w.p.buffers[s]? = some b) (hr : b.state = BUF_READY) (hl : b.layer_id = l)
    (hbuf : w1.p.buffers = w.p.buffers.modify mark_in_use s)
    (hc : w1.p.cancel = w.p.cancel) (hlog : w1.log = w.log)
    (hll : w1.layer_loads = w.layer_loads) :
    in_use w1.p s l ∧ frame s w w1 ∧ (∀ c, loads_inv c w → loads_inv (c + 1) w1) := by
  have hget : w1.p.buffers[s]? = some (mark_in_use b) := by
    rw [hbuf, getElem?_modify_some _ _ _ _ _ hb, if_pos rfl]
  refine ⟨⟨mark_in_use b, hget, hl, rfl⟩, modify_frame _ s _ _ hbuf hc hlog, ?_⟩
  intro c hinv
  unfold loads_inv at hinv ⊢
  have hcnt := countP_modify is_ready mark_in_use w.p.buffers s b hb
  have h1 : is_ready b = true := by simp [is_ready, hr]
  have h2 : is_ready (mark_in_use b) = false := by simp [is_ready, mark_in_use]
  rw [h1, h2] at hcnt
  simp only [if_true, Bool.false_eq_true, if_false, Nat.add_zero] at hcnt
  have hr2 : ready_count w1.p + 1 = ready_count w.p := by
    unfold ready_count; rw [hbuf]; exact hcnt
  rw [hll, hinv, ← hr2]
  congr 1
  omega

theorem do_wait_spec (env : sweep_env) (hok : ∀ l, (env.load l).ok = true)
    (w : engine_world) (s l : Nat) (hp : pending w.p s l) (hcancel : w.p.cancel = false) :
    (do_wait env w (some { buf_index := s })).2 = wait_outcome.buf s ∧
    in_use (do_wait env w (some { buf_index := s })).1.p s l ∧
    frame s w (do_wait env w (some { buf_index := s })).1 ∧
    (∀ c, loads_inv c w → loads_inv (c + 1) (do_wait env w (some { buf_index := s })).1) := by
  have hst := tick_stable env hok w
  obtain ⟨b, hb, hbl, hbs⟩ := hst.pend _ _ hp
  have hc1 : (tick env w).p.cancel = false := by rw [hst.cancel]; exact hcancel
  rcases hbs with hload | hready
  · -- the buffer is still LOADING at the first inspection
    have hpoll1 : (prefetcher_wait_poll (tick env w).p s false).2 = wait_poll.again := by
      rw [wait_poll_result, hb]; simp [hload, hc1]
    have hst2 := worker_step_stable env hok (tick env w) s
    obtain ⟨c2, hc2, hc2r, hc2l⟩ := worker_step_loading env hok (tick env w) s b hb hload
    obtain ⟨hres, hbuf, hcan⟩ := poll_ready (worker_step env (tick env w) s) s true c2 hc2 hc2r
    have hdw : do_wait env w (some { buf_index := s }) =
        ({ worker_step env (tick env w) s with
            p := (prefetcher_wait_poll (worker_step env (tick env w) s).p s true).1 },
          wait_outcome.buf s) := by
      simp only [do_wait]
      generalize hq1 : prefetcher_wait_poll (tick env w).p s false = q1 at hpoll1
      obtain ⟨q1p, q1r⟩ := q1
      simp only at hpoll1
      subst hpoll1
      simp only
      generalize hq2 : prefetcher_wait_poll (worker_step env (tick env w) s).p s true = q2
        at hres
      obtain ⟨q2p, q2r⟩ := q2
      simp only at hres
      subst hres
      rfl
    rw [hdw]
    obtain ⟨h1, h2, h3⟩ := take_ready (worker_step env (tick env w) s)
      { worker_step env (tick env w) s with
          p := (prefetcher_wait_poll (worker_step env (tick env w) s).p s true).1 }
      s l c2 hc2 hc2r (hc2l.trans hbl) hbuf hcan rfl rfl
    exact ⟨rfl, h1, stable_frame (stable_trans hst hst2) h2,
      fun c hc => h3 c (hst2.loads c (hst.loads c hc))⟩
  · -- the buffer is READY at the first inspection
    obtain ⟨hres, hbuf, hcan⟩ := poll_ready (tick env w) s false b hb hready
    have hdw : do_wait env w (some { buf_index := s }) =
        ({ tick env w with p := (prefetcher_wait_poll (tick env w).p s false).1 },
          wait_outcome.buf s) := by
      simp only [do_wait]
      generalize hq1 : prefetcher_wait_poll (tick env w).p s false = q1 at hres
      obtain ⟨q1p, q1r⟩ := q1
      simp only at hres
      subst hres
      rfl
    rw [hdw]
    obtain ⟨h1, h2, h3⟩ := take_ready (tick env w)
      { tick env w with p := (prefetcher_wait_poll (tick env w).p s false).1 }
      s l b hb hready hbl hbuf hcan rfl rfl
    exact ⟨rfl, h1, stable_frame hst h2, fun c hc => h3 c (hst.loads c hc)⟩

theorem do_release_spec (w : engine_world) (s l : Nat) (hu : in_use w.p s l) :
    idle (do_release w s).p s ∧ frame s w (do_release w s) ∧
    (∀ c, loads_inv c w → loads_inv c (do_release w s)) := by
  obtain ⟨b, hb, _, hbs⟩ := hu
  have hbuf : (do_release w s).p.buffers = w.p.buffers.modify clear_buffer s := rfl
  refine ⟨?_, modify_frame _ s _ _ hbuf rfl rfl, ?_⟩
  · intro c hc
    rw [hbuf, getElem?_modify_some _ _ _ _ _ hb, if_pos rfl] at hc
    cases hc
    rfl
  · intro c hc
    unfold loads_inv at hc ⊢
    have hcnt := countP_modify is_ready clear_buffer w.p.buffers s b hb
    have h1 : is_ready b = false := by simp [is_ready, hbs]
    have h2 : is_ready (clear_buffer b) = false := by simp [is_ready, clear_buffer]
    rw [h1, h2] at hcnt
    simp only [Bool.false_eq_true, if_false, Nat.add_zero] at hcnt
    have hr : ready_count (do_release w s).p = ready_count w.p := by
      unfold ready_count; rw [hbuf]; exact hcnt
    rw [hr]
    exact hc

theorem expected_log_succ (pos l fuel : Nat) :
    expected_log pos l (fuel + 1) =
      [sweep_event.wait l l, sweep_event.forward l l pos, sweep_event.release l l] ++
        expected_log pos (l + 1) fuel := by
  simp [expected_log, List.range'_succ, List.flatMap]

theorem pending_layer_unique {p : prefetcher} {s l1 l2 : Nat} (h1 : pending p s l1)
    (h2 : pending p s l2) : l1 = l2 := by
  obtain ⟨b1, hb1, e1, _⟩ := h1
  obtain ⟨b2, hb2, e2, _⟩ := h2
  rw [hb1] at hb2
  cases hb2
  exact e1.symm.trans e2

theorem pending_not_idle {p : prefetcher} {s l : Nat} (h1 : pending p s l) (h2 : idle p s) :
    False := by
  obtain ⟨b, hb, _, hs⟩ := h1
  have := h2 b hb
  rw [this] at hs
  rcases hs with h | h <;> cases h

theorem req_for_frame {s : Nat} {w w1 : engine_world} {req : Option prefetch_request}
    {lay n : Nat} (hf : frame s w w1) (h : req_for w.p req lay n)
    (hne : ∀ t, req = some { buf_index := t } → t ≠ s) : req_for w1.p req lay n := by
  unfold req_for at h ⊢
  split
  · rename_i hlt
    rw [if_pos hlt] at h
    obtain ⟨t, ht, hp⟩ := h
    exact ⟨t, ht, hf.pend t lay (hne t ht) hp⟩
  · rename_i hlt
    rw [if_neg hlt] at h
    exact h

/-- The look-ahead request of lines 360-364 keeps the handles of the current and the next
layer and adds the one for layer `l + 2` when that layer exists. -/
theorem ahead_spec (env : sweep_env) (hok : ∀ l, (env.load l).ok = true)
    (n l : Nat) (hl : l < n) (hn : n + 1 < 2 ^ 32)
    (req0 req1 : Option prefetch_request) (w : engine_world) (c : Nat)
    (hlen : min n 3 ≤ w.p.buffers.length)
    (h0 : req_for w.p req0 l n) (h1 : req_for w.p req1 (l + 1) n)
    (hoth : others_idle w.p [req0, req1]) (hinv : loads_inv c w) :
    ∃ wa next_req,
      (if (l + 2) % 2 ^ 32 < n then do_request env w ((l + 2) % 2 ^ 32) else (w, none))
        = (wa, next_req) ∧
      req_for wa.p req0 l n ∧ req_for wa.p req1 (l + 1) n ∧
      req_for wa.p next_req (l + 2) n ∧ others_idle wa.p [req0, req1, next_req] ∧
      loads_inv c wa ∧ wa.p.buffers.length = w.p.buffers.length ∧
      wa.p.cancel = w.p.cancel ∧ wa.log = w.log := by
  have hmod : (l + 2) % 2 ^ 32 = l + 2 := Nat.mod_eq_of_lt (by omega)
  rw [hmod]
  by_cases hlt : l + 2 < n
  · rw [if_pos hlt]
    have h0c := h0
    have h1c := h1
    unfold req_for at h0c h1c
    rw [if_pos hl] at h0c
    rw [if_pos (by omega : l + 1 < n)] at h1c
    obtain ⟨s0, hr0, hp0⟩ := h0c
    obtain ⟨s1, hr1, hp1⟩ := h1c
    have hex : ∃ j, j < w.p.buffers.length ∧ idle w.p j := by
      have key : ∃ j, j < 3 ∧ j ≠ s0 ∧ j ≠ s1 := by
        by_cases a0 : s0 = 0 ∨ s1 = 0
        · by_cases a1 : s0 = 1 ∨ s1 = 1
          · exact ⟨2, by omega, by omega, by omega⟩
          · exact ⟨1, by omega, by omega, by omega⟩
        · exact ⟨0, by omega, by omega, by omega⟩
      obtain ⟨j, hj, hj0, hj1⟩ := key
      have hlen3 : 3 ≤ w.p.buffers.length := by omega
      refine ⟨j, by omega, hoth j ?_⟩
      intro r hr
      simp only [List.mem_cons, List.mem_singleton, List.not_mem_nil, or_false] at hr
      rcases hr with rfl | rfl
      · rw [hr0]; intro h; cases h; exact hj0 rfl
      · rw [hr1]; intro h; cases h; exact hj1 rfl
    obtain ⟨s2, hres, hp2, hfr, hne, hld⟩ := do_request_spec env hok w (l + 2) hex
    refine ⟨(do_request env w (l + 2)).1, some { buf_index := s2 }, ?_, ?_, ?_, ?_, ?_,
      hld c hinv, hfr.len, hfr.cancel, hfr.log⟩
    · exact Prod.ext rfl hres
    · exact req_for_frame hfr h0 (fun t ht => by
        rw [hr0] at ht; cases ht; exact hne _ _ hp0)
    · exact req_for_frame hfr h1 (fun t ht => by
        rw [hr1] at ht; cases ht; exact hne _ _ hp1)
    · unfold req_for
      rw [if_pos hlt]
      exact ⟨s2, rfl, hp2⟩
    · intro t ht
      have ht2 : t ≠ s2 := by
        intro h
        exact ht (some { buf_index := s2 }) (by simp) (by rw [h])
      apply hfr.idl t ht2
      apply hoth t
      intro r hr
      exact ht r (by
        simp only [List.mem_cons, List.mem_singleton, List.not_mem_nil, or_false] at hr ⊢
        rcases hr with h | h
        · exact Or.inl h
        · exact Or.inr (Or.inl h))
  · rw [if_neg hlt]
    refine ⟨w, none, rfl, h0, h1, ?_, ?_, hinv, rfl, rfl, rfl⟩
    · unfold req_for; rw [if_neg hlt]
    · intro t ht
      apply hoth t
      intro r hr
      exact ht r (by
        simp only [List.mem_cons, List.mem_singleton, List.not_mem_nil, or_false] at hr ⊢
        rcases hr with h | h
        · exact Or.inl h
        · exact Or.inr (Or.inl h))

theorem sweep_loop_step (env : sweep_env) (n pos fuel l : Nat)
    (req0 req1 next_req : Option prefetch_request) (w wa w2 : engine_world) (idx : Nat)
    (b : layer_buffer)
    (ha : (if (l + 2) % 2 ^ 32 < n then do_request env w ((l + 2) % 2 ^ 32) else (w, none))
        = (wa, next_req))
    (hw : do_wait env wa req0 = (w2, wait_outcome.buf idx))
    (hb : w2.p.buffers[idx]? = some b)
    (hf : env.forward b.view l pos = true)
    (hc : ¬ (l + 1 < n ∧ req1 = none)) :
    sweep_loop env n pos (fuel + 1) l req0 req1 w =
      sweep_loop env n pos fuel (l + 1) req1 next_req
        (note (do_release (note (note w2 (sweep_event.wait l b.layer_id))
          (sweep_event.forward l b.layer_id pos)) idx) (sweep_event.release l b.layer_id)) := by
  rw [sweep_loop]
  simp only [ha, hw]
  have hb2 : w2.p.buffers[idx]? = some b := hb
  simp only [hb2, hf, if_true, hc, if_false]

/-- The loop of the sweep, from an index where the handles for the current and the next
layer are pending and every other slot is EMPTY, runs to the end when every load and
every forward pass succeeds. -/
theorem sweep_loop_ok (env : sweep_env) (hok : ∀ l, (env.load l).ok = true)
    (hfwd : ∀ v l pos, env.forward v l pos = true) (n pos : Nat) (hn : n + 1 < 2 ^ 32) :
    ∀ (fuel l : Nat) (req0 req1 : Option prefetch_request) (w : engine_world) (c : Nat),
      l + fuel = n → min n 3 ≤ w.p.buffers.length → w.p.cancel = false →
      req_for w.p req0 l n → req_for w.p req1 (l + 1) n →
      others_idle w.p [req0, req1] → loads_inv c w →
      (sweep_loop env n pos fuel l req0 req1 w).1 = run_status.ok ∧
      (∀ t, idle (sweep_loop env n pos fuel l req0 req1 w).2.p t) ∧
      (sweep_loop env n pos fuel l req0 req1 w).2.p.buffers.length = w.p.buffers.length ∧
      (sweep_loop env n pos fuel l req0 req1 w).2.p.cancel = false ∧
      loads_inv (c + fuel) (sweep_loop env n pos fuel l req0 req1 w).2 ∧
      (sweep_loop env n pos fuel l req0 req1 w).2.log = w.log ++ expected_log pos l fuel := by
  intro fuel
  induction fuel with
  | zero =>
    intro l req0 req1 w c hl hlen hcan h0 h1 hoth hinv
    have hln : ¬ l < n := by omega
    have hln1 : ¬ l + 1 < n := by omega
    unfold req_for at h0 h1
    rw [if_neg hln] at h0
    rw [if_neg hln1] at h1
    subst h0 h1
    refine ⟨rfl, ?_, rfl, hcan, hinv, ?_⟩
    · intro t
      apply hoth t
      intro r hr
      simp only [List.mem_cons, List.mem_singleton, List.not_mem_nil, or_false, or_self] at hr
      subst hr
      simp
    · simp [sweep_loop, expected_log]
  | succ fuel ih =>
    intro l req0 req1 w c hl hlen hcan h0 h1 hoth hinv
    have hln : l < n := by omega
    obtain ⟨wa, next_req, ha, ha0, ha1, ha2, haoth, hainv, halen, hacan, halog⟩ :=
      ahead_spec env hok n l hln hn req0 req1 w c hlen h0 h1 hoth hinv
    have ha0c := ha0
    unfold req_for at ha0c
    rw [if_pos hln] at ha0c
    obtain ⟨s0, hr0, hp0⟩ := ha0c
    subst hr0
    obtain ⟨hwres, hwuse, hwfr, hwld⟩ :=
      do_wait_spec env hok wa s0 l hp0 (by rw [hacan]; exact hcan)
    obtain ⟨b, hb, hbl, hbs⟩ := hwuse
    have hwpair : do_wait env wa (some { buf_index := s0 }) =
        ((do_wait env wa (some { buf_index := s0 })).1, wait_outcome.buf s0) :=
      Prod.ext rfl hwres
    have hcond : ¬ (l + 1 < n ∧ req1 = none) := by
      rintro ⟨hlt, hnone⟩
      unfold req_for at ha1
      rw [if_pos hlt] at ha1
      obtain ⟨s1, hs1, _⟩ := ha1
      rw [hnone] at hs1
      cases hs1
    rw [sweep_loop_step env n pos fuel l _ req1 next_req w wa _ s0 b ha hwpair hb
      (hfwd _ _ _) hcond]
    rw [hbl]
    -- the world after the release
    generalize hw2 : (do_wait env wa (some { buf_index := s0 })).1 = w2 at hwfr hwld hb
    have hrel := do_release_spec
      (note (note w2 (sweep_event.wait l l)) (sweep_event.forward l l pos)) s0 l
      ⟨b, hb, hbl, hbs⟩
    obtain ⟨hridle, hrfr, hrld⟩ := hrel
    generalize hw5 : note (do_release (note (note w2 (sweep_event.wait l l))
      (sweep_event.forward l l pos)) s0) (sweep_event.release l l) = w5
    have hp5 : w5.p = (do_release (note (note w2 (sweep_event.wait l l))
      (sweep_event.forward l l pos)) s0).p := by rw [← hw5]; rfl
    have hlog5 : w5.log = w.log ++
        [sweep_event.wait l l, sweep_event.forward l l pos, sweep_event.release l l] := by
      rw [← hw5]
      simp only [note, do_release]
      rw [hwfr.log, halog]
      simp
    have hne : ∀ (req : Option prefetch_request) (lay : Nat), lay ≠ l →
        req_for wa.p req lay n → ∀ t, req = some { buf_index := t } → t ≠ s0 := by
      intro req lay hlay hreq t ht hts
      subst hts
      unfold req_for at hreq
      split at hreq
      · obtain ⟨t2, ht2, hpt2⟩ := hreq
        rw [ht] at ht2
        cases ht2
        exact hlay (pending_layer_unique hpt2 hp0)
      · rw [ht] at hreq; cases hreq
    have h1ne := hne req1 (l + 1) (by omega) ha1
    have h2ne := hne next_req (l + 2) (by omega) ha2
    have hr1 : req_for w5.p req1 (l + 1) n := by
      rw [hp5]
      have h : req_for w2.p req1 (l + 1) n := req_for_frame hwfr ha1 h1ne
      exact req_for_frame hrfr h h1ne
    have hr2 : req_for w5.p next_req (l + 1 + 1) n := by
      rw [hp5]
      have h : req_for w2.p next_req (l + 2) n := req_for_frame hwfr ha2 h2ne
      exact req_for_frame hrfr h h2ne
    have hoth5 : others_idle w5.p [req1, next_req] := by
      intro t ht
      by_cases hts : t = s0
      · subst hts
        rw [hp5]
        exact hridle
      · rw [hp5]
        apply hrfr.idl t hts
        show idle w2.p t
        apply hwfr.idl t hts
        apply haoth t
        intro r hr
        simp only [List.mem_cons, List.mem_singleton, List.not_mem_nil, or_false] at hr
        rcases hr with rfl | hr
        · intro h; cases h; exact hts rfl
        · exact ht r (by
            simp only [List.mem_cons, List.mem_singleton, List.not_mem_nil, or_false]
            exact hr)
    have hinv5 : loads_inv (c + 1) w5 := by
      have := hrld (c + 1) (by
        have h := hwld c hainv
        unfold loads_inv at h ⊢
        exact h)
      unfold loads_inv at this ⊢
      rw [← hw5]
      exact this
    have hlen5 : w5.p.buffers.length = w.p.buffers.length := by
      rw [hp5, hrfr.len]
      exact hwfr.len.trans halen
    have hcan5 : w5.p.cancel = false := by
      rw [hp5, hrfr.cancel]
      exact (hwfr.cancel.trans hacan).trans hcan
    obtain ⟨e1, e2, e3, e4, e5, e6⟩ :=
      ih (l + 1) req1 next_req w5 (c + 1) (by omega) (by rw [hlen5]; exact hlen) hcan5
        hr1 hr2 hoth5 hinv5
    refine ⟨e1, e2, ?_, e4, ?_, ?_⟩
    · rw [e3, hlen5]
    · have : c + 1 + fuel = c + (fuel + 1) := by omega
      rw [← this]; exact e5
    · rw [e6, hlog5, expected_log_succ]
      simp

theorem ready_count_idle (p : prefetcher) (h : ∀ t, idle p t) : ready_count p = 0 := by
  unfold ready_count
  rw [List.countP_eq_zero]
  intro b hb
  obtain ⟨i, hi, rfl⟩ := List.getElem_of_mem hb
  have := h i _ (List.getElem?_eq_getElem hi)
  simp [is_ready, this]

/-- One sweep over `n` layers from a pool at rest, every load and forward pass succeeding:
it returns 0, leaves the pool at rest, counts `n` loads and records wait, forward and
release for the layers 0, 1, ..., n-1 in that order. -/
theorem layer_sweep_ok (env : sweep_env) (hok : ∀ l, (env.load l).ok = true)
    (hfwd : ∀ v l pos, env.forward v l pos = true) (n pos : Nat) (h1 : 1 ≤ n)
    (hn : n + 1 < 2 ^ 32) (w : engine_world) (c : Nat) (hrest : at_rest n w)
    (hinv : loads_inv c w) :
    (layer_sweep env n pos w).1 = run_status.ok ∧
    at_rest n (layer_sweep env n pos w).2 ∧
    (layer_sweep env n pos w).2.p.buffers.length = w.p.buffers.length ∧
    loads_inv (c + n) (layer_sweep env n pos w).2 ∧
    (layer_sweep env n pos w).2.log = w.log ++ expected_log pos 0 n := by
  obtain ⟨hlen, hcan, hidle⟩ := hrest
  obtain ⟨s0, hres0, hp0, hfr0, _, hld0⟩ :=
    do_request_spec env hok w 0 ⟨0, by omega, hidle 0⟩
  generalize hw0 : (do_request env w 0).1 = w0 at hp0 hfr0 hld0
  -- the second request
  have hsecond : ∃ w1 req1,
      (if n > 1 then do_request env w0 1 else (w0, none)) = (w1, req1) ∧
      req_for w1.p (some { buf_index := s0 }) 0 n ∧ req_for w1.p req1 (0 + 1) n ∧
      others_idle w1.p [some { buf_index := s0 }, req1] ∧ loads_inv c w1 ∧
      w1.p.buffers.length = w.p.buffers.length ∧ w1.p.cancel = false ∧ w1.log = w.log := by
    by_cases hgt : n > 1
    · rw [if_pos hgt]
      have hex : ∃ j, j < w0.p.buffers.length ∧ idle w0.p j := by
        have key : ∃ j, j < 2 ∧ j ≠ s0 := by
          by_cases a0 : s0 = 0
          · exact ⟨1, by omega, by omega⟩
          · exact ⟨0, by omega, by omega⟩
        obtain ⟨j, hj, hjs⟩ := key
        exact ⟨j, by rw [hfr0.len]; omega, hfr0.idl j hjs (hidle j)⟩
      obtain ⟨s1, hres1, hp1, hfr1, hne1, hld1⟩ := do_request_spec env hok w0 1 hex
      refine ⟨(do_request env w0 1).1, some { buf_index := s1 }, Prod.ext rfl hres1,
        ?_, ?_, ?_, hld1 c (hld0 c hinv), hfr1.len.trans hfr0.len,
        (hfr1.cancel.trans hfr0.cancel).trans hcan, hfr1.log.trans hfr0.log⟩
      · unfold req_for
        rw [if_pos (by omega)]
        exact ⟨s0, rfl, hfr1.pend s0 0 (hne1 s0 0 hp0) hp0⟩
      · unfold req_for
        rw [if_pos (by omega)]
        exact ⟨s1, rfl, hp1⟩
      · intro t ht
        have ht0 : t ≠ s0 := fun h => ht (some { buf_index := s0 }) (by simp) (by rw [h])
        have ht1 : t ≠ s1 := fun h => ht (some { buf_index := s1 }) (by simp) (by rw [h])
        exact hfr1.idl t ht1 (hfr0.idl t ht0 (hidle t))
    · rw [if_neg hgt]
      refine ⟨w0, none, rfl, ?_, ?_, ?_, hld0 c hinv, hfr0.len, hfr0.cancel.trans hcan,
        hfr0.log⟩
      · unfold req_for
        rw [if_pos (by omega)]
        exact ⟨s0, rfl, hp0⟩
      · unfold req_for
        rw [if_neg (by omega)]
      · intro t ht
        have ht0 : t ≠ s0 := fun h => ht (some { buf_index := s0 }) (by simp) (by rw [h])
        exact hfr0.idl t ht0 (hidle t)
  obtain ⟨w1, req1, hr1, hq0, hq1, hoth, hinv1, hlen1, hcan1, hlog1⟩ := hsecond
  have hsweep : layer_sweep env n pos w =
      sweep_loop env n pos n 0 (some { buf_index := s0 }) req1 w1 := by
    unfold layer_sweep
    simp only [hw0, hres0, hr1]
    simp
  rw [hsweep]
  obtain ⟨e1, e2, e3, e4, e5, e6⟩ :=
    sweep_loop_ok env hok hfwd n pos hn n 0 (some { buf_index := s0 }) req1 w1 c
      (by omega) (by rw [hlen1]; exact hlen) hcan1 hq0 hq1 hoth hinv1
  exact ⟨e1, ⟨by rw [e3, hlen1]; exact hlen, e4, e2⟩, by rw [e3, hlen1], e5,
    by rw [e6, hlog1]⟩

theorem prefill_ok (env : generate_env) (hok : ∀ l, (env.load l).ok = true)
    (hfwd : ∀ v l pos, env.forward v l pos = true) (hembed : ∀ t, env.embed t = true)
    (n : Nat) (h1 : 1 ≤ n) (hn : n + 1 < 2 ^ 32) :
    ∀ (toks : List Nat) (pos : Nat) (w : engine_world) (c : Nat),
      at_rest n w → loads_inv c w →
      (prefill env n toks pos w).1 = run_status.ok ∧
      at_rest n (prefill env n toks pos w).2.2 ∧
      loads_inv (c + n * toks.length) (prefill env n toks pos w).2.2 := by
  intro toks
  induction toks with
  | nil => intro pos w c hr hi; exact ⟨rfl, hr, by simpa using hi⟩
  | cons tok rest ih =>
    intro pos w c hr hi
    obtain ⟨e1, e2, _, e4, _⟩ := layer_sweep_ok env.tosweep_env hok hfwd n pos h1 hn w c hr hi
    have hstep : prefill env n (tok :: rest) pos w =
        prefill env n rest ((pos + 1) % 2 ^ 32) (layer_sweep env.tosweep_env n pos w).2 := by
      rw [prefill]
      simp only [hembed, if_true]
      generalize layer_sweep env.tosweep_env n pos w = r at e1
      obtain ⟨st, w1⟩ := r
      simp only at e1
      subst e1
      rfl
    rw [hstep]
    obtain ⟨f1, f2, f3⟩ := ih ((pos + 1) % 2 ^ 32) _ (c + n) e2 e4
    refine ⟨f1, f2, ?_⟩
    have : c + n * (tok :: rest).length = c + n + n * rest.length := by
      simp only [List.length_cons]; ring
    rw [this]; exact f3

theorem decode_ok (env : generate_env) (hok : ∀ l, (env.load l).ok = true)
    (hfwd : ∀ v l pos, env.forward v l pos = true) (hembed : ∀ t, env.embed t = true)
    (hlm : ∀ t, (env.lm_head t).isSome = true)
    (n : Nat) (h1 : 1 ≤ n) (hn : n + 1 < 2 ^ 32) :
    ∀ (fuel t pos : Nat) (w : engine_world) (c : Nat),
      at_rest n w → loads_inv c w →
      (decode env n fuel t pos w).1 = run_status.ok ∧
      at_rest n (decode env n fuel t pos w).2 ∧
      loads_inv (c + n * fuel) (decode env n fuel t pos w).2 := by
  intro fuel
  induction fuel with
  | zero => intro t pos w c hr hi; exact ⟨rfl, hr, by simpa using hi⟩
  | succ fuel ih =>
    intro t pos w c hr hi
    obtain ⟨e1, e2, _, e4, _⟩ := layer_sweep_ok env.tosweep_env hok hfwd n pos h1 hn w c hr hi
    obtain ⟨next, hnext⟩ := Option.isSome_iff_exists.mp (hlm t)
    have hstep : decode env n (fuel + 1) t pos w =
        decode env n fuel (t + 1) ((pos + 1) % 2 ^ 32)
          (layer_sweep env.tosweep_env n pos w).2 := by
      rw [decode]
      simp only [hnext, hembed, if_true]
      generalize layer_sweep env.tosweep_env n pos w = r at e1
      obtain ⟨st, w1⟩ := r
      simp only at e1
      subst e1
      rfl
    rw [hstep]
    obtain ⟨f1, f2, f3⟩ := ih (t + 1) ((pos + 1) % 2 ^ 32) _ (c + n) e2 e4
    refine ⟨f1, f2, ?_⟩
    have : c + n * (fuel + 1) = c + n + n * fuel := by ring
    rw [this]; exact f3

/-! ## The sweep under arbitrary load and forward results -/

theorem modify_no_in_use (f : layer_buffer → layer_buffer) (bs : List layer_buffer) (i : Nat)
    (hf : ∀ b, b.state ≠ BUF_IN_USE → (f b).state ≠ BUF_IN_USE)
    (h : ∀ (j : Nat) (b : layer_buffer), bs[j]? = some b → b.state ≠ BUF_IN_USE) :
    ∀ (j : Nat) (b : layer_buffer), (bs.modify f i)[j]? = some b →
      b.state ≠ BUF_IN_USE := by
  intro j b hb
  rw [List.getElem?_modify] at hb
  cases hj : bs[j]? with
  | none => rw [hj] at hb; simp at hb
  | some c =>
    rw [hj] at hb
    simp only [Option.map_eq_map, Option.map_some', Option.some.injEq] at hb
    subst hb
    split
    · exact hf c (h j c hj)
    · exact h j c hj

theorem worker_step_no_in_use (env : sweep_env) (w : engine_world) (i : Nat)
    (h : no_in_use w.p) : no_in_use (worker_step env w i).p := by
  unfold worker_step
  cases hb : w.p.buffers[i]? with
  | none => exact h
  | some b =>
    dsimp only
    split
    · apply modify_no_in_use _ _ _ _ h
      intro c hc
      unfold store_load
      split
      · dsimp only; split <;> simp
      · exact hc
    · exact h

theorem tick_no_in_use (env : sweep_env) (w : engine_world) (h : no_in_use w.p) :
    no_in_use (tick env w).p := by
  unfold tick
  cases w.sched with
  | nil => exact h
  | cons a rest =>
    dsimp only
    have key : ∀ (is : List Nat) (v : engine_world), no_in_use v.p →
        no_in_use (is.foldl (worker_step env) v).p := by
      intro is
      induction is with
      | nil => intro v hv; exact hv
      | cons i r ih => intro v hv; exact ih _ (worker_step_no_in_use env v i hv)
    exact key a _ h

theorem do_request_no_in_use (env : sweep_env) (w : engine_world) (l : Nat)
    (h : no_in_use w.p) : no_in_use (do_request env w l).1.p := by
  have h1 := tick_no_in_use env w h
  unfold no_in_use
  simp only [do_request, request_buffers]
  cases find_empty (tick env w).p.buffers with
  | none => exact h1
  | some k =>
    apply modify_no_in_use _ _ _ _ h1
    intro b _
    simp [mark_loading]

theorem poll_in_use (p : prefetcher) (idx : Nat) (wtd : Bool) (h : no_in_use p) :
    (∀ k, (prefetcher_wait_poll p idx wtd).2 = wait_poll.got k →
      k = idx ∧ only_in_use (prefetcher_wait_poll p idx wtd).1 idx) ∧
    ((∀ k, (prefetcher_wait_poll p idx wtd).2 ≠ wait_poll.got k) →
      no_in_use (prefetcher_wait_poll p idx wtd).1) := by
  constructor
  · intro k hk
    rw [wait_poll_result] at hk
    refine ⟨?_, ?_⟩
    · cases hb : p.buffers[idx]? with
      | none => rw [hb] at hk; cases hk
      | some b =>
        rw [hb] at hk
        dsimp only at hk
        split at hk
        · cases hk; rfl
        · split at hk <;> cases hk
    · intro j b hb hs
      rw [wait_poll_buffers, List.getElem?_modify] at hb
      by_contra hne
      cases hj : p.buffers[j]? with
      | none => rw [hj] at hb; simp at hb
      | some c =>
        rw [hj] at hb
        simp only [Option.map_eq_map, Option.map_some', Option.some.injEq,
          if_neg (Ne.symm hne)] at hb
        subst hb
        exact h j c hj hs
  · intro hk
    rw [wait_poll_result] at hk
    intro j b hb
    rw [wait_poll_buffers, List.getElem?_modify] at hb
    cases hj : p.buffers[j]? with
    | none => rw [hj] at hb; simp at hb
    | some c =>
      rw [hj] at hb
      simp only [Option.map_eq_map, Option.map_some', Option.some.injEq] at hb
      subst hb
      split
      · rename_i hij
        subst hij
        rw [hj] at hk
        dsimp only at hk
        split
        · rename_i hr
          rw [if_pos hr] at hk
          exact absurd rfl (hk idx)
        · exact h idx c hj
      · exact h j c hj

theorem do_wait_in_use (env : sweep_env) (w : engine_world) (req : Option prefetch_request)
    (h : no_in_use w.p) :
    (∀ k, (do_wait env w req).2 = wait_outcome.buf k →
      only_in_use (do_wait env w req).1.p k ∧
      ∃ b, (do_wait env w req).1.p.buffers[k]? = some b) ∧
    ((∀ k, (do_wait env w req).2 ≠ wait_outcome.buf k) →
      no_in_use (do_wait env w req).1.p) := by
  cases req with
  | none =>
    exact ⟨fun k hk => (by simp [do_wait] at hk), fun _ => h⟩
  | some r =>
    have h1 := tick_no_in_use env w h
    have hp1 := poll_in_use (tick env w).p r.buf_index false h1
    have h2 := worker_step_no_in_use env (tick env w) r.buf_index h1
    have hp2 := poll_in_use (worker_step env (tick env w) r.buf_index).p r.buf_index true h2
    have hsome : ∀ (p : prefetcher) (wtd : Bool) (k : Nat),
        (prefetcher_wait_poll p r.buf_index wtd).2 = wait_poll.got k →
        ∃ b, (prefetcher_wait_poll p r.buf_index wtd).1.buffers[k]? = some b := by
      intro p wtd k hk
      obtain ⟨hki, b, hb, _, hres⟩ := (pool_step_edges_wait p r.buf_index wtd k hk)
      subst hki
      exact ⟨_, hres⟩
    simp only [do_wait]
    generalize hq1 : prefetcher_wait_poll (tick env w).p r.buf_index false = q1 at hp1
    have hs1 := hsome (tick env w).p false
    rw [hq1] at hs1
    obtain ⟨p1, r1⟩ := q1
    cases r1 with
    | got i =>
      dsimp only at hp1 hs1 ⊢
      refine ⟨fun k hk => ?_, fun hk => absurd rfl (hk i)⟩
      cases hk
      exact ⟨((hp1.1 _ rfl).1) ▸ (hp1.1 _ rfl).2, hs1 _ rfl⟩
    | null =>
      dsimp only at hp1 ⊢
      exact ⟨fun k hk => (by cases hk), fun _ => hp1.2 (fun k hk => by cases hk)⟩
    | again =>
      dsimp only at hp1 ⊢
      generalize hq2 :
        prefetcher_wait_poll (worker_step env (tick env w) r.buf_index).p r.buf_index true
          = q2 at hp2
      have hs2 := hsome (worker_step env (tick env w) r.buf_index).p true
      rw [hq2] at hs2
      obtain ⟨p2, r2⟩ := q2
      cases r2 with
      | got i =>
        dsimp only at hp2 hs2 ⊢
        refine ⟨fun k hk => ?_, fun hk => absurd rfl (hk i)⟩
        cases hk
        exact ⟨((hp2.1 _ rfl).1) ▸ (hp2.1 _ rfl).2, hs2 _ rfl⟩
      | null =>
        dsimp only at hp2 ⊢
        exact ⟨fun k hk => (by cases hk), fun _ => hp2.2 (fun k hk => by cases hk)⟩
      | again =>
        dsimp only
        exact ⟨fun k hk => (by cases hk), fun _ => h2⟩

theorem do_release_no_in_use (w : engine_world) (s : Nat) (h : only_in_use w.p s) :
    no_in_use (do_release w s).p := by
  intro j b hb hs
  simp only [do_release, prefetcher_release, List.getElem?_modify] at hb
  cases hj : w.p.buffers[j]? with
  | none => rw [hj] at hb; simp at hb
  | some c =>
    rw [hj] at hb
    simp only [Option.map_eq_map, Option.map_some', Option.some.injEq] at hb
    subst hb
    by_cases hsj : s = j
    · simp [hsj, clear_buffer] at hs
    · simp only [hsj, if_false] at hs
      exact hsj (h j c hj hs).symm

theorem sweep_loop_no_in_use (env : sweep_env) (n pos : Nat) :
    ∀ (fuel l : Nat) (req0 req1 : Option prefetch_request) (w : engine_world),
      no_in_use w.p → no_in_use (sweep_loop env n pos fuel l req0 req1 w).2.p := by
  intro fuel
  induction fuel with
  | zero => intro l req0 req1 w h; exact h
  | succ fuel ih =>
    intro l req0 req1 w h
    rw [sweep_loop]
    have ha : no_in_use
        (if (l + 2) % 2 ^ 32 < n then do_request env w ((l + 2) % 2 ^ 32) else (w, none)).1.p := by
      split
      · exact do_request_no_in_use env w _ h
      · exact h
    generalize (if (l + 2) % 2 ^ 32 < n then do_request env w ((l + 2) % 2 ^ 32)
      else (w, none)) = a at ha
    dsimp only
    have hw := do_wait_in_use env a.1 req0 ha
    generalize do_wait env a.1 req0 = d at hw
    obtain ⟨w2, o⟩ := d
    cases o with
    | hang => exact hw.2 (fun k hk => by cases hk)
    | null => exact hw.2 (fun k hk => by cases hk)
    | buf idx =>
      dsimp only at hw ⊢
      obtain ⟨honly, b, hb⟩ := hw.1 idx rfl
      rw [hb]
      dsimp only
      have hrel : no_in_use (note (do_release (note (note w2 (sweep_event.wait l b.layer_id))
          (sweep_event.forward l b.layer_id pos)) idx)
            (sweep_event.release l b.layer_id)).p :=
        do_release_no_in_use _ idx honly
      split
      · split
        · exact hrel
        · exact ih _ _ _ _ hrel
      · exact hrel

/-! ## Claims about the sweep and about engine_generate -/

/-- C1, failing input. With the pool depth 2 that engine_open picks when the configured
depth is 0 (and that the header documents as supported) and three layers, every load and
every forward pass succeeding, the sweep processes layers 0 and 1 and then returns -1:
the look-ahead request for layer 2 is issued while both buffers are still busy, so it
yields NULL and nothing is ever requested for layer 2. This holds whether the worker
only loads when the compute thread blocks or loads eagerly. -/
theorem sweep_depth_two_three_layers :
    (engine_open_world 0 64 []).map
        (fun w => ((layer_sweep env_all_ok 3 0 w).1, (layer_sweep env_all_ok 3 0 w).2.log,
          (layer_sweep env_all_ok 3 0 w).2.layer_loads)) =
      some (run_status.fail,
        [sweep_event.wait 0 0, sweep_event.forward 0 0 0, sweep_event.release 0 0,
         sweep_event.wait 1 1, sweep_event.forward 1 1 0, sweep_event.release 1 1], 2) ∧
    (engine_open_world 2 64 [[0], [1], [0, 1], [0, 1], [0, 1], [0, 1], [0, 1]]).map
        (fun w => ((layer_sweep env_all_ok 3 0 w).1, (layer_sweep env_all_ok 3 0 w).2.log,
          (layer_sweep env_all_ok 3 0 w).2.layer_loads)) =
      some (run_status.fail,
        [sweep_event.wait 0 0, sweep_event.forward 0 0 0, sweep_event.release 0 0,
         sweep_event.wait 1 1, sweep_event.forward 1 1 0, sweep_event.release 1 1], 2) := by
  constructor <;> rfl

/-- C2 fails as stated: with depth 3, one layer and an empty tokenizer output (P = 0),
generate(1) succeeds and counts 2 loads, not 1 * (0 + 1): the empty prompt is replaced by
the single token 1, which is processed like a prompt token. -/
theorem generate_empty_prompt_loads :
    (engine_open_world 3 64 []).map
        (fun w => ((engine_generate (genv_all_ok []) 1 w 1).1,
          (engine_generate (genv_all_ok []) 1 w 1).2.layer_loads)) =
      some (run_status.ok, 2) ∧
    (2 : Nat) ≠ 1 * (([] : List Nat).length + 1) := by
  constructor
  · rfl
  · decide

/-- C2, as the code has it. With a pool of depth 3 (or of depth 2 when there are at most
two layers) at rest (all buffers EMPTY, as after engine_open or after a successful
generate), L layers, a tokenizer output of P tokens and T >= 1, a generate(T) in which
every load, forward pass, embedding and LM-head product succeeds returns 0 and adds
exactly L * (max(P, 1) + T) to `layer_loads` (modulo 2^64): L loads per processed token,
an empty prompt being processed as one token. -/
theorem generate_layer_loads (env : generate_env) (L T : Nat) (toks : List Nat)
    (w : engine_world)
    (hload : ∀ l, (env.load l).ok = true)
    (hfwd : ∀ v l pos, env.forward v l pos = true)
    (hembed : ∀ t, env.embed t = true)
    (hlm : ∀ t, (env.lm_head t).isSome = true)
    (hvocab : env.n_vocab ≠ 0) (htok : env.tokenize = some toks)
    (hL : 1 ≤ L) (hL2 : L + 1 < 2 ^ 32) (hT : 1 ≤ T)
    (hdepth : w.p.buffers.length = 3 ∨ (w.p.buffers.length = 2 ∧ L ≤ 2))
    (hempty : ∀ b ∈ w.p.buffers, b.state = BUF_EMPTY)
    (hcancel : w.p.cancel = false) (hcount : w.layer_loads < 2 ^ 64) :
    (engine_generate env L w T).1 = run_status.ok ∧
    (engine_generate env L w T).2.layer_loads =
      (w.layer_loads + L * (max toks.length 1 + T)) % 2 ^ 64 ∧
    (∀ b ∈ (engine_generate env L w T).2.p.buffers, b.state = BUF_EMPTY) := by
  have hrest : at_rest L w := by
    refine ⟨by omega, hcancel, ?_⟩
    intro t b hb
    exact hempty b (List.getElem?_mem hb)
  have hinv : loads_inv w.layer_loads w := by
    unfold loads_inv
    rw [ready_count_idle _ hrest.2.2, Nat.add_zero, Nat.mod_eq_of_lt hcount]
  obtain ⟨p1, p2, p3⟩ := prefill_ok env hload hfwd hembed L hL hL2 (prompt_tokens toks) 0 w
    w.layer_loads hrest hinv
  generalize hpre : prefill env L (prompt_tokens toks) 0 w = pre at p1 p2 p3
  obtain ⟨st, pos, w1⟩ := pre
  dsimp only at p1 p2 p3
  subst p1
  obtain ⟨d1, d2, d3⟩ := decode_ok env hload hfwd hembed hlm L hL hL2 T 0 pos w1 _ p2 p3
  have hgen : engine_generate env L w T = decode env L T 0 pos w1 := by
    unfold engine_generate
    rw [if_neg (by omega), if_neg hvocab, htok]
    simp only [hpre]
  rw [hgen]
  refine ⟨d1, ?_, ?_⟩
  · unfold loads_inv at d3
    rw [d3, ready_count_idle _ d2.2.2, Nat.add_zero]
    have hlen : (prompt_tokens toks).length = max toks.length 1 := by
      unfold prompt_tokens
      split
      · rename_i h; simp [h]
      · rename_i h
        have : 1 ≤ toks.length := Nat.one_le_iff_ne_zero.mpr h
        simp [Nat.max_eq_left this]
    rw [hlen]
    congr 1
    ring
  · intro b hb
    obtain ⟨i, hi, rfl⟩ := List.getElem_of_mem hb
    exact d2.2.2 i _ (List.getElem?_eq_getElem hi)

/-- C2 at depth 3, four layers, a prompt of two tokens and three generated tokens:
20 loads. -/
theorem generate_layer_loads_witness :
    (engine_generate (genv_all_ok [5, 6]) 4 world_depth_three 3).1 = run_status.ok ∧
    (engine_generate (genv_all_ok [5, 6]) 4 world_depth_three 3).2.layer_loads =
      (0 + 4 * (max 2 1 + 3)) % 2 ^ 64 ∧
    (∀ b ∈ (engine_generate (genv_all_ok [5, 6]) 4 world_depth_three 3).2.p.buffers,
      b.state = BUF_EMPTY) :=
  generate_layer_loads (genv_all_ok [5, 6]) 4 3 [5, 6] world_depth_three
    (fun _ => rfl) (fun _ _ _ => rfl) (fun _ => rfl) (fun _ => rfl)
    (by decide) rfl (by decide) (by decide) (by decide) (Or.inl rfl) (by decide) rfl
    (by decide)

/-- C3: a sweep that fails does not release the buffers that it has requested ahead. With
depth 3 and two layers, when the forward pass of layer 0 fails the sweep returns -1 and
the buffer requested for layer 1 is still LOADING; when the load of layer 0 fails the wait
returns NULL, the sweep returns -1, the buffer of layer 0 stays in ERROR and the one
requested for layer 1 is still LOADING (READY if the worker got to it). -/
theorem sweep_failure_leaves_requests :
    (engine_open_world 3 64 []).map
        (fun w => ((layer_sweep env_forward_fails 2 0 w).1,
          pool_states (layer_sweep env_forward_fails 2 0 w).2)) =
      some (run_status.fail, [BUF_EMPTY, BUF_LOADING, BUF_EMPTY]) ∧
    (engine_open_world 3 64 []).map
        (fun w => ((layer_sweep env_load_fails 2 0 w).1,
          pool_states (layer_sweep env_load_fails 2 0 w).2)) =
      some (run_status.fail, [BUF_ERROR, BUF_LOADING, BUF_EMPTY]) ∧
    (engine_open_world 3 64 [[], [], [0, 1]]).map
        (fun w => ((layer_sweep env_load_fails 2 0 w).1,
          pool_states (layer_sweep env_load_fails 2 0 w).2)) =
      some (run_status.fail, [BUF_ERROR, BUF_READY, BUF_EMPTY]) := by
  refine ⟨?_, ?_, ?_⟩ <;> rfl

/-- Whatever the loads and the forward passes do and however the
worker is scheduled, a sweep that starts with no buffer IN_USE leaves no buffer IN_USE,
in particular when it returns -1 because a wait or a forward pass failed: the buffer a
wait handed out is released before the return. Buffers requested ahead are not released
(they stay LOADING, READY or ERROR). -/
theorem sweep_failure_releases_held (env : sweep_env) (n_layers pos : Nat)
    (w : engine_world)
    (hstart : ∀ b ∈ w.p.buffers, b.state ≠ BUF_IN_USE) :
    ∀ b ∈ (layer_sweep env n_layers pos w).2.p.buffers, b.state ≠ BUF_IN_USE := by
  have h0 : no_in_use w.p := fun j b hb => hstart b (List.getElem?_mem hb)
  have h1 := do_request_no_in_use env w 0 h0
  have h2 : no_in_use
      (if n_layers > 1 then do_request env (do_request env w 0).1 1
        else ((do_request env w 0).1, none)).1.p := by
    split
    · exact do_request_no_in_use env _ 1 h1
    · exact h1
  have key : no_in_use (layer_sweep env n_layers pos w).2.p := by
    unfold layer_sweep
    dsimp only
    split
    · exact h2
    · exact sweep_loop_no_in_use env n_layers pos _ _ _ _ _ h2
  intro b hb
  obtain ⟨i, hi, rfl⟩ := List.getElem_of_mem hb
  exact key i _ (List.getElem?_eq_getElem hi)

/-- On the failing forward pass of layer 0 with depth 3 and two layers the sweep
returns -1 and no buffer is IN_USE. -/
theorem sweep_failure_releases_held_witness :
    (layer_sweep env_forward_fails 2 0 world_depth_three).1 = run_status.fail ∧
    ∀ b ∈ (layer_sweep env_forward_fails 2 0 world_depth_three).2.p.buffers,
      b.state ≠ BUF_IN_USE :=
  ⟨rfl, sweep_failure_releases_held env_forward_fails 2 0 world_depth_three (by decide)⟩

/-! ## The KV cache: the loops in closed form -/

/-- A loop `for t < m: if c t then a[p + t] = h t` over a list, cell by cell. -/
theorem foldl_cond_set {α : Type} (c : Nat → Bool) (h : Nat → α) (p : Nat) :
    ∀ (m : Nat) (a : List α),
      ((List.range m).foldl (fun acc t => if c t then acc.set (p + t) (h t) else acc) a).length
        = a.length ∧
      ∀ j, ((List.range m).foldl
          (fun acc t => if c t then acc.set (p + t) (h t) else acc) a)[j]? =
        if p ≤ j ∧ j < p + m ∧ c (j - p) = true ∧ j < a.length then some (h (j - p))
        else a[j]? := by
  intro m
  induction m with
  | zero =>
    intro a
    refine ⟨rfl, fun j => ?_⟩
    have : ¬ (p ≤ j ∧ j < p + 0 ∧ c (j - p) = true ∧ j < a.length) := by omega
    simp only [List.range_zero, List.foldl_nil, if_neg this]
  | succ m ih =>
    intro a
    obtain ⟨hlen, hget⟩ := ih a
    simp only [List.range_succ, List.foldl_append, List.foldl_cons, List.foldl_nil]
    generalize hr : (List.range m).foldl
      (fun acc t => if c t then acc.set (p + t) (h t) else acc) a = r at hlen hget
    by_cases hc : c m = true
    · rw [if_pos hc]
      refine ⟨by simp [hlen], fun j => ?_⟩
      rw [List.getElem?_set]
      by_cases hj : p + m = j
      · subst hj
        rw [if_pos rfl, hlen]
        have e : p + m - p = m := by omega
        by_cases hin : p + m < a.length
        · rw [if_pos hin, if_pos ⟨by omega, by omega, by rw [e]; exact hc, hin⟩, e]
        · rw [if_neg hin, if_neg (by omega)]
          exact (List.getElem?_eq_none (by omega)).symm
      · rw [if_neg hj, hget j]
        by_cases hcond : p ≤ j ∧ j < p + m ∧ c (j - p) = true ∧ j < a.length
        · rw [if_pos hcond, if_pos ⟨hcond.1, by omega, hcond.2.2⟩]
        · rw [if_neg hcond, if_neg]
          rintro ⟨h1, h2, h3⟩
          exact hcond ⟨h1, by omega, h3⟩
    · rw [if_neg hc]
      refine ⟨hlen, fun j => ?_⟩
      rw [hget j]
      by_cases hcond : p ≤ j ∧ j < p + m ∧ c (j - p) = true ∧ j < a.length
      · rw [if_pos hcond, if_pos ⟨hcond.1, by omega, hcond.2.2⟩]
      · rw [if_neg hcond, if_neg]
        rintro ⟨h1, h2, h3, h4⟩
        by_cases hjm : j = p + m
        · subst hjm
          have e : p + m - p = m := by omega
          rw [e] at h3
          exact hc h3
        · exact hcond ⟨h1, by omega, h3, h4⟩

theorem q8_quantize_vec_spec (x : List ℚ) (n : Nat) (dst : List q8_block) (off : Nat)
    (hn : n + 31 < 2 ^ 32) :
    (q8_quantize_vec x n dst off).length = dst.length ∧
    ∀ j, (q8_quantize_vec x n dst off)[j]? =
      if off ≤ j ∧ j < off + (n + 31) / 32 ∧ j < dst.length then
        some (q8_quantize_block x n ((j - off) * 32))
      else dst[j]? := by
  have hfun : q8_quantize_vec x n dst off =
      (List.range ((n + 31) / 32)).foldl
        (fun acc t => if (fun _ => true) t then
          acc.set (off + t) ((fun b => q8_quantize_block x n (b * 32 % 2 ^ 32)) t) else acc)
        dst := by
    unfold q8_quantize_vec
    rw [Nat.mod_eq_of_lt hn]
    simp
  obtain ⟨hlen, hget⟩ := foldl_cond_set (fun _ => true)
    (fun b => q8_quantize_block x n (b * 32 % 2 ^ 32)) off ((n + 31) / 32) dst
  rw [hfun]
  refine ⟨hlen, fun j => ?_⟩
  rw [hget j]
  by_cases hc : off ≤ j ∧ j < off + (n + 31) / 32 ∧ j < dst.length
  · rw [if_pos ⟨hc.1, hc.2.1, rfl, hc.2.2⟩, if_pos hc]
    have : (j - off) * 32 % 2 ^ 32 = (j - off) * 32 := Nat.mod_eq_of_lt (by omega)
    simp only [this]
  · rw [if_neg hc, if_neg]
    rintro ⟨h1, h2, _, h4⟩
    exact hc ⟨h1, h2, h4⟩

theorem q8_dequantize_upto_spec (src : List q8_block) (off n : Nat) (dst : List ℚ) (o : Nat) :
    ∀ m, m * 32 < 2 ^ 32 →
      (q8_dequantize_upto src off n dst o m).length = dst.length ∧
      ∀ j, (q8_dequantize_upto src off n dst o m)[j]? =
        if o ≤ j ∧ j - o < n ∧ j - o < m * 32 ∧ j < dst.length then
          some (q8_value (src.getD (off + (j - o) / 32) q8_block.zero) ((j - o) % 32))
        else dst[j]? := by
  intro m
  induction m with
  | zero =>
    intro _
    refine ⟨rfl, fun j => ?_⟩
    rw [if_neg (by omega)]
    rfl
  | succ m ih =>
    intro hm
    obtain ⟨hlen, hget⟩ := ih (by omega)
    have hmod : m * 32 % 2 ^ 32 = m * 32 := Nat.mod_eq_of_lt (by omega)
    have hstep : q8_dequantize_upto src off n dst o (m + 1) =
        (List.range 32).foldl
          (fun acc t => if (fun i => decide (m * 32 + i < n)) t then
            acc.set (o + m * 32 + t) ((fun i => q8_value (src.getD (off + m) q8_block.zero) i) t)
            else acc)
          (q8_dequantize_upto src off n dst o m) := by
      unfold q8_dequantize_upto
      simp only [List.range_succ, List.foldl_append, List.foldl_cons, List.foldl_nil, hmod,
        decide_eq_true_eq, Nat.add_assoc]
    obtain ⟨ilen, iget⟩ := foldl_cond_set (fun i => decide (m * 32 + i < n))
      (fun i => q8_value (src.getD (off + m) q8_block.zero) i) (o + m * 32) 32
      (q8_dequantize_upto src off n dst o m)
    rw [hstep]
    refine ⟨ilen.trans hlen, fun j => ?_⟩
    rw [iget j, hget j, hlen]
    simp only [decide_eq_true_eq]
    by_cases hnew : o + m * 32 ≤ j ∧ j < o + m * 32 + 32 ∧ m * 32 + (j - (o + m * 32)) < n ∧
        j < dst.length
    · rw [if_pos hnew, if_pos ⟨by omega, by omega, by omega, hnew.2.2.2⟩]
      have e1 : (j - o) / 32 = m := by omega
      have e2 : (j - o) % 32 = j - (o + m * 32) := by omega
      rw [e1, e2]
    · rw [if_neg hnew]
      by_cases hold : o ≤ j ∧ j - o < n ∧ j - o < m * 32 ∧ j < dst.length
      · rw [if_pos hold, if_pos ⟨hold.1, hold.2.1, by omega, hold.2.2.2⟩]
      · rw [if_neg hold, if_neg]
        rintro ⟨h1, h2, h3, h4⟩
        by_cases hlt : j - o < m * 32
        · exact hold ⟨h1, h2, hlt, h4⟩
        · exact hnew ⟨by omega, by omega, by omega, h4⟩

theorem q8_dequantize_vec_spec (src : List q8_block) (off n : Nat) (dst : List ℚ) (o : Nat)
    (hn : n + 31 < 2 ^ 32) :
    (q8_dequantize_vec src off n dst o).length = dst.length ∧
    ∀ j, (q8_dequantize_vec src off n dst o)[j]? =
      if o ≤ j ∧ j - o < n ∧ j < dst.length then
        some (q8_value (src.getD (off + (j - o) / 32) q8_block.zero) ((j - o) % 32))
      else dst[j]? := by
  have heq : q8_dequantize_vec src off n dst o =
      q8_dequantize_upto src off n dst o ((n + 31) / 32) := by
    unfold q8_dequantize_vec q8_dequantize_upto
    rw [Nat.mod_eq_of_lt hn]
  obtain ⟨hlen, hget⟩ := q8_dequantize_upto_spec src off n dst o ((n + 31) / 32) (by omega)
  rw [heq]
  refine ⟨hlen, fun j => ?_⟩
  rw [hget j]
  by_cases hc : o ≤ j ∧ j - o < n ∧ j < dst.length
  · rw [if_pos hc, if_pos ⟨hc.1, hc.2.1, by omega, hc.2.2⟩]
  · rw [if_neg hc, if_neg]
    rintro ⟨h1, h2, _, h4⟩
    exact hc ⟨h1, h2, h4⟩

/-- The output of q8_dequantize_vec depends only on the blocks it reads. -/
theorem q8_dequantize_vec_congr (src1 src2 : List q8_block) (off1 off2 n : Nat)
    (dst : List ℚ) (o : Nat) (hn : n + 31 < 2 ^ 32)
    (h : ∀ b, b < (n + 31) / 32 →
      src1.getD (off1 + b) q8_block.zero = src2.getD (off2 + b) q8_block.zero) :
    q8_dequantize_vec src1 off1 n dst o = q8_dequantize_vec src2 off2 n dst o := by
  apply List.ext_getElem?
  intro j
  rw [(q8_dequantize_vec_spec src1 off1 n dst o hn).2 j,
    (q8_dequantize_vec_spec src2 off2 n dst o hn).2 j]
  by_cases hc : o ≤ j ∧ j - o < n ∧ j < dst.length
  · rw [if_pos hc, if_pos hc, h ((j - o) / 32) (by omega)]
  · rw [if_neg hc, if_neg hc]

/-! ## The KV cache: layout -/

theorem kv_cache_create_wf (cfg : kv_cache_config) (c : kv_cache)
    (h : kv_cache_create cfg = some c) (hfit : kv_cfg_fits cfg) :
    kv_wf c ∧ c.cfg = cfg ∧ c.vec_dim = cfg.n_kv_heads * cfg.head_dim := by
  obtain ⟨f1, f2, f3, f4⟩ := hfit
  unfold kv_cache_create at h
  split at h
  · cases h
  · rename_i hz
    have hbs : 0 < cfg.block_size := by
      rcases Nat.eq_zero_or_pos cfg.block_size with h0 | h0
      · exact absurd (Or.inl h0) hz
      · exact h0
    have e1 : cfg.n_kv_heads * cfg.head_dim % 2 ^ 32 = cfg.n_kv_heads * cfg.head_dim :=
      Nat.mod_eq_of_lt (by omega)
    have e2 : (cfg.max_seq_len + cfg.block_size - 1) % 2 ^ 32 =
        cfg.max_seq_len + cfg.block_size - 1 := Nat.mod_eq_of_lt f2
    have e3 : (cfg.n_kv_heads * cfg.head_dim + 31) % 2 ^ 32 =
        cfg.n_kv_heads * cfg.head_dim + 31 := Nat.mod_eq_of_lt f1
    simp only [e1, e2, e3, Nat.mod_eq_of_lt f3, Nat.mod_eq_of_lt f4, Option.some.injEq] at h
    subst h
    have hmax : cfg.max_seq_len < 2 ^ 32 := by omega
    refine ⟨⟨hbs, f1, rfl, rfl, f3, rfl, by simp, f4, ?_, by simp, hmax⟩, rfl, rfl⟩
    intro b hb
    have := List.eq_of_mem_replicate hb
    subst this
    simp

theorem kv_pos_block_lt (bs mx pos : Nat) (hbs : 0 < bs) (hp : pos < mx) :
    pos / bs < (mx + bs - 1) / bs := by
  rw [Nat.div_lt_iff_lt_mul hbs]
  have h1 := Nat.div_add_mod (mx + bs - 1) bs
  have h2 := Nat.mod_lt (mx + bs - 1) hbs
  have h3 : bs * ((mx + bs - 1) / bs) = (mx + bs - 1) / bs * bs := Nat.mul_comm _ _
  omega

theorem kv_block_index_spec (c : kv_cache) (hwf : kv_wf c) (layer pos : Nat)
    (hl : layer < c.cfg.n_layers) (hp : pos < c.cfg.max_seq_len) :
    kv_block_index c layer pos = layer * c.n_blocks + pos / c.cfg.block_size ∧
    pos / c.cfg.block_size < c.n_blocks ∧
    kv_block_index c layer pos < c.blocks.length := by
  have hb : pos / c.cfg.block_size < c.n_blocks := by
    rw [hwf.nblk]
    exact kv_pos_block_lt _ _ _ hwf.bs_pos hp
  have hle : (layer + 1) * c.n_blocks ≤ c.cfg.n_layers * c.n_blocks :=
    Nat.mul_le_mul_right _ hl
  have hlt : layer * c.n_blocks + pos / c.cfg.block_size < c.cfg.n_layers * c.n_blocks := by
    have : (layer + 1) * c.n_blocks = layer * c.n_blocks + c.n_blocks := by ring
    omega
  have hidx : kv_block_index c layer pos = layer * c.n_blocks + pos / c.cfg.block_size := by
    unfold kv_block_index
    exact Nat.mod_eq_of_lt (lt_trans hlt hwf.total_lt)
  exact ⟨hidx, hb, by rw [hidx, hwf.total]; exact hlt⟩

theorem kv_slot_offset_spec (c : kv_cache) (hwf : kv_wf c) (pos : Nat) :
    kv_slot_offset c pos = pos % c.cfg.block_size * c.q8_blocks_per_token ∧
    pos % c.cfg.block_size * c.q8_blocks_per_token + c.q8_blocks_per_token
      ≤ c.q8_blocks_per_block := by
  have hm := Nat.mod_lt pos hwf.bs_pos
  have hle : (pos % c.cfg.block_size + 1) * c.q8_blocks_per_token ≤
      c.cfg.block_size * c.q8_blocks_per_token := Nat.mul_le_mul_right _ hm
  have e1 : (pos % c.cfg.block_size + 1) * c.q8_blocks_per_token =
      pos % c.cfg.block_size * c.q8_blocks_per_token + c.q8_blocks_per_token := by ring
  have e2 : c.cfg.block_size * c.q8_blocks_per_token =
      c.q8_blocks_per_token * c.cfg.block_size := Nat.mul_comm _ _
  have hlt := hwf.per_block_lt
  refine ⟨?_, by rw [hwf.per_block]; omega⟩
  unfold kv_slot_offset
  exact Nat.mod_eq_of_lt (by omega)

/-- Two positions in range with the same block and the same place in the block are the
same position of the same layer. -/
theorem kv_slot_inj (c : kv_cache) (hwf : kv_wf c) (l1 p1 l2 p2 : Nat)
    (h1 : l1 < c.cfg.n_layers) (hp1 : p1 < c.cfg.max_seq_len)
    (h2 : l2 < c.cfg.n_layers) (hp2 : p2 < c.cfg.max_seq_len)
    (hidx : kv_block_index c l1 p1 = kv_block_index c l2 p2)
    (hmod : p1 % c.cfg.block_size = p2 % c.cfg.block_size) : l1 = l2 ∧ p1 = p2 := by
  obtain ⟨e1, b1, _⟩ := kv_block_index_spec c hwf l1 p1 h1 hp1
  obtain ⟨e2, b2, _⟩ := kv_block_index_spec c hwf l2 p2 h2 hp2
  rw [e1, e2] at hidx
  have key : ∀ a b x y nb : Nat, a < nb → b < nb → x * nb + a = y * nb + b → ¬ x < y := by
    intro a b x y nb ha hb hxy hlt
    have h3 : (x + 1) * nb ≤ y * nb := Nat.mul_le_mul_right _ hlt
    have e : (x + 1) * nb = x * nb + nb := by ring
    rw [e] at h3
    omega
  have hl : l1 = l2 := by
    rcases Nat.lt_trichotomy l1 l2 with h | h | h
    · exact absurd h (key _ _ _ _ _ b1 b2 hidx)
    · exact h
    · exact absurd h (key _ _ _ _ _ b2 b1 hidx.symm)
  subst hl
  have hd : p1 / c.cfg.block_size = p2 / c.cfg.block_size := Nat.add_left_cancel hidx
  refine ⟨rfl, ?_⟩
  rw [← Nat.div_add_mod p1 c.cfg.block_size, ← Nat.div_add_mod p2 c.cfg.block_size, hd, hmod]

/-! ## The KV cache: what an append changes -/

theorem kv_cache_append_ok (c : kv_cache) (layer pos : Nat) (k v : List ℚ)
    (hl : layer < c.cfg.n_layers) (hp : pos < c.cfg.max_seq_len) :
    kv_cache_append c layer pos k v =
      (0, { c with
        blocks := c.blocks.modify (kv_block_append c pos k v) (kv_block_index c layer pos),
        layer_seq_len := c.layer_seq_len.modify
          (fun len => if pos + 1 > len then pos + 1 else len) layer }) := by
  unfold kv_cache_append
  rw [if_neg (by omega)]

theorem kv_cache_append_fail (c : kv_cache) (layer pos : Nat) (k v : List ℚ)
    (h : ¬ (layer < c.cfg.n_layers ∧ pos < c.cfg.max_seq_len)) :
    kv_cache_append c layer pos k v = (-1, c) := by
  unfold kv_cache_append
  rw [if_pos (by omega)]

theorem kv_block_append_lengths (c : kv_cache) (hwf : kv_wf c) (pos : Nat) (k v : List ℚ)
    (blk : kv_block) :
    (kv_block_append c pos k v blk).k.length = blk.k.length ∧
    (kv_block_append c pos k v blk).v.length = blk.v.length :=
  ⟨(q8_quantize_vec_spec k c.vec_dim blk.k _ hwf.vec).1,
   (q8_quantize_vec_spec v c.vec_dim blk.v _ hwf.vec).1⟩

theorem kv_cache_append_wf (c : kv_cache) (hwf : kv_wf c) (layer pos : Nat) (k v : List ℚ) :
    kv_wf (kv_cache_append c layer pos k v).2 := by
  by_cases h : layer < c.cfg.n_layers ∧ pos < c.cfg.max_seq_len
  · rw [kv_cache_append_ok c layer pos k v h.1 h.2]
    refine ⟨hwf.bs_pos, hwf.vec, hwf.per_token, hwf.per_block, hwf.per_block_lt, hwf.nblk,
      by simp [hwf.total], hwf.total_lt, ?_, by simp [hwf.lens], hwf.max_lt⟩
    intro b hb
    dsimp only at hb ⊢
    obtain ⟨j, hj⟩ := List.getElem?_of_mem hb
    rw [List.getElem?_modify] at hj
    cases hcj : c.blocks[j]? with
    | none => rw [hcj] at hj; simp at hj
    | some b0 =>
      rw [hcj] at hj
      simp only [Option.map_eq_map, Option.map_some', Option.some.injEq] at hj
      obtain ⟨hk, hv, hs⟩ := hwf.blk b0 (List.getElem?_mem hcj)
      subst hj
      split
      · obtain ⟨e1, e2⟩ := kv_block_append_lengths c hwf pos k v b0
        refine ⟨e1.trans hk, e2.trans hv, ?_⟩
        unfold kv_block_append
        dsimp only
        have := Nat.mod_lt pos hwf.bs_pos
        split <;> omega
      · exact ⟨hk, hv, hs⟩
  · rw [kv_cache_append_fail c layer pos k v h]
    exact hwf

theorem kv_block_at_append (c : kv_cache) (hwf : kv_wf c) (layer pos : Nat) (k v : List ℚ)
    (hl : layer < c.cfg.n_layers) (hp : pos < c.cfg.max_seq_len) (l2 p2 : Nat)
    (hl2 : l2 < c.cfg.n_layers) (hp2 : p2 < c.cfg.max_seq_len) :
    kv_block_at (kv_cache_append c layer pos k v).2 l2 p2 =
      if kv_block_index c layer pos = kv_block_index c l2 p2 then
        kv_block_append c pos k v (kv_block_at c l2 p2)
      else kv_block_at c l2 p2 := by
  rw [kv_cache_append_ok c layer pos k v hl hp]
  obtain ⟨_, _, hlt⟩ := kv_block_index_spec c hwf l2 p2 hl2 hp2
  unfold kv_block_at
  have hidx : kv_block_index
      { c with
        blocks := c.blocks.modify (kv_block_append c pos k v) (kv_block_index c layer pos),
        layer_seq_len := c.layer_seq_len.modify
          (fun len => if pos + 1 > len then pos + 1 else len) layer } l2 p2 =
      kv_block_index c l2 p2 := rfl
  rw [hidx]
  simp only [List.getD_eq_getElem?_getD, List.getElem?_modify,
    List.getElem?_eq_getElem hlt, Option.map_eq_map, Option.map_some', Option.getD_some]

/-- After a successful append the slot of `(layer, pos)` holds the quantized rows. -/
theorem kv_slot_after_append (c : kv_cache) (hwf : kv_wf c) (layer pos : Nat) (k v : List ℚ)
    (hl : layer < c.cfg.n_layers) (hp : pos < c.cfg.max_seq_len) (b : Nat)
    (hb : b < (c.vec_dim + 31) / 32) :
    kv_slot_k (kv_cache_append c layer pos k v).2 layer pos b =
      q8_quantize_block k c.vec_dim (b * 32) ∧
    kv_slot_v (kv_cache_append c layer pos k v).2 layer pos b =
      q8_quantize_block v c.vec_dim (b * 32) := by
  have hblk := kv_block_at_append c hwf layer pos k v hl hp layer pos hl hp
  rw [if_pos rfl] at hblk
  obtain ⟨_, _, hlt⟩ := kv_block_index_spec c hwf layer pos hl hp
  have hmem : kv_block_at c layer pos ∈ c.blocks := by
    unfold kv_block_at
    rw [List.getD_eq_getElem?_getD, List.getElem?_eq_getElem hlt, Option.getD_some]
    exact List.getElem_mem hlt
  obtain ⟨hk, hv, _⟩ := hwf.blk _ hmem
  obtain ⟨hoff, hfit⟩ := kv_slot_offset_spec c hwf pos
  have hpt := hwf.per_token
  have hoff2 : kv_slot_offset (kv_cache_append c layer pos k v).2 pos = kv_slot_offset c pos := by
    rw [kv_cache_append_ok c layer pos k v hl hp]; rfl
  unfold kv_slot_k kv_slot_v
  rw [hblk, hoff2]
  unfold kv_block_append
  dsimp only
  rw [List.getD_eq_getElem?_getD, List.getD_eq_getElem?_getD,
    (q8_quantize_vec_spec k c.vec_dim _ _ hwf.vec).2,
    (q8_quantize_vec_spec v c.vec_dim _ _ hwf.vec).2,
    if_pos ⟨by omega, by omega, by omega⟩, if_pos ⟨by omega, by omega, by omega⟩]
  have e : kv_slot_offset c pos + b - kv_slot_offset c pos = b := by omega
  simp only [e, Option.getD_some, and_self]

/-- A successful append leaves the stored rows of every other slot as they were. -/
theorem kv_slot_frame (c : kv_cache) (hwf : kv_wf c) (layer pos : Nat) (k v : List ℚ)
    (hl : layer < c.cfg.n_layers) (hp : pos < c.cfg.max_seq_len) (l2 p2 : Nat)
    (hl2 : l2 < c.cfg.n_layers) (hp2 : p2 < c.cfg.max_seq_len)
    (hne : ¬ (l2 = layer ∧ p2 = pos)) (b : Nat) (hb : b < (c.vec_dim + 31) / 32) :
    kv_slot_k (kv_cache_append c layer pos k v).2 l2 p2 b = kv_slot_k c l2 p2 b ∧
    kv_slot_v (kv_cache_append c layer pos k v).2 l2 p2 b = kv_slot_v c l2 p2 b := by
  have hblk := kv_block_at_append c hwf layer pos k v hl hp l2 p2 hl2 hp2
  have hoff2 : kv_slot_offset (kv_cache_append c layer pos k v).2 p2 = kv_slot_offset c p2 := by
    rw [kv_cache_append_ok c layer pos k v hl hp]; rfl
  unfold kv_slot_k kv_slot_v
  rw [hblk, hoff2]
  by_cases hidx : kv_block_index c layer pos = kv_block_index c l2 p2
  · rw [if_pos hidx]
    have hmod : p2 % c.cfg.block_size ≠ pos % c.cfg.block_size := by
      intro hm
      obtain ⟨e1, e2⟩ := kv_slot_inj c hwf l2 p2 layer pos hl2 hp2 hl hp hidx.symm hm
      exact hne ⟨e1, e2⟩
    obtain ⟨hoff, _⟩ := kv_slot_offset_spec c hwf pos
    obtain ⟨hoffb, _⟩ := kv_slot_offset_spec c hwf p2
    have hpt := hwf.per_token
    have hdis : ¬ (kv_slot_offset c pos ≤ kv_slot_offset c p2 + b ∧
        kv_slot_offset c p2 + b < kv_slot_offset c pos + (c.vec_dim + 31) / 32) := by
      rw [hoff, hoffb, ← hpt]
      rcases Nat.lt_or_gt_of_ne hmod with h | h
      · have h3 : (p2 % c.cfg.block_size + 1) * c.q8_blocks_per_token ≤
            pos % c.cfg.block_size * c.q8_blocks_per_token := Nat.mul_le_mul_right _ h
        have e : (p2 % c.cfg.block_size + 1) * c.q8_blocks_per_token =
            p2 % c.cfg.block_size * c.q8_blocks_per_token + c.q8_blocks_per_token := by ring
        rw [e] at h3
        generalize p2 % c.cfg.block_size * c.q8_blocks_per_token = A at h3 ⊢
        generalize pos % c.cfg.block_size * c.q8_blocks_per_token = B at h3 ⊢
        omega
      · have h3 : (pos % c.cfg.block_size + 1) * c.q8_blocks_per_token ≤
            p2 % c.cfg.block_size * c.q8_blocks_per_token := Nat.mul_le_mul_right _ h
        have e : (pos % c.cfg.block_size + 1) * c.q8_blocks_per_token =
            pos % c.cfg.block_size * c.q8_blocks_per_token + c.q8_blocks_per_token := by ring
        rw [e] at h3
        generalize p2 % c.cfg.block_size * c.q8_blocks_per_token = A at h3 ⊢
        generalize pos % c.cfg.block_size * c.q8_blocks_per_token = B at h3 ⊢
        omega
    unfold kv_block_append
    dsimp only
    simp only [List.getD_eq_getElem?_getD]
    rw [(q8_quantize_vec_spec k c.vec_dim _ _ hwf.vec).2,
      (q8_quantize_vec_spec v c.vec_dim _ _ hwf.vec).2,
      if_neg (fun h => hdis ⟨h.1, h.2.1⟩), if_neg (fun h => hdis ⟨h.1, h.2.1⟩)]
    exact ⟨rfl, rfl⟩
  · rw [if_neg hidx]
    exact ⟨rfl, rfl⟩

/-! ## The KV cache: reading back -/

theorem rows_written_step (vd m : Nat) (val : Nat → Nat → ℚ) (out0 out : List ℚ)
    (src : List q8_block) (off : Nat) (hvd : vd + 31 < 2 ^ 32)
    (h : rows_written vd m val out0 out)
    (hval : ∀ t, t < vd →
      val m t = q8_value (src.getD (off + t / 32) q8_block.zero) (t % 32)) :
    rows_written vd (m + 1) val out0 (q8_dequantize_vec src off vd out (m * vd)) := by
  obtain ⟨hlen, hrest, hrows⟩ := h
  obtain ⟨dlen, dget⟩ := q8_dequantize_vec_spec src off vd out (m * vd) hvd
  have e : (m + 1) * vd = m * vd + vd := by ring
  refine ⟨dlen.trans hlen, ?_, ?_⟩
  · intro j hj
    rw [e] at hj
    rw [dget j, if_neg (by omega)]
    exact hrest j (by omega)
  · intro i t hi ht hin
    rw [dget]
    by_cases him : i = m
    · subst him
      rw [if_pos ⟨by omega, by omega, by omega⟩]
      have e2 : i * vd + t - i * vd = t := by omega
      rw [e2, hval t ht]
    · have hlt : i < m := by omega
      have h3 : (i + 1) * vd ≤ m * vd := Nat.mul_le_mul_right _ hlt
      have e3 : (i + 1) * vd = i * vd + vd := by ring
      rw [e3] at h3
      rw [if_neg (by omega)]
      exact hrows i t hlt ht hin

/-- The loop of kv_cache_read_range over `m` positions from `s`. -/
theorem kv_read_fold_spec (c : kv_cache) (hwf : kv_wf c)
    (hfit : c.cfg.max_seq_len * c.vec_dim < 2 ^ 32) (layer s : Nat) (ko vo : List ℚ) :
    ∀ m, m ≤ c.cfg.max_seq_len →
      ((List.range' s m).foldl (kv_read_step c layer) (0, ko, vo)).1 = m ∧
      rows_written c.vec_dim m
        (fun i t => q8_value (kv_slot_k c layer (s + i) (t / 32)) (t % 32)) ko
        ((List.range' s m).foldl (kv_read_step c layer) (0, ko, vo)).2.1 ∧
      rows_written c.vec_dim m
        (fun i t => q8_value (kv_slot_v c layer (s + i) (t / 32)) (t % 32)) vo
        ((List.range' s m).foldl (kv_read_step c layer) (0, ko, vo)).2.2 := by
  intro m
  induction m with
  | zero =>
    intro _
    refine ⟨rfl, ⟨rfl, fun _ _ => rfl, fun i t hi => absurd hi (Nat.not_lt_zero i)⟩,
      ⟨rfl, fun _ _ => rfl, fun i t hi => absurd hi (Nat.not_lt_zero i)⟩⟩
  | succ m ih =>
    intro hm
    obtain ⟨h1, hk, hv⟩ := ih (by omega)
    rw [List.range'_1_concat, List.foldl_append]
    generalize (List.range' s m).foldl (kv_read_step c layer) (0, ko, vo) = acc at h1 hk hv
    obtain ⟨idx, K, V⟩ := acc
    dsimp only at h1 hk hv
    subst h1
    have hmax := hwf.max_lt
    have hle : idx * c.vec_dim ≤ c.cfg.max_seq_len * c.vec_dim :=
      Nat.mul_le_mul_right _ (by omega)
    have e1 : (idx + 1) % 2 ^ 32 = idx + 1 := Nat.mod_eq_of_lt (by omega)
    have e2 : idx * c.vec_dim % 2 ^ 32 = idx * c.vec_dim := Nat.mod_eq_of_lt (by omega)
    simp only [List.foldl_cons, List.foldl_nil, kv_read_step, e1, e2, true_and]
    exact ⟨rows_written_step c.vec_dim idx _ ko K _ _ hwf.vec hk (fun t _ => rfl),
      rows_written_step c.vec_dim idx _ vo V _ _ hwf.vec hv (fun t _ => rfl)⟩

theorem kv_cache_read_range_ok (c : kv_cache) (layer s e : Nat) (ko vo : List ℚ)
    (hse : s ≤ e) (hl : layer < c.cfg.n_layers) (he : e ≤ c.cfg.max_seq_len) :
    kv_cache_read_range c layer s e ko vo =
      (0, ((List.range' s (e - s)).foldl (kv_read_step c layer) (0, ko, vo)).2.1,
          ((List.range' s (e - s)).foldl (kv_read_step c layer) (0, ko, vo)).2.2) := by
  unfold kv_cache_read_range
  rw [if_neg (by omega), if_neg (by omega), if_neg (by omega)]

/-- Reading one position dequantizes the stored rows of its slot. -/
theorem kv_read_one (c : kv_cache) (layer pos : Nat) (ko vo : List ℚ)
    (hl : layer < c.cfg.n_layers) (hp : pos < c.cfg.max_seq_len) :
    kv_cache_read_range c layer pos (pos + 1) ko vo =
      (0,
       q8_dequantize_vec (kv_block_at c layer pos).k (kv_slot_offset c pos) c.vec_dim ko 0,
       q8_dequantize_vec (kv_block_at c layer pos).v (kv_slot_offset c pos) c.vec_dim vo 0) := by
  rw [kv_cache_read_range_ok c layer pos (pos + 1) ko vo (by omega) hl (by omega)]
  have e : pos + 1 - pos = 1 := by omega
  rw [e]
  simp [kv_read_step]

/-- Reading one position depends only on the stored rows of its slot. -/
theorem kv_read_one_congr (c1 c2 : kv_cache) (hwf : kv_wf c1) (layer pos : Nat)
    (ko vo : List ℚ)
    (hcfg : c1.cfg = c2.cfg) (hvd : c1.vec_dim = c2.vec_dim)
    (hl : layer < c1.cfg.n_layers) (hp : pos < c1.cfg.max_seq_len)
    (hk : ∀ b, b < (c1.vec_dim + 31) / 32 → kv_slot_k c1 layer pos b = kv_slot_k c2 layer pos b)
    (hv : ∀ b, b < (c1.vec_dim + 31) / 32 → kv_slot_v c1 layer pos b = kv_slot_v c2 layer pos b) :
    kv_cache_read_range c1 layer pos (pos + 1) ko vo =
      kv_cache_read_range c2 layer pos (pos + 1) ko vo := by
  rw [kv_read_one c1 layer pos ko vo hl hp,
    kv_read_one c2 layer pos ko vo (by rw [← hcfg]; exact hl) (by rw [← hcfg]; exact hp),
    ← hvd]
  rw [q8_dequantize_vec_congr _ _ _ _ c1.vec_dim ko 0 hwf.vec hk,
    q8_dequantize_vec_congr _ _ _ _ c1.vec_dim vo 0 hwf.vec hv]

/-! ## Q8_0: the rounding error -/

theorem lrintf_close (q : ℚ) : |((lrintf q : ℤ) : ℚ) - q| ≤ 1 / 2 := by
  have h1 : ((⌊q⌋ : ℤ) : ℚ) ≤ q := Int.floor_le q
  have h2 : q < ((⌊q⌋ : ℤ) : ℚ) + 1 := Int.lt_floor_add_one q
  unfold lrintf
  dsimp only
  rw [abs_le]
  split
  · constructor <;> linarith
  · split
    · push_cast
      constructor <;> linarith
    · split
      · constructor <;> linarith
      · push_cast
        constructor <;> linarith

theorem lrintf_range (q : ℚ) (h1 : -127 ≤ q) (h2 : q ≤ 127) :
    -127 ≤ lrintf q ∧ lrintf q ≤ 127 := by
  have hc := abs_le.mp (lrintf_close q)
  constructor
  · by_contra hlt
    have : lrintf q ≤ -128 := by omega
    have : ((lrintf q : ℤ) : ℚ) ≤ -128 := by exact_mod_cast this
    linarith [hc.1]
  · by_contra hlt
    have : 128 ≤ lrintf q := by omega
    have : (128 : ℚ) ≤ ((lrintf q : ℤ) : ℚ) := by exact_mod_cast this
    linarith [hc.2]

theorem foldl_max_ge (f : Nat → ℚ) :
    ∀ (l : List Nat) (init : ℚ),
      init ≤ l.foldl (fun m i => if f i > m then f i else m) init ∧
      ∀ i ∈ l, f i ≤ l.foldl (fun m i => if f i > m then f i else m) init := by
  intro l
  induction l with
  | nil => intro init; exact ⟨le_refl _, fun i hi => by cases hi⟩
  | cons a as ih =>
    intro init
    simp only [List.foldl_cons]
    obtain ⟨g1, g2⟩ := ih (if f a > init then f a else init)
    have hinit : init ≤ (if f a > init then f a else init) := by
      split
      · rename_i h; exact le_of_lt h
      · exact le_refl _
    have ha : f a ≤ (if f a > init then f a else init) := by
      split
      · exact le_refl _
      · rename_i h; exact not_lt.mp h
    refine ⟨le_trans hinit g1, ?_⟩
    intro i hi
    rcases List.mem_cons.mp hi with rfl | hi
    · exact le_trans ha g1
    · exact g2 i hi

theorem q8_max_abs_spec (x : List ℚ) (n base : Nat) :
    0 ≤ q8_max_abs x n base ∧
    ∀ i, i < 32 → |q8_lane x n (base + i)| ≤ q8_max_abs x n base := by
  obtain ⟨g1, g2⟩ := foldl_max_ge (fun i => |q8_lane x n (base + i)|) (List.range 32) 0
  exact ⟨g1, fun i hi => g2 i (List.mem_range.mpr hi)⟩

/-- Quantizing a lane and dequantizing it again moves it by at most half the scale
`max_abs / 127` of its 32-lane group. -/
theorem q8_round_trip (x : List ℚ) (n base i : Nat) (hi : i < 32) :
    |q8_value (q8_quantize_block x n base) i - q8_lane x n (base + i)|
      ≤ q8_max_abs x n base / 127 / 2 := by
  obtain ⟨hpos, hmax⟩ := q8_max_abs_spec x n base
  have hv := abs_le.mp (hmax i hi)
  have hdata : (q8_quantize_block x n base).data.getD i 0 =
      q8_quant (q8_lane x n (base + i)) (q8_scale x n base) := by
    simp [q8_quantize_block, List.getD_eq_getElem?_getD, List.getElem?_map,
      List.getElem?_range hi]
  unfold q8_value
  rw [hdata]
  have hscale : (q8_quantize_block x n base).scale = q8_scale x n base := rfl
  rw [hscale]
  unfold q8_scale
  generalize q8_lane x n (base + i) = v at hv ⊢
  generalize q8_max_abs x n base = M at hpos hv ⊢
  by_cases hM : M / 127 = 0
  · -- the group is all zero
    have hM0 : M = 0 := by
      have := div_eq_zero_iff.mp hM
      rcases this with h | h
      · exact h
      · norm_num at h
    subst hM0
    have hv0 : v = 0 := le_antisymm hv.2 (by linarith [hv.1])
    subst hv0
    simp [q8_quant, lrintf]
  · rw [if_neg hM]
    have hMpos : 0 < M := lt_of_le_of_ne hpos (fun h => hM (by rw [← h]; simp))
    have hs : 0 < M / 127 := by positivity
    have hr1 : -127 ≤ v / (M / 127) := by
      rw [le_div_iff₀ hs]
      linarith [hv.1]
    have hr2 : v / (M / 127) ≤ 127 := by
      rw [div_le_iff₀ hs]
      linarith [hv.2]
    obtain ⟨r1, r2⟩ := lrintf_range _ hr1 hr2
    have hq : q8_quant v (M / 127) = lrintf (v / (M / 127)) := by
      unfold q8_quant
      dsimp only
      rw [if_neg (by omega), if_neg (by omega)]
    rw [hq]
    have hc := lrintf_close (v / (M / 127))
    have key : ((lrintf (v / (M / 127)) : ℤ) : ℚ) * (M / 127) - v =
        (((lrintf (v / (M / 127)) : ℤ) : ℚ) - v / (M / 127)) * (M / 127) := by
      rw [sub_mul, div_mul_cancel₀ v (ne_of_gt hs)]
    rw [key, abs_mul, abs_of_pos hs]
    calc |((lrintf (v / (M / 127)) : ℤ) : ℚ) - v / (M / 127)| * (M / 127)
        ≤ 1 / 2 * (M / 127) := by
          exact mul_le_mul_of_nonneg_right hc (le_of_lt hs)
      _ = M / 127 / 2 := by ring

/-! ## The KV cache: sequences of appends -/

theorem kv_append_status (c : kv_cache) (layer pos : Nat) (k v : List ℚ) :
    (kv_cache_append c layer pos k v).1 = 0 ↔
      layer < c.cfg.n_layers ∧ pos < c.cfg.max_seq_len := by
  by_cases h : layer < c.cfg.n_layers ∧ pos < c.cfg.max_seq_len
  · rw [kv_cache_append_ok c layer pos k v h.1 h.2]
    simp [h]
  · rw [kv_cache_append_fail c layer pos k v h]
    simp [h]

theorem kv_append_shape (c : kv_cache) (layer pos : Nat) (k v : List ℚ) :
    (kv_cache_append c layer pos k v).2.cfg = c.cfg ∧
    (kv_cache_append c layer pos k v).2.vec_dim = c.vec_dim := by
  by_cases h : layer < c.cfg.n_layers ∧ pos < c.cfg.max_seq_len
  · rw [kv_cache_append_ok c layer pos k v h.1 h.2]
    exact ⟨rfl, rfl⟩
  · rw [kv_cache_append_fail c layer pos k v h]
    exact ⟨rfl, rfl⟩

theorem kv_run_shape (ops : List kv_op) (c : kv_cache) (hwf : kv_wf c) :
    kv_wf (kv_run c ops) ∧ (kv_run c ops).cfg = c.cfg ∧
    (kv_run c ops).vec_dim = c.vec_dim := by
  induction ops generalizing c with
  | nil => exact ⟨hwf, rfl, rfl⟩
  | cons op rest ih =>
    obtain ⟨h1, h2, h3⟩ := ih (kv_apply c op) (kv_cache_append_wf c hwf _ _ _ _)
    obtain ⟨e1, e2⟩ := kv_append_shape c op.layer op.pos op.k op.v
    exact ⟨h1, h2.trans e1, h3.trans e2⟩

/-- Appends to other slots leave the stored rows of a slot as they are. -/
theorem kv_run_slot (layer pos : Nat) (ops : List kv_op) (c : kv_cache) (hwf : kv_wf c)
    (hl : layer < c.cfg.n_layers) (hp : pos < c.cfg.max_seq_len)
    (hops : ∀ op ∈ ops, ¬ (op.layer = layer ∧ op.pos = pos))
    (b : Nat) (hb : b < (c.vec_dim + 31) / 32) :
    kv_slot_k (kv_run c ops) layer pos b = kv_slot_k c layer pos b ∧
    kv_slot_v (kv_run c ops) layer pos b = kv_slot_v c layer pos b := by
  induction ops generalizing c with
  | nil => exact ⟨rfl, rfl⟩
  | cons op rest ih =>
    obtain ⟨e1, e2⟩ := kv_append_shape c op.layer op.pos op.k op.v
    have hstep : kv_slot_k (kv_apply c op) layer pos b = kv_slot_k c layer pos b ∧
        kv_slot_v (kv_apply c op) layer pos b = kv_slot_v c layer pos b := by
      by_cases h : op.layer < c.cfg.n_layers ∧ op.pos < c.cfg.max_seq_len
      · have hne : ¬ (layer = op.layer ∧ pos = op.pos) := by
          rintro ⟨r1, r2⟩
          exact hops op (List.mem_cons_self _ _) ⟨r1.symm, r2.symm⟩
        exact kv_slot_frame c hwf op.layer op.pos op.k op.v h.1 h.2 layer pos hl hp hne b hb
      · unfold kv_apply
        rw [kv_cache_append_fail c op.layer op.pos op.k op.v h]
        exact ⟨rfl, rfl⟩
    obtain ⟨r1, r2⟩ := ih (kv_apply c op) (kv_cache_append_wf c hwf _ _ _ _)
      (by unfold kv_apply; rw [e1]; exact hl) (by unfold kv_apply; rw [e1]; exact hp)
      (fun o ho => hops o (List.mem_cons_of_mem _ ho))
      (by unfold kv_apply; rw [e2]; exact hb)
    exact ⟨r1.trans hstep.1, r2.trans hstep.2⟩

theorem kv_get_seq_len_append (c : kv_cache) (hwf : kv_wf c) (layer pos : Nat) (k v : List ℚ)
    (hl : layer < c.cfg.n_layers) (hp : pos < c.cfg.max_seq_len) (l2 : Nat) :
    kv_cache_get_seq_len (kv_cache_append c layer pos k v).2 l2 =
      if l2 = layer then max (kv_cache_get_seq_len c layer) (pos + 1)
      else kv_cache_get_seq_len c l2 := by
  rw [kv_cache_append_ok c layer pos k v hl hp]
  unfold kv_cache_get_seq_len
  dsimp only
  by_cases hl2 : l2 ≥ c.cfg.n_layers
  · rw [if_pos hl2, if_neg (by omega), if_pos hl2]
  · rw [if_neg hl2]
    have hlt : l2 < c.layer_seq_len.length := by rw [hwf.lens]; omega
    simp only [List.getD_eq_getElem?_getD, List.getElem?_modify,
      List.getElem?_eq_getElem hlt, Option.map_eq_map, Option.map_some', Option.getD_some]
    by_cases he : l2 = layer
    · subst he
      rw [if_pos rfl, if_pos rfl, if_neg hl2]
      simp only [List.getElem?_eq_getElem hlt, Option.getD_some]
      split
      · rw [Nat.max_eq_right (by omega)]
      · rw [Nat.max_eq_left (by omega)]
    · rw [if_neg (Ne.symm he), if_neg he, if_neg hl2]

theorem kv_get_seq_len_mono (ops : List kv_op) (c : kv_cache) (hwf : kv_wf c) (layer : Nat) :
    kv_cache_get_seq_len c layer ≤ kv_cache_get_seq_len (kv_run c ops) layer := by
  induction ops generalizing c with
  | nil => exact le_refl _
  | cons op rest ih =>
    have hstep : kv_cache_get_seq_len c layer ≤
        kv_cache_get_seq_len (kv_apply c op) layer := by
      by_cases h : op.layer < c.cfg.n_layers ∧ op.pos < c.cfg.max_seq_len
      · unfold kv_apply
        rw [kv_get_seq_len_append c hwf op.layer op.pos op.k op.v h.1 h.2 layer]
        split
        · rename_i he; subst he; exact le_max_left _ _
        · exact le_refl _
      · unfold kv_apply
        rw [kv_cache_append_fail c op.layer op.pos op.k op.v h]
    exact le_trans hstep (ih (kv_apply c op) (kv_cache_append_wf c hwf _ _ _ _))

/-! ## Claims about the KV cache -/

theorem kv_test_cache_wf : kv_wf kv_test_cache :=
  (kv_cache_create_wf kv_test_cfg kv_test_cache rfl (by
    unfold kv_cfg_fits kv_test_cfg
    norm_num)).1

/-- The slot rows read by one position, after later appends to other slots. -/
theorem kv_read_after (c : kv_cache) (hwf : kv_wf c) (layer pos : Nat) (k v : List ℚ)
    (later : List kv_op) (ko vo : List ℚ)
    (hl : layer < c.cfg.n_layers) (hp : pos < c.cfg.max_seq_len)
    (hlater : ∀ op ∈ later, ¬ (op.layer = layer ∧ op.pos = pos)) :
    kv_cache_read_range (kv_run (kv_cache_append c layer pos k v).2 later) layer pos (pos + 1)
        ko vo =
      kv_cache_read_range (kv_cache_append c layer pos k v).2 layer pos (pos + 1) ko vo := by
  obtain ⟨e1, e2⟩ := kv_append_shape c layer pos k v
  have hwf1 := kv_cache_append_wf c hwf layer pos k v
  obtain ⟨hwf2, f1, f2⟩ := kv_run_shape later _ hwf1
  apply kv_read_one_congr _ _ hwf2 layer pos ko vo f1 f2
    (by rw [f1, e1]; exact hl) (by rw [f1, e1]; exact hp)
  · intro b hb
    exact (kv_run_slot layer pos later _ hwf1 (by rw [e1]; exact hl) (by rw [e1]; exact hp)
      hlater b (by rw [← f2]; exact hb)).1
  · intro b hb
    exact (kv_run_slot layer pos later _ hwf1 (by rw [e1]; exact hl) (by rw [e1]; exact hp)
      hlater b (by rw [← f2]; exact hb)).2

/-- The value read back for lane `i` of a freshly appended row. -/
theorem kv_read_fresh (c : kv_cache) (hwf : kv_wf c) (layer pos : Nat) (k v : List ℚ)
    (ko vo : List ℚ) (hl : layer < c.cfg.n_layers) (hp : pos < c.cfg.max_seq_len)
    (i : Nat) (hi : i < c.vec_dim) :
    (kv_cache_read_range (kv_cache_append c layer pos k v).2 layer pos (pos + 1) ko vo).1 = 0 ∧
    (i < ko.length →
      (kv_cache_read_range (kv_cache_append c layer pos k v).2 layer pos (pos + 1) ko vo).2.1[i]?
        = some (q8_value (q8_quantize_block k c.vec_dim (i / 32 * 32)) (i % 32))) ∧
    (i < vo.length →
      (kv_cache_read_range (kv_cache_append c layer pos k v).2 layer pos (pos + 1) ko vo).2.2[i]?
        = some (q8_value (q8_quantize_block v c.vec_dim (i / 32 * 32)) (i % 32))) := by
  obtain ⟨e1, e2⟩ := kv_append_shape c layer pos k v
  have hwf1 := kv_cache_append_wf c hwf layer pos k v
  rw [kv_read_one _ layer pos ko vo (by rw [e1]; exact hl) (by rw [e1]; exact hp), e2]
  obtain ⟨sk, sv⟩ := kv_slot_after_append c hwf layer pos k v hl hp (i / 32) (by
    have := hwf.vec
    omega)
  unfold kv_slot_k at sk
  unfold kv_slot_v at sv
  refine ⟨rfl, ?_, ?_⟩
  · intro hlen
    dsimp only
    rw [(q8_dequantize_vec_spec _ _ c.vec_dim ko 0 hwf.vec).2 i,
      if_pos ⟨by omega, by omega, hlen⟩]
    simp only [Nat.sub_zero]
    rw [sk]
  · intro hlen
    dsimp only
    rw [(q8_dequantize_vec_spec _ _ c.vec_dim vo 0 hwf.vec).2 i,
      if_pos ⟨by omega, by omega, hlen⟩]
    simp only [Nat.sub_zero]
    rw [sv]

/-- C7. In a cache built by kv_cache_create whose sizes fit 32 bits: after a successful
kv_cache_append(layer, pos, k, v) and any later appends to other slots, `pos` is below
kv_cache_get_seq_len(layer) and kv_cache_read_range(layer, pos, pos+1) returns 0 and, in
exact arithmetic with round-to-nearest, K and V vectors whose component `i` differs from
`k[i]` (resp. `v[i]`) by at most half the Q8_0 scale `max_abs / 127` of the 32-lane group
of `i`. -/
theorem kv_round_trip_error (c : kv_cache) (layer pos : Nat) (k v : List ℚ)
    (later : List kv_op) (ko vo : List ℚ)
    (hwf : kv_wf c)
    (hok : (kv_cache_append c layer pos k v).1 = 0)
    (_hk : k.length = c.vec_dim) (_hv : v.length = c.vec_dim)
    (hlater : ∀ op ∈ later, ¬ (op.layer = layer ∧ op.pos = pos))
    (hko : c.vec_dim ≤ ko.length) (hvo : c.vec_dim ≤ vo.length) :
    pos < kv_cache_get_seq_len (kv_run (kv_cache_append c layer pos k v).2 later) layer ∧
    (kv_cache_read_range (kv_run (kv_cache_append c layer pos k v).2 later)
      layer pos (pos + 1) ko vo).1 = 0 ∧
    ∀ i, i < c.vec_dim →
      ∃ a b,
        (kv_cache_read_range (kv_run (kv_cache_append c layer pos k v).2 later)
          layer pos (pos + 1) ko vo).2.1[i]? = some a ∧
        (kv_cache_read_range (kv_run (kv_cache_append c layer pos k v).2 later)
          layer pos (pos + 1) ko vo).2.2[i]? = some b ∧
        |a - k.getD i 0| ≤ q8_max_abs k c.vec_dim (i / 32 * 32) / 127 / 2 ∧
        |b - v.getD i 0| ≤ q8_max_abs v c.vec_dim (i / 32 * 32) / 127 / 2 := by
  obtain ⟨hl, hp⟩ := (kv_append_status c layer pos k v).mp hok
  have hwf1 := kv_cache_append_wf c hwf layer pos k v
  rw [kv_read_after c hwf layer pos k v later ko vo hl hp hlater]
  have hstatus : (kv_cache_read_range (kv_cache_append c layer pos k v).2 layer pos (pos + 1)
      ko vo).1 = 0 := by
    obtain ⟨e1, _⟩ := kv_append_shape c layer pos k v
    rw [kv_read_one _ layer pos ko vo (by rw [e1]; exact hl) (by rw [e1]; exact hp)]
  refine ⟨?_, hstatus, ?_⟩
  · have hmono := kv_get_seq_len_mono later _ hwf1 layer
    have hget := kv_get_seq_len_append c hwf layer pos k v hl hp layer
    rw [if_pos rfl] at hget
    have : pos + 1 ≤ kv_cache_get_seq_len (kv_cache_append c layer pos k v).2 layer := by
      rw [hget]; exact le_max_right _ _
    omega
  · intro i hi
    obtain ⟨_, rk, rv⟩ := kv_read_fresh c hwf layer pos k v ko vo hl hp i hi
    refine ⟨_, _, rk (by omega), rv (by omega), ?_, ?_⟩
    · have h := q8_round_trip k c.vec_dim (i / 32 * 32) (i % 32) (Nat.mod_lt _ (by omega))
      have e : i / 32 * 32 + i % 32 = i := by omega
      rw [e] at h
      simpa [q8_lane, hi] using h
    · have h := q8_round_trip v c.vec_dim (i / 32 * 32) (i % 32) (Nat.mod_lt _ (by omega))
      have e : i / 32 * 32 + i % 32 = i := by omega
      rw [e] at h
      simpa [q8_lane, hi] using h

/-- C7 on the cache of the test: the row appended at position 2 of layer 0, read back
after the append at position 3, is within half a scale step (entry 3 shown). -/
theorem kv_round_trip_error_witness :
    2 < kv_cache_get_seq_len (kv_run (kv_cache_append kv_test_cache 0 2 (kv_test_vec 2)
      ((kv_test_vec 2).map fun x => -x)).2
        [{ layer := 0, pos := 3, k := kv_test_vec 3, v := kv_test_vec 3 }]) 0 ∧
    ∃ a b,
      (kv_cache_read_range (kv_run (kv_cache_append kv_test_cache 0 2 (kv_test_vec 2)
        ((kv_test_vec 2).map fun x => -x)).2
          [{ layer := 0, pos := 3, k := kv_test_vec 3, v := kv_test_vec 3 }])
        0 2 (2 + 1) (List.replicate 8 0) (List.replicate 8 0)).2.1[3]? = some a ∧
      (kv_cache_read_range (kv_run (kv_cache_append kv_test_cache 0 2 (kv_test_vec 2)
        ((kv_test_vec 2).map fun x => -x)).2
          [{ layer := 0, pos := 3, k := kv_test_vec 3, v := kv_test_vec 3 }])
        0 2 (2 + 1) (List.replicate 8 0) (List.replicate 8 0)).2.2[3]? = some b ∧
      |a - (kv_test_vec 2).getD 3 0| ≤
        q8_max_abs (kv_test_vec 2) kv_test_cache.vec_dim (3 / 32 * 32) / 127 / 2 ∧
      |b - ((kv_test_vec 2).map fun x => -x).getD 3 0| ≤
        q8_max_abs ((kv_test_vec 2).map fun x => -x) kv_test_cache.vec_dim (3 / 32 * 32)
          / 127 / 2 :=
  have h := kv_round_trip_error kv_test_cache 0 2 (kv_test_vec 2)
    ((kv_test_vec 2).map fun x => -x)
    [{ layer := 0, pos := 3, k := kv_test_vec 3, v := kv_test_vec 3 }]
    (List.replicate 8 0) (List.replicate 8 0) kv_test_cache_wf rfl rfl rfl
    (by intro op hop; simp only [List.mem_singleton] at hop; subst hop; simp)
    (by decide) (by decide)
  ⟨h.1, h.2.2 3 (by decide)⟩

/-- C8. In a cache built by kv_cache_create whose sizes fit 32 bits, a successful
kv_cache_append(layer, pos, k, v) changes no other slot: for every other (layer2, pos2)
with layer2 < n_layers and pos2 < max_seq_len, kv_cache_read_range(layer2, pos2, pos2+1)
gives the same result and outputs before and after. Hence, after any later appends to
other slots, reading (layer, pos) still returns the dequantized Q8_0 form of `k` and `v`,
so after appends at positions 0..p-1 of every layer each position reads back the
quantized form of what was appended there. -/
theorem kv_append_frame (c : kv_cache) (layer pos : Nat) (k v : List ℚ)
    (hwf : kv_wf c) (hok : (kv_cache_append c layer pos k v).1 = 0) :
    (∀ (l2 p2 : Nat) (ko vo : List ℚ), l2 < c.cfg.n_layers → p2 < c.cfg.max_seq_len →
      ¬ (l2 = layer ∧ p2 = pos) →
      kv_cache_read_range (kv_cache_append c layer pos k v).2 l2 p2 (p2 + 1) ko vo =
        kv_cache_read_range c l2 p2 (p2 + 1) ko vo) ∧
    (∀ (later : List kv_op) (ko vo : List ℚ),
      (∀ op ∈ later, ¬ (op.layer = layer ∧ op.pos = pos)) →
      kv_cache_read_range (kv_run (kv_cache_append c layer pos k v).2 later)
          layer pos (pos + 1) ko vo =
        (0,
         q8_dequantize_vec
           (q8_quantize_vec k c.vec_dim
             (List.replicate ((c.vec_dim + 31) / 32) q8_block.zero) 0) 0 c.vec_dim ko 0,
         q8_dequantize_vec
           (q8_quantize_vec v c.vec_dim
             (List.replicate ((c.vec_dim + 31) / 32) q8_block.zero) 0) 0 c.vec_dim vo 0)) := by
  obtain ⟨hl, hp⟩ := (kv_append_status c layer pos k v).mp hok
  obtain ⟨e1, e2⟩ := kv_append_shape c layer pos k v
  have hwf1 := kv_cache_append_wf c hwf layer pos k v
  constructor
  · intro l2 p2 ko vo hl2 hp2 hne
    apply kv_read_one_congr _ _ hwf1 l2 p2 ko vo e1 e2 (by rw [e1]; exact hl2)
      (by rw [e1]; exact hp2)
    · intro b hb
      exact (kv_slot_frame c hwf layer pos k v hl hp l2 p2 hl2 hp2 hne b
        (by rw [← e2]; exact hb)).1
    · intro b hb
      exact (kv_slot_frame c hwf layer pos k v hl hp l2 p2 hl2 hp2 hne b
        (by rw [← e2]; exact hb)).2
  · intro later ko vo hlater
    rw [kv_read_after c hwf layer pos k v later ko vo hl hp hlater,
      kv_read_one _ layer pos ko vo (by rw [e1]; exact hl) (by rw [e1]; exact hp), e2]
    have hfresh : ∀ (x : List ℚ) (b : Nat), b < (c.vec_dim + 31) / 32 →
        (q8_quantize_vec x c.vec_dim
          (List.replicate ((c.vec_dim + 31) / 32) q8_block.zero) 0).getD (0 + b)
            q8_block.zero = q8_quantize_block x c.vec_dim (b * 32) := by
      intro x b hb
      rw [List.getD_eq_getElem?_getD, (q8_quantize_vec_spec x c.vec_dim _ 0 hwf.vec).2,
        if_pos ⟨by omega, by omega, by simp; omega⟩]
      simp
    have hK := q8_dequantize_vec_congr
      (kv_block_at (kv_cache_append c layer pos k v).2 layer pos).k
      (q8_quantize_vec k c.vec_dim (List.replicate ((c.vec_dim + 31) / 32) q8_block.zero) 0)
      (kv_slot_offset (kv_cache_append c layer pos k v).2 pos) 0 c.vec_dim ko 0 hwf.vec
      (fun b hb => by
        rw [hfresh k b hb]
        exact (kv_slot_after_append c hwf layer pos k v hl hp b hb).1)
    have hV := q8_dequantize_vec_congr
      (kv_block_at (kv_cache_append c layer pos k v).2 layer pos).v
      (q8_quantize_vec v c.vec_dim (List.replicate ((c.vec_dim + 31) / 32) q8_block.zero) 0)
      (kv_slot_offset (kv_cache_append c layer pos k v).2 pos) 0 c.vec_dim vo 0 hwf.vec
      (fun b hb => by
        rw [hfresh v b hb]
        exact (kv_slot_after_append c hwf layer pos k v hl hp b hb).2)
    rw [hK, hV]

/-- C8 on the cache of the test: after the four appends of the test, appending at
position 5 leaves the read of position 1 as it was. -/
theorem kv_append_frame_witness :
    kv_cache_read_range
        (kv_cache_append (kv_run kv_test_cache kv_test_ops) 0 5 (kv_test_vec 5)
          (kv_test_vec 5)).2 0 1 (1 + 1) (List.replicate 8 0) (List.replicate 8 0) =
      kv_cache_read_range (kv_run kv_test_cache kv_test_ops) 0 1 (1 + 1)
        (List.replicate 8 0) (List.replicate 8 0) :=
  (kv_append_frame (kv_run kv_test_cache kv_test_ops) 0 5 (kv_test_vec 5) (kv_test_vec 5)
    (kv_run_shape kv_test_ops kv_test_cache kv_test_cache_wf).1 rfl).1
    0 1 (List.replicate 8 0) (List.replicate 8 0) (by decide) (by decide) (by decide)

/-- C9. In a cache built by kv_cache_create whose sizes fit 32 bits, after a successful
kv_cache_append(layer, pos, ...) kv_cache_get_seq_len(layer) is the maximum of its
previous value and pos + 1, the `seq_len` of the block of the slot is the maximum of its
previous value and pos % block_size + 1 and is at most block_size, and
kv_cache_get_seq_len of every other layer is unchanged; appending positions 0..3 to the
empty cache of the test gives kv_cache_get_seq_len(0) = 4. -/
theorem kv_append_seq_len (c : kv_cache) (layer pos : Nat) (k v : List ℚ)
    (hwf : kv_wf c) (hok : (kv_cache_append c layer pos k v).1 = 0) :
    kv_cache_get_seq_len (kv_cache_append c layer pos k v).2 layer =
      max (kv_cache_get_seq_len c layer) (pos + 1) ∧
    (kv_block_at (kv_cache_append c layer pos k v).2 layer pos).seq_len =
      max (kv_block_at c layer pos).seq_len (pos % c.cfg.block_size + 1) ∧
    (kv_block_at (kv_cache_append c layer pos k v).2 layer pos).seq_len ≤ c.cfg.block_size ∧
    (∀ l2, l2 ≠ layer →
      kv_cache_get_seq_len (kv_cache_append c layer pos k v).2 l2 =
        kv_cache_get_seq_len c l2) ∧
    kv_cache_get_seq_len (kv_run kv_test_cache kv_test_ops) 0 = 4 := by
  obtain ⟨hl, hp⟩ := (kv_append_status c layer pos k v).mp hok
  have hget := kv_get_seq_len_append c hwf layer pos k v hl hp
  have hblk := kv_block_at_append c hwf layer pos k v hl hp layer pos hl hp
  rw [if_pos rfl] at hblk
  obtain ⟨_, _, hlt⟩ := kv_block_index_spec c hwf layer pos hl hp
  have hmem : kv_block_at c layer pos ∈ c.blocks := by
    unfold kv_block_at
    rw [List.getD_eq_getElem?_getD, List.getElem?_eq_getElem hlt, Option.getD_some]
    exact List.getElem_mem hlt
  obtain ⟨_, _, hs⟩ := hwf.blk _ hmem
  have hm := Nat.mod_lt pos hwf.bs_pos
  have hseq : (kv_block_at (kv_cache_append c layer pos k v).2 layer pos).seq_len =
      max (kv_block_at c layer pos).seq_len (pos % c.cfg.block_size + 1) := by
    rw [hblk]
    unfold kv_block_append
    dsimp only
    split
    · rw [Nat.max_eq_right (by omega)]
    · rw [Nat.max_eq_left (by omega)]
  refine ⟨?_, hseq, ?_, ?_, rfl⟩
  · rw [hget layer, if_pos rfl]
  · rw [hseq]
    exact max_le hs (by omega)
  · intro l2 hl2
    rw [hget l2, if_neg hl2]

/-- C9 on the cache of the test: the append at position 2 after the ones at 0 and 1. -/
theorem kv_append_seq_len_witness :
    kv_cache_get_seq_len
        (kv_cache_append (kv_run kv_test_cache (kv_test_ops.take 2)) 0 2 (kv_test_vec 2)
          (kv_test_vec 2)).2 0 =
      max (kv_cache_get_seq_len (kv_run kv_test_cache (kv_test_ops.take 2)) 0) (2 + 1) :=
  (kv_append_seq_len (kv_run kv_test_cache (kv_test_ops.take 2)) 0 2 (kv_test_vec 2)
    (kv_test_vec 2)
    (kv_run_shape (kv_test_ops.take 2) kv_test_cache kv_test_cache_wf).1 rfl).1

/-- C10. In a cache built by kv_cache_create whose sizes fit 32 bits (and with
max_seq_len * vec_dim below 2^32), for non-null output arrays
kv_cache_read_range(layer, start, end) returns -1 exactly when end < start or
layer >= n_layers or end > max_seq_len, and then leaves the outputs alone; otherwise it
returns 0, writes nothing at or beyond index (end - start) * vec_dim of either output and
writes to entry i * vec_dim + t (i < end - start, t < vec_dim) the dequantized lane t of
the slot of position start + i. -/
theorem kv_cache_read_range_spec (c : kv_cache) (layer s e : Nat) (ko vo : List ℚ)
    (hwf : kv_wf c) (hfit : c.cfg.max_seq_len * c.vec_dim < 2 ^ 32) :
    ((kv_cache_read_range c layer s e ko vo).1 = -1 ↔
      (e < s ∨ layer ≥ c.cfg.n_layers ∨ e > c.cfg.max_seq_len)) ∧
    ((e < s ∨ layer ≥ c.cfg.n_layers ∨ e > c.cfg.max_seq_len) →
      kv_cache_read_range c layer s e ko vo = (-1, ko, vo)) ∧
    (¬ (e < s ∨ layer ≥ c.cfg.n_layers ∨ e > c.cfg.max_seq_len) →
      (kv_cache_read_range c layer s e ko vo).1 = 0 ∧
      (kv_cache_read_range c layer s e ko vo).2.1.length = ko.length ∧
      (kv_cache_read_range c layer s e ko vo).2.2.length = vo.length ∧
      (∀ j, (e - s) * c.vec_dim ≤ j →
        (kv_cache_read_range c layer s e ko vo).2.1[j]? = ko[j]? ∧
        (kv_cache_read_range c layer s e ko vo).2.2[j]? = vo[j]?) ∧
      (∀ i t, i < e - s → t < c.vec_dim →
        (i * c.vec_dim + t < ko.length →
          (kv_cache_read_range c layer s e ko vo).2.1[i * c.vec_dim + t]? =
            some (q8_value (kv_slot_k c layer (s + i) (t / 32)) (t % 32))) ∧
        (i * c.vec_dim + t < vo.length →
          (kv_cache_read_range c layer s e ko vo).2.2[i * c.vec_dim + t]? =
            some (q8_value (kv_slot_v c layer (s + i) (t / 32)) (t % 32))))) := by
  have hbad : (e < s ∨ layer ≥ c.cfg.n_layers ∨ e > c.cfg.max_seq_len) →
      kv_cache_read_range c layer s e ko vo = (-1, ko, vo) := by
    intro h
    unfold kv_cache_read_range
    by_cases h1 : e < s
    · rw [if_pos h1]
    · rw [if_neg h1]
      by_cases h2 : layer ≥ c.cfg.n_layers
      · rw [if_pos h2]
      · rw [if_neg h2, if_pos (by omega)]
  have hgood : ¬ (e < s ∨ layer ≥ c.cfg.n_layers ∨ e > c.cfg.max_seq_len) →
      kv_cache_read_range c layer s e ko vo =
        (0, ((List.range' s (e - s)).foldl (kv_read_step c layer) (0, ko, vo)).2.1,
            ((List.range' s (e - s)).foldl (kv_read_step c layer) (0, ko, vo)).2.2) := by
    intro h
    exact kv_cache_read_range_ok c layer s e ko vo (by omega) (by omega) (by omega)
  refine ⟨?_, hbad, ?_⟩
  · constructor
    · intro h
      by_contra hn
      rw [hgood hn] at h
      cases h
    · intro h
      rw [hbad h]
  · intro h
    rw [hgood h]
    obtain ⟨_, ⟨klen, krest, krows⟩, ⟨vlen, vrest, vrows⟩⟩ :=
      kv_read_fold_spec c hwf hfit layer s ko vo (e - s) (by omega)
    exact ⟨rfl, klen, vlen, fun j hj => ⟨krest j hj, vrest j hj⟩,
      fun i t hi ht => ⟨fun hlen => krows i t hi ht hlen, fun hlen => vrows i t hi ht hlen⟩⟩

/-- C10 on the cache of the test after its four appends: reading positions 1..2 of
layer 0 returns 0, while a read up to position 9 > max_seq_len = 8 returns -1. -/
theorem kv_cache_read_range_spec_witness :
    (kv_cache_read_range (kv_run kv_test_cache kv_test_ops) 0 1 3
      (List.replicate 16 0) (List.replicate 16 0)).1 = 0 ∧
    ((kv_cache_read_range (kv_run kv_test_cache kv_test_ops) 0 1 9
      (List.replicate 16 0) (List.replicate 16 0)).1 = -1 ↔
        (9 < 1 ∨ 0 ≥ (kv_run kv_test_cache kv_test_ops).cfg.n_layers ∨
          9 > (kv_run kv_test_cache kv_test_ops).cfg.max_seq_len)) :=
  ⟨((kv_cache_read_range_spec (kv_run kv_test_cache kv_test_ops) 0 1 3
      (List.replicate 16 0) (List.replicate 16 0)
      (kv_run_shape kv_test_ops kv_test_cache kv_test_cache_wf).1 (by decide)).2.2
      (by decide)).1,
   (kv_cache_read_range_spec (kv_run kv_test_cache kv_test_ops) 0 1 9
      (List.replicate 16 0) (List.replicate 16 0)
      (kv_run_shape kv_test_ops kv_test_cache kv_test_cache_wf).1 (by decide)).1⟩

/-! ## The KV cache: clearing -/

/-- A loop `for i < m: a[i] = f a[i]` over a list, cell by cell. -/
theorem foldl_modify_range {α : Type} (f : α → α) :
    ∀ (m : Nat) (a : List α) (j : Nat),
      ((List.range m).foldl (fun bs i => bs.modify f i) a)[j]? =
        if j < m then a[j]?.map f else a[j]? := by
  intro m
  induction m with
  | zero => intro a j; simp
  | succ m ih =>
    intro a j
    simp only [List.range_succ, List.foldl_append, List.foldl_cons, List.foldl_nil]
    rw [List.getElem?_modify, ih a j]
    by_cases hj : m = j
    · subst hj
      simp
    · simp only [if_neg hj]
      by_cases hlt : j < m
      · rw [if_pos hlt, if_pos (by omega)]
        cases a[j]? <;> rfl
      · rw [if_neg hlt, if_neg (by omega)]
        cases a[j]? <;> rfl

theorem kv_clear_blocks (c : kv_cache) (j : Nat) :
    (kv_cache_clear c).blocks[j]? =
      if j < c.cfg.n_layers * c.n_blocks % 2 ^ 32 then c.blocks[j]?.map kv_block_reset
      else c.blocks[j]? :=
  foldl_modify_range kv_block_reset _ c.blocks j

theorem kv_clear_block_at (c : kv_cache) (layer pos : Nat) :
    (kv_block_at (kv_cache_clear c) layer pos).k = (kv_block_at c layer pos).k ∧
    (kv_block_at (kv_cache_clear c) layer pos).v = (kv_block_at c layer pos).v := by
  have hidx : kv_block_index (kv_cache_clear c) layer pos = kv_block_index c layer pos := rfl
  unfold kv_block_at
  rw [hidx, List.getD_eq_getElem?_getD, List.getD_eq_getElem?_getD, kv_clear_blocks]
  split
  · cases c.blocks[kv_block_index c layer pos]? <;> exact ⟨rfl, rfl⟩
  · exact ⟨rfl, rfl⟩

theorem kv_clear_read_step (c : kv_cache) (layer : Nat) (acc : Nat × List ℚ × List ℚ)
    (pos : Nat) :
    kv_read_step (kv_cache_clear c) layer acc pos = kv_read_step c layer acc pos := by
  obtain ⟨hk, hv⟩ := kv_clear_block_at c layer pos
  have hoff : kv_slot_offset (kv_cache_clear c) pos = kv_slot_offset c pos := rfl
  have hvd : (kv_cache_clear c).vec_dim = c.vec_dim := rfl
  unfold kv_read_step
  rw [hk, hv, hoff, hvd]

/-- C11: kv_cache_clear, on a cache that holds the `n_layers * n_blocks` blocks allocated
by kv_cache_create, makes kv_cache_get_seq_len return 0 for every layer and leaves every
block with `seq_len = 0`; the configuration and the quantized K and V arrays of every
block are as before, and every call of kv_cache_read_range returns after the clear
exactly what it returns before it (status and both output arrays). -/
theorem kv_cache_clear_spec (c : kv_cache)
    (hlen : c.blocks.length = c.cfg.n_layers * c.n_blocks % 2 ^ 32) :
    (∀ l, kv_cache_get_seq_len (kv_cache_clear c) l = 0) ∧
    (∀ b ∈ (kv_cache_clear c).blocks, b.seq_len = 0) ∧
    (kv_cache_clear c).cfg = c.cfg ∧
    (kv_cache_clear c).blocks.map (fun b => (b.k, b.v)) = c.blocks.map (fun b => (b.k, b.v)) ∧
    ∀ layer s e k_out v_out,
      kv_cache_read_range (kv_cache_clear c) layer s e k_out v_out =
        kv_cache_read_range c layer s e k_out v_out := by
  refine ⟨?_, ?_, rfl, ?_, ?_⟩
  · intro l
    unfold kv_cache_get_seq_len
    have hcfg : (kv_cache_clear c).cfg = c.cfg := rfl
    rw [hcfg]
    by_cases hl : l ≥ c.cfg.n_layers
    · rw [if_pos hl]
    · rw [if_neg hl]
      obtain ⟨_, hget⟩ := foldl_cond_set (fun _ => true) (fun _ => (0 : Nat)) 0
        c.cfg.n_layers c.layer_seq_len
      have hfun : (kv_cache_clear c).layer_seq_len =
          (List.range c.cfg.n_layers).foldl
            (fun acc t => if (fun _ => true) t = true then acc.set (0 + t) ((fun _ => 0) t)
              else acc) c.layer_seq_len := by
        unfold kv_cache_clear
        simp
      rw [List.getD_eq_getElem?_getD, hfun, hget l]
      by_cases hin : l < c.layer_seq_len.length
      · rw [if_pos ⟨by omega, by omega, rfl, hin⟩]
        rfl
      · rw [if_neg (by omega), List.getElem?_eq_none (by omega)]
        rfl
  · intro b hb
    obtain ⟨j, hj⟩ := List.getElem?_of_mem hb
    rw [kv_clear_blocks] at hj
    by_cases hlt : j < c.cfg.n_layers * c.n_blocks % 2 ^ 32
    · rw [if_pos hlt] at hj
      cases hc : c.blocks[j]? with
      | none => rw [hc] at hj; cases hj
      | some b0 =>
        rw [hc] at hj
        simp only [Option.map_some', Option.some.injEq] at hj
        rw [← hj]
        rfl
    · rw [if_neg hlt, List.getElem?_eq_none (by omega)] at hj
      cases hj
  · apply List.ext_getElem?
    intro j
    rw [List.getElem?_map, List.getElem?_map, kv_clear_blocks]
    split
    · cases c.blocks[j]? <;> rfl
    · rfl
  · intro layer s e k_out v_out
    have hstep : kv_read_step (kv_cache_clear c) layer = kv_read_step c layer := by
      funext acc pos
      exact kv_clear_read_step c layer acc pos
    have hcfg : (kv_cache_clear c).cfg = c.cfg := rfl
    unfold kv_cache_read_range
    rw [hstep, hcfg]

/-- C11 on the cache of the test after its four appends: the length of layer 0 is 4
before the clear and 0 after it, and reading positions 0..3 gives the same arrays. -/
theorem kv_cache_clear_spec_witness :
    kv_cache_get_seq_len (kv_run kv_test_cache kv_test_ops) 0 = 4 ∧
    kv_cache_get_seq_len (kv_cache_clear (kv_run kv_test_cache kv_test_ops)) 0 = 0 ∧
    kv_cache_read_range (kv_cache_clear (kv_run kv_test_cache kv_test_ops)) 0 0 4
        (List.replicate 32 0) (List.replicate 32 0) =
      kv_cache_read_range (kv_run kv_test_cache kv_test_ops) 0 0 4
        (List.replicate 32 0) (List.replicate 32 0) :=
  ⟨by decide,
   (kv_cache_clear_spec (kv_run kv_test_cache kv_test_ops) (by decide)).1 0,
   (kv_cache_clear_spec (kv_run kv_test_cache kv_test_ops) (by decide)).2.2.2.2 0 0 4 _ _⟩

/-! ## Q8_0: what a quantized group holds -/

theorem foldl_max_attained (f : Nat → ℚ) :
    ∀ (l : List Nat) (init : ℚ),
      l.foldl (fun m i => if f i > m then f i else m) init = init ∨
      ∃ i ∈ l, l.foldl (fun m i => if f i > m then f i else m) init = f i := by
  intro l
  induction l with
  | nil => intro init; exact Or.inl rfl
  | cons a as ih =>
    intro init
    simp only [List.foldl_cons]
    rcases ih (if f a > init then f a else init) with h | ⟨i, hi, h⟩
    · rw [h]
      by_cases hgt : f a > init
      · rw [if_pos hgt]
        exact Or.inr ⟨a, List.mem_cons_self a as, rfl⟩
      · rw [if_neg hgt]
        exact Or.inl rfl
    · exact Or.inr ⟨i, List.mem_cons_of_mem a hi, h⟩

theorem q8_max_abs_zero_iff (x : List ℚ) (n base : Nat) :
    q8_max_abs x n base = 0 ↔ ∀ i, i < 32 → q8_lane x n (base + i) = 0 := by
  obtain ⟨hpos, hmax⟩ := q8_max_abs_spec x n base
  constructor
  · intro h0 i hi
    have := hmax i hi
    rw [h0] at this
    exact abs_eq_zero.mp (le_antisymm this (abs_nonneg _))
  · intro hall
    rcases foldl_max_attained (fun i => |q8_lane x n (base + i)|) (List.range 32) 0 with h | h
    · exact h
    · obtain ⟨i, hi, h⟩ := h
      have e : q8_max_abs x n base = |q8_lane x n (base + i)| := h
      rw [e, hall i (List.mem_range.mp hi), abs_zero]

theorem q8_max_abs_attained (x : List ℚ) (n base : Nat)
    (hne : ¬ ∀ i, i < 32 → q8_lane x n (base + i) = 0) :
    ∃ i, i < 32 ∧ q8_max_abs x n base = |q8_lane x n (base + i)| := by
  rcases foldl_max_attained (fun i => |q8_lane x n (base + i)|) (List.range 32) 0 with h | h
  · exact absurd ((q8_max_abs_zero_iff x n base).mp h) hne
  · obtain ⟨i, hi, h⟩ := h
    exact ⟨i, List.mem_range.mp hi, h⟩

theorem q8_quant_range (v scale : ℚ) : -127 ≤ q8_quant v scale ∧ q8_quant v scale ≤ 127 := by
  unfold q8_quant
  dsimp only
  generalize lrintf (v / scale) = q
  split_ifs <;> omega

theorem q8_quant_zero (scale : ℚ) : q8_quant 0 scale = 0 := by
  simp [q8_quant, lrintf]

theorem q8_block_data (x : List ℚ) (n base i : Nat) (hi : i < 32) :
    (q8_quantize_block x n base).data.getD i 0 =
      q8_quant (q8_lane x n (base + i)) (q8_scale x n base) := by
  simp [q8_quantize_block, List.getD_eq_getElem?_getD, List.getElem?_map,
    List.getElem?_range hi]

/-- In exact arithmetic: for the `b`-th 32-lane group of an `n`-lane input (`n + 31`
fitting 32 bits, the output array long enough), q8_quantize_vec stores a block whose scale
is 1 when all 32
lanes of the group are zero and `M / 127` otherwise, `M` being the largest absolute
value of the group (an upper bound of the 32 absolute values that one lane attains);
the block has 32 entries, each in [-127, 127]; the lanes past the end of the input store
0; and the block of an all-zero group dequantizes to exactly 0 in every lane. Lanes past
`n` count as zero lanes of the group. -/
theorem q8_quantize_vec_groups (x : List ℚ) (n : Nat) (dst : List q8_block) (off b : Nat)
    (hn : n + 31 < 2 ^ 32) (hb : b < (n + 31) / 32) (hdst : off + b < dst.length) :
    ∃ blk, (q8_quantize_vec x n dst off)[off + b]? = some blk ∧
      ((∀ i, i < 32 → q8_lane x n (b * 32 + i) = 0) → blk.scale = 1) ∧
      ((¬ ∀ i, i < 32 → q8_lane x n (b * 32 + i) = 0) →
        ∃ M : ℚ, (∀ i, i < 32 → |q8_lane x n (b * 32 + i)| ≤ M) ∧
          (∃ i, i < 32 ∧ |q8_lane x n (b * 32 + i)| = M) ∧ blk.scale = M / 127) ∧
      blk.data.length = 32 ∧
      (∀ i, i < 32 → -127 ≤ blk.data.getD i 0 ∧ blk.data.getD i 0 ≤ 127) ∧
      (∀ i, i < 32 → n ≤ b * 32 + i → blk.data.getD i 0 = 0) ∧
      ((∀ i, i < 32 → q8_lane x n (b * 32 + i) = 0) → ∀ i, i < 32 → q8_value blk i = 0) := by
  obtain ⟨_, hget⟩ := q8_quantize_vec_spec x n dst off hn
  have hcell := hget (off + b)
  rw [if_pos ⟨by omega, by omega, hdst⟩] at hcell
  have e : off + b - off = b := by omega
  rw [e] at hcell
  refine ⟨_, hcell, ?_, ?_, ?_, ?_, ?_, ?_⟩
  · intro hall
    have h0 := (q8_max_abs_zero_iff x n (b * 32)).mpr hall
    show q8_scale x n (b * 32) = 1
    unfold q8_scale
    rw [h0]
    simp
  · intro hne
    obtain ⟨i, hi, hatt⟩ := q8_max_abs_attained x n (b * 32) hne
    refine ⟨q8_max_abs x n (b * 32), (q8_max_abs_spec x n (b * 32)).2, ⟨i, hi, hatt.symm⟩, ?_⟩
    show q8_scale x n (b * 32) = q8_max_abs x n (b * 32) / 127
    unfold q8_scale
    have hM : q8_max_abs x n (b * 32) ≠ 0 := fun h0 =>
      hne ((q8_max_abs_zero_iff x n (b * 32)).mp h0)
    rw [if_neg]
    intro hz
    rcases div_eq_zero_iff.mp hz with h | h
    · exact hM h
    · norm_num at h
  · simp [q8_quantize_block]
  · intro i hi
    rw [q8_block_data x n (b * 32) i hi]
    exact q8_quant_range _ _
  · intro i hi hpad
    rw [q8_block_data x n (b * 32) i hi]
    have hl : q8_lane x n (b * 32 + i) = 0 := by
      unfold q8_lane
      rw [if_neg (by omega)]
    rw [hl]
    exact q8_quant_zero _
  · intro hall i hi
    unfold q8_value
    rw [q8_block_data x n (b * 32) i hi, hall i hi, q8_quant_zero]
    simp

/-- In exact arithmetic, on the vector `[1.0, 1.1, .., 1.7]` that the test appends for
token 1: its single group has 32 entries in [-127, 127], and the 24 padding lanes hold
0. -/
theorem q8_quantize_vec_groups_witness :
    ∃ blk, (q8_quantize_vec (kv_test_vec 1) 8 [q8_block.zero] 0)[0 + 0]? = some blk ∧
      blk.data.length = 32 ∧
      (∀ i, i < 32 → -127 ≤ blk.data.getD i 0 ∧ blk.data.getD i 0 ≤ 127) ∧
      (∀ i, i < 32 → 8 ≤ 0 * 32 + i → blk.data.getD i 0 = 0) :=
  let ⟨blk, h1, _, _, h4, h5, h6, _⟩ :=
    q8_quantize_vec_groups (kv_test_vec 1) 8 [q8_block.zero] 0 0
      (by decide) (by decide) (by decide)
  ⟨blk, h1, h4, h5, h6⟩

/-! ## Loops with accesses that may fail -/

theorem loop_succ {σ : Type} (n : Nat) (body : Nat → σ → Option σ) (s : σ) :
    loop (n + 1) body s = (loop n body s).bind (body n) := by
  unfold loop
  rw [List.range_succ, List.foldlM_append]
  cases h : List.foldlM (fun s i => body i s) s (List.range n) with
  | none => rfl
  | some s1 => simp [List.foldlM]

/-- A loop whose passes keep an invariant completes, and the invariant holds at the end. -/
theorem loop_inv {σ : Type} (P : Nat → σ → Prop) (body : Nat → σ → Option σ) (s0 : σ) :
    ∀ n : Nat, P 0 s0 →
      (∀ i s, i < n → P i s → ∃ s1, body i s = some s1 ∧ P (i + 1) s1) →
      ∃ s1, loop n body s0 = some s1 ∧ P n s1 := by
  intro n
  induction n with
  | zero => intro h0 _; exact ⟨s0, rfl, h0⟩
  | succ n ih =>
    intro h0 hstep
    obtain ⟨s1, h1, p1⟩ := ih h0 (fun i s hi hp => hstep i s (by omega) hp)
    obtain ⟨s2, h2, p2⟩ := hstep n s1 (by omega) p1
    exact ⟨s2, by rw [loop_succ, h1]; exact h2, p2⟩

theorem wr_some {α : Type} (a : List α) (i : Nat) (v : α) (h : i < a.length) :
    wr a i v = some (a.set i v) := by
  unfold wr
  rw [if_pos h]

theorem rd_some {α : Type} (a : List α) (i : Nat) (h : i < a.length) :
    rd a i = some (a.get ⟨i, h⟩) := by
  unfold rd
  exact List.getElem?_eq_getElem h

theorem rd_getD {α : Type} (a : List α) (i : Nat) (d : α) (h : i < a.length) :
    rd a i = some (a.getD i d) := by
  unfold rd
  rw [List.getD_eq_getElem?_getD, List.getElem?_eq_getElem h]
  rfl

/-- The loop `for l < n: *y++ = f l` writes `f 0 .. f (n-1)` from the position of `y`
on and nothing else. -/
theorem emit_run_spec (val : Nat → Option ℚ) (f : Nat → ℚ) (y : List ℚ) (yp : Nat) (n : Nat)
    (hval : ∀ l, l < n → val l = some (f l)) (hlen : yp + n ≤ y.length) :
    ∃ y1, emit_run n val (y, yp) = some (y1, yp + n) ∧ y1.length = y.length ∧
      ∀ t, y1[t]? = if yp ≤ t ∧ t < yp + n then some (f (t - yp)) else y[t]? := by
  have h := loop_inv
    (fun l (s : List ℚ × Nat) => s.2 = yp + l ∧ s.1.length = y.length ∧
      ∀ t, s.1[t]? = if yp ≤ t ∧ t < yp + l then some (f (t - yp)) else y[t]?)
    (fun l s => do
      let v ← val l
      let y ← wr s.1 s.2 v
      pure (y, s.2 + 1)) (y, yp) n
    ⟨rfl, rfl, fun t => by rw [if_neg (by omega)]⟩
    (by
      rintro l ⟨y0, p0⟩ hl ⟨hp, hl0, hc⟩
      simp only at hp hl0 hc
      subst hp
      refine ⟨(y0.set (yp + l) (f l), yp + l + 1), ?_, rfl, by simp [hl0], fun t => ?_⟩
      · simp only [hval l hl, Option.bind_eq_bind, Option.some_bind,
          wr_some y0 (yp + l) (f l) (by omega), Option.pure_def]
      · simp only [List.getElem?_set]
        by_cases ht : yp + l = t
        · subst ht
          rw [if_pos rfl, if_pos (by omega), if_pos (by omega)]
          congr 2
          omega
        · rw [if_neg ht, hc t]
          by_cases hr : yp ≤ t ∧ t < yp + l
          · rw [if_pos hr, if_pos (by omega)]
          · rw [if_neg hr, if_neg (by omega)])
  obtain ⟨⟨y1, p1⟩, hrun, hp, hl1, hc⟩ := h
  simp only at hp hl1 hc
  subst hp
  exact ⟨y1, hrun, hl1, hc⟩

/-! ## The 6-bit scales and minima of a K-quant block -/

theorem byte_and_lt (a m : Nat) : a &&& m ≤ m := Nat.and_le_right

theorem byte_shr6_shl4 (a : Nat) (ha : a < 256) : (a >>> 6) <<< 4 < 64 ∧
    ((a >>> 6) <<< 4) % 16 = 0 := by
  rw [Nat.shiftRight_eq_div_pow, Nat.shiftLeft_eq]
  constructor <;> omega

theorem k4_or_lt (a b : Nat) (ha : a < 64) (hb : b < 64) : a ||| b < 64 :=
  Nat.or_lt_two_pow (n := 6) ha hb

theorem get_scale_min_k4_eq (q : List Nat) (j : Nat) (hq : q.length = 12) (hj : j < 8) :
    get_scale_min_k4 j q =
      some (if j < 4 then (q.getD j 0 &&& 63) % 256
            else ((q.getD (j + 4) 0 &&& 0xF) ||| ((q.getD (j - 4) 0 >>> 6) <<< 4)) % 256,
            if j < 4 then (q.getD (j + 4) 0 &&& 63) % 256
            else ((q.getD (j + 4) 0 >>> 4) ||| ((q.getD j 0 >>> 6) <<< 4)) % 256) := by
  unfold get_scale_min_k4
  by_cases h4 : j < 4
  · simp only [if_pos h4, rd_getD q j 0 (by omega), rd_getD q (j + 4) 0 (by omega),
      Option.bind_eq_bind, Option.some_bind, Option.pure_def]
  · simp only [if_neg h4, Nat.sub_zero, rd_getD q (j + 4) 0 (by omega),
      rd_getD q (j - 4) 0 (by omega), rd_getD q j 0 (by omega),
      Option.bind_eq_bind, Option.some_bind, Option.pure_def]

theorem getD_byte (q : List Nat) (hb : ∀ v ∈ q, v < 256) (i : Nat) : q.getD i 0 < 256 := by
  rw [List.getD_eq_getElem?_getD]
  cases h : q[i]? with
  | none => exact Nat.zero_lt_succ _
  | some v => exact hb v (List.getElem?_mem h)

theorem rd_none {α : Type} (a : List α) (i : Nat) (h : a.length ≤ i) : rd a i = none := by
  unfold rd
  exact List.getElem?_eq_none h

theorem get_scale_min_k4_short (q : List Nat) (j : Nat) (hq : q.length ≤ j + 4) :
    get_scale_min_k4 j q = none := by
  unfold get_scale_min_k4
  by_cases h4 : j < 4
  · rw [if_pos h4, rd_none q (j + 4) hq]
    cases rd q j <;> rfl
  · rw [if_neg h4, rd_none q (j + 4) hq]
    rfl

/-- C13: for a 12-byte array `scales` and a sub-block `j` in 0..7, get_scale_min_k4
completes with every read inside the array (a read outside would give `none`) and returns
`sc = scales[j] & 63`, `m = scales[j+4] & 63` when `j < 4`, and
`sc = (scales[j+4] & 0xF) | ((scales[j-4] >> 6) << 4)`,
`m = (scales[j+4] >> 4) | ((scales[j] >> 6) << 4)` when `j >= 4`; both are below 64, so
storing them in a uint8_t loses nothing. The largest index read is `j + 4 <= 11`: on an
array too short to have it the function has no result. -/
theorem get_scale_min_k4_spec (scales : List Nat) (j : Nat)
    (hlen : scales.length = 12) (hbytes : ∀ v ∈ scales, v < 256) (hj : j < 8) :
    ∃ sc m, get_scale_min_k4 j scales = some (sc, m) ∧
      (j < 4 → sc = scales.getD j 0 &&& 63 ∧ m = scales.getD (j + 4) 0 &&& 63) ∧
      (4 ≤ j →
        sc = (scales.getD (j + 4) 0 &&& 0xF) ||| ((scales.getD (j - 4) 0 >>> 6) <<< 4) ∧
        m = (scales.getD (j + 4) 0 >>> 4) ||| ((scales.getD j 0 >>> 6) <<< 4)) ∧
      sc < 64 ∧ m < 64 ∧
      j < scales.length ∧ j + 4 < scales.length ∧ (4 ≤ j → j - 4 < scales.length) ∧
      ∀ q : List Nat, q.length ≤ j + 4 → get_scale_min_k4 j q = none := by
  have hshort : ∀ q : List Nat, q.length ≤ j + 4 → get_scale_min_k4 j q = none :=
    fun q hq => get_scale_min_k4_short q j hq
  have hb := getD_byte scales hbytes
  have a63 : ∀ i, scales.getD i 0 &&& 63 < 64 := fun i =>
    Nat.lt_succ_of_le (byte_and_lt _ 63)
  have hsc : (scales.getD (j + 4) 0 &&& 0xF) ||| ((scales.getD (j - 4) 0 >>> 6) <<< 4) < 64 :=
    k4_or_lt _ _ (lt_of_le_of_lt (byte_and_lt _ 0xF) (by decide))
      (byte_shr6_shl4 _ (hb (j - 4))).1
  have hm : (scales.getD (j + 4) 0 >>> 4) ||| ((scales.getD j 0 >>> 6) <<< 4) < 64 := by
    refine k4_or_lt _ _ ?_ (byte_shr6_shl4 _ (hb j)).1
    rw [Nat.shiftRight_eq_div_pow]
    have := hb (j + 4)
    omega
  rw [get_scale_min_k4_eq scales j hlen hj]
  by_cases h4 : j < 4
  · refine ⟨_, _, rfl, ?_, ?_, ?_, ?_, by omega, by omega, by omega, hshort⟩
    · intro _
      rw [if_pos h4, if_pos h4, Nat.mod_eq_of_lt (by have := a63 j; omega),
        Nat.mod_eq_of_lt (by have := a63 (j + 4); omega)]
      exact ⟨rfl, rfl⟩
    · intro h; omega
    · rw [if_pos h4]
      exact lt_of_le_of_lt (Nat.mod_le _ _) (a63 j)
    · rw [if_pos h4]
      exact lt_of_le_of_lt (Nat.mod_le _ _) (a63 (j + 4))
  · refine ⟨_, _, rfl, ?_, ?_, ?_, ?_, by omega, by omega, by omega, hshort⟩
    · intro h; omega
    · intro _
      rw [if_neg h4, if_neg h4, Nat.mod_eq_of_lt (by omega), Nat.mod_eq_of_lt (by omega)]
      exact ⟨rfl, rfl⟩
    · rw [if_neg h4]
      exact lt_of_le_of_lt (Nat.mod_le _ _) hsc
    · rw [if_neg h4]
      exact lt_of_le_of_lt (Nat.mod_le _ _) hm

/-- C13 on the scales of the test block: sub-block 5 has scale 1 and minimum 0. -/
theorem get_scale_min_k4_spec_witness :
    ∃ sc m, get_scale_min_k4 5 [1, 1, 1, 1, 0, 0, 0, 0, 1, 1, 1, 1] = some (sc, m) ∧
      sc < 64 ∧ m < 64 :=
  let ⟨sc, m, h, _, _, h1, h2, _⟩ :=
    get_scale_min_k4_spec [1, 1, 1, 1, 0, 0, 0, 0, 1, 1, 1, 1] 5 (by decide) (by decide)
      (by decide)
  ⟨sc, m, h, h1, h2⟩

/-! ## Q4_K: the decoder in closed form -/

theorem q4_k_value_low (blk : block_q4_k) (c l : Nat) (hl : l < 32) :
    q4_k_value blk (64 * c + l) =
      half_to_float blk.d * (((get_scale_min_k4 (2 * c + 0) blk.scales).getD (0, 0)).1 : ℚ)
          * ((blk.qs.getD (32 * c + l) 0 &&& 0xF : Nat) : ℚ)
        - half_to_float blk.dmin
          * (((get_scale_min_k4 (2 * c + 0) blk.scales).getD (0, 0)).2 : ℚ) := by
  have e1 : (64 * c + l) / 32 = 2 * c + 0 := by omega
  have e2 : (2 * c + 0) % 2 = 0 := by omega
  have e3 : (2 * c + 0) / 2 = c := by omega
  have e4 : (64 * c + l) % 32 = l := by omega
  unfold q4_k_value q4_k_nibble
  rw [e1, e2, e3, e4, if_pos rfl]

theorem q4_k_value_high (blk : block_q4_k) (c l : Nat) (hl : l < 32) :
    q4_k_value blk (64 * c + 32 + l) =
      half_to_float blk.d * (((get_scale_min_k4 (2 * c + 1) blk.scales).getD (0, 0)).1 : ℚ)
          * ((blk.qs.getD (32 * c + l) 0 >>> 4 : Nat) : ℚ)
        - half_to_float blk.dmin
          * (((get_scale_min_k4 (2 * c + 1) blk.scales).getD (0, 0)).2 : ℚ) := by
  have e1 : (64 * c + 32 + l) / 32 = 2 * c + 1 := by omega
  have e2 : (2 * c + 1) % 2 = 1 := by omega
  have e3 : (2 * c + 1) / 2 = c := by omega
  have e4 : (64 * c + 32 + l) % 32 = l := by omega
  unfold q4_k_value q4_k_nibble
  rw [e1, e2, e3, e4, if_neg (by decide)]

/-- One pass of the loop over `j`: 64 outputs, the low nibbles of 32 bytes and then their
high nibbles. -/
theorem q4_k_chunk_spec (blk : block_q4_k) (hwf : q4_k_wf blk) (y : List ℚ) (yp c : Nat)
    (hc : c < 4) (hlen : yp + 64 ≤ y.length) :
    ∃ y1, q4_k_chunk blk (half_to_float blk.d) (half_to_float blk.dmin)
        (y, yp, 32 * c, 2 * c) = some (y1, yp + 64, 32 * (c + 1), 2 * (c + 1)) ∧
      y1.length = y.length ∧
      ∀ t, y1[t]? = if yp ≤ t ∧ t < yp + 64 then some (q4_k_value blk (64 * c + (t - yp)))
                    else y[t]? := by
  obtain ⟨hs, hq, _, _⟩ := hwf
  have g1 := get_scale_min_k4_eq blk.scales (2 * c + 0) hs (by omega)
  have g2 := get_scale_min_k4_eq blk.scales (2 * c + 1) hs (by omega)
  generalize hX1 : (if 2 * c + 0 < 4 then (blk.scales.getD (2 * c + 0) 0 &&& 63) % 256
            else ((blk.scales.getD (2 * c + 0 + 4) 0 &&& 0xF) |||
              ((blk.scales.getD (2 * c + 0 - 4) 0 >>> 6) <<< 4)) % 256,
            if 2 * c + 0 < 4 then (blk.scales.getD (2 * c + 0 + 4) 0 &&& 63) % 256
            else ((blk.scales.getD (2 * c + 0 + 4) 0 >>> 4) |||
              ((blk.scales.getD (2 * c + 0) 0 >>> 6) <<< 4)) % 256) = X1 at g1
  generalize hX2 : (if 2 * c + 1 < 4 then (blk.scales.getD (2 * c + 1) 0 &&& 63) % 256
            else ((blk.scales.getD (2 * c + 1 + 4) 0 &&& 0xF) |||
              ((blk.scales.getD (2 * c + 1 - 4) 0 >>> 6) <<< 4)) % 256,
            if 2 * c + 1 < 4 then (blk.scales.getD (2 * c + 1 + 4) 0 &&& 63) % 256
            else ((blk.scales.getD (2 * c + 1 + 4) 0 >>> 4) |||
              ((blk.scales.getD (2 * c + 1) 0 >>> 6) <<< 4)) % 256) = X2 at g2
  obtain ⟨y1, r1, l1, c1⟩ := emit_run_spec
    (fun l => do
      let b ← rd blk.qs (32 * c + l)
      pure (half_to_float blk.d * (X1.1 : ℚ) * ((b &&& 0xF : Nat) : ℚ)
        - half_to_float blk.dmin * (X1.2 : ℚ)))
    (fun l => half_to_float blk.d * (X1.1 : ℚ) * ((blk.qs.getD (32 * c + l) 0 &&& 0xF : Nat) : ℚ)
        - half_to_float blk.dmin * (X1.2 : ℚ))
    y yp 32
    (fun l hl => by
      simp only [rd_getD blk.qs (32 * c + l) 0 (by omega), Option.bind_eq_bind,
        Option.some_bind, Option.pure_def])
    (by omega)
  obtain ⟨y2, r2, l2, c2⟩ := emit_run_spec
    (fun l => do
      let b ← rd blk.qs (32 * c + l)
      pure (half_to_float blk.d * (X2.1 : ℚ) * ((b >>> 4 : Nat) : ℚ)
        - half_to_float blk.dmin * (X2.2 : ℚ)))
    (fun l => half_to_float blk.d * (X2.1 : ℚ) * ((blk.qs.getD (32 * c + l) 0 >>> 4 : Nat) : ℚ)
        - half_to_float blk.dmin * (X2.2 : ℚ))
    y1 (yp + 32) 32
    (fun l hl => by
      simp only [rd_getD blk.qs (32 * c + l) 0 (by omega), Option.bind_eq_bind,
        Option.some_bind, Option.pure_def])
    (by omega)
  refine ⟨y2, ?_, by omega, fun t => ?_⟩
  · unfold q4_k_chunk
    simp only [Option.bind_eq_bind, Option.pure_def] at r1 r2
    simp only [g1, g2, Option.bind_eq_bind, Option.some_bind, r1, r2, Option.pure_def]
    have e1 : yp + 32 + 32 = yp + 64 := by omega
    have e2 : 32 * c + 32 = 32 * (c + 1) := by omega
    have e3 : 2 * c + 2 = 2 * (c + 1) := by omega
    rw [e1, e2, e3]
  · rw [c2 t, c1 t]
    by_cases h2 : yp + 32 ≤ t ∧ t < yp + 32 + 32
    · rw [if_pos h2, if_pos (by omega)]
      have e : 64 * c + (t - yp) = 64 * c + 32 + (t - (yp + 32)) := by omega
      rw [e, q4_k_value_high blk c _ (by omega), g2]
      rfl
    · rw [if_neg h2]
      by_cases h1 : yp ≤ t ∧ t < yp + 32
      · rw [if_pos h1, if_pos (by omega), q4_k_value_low blk c _ (by omega), g1]
        rfl
      · rw [if_neg h1, if_neg (by omega)]

/-- One pass of the loop over the blocks: the 256 outputs of block `i`. -/
theorem q4_k_block_spec (x : List block_q4_k) (i : Nat) (blk : block_q4_k)
    (hx : x[i]? = some blk) (hwf : q4_k_wf blk) (y : List ℚ) (yp : Nat)
    (hlen : yp + 256 ≤ y.length) :
    ∃ y1, q4_k_block x i (y, yp) = some (y1, yp + 256) ∧ y1.length = y.length ∧
      ∀ t, y1[t]? = if yp ≤ t ∧ t < yp + 256 then some (q4_k_value blk (t - yp))
                    else y[t]? := by
  obtain ⟨⟨y1, p1, q1, is1⟩, hrun, hp, hq, his, hl1, hc⟩ := loop_inv
    (fun c (s : List ℚ × Nat × Nat × Nat) =>
      s.2.1 = yp + 64 * c ∧ s.2.2.1 = 32 * c ∧ s.2.2.2 = 2 * c ∧ s.1.length = y.length ∧
      ∀ t, s.1[t]? = if yp ≤ t ∧ t < yp + 64 * c then some (q4_k_value blk (t - yp))
                     else y[t]?)
    (fun _ s => q4_k_chunk blk (half_to_float blk.d) (half_to_float blk.dmin) s)
    (y, yp, 0, 0) 4
    ⟨rfl, rfl, rfl, rfl, fun t => by rw [if_neg (by omega)]⟩
    (by
      rintro c ⟨y0, p0, q0, is0⟩ hc ⟨hp, hq, his, hl0, hcell⟩
      simp only at hp hq his hl0 hcell
      subst hp hq his
      obtain ⟨y1, r1, l1, c1⟩ := q4_k_chunk_spec blk hwf y0 (yp + 64 * c) c hc (by omega)
      refine ⟨_, r1, by simp only; omega, rfl, rfl, by simp only; omega, fun t => ?_⟩
      simp only
      rw [c1 t, hcell t]
      by_cases h1 : yp + 64 * c ≤ t ∧ t < yp + 64 * c + 64
      · rw [if_pos h1, if_pos (by omega)]
        have e : 64 * c + (t - (yp + 64 * c)) = t - yp := by omega
        rw [e]
      · rw [if_neg h1]
        by_cases h0 : yp ≤ t ∧ t < yp + 64 * c
        · rw [if_pos h0, if_pos (by omega)]
        · rw [if_neg h0, if_neg (by omega)])
  simp only at hp hq his hl1 hc
  refine ⟨y1, ?_, hl1, fun t => ?_⟩
  · unfold q4_k_block
    have hrd : rd x i = some blk := hx
    have hQ : QK_K / 64 = 4 := rfl
    simp only [hrd, Option.bind_eq_bind, Option.some_bind, hQ, hrun, Option.pure_def, hp]
  · rw [hc t]

theorem dequantize_row_q4_k_blocks (x : List block_q4_k) (y : List ℚ) (nb : Nat)
    (hx : ∀ i, i < nb → ∃ blk, x[i]? = some blk ∧ q4_k_wf blk)
    (hy : 256 * nb ≤ y.length) :
    ∃ y1, loop nb (q4_k_block x) (y, 0) = some (y1, 256 * nb) ∧ y1.length = y.length ∧
      ∀ t, y1[t]? =
        if t < 256 * nb then
          (x[t / 256]?).map fun blk => q4_k_value blk (t % 256)
        else y[t]? := by
  obtain ⟨⟨y1, p1⟩, hrun, hp, hl1, hc⟩ := loop_inv
    (fun i (s : List ℚ × Nat) =>
      s.2 = 256 * i ∧ s.1.length = y.length ∧
      ∀ t, s.1[t]? =
        if t < 256 * i then (x[t / 256]?).map fun blk => q4_k_value blk (t % 256)
        else y[t]?)
    (q4_k_block x) (y, 0) nb
    ⟨rfl, rfl, fun t => by rw [if_neg (by omega)]⟩
    (by
      rintro i ⟨y0, p0⟩ hi ⟨hp, hl0, hcell⟩
      simp only at hp hl0 hcell
      subst hp
      obtain ⟨blk, hblk, hwf⟩ := hx i hi
      obtain ⟨y1, r1, l1, c1⟩ := q4_k_block_spec x i blk hblk hwf y0 (256 * i) (by omega)
      refine ⟨_, r1, by simp only; omega, by simp only; omega, fun t => ?_⟩
      simp only
      rw [c1 t, hcell t]
      by_cases h1 : 256 * i ≤ t ∧ t < 256 * i + 256
      · rw [if_pos h1, if_pos (by omega)]
        have e1 : t / 256 = i := by omega
        have e2 : t - 256 * i = t % 256 := by omega
        rw [e1, e2, hblk]
        rfl
      · rw [if_neg h1]
        by_cases h0 : t < 256 * i
        · rw [if_pos h0, if_pos (by omega)]
        · rw [if_neg h0, if_neg (by omega)])
  simp only at hp hl1 hc
  subst hp
  exact ⟨y1, hrun, hl1, hc⟩

/-- dequantize_row_q4_k on a row of `k / 256` well-formed blocks completes and writes the
`256 * (k / 256)` values of the blocks, in order, and nothing else. -/
theorem dequantize_row_q4_k_row (x : List block_q4_k) (y : List ℚ) (k : Nat)
    (hx : ∀ i, i < k / 256 → ∃ blk, x[i]? = some blk ∧ q4_k_wf blk)
    (hy : 256 * (k / 256) ≤ y.length) :
    ∃ y1, dequantize_row_q4_k x y k = some y1 ∧ y1.length = y.length ∧
      ∀ t, y1[t]? =
        if t < 256 * (k / 256) then
          (x[t / 256]?).map fun blk => q4_k_value blk (t % 256)
        else y[t]? := by
  obtain ⟨y1, hrun, hl, hc⟩ := dequantize_row_q4_k_blocks x y (k / 256) hx hy
  refine ⟨y1, ?_, hl, hc⟩
  unfold dequantize_row_q4_k
  have hQ : k / QK_K = k / 256 := rfl
  rw [hQ, hrun]
  rfl

theorem q4_k_nibble_lt (blk : block_q4_k) (hwf : q4_k_wf blk) (t : Nat) :
    q4_k_nibble blk t < 16 := by
  have hb := getD_byte blk.qs hwf.2.2.2 (32 * (t / 32 / 2) + t % 32)
  unfold q4_k_nibble
  split
  · exact Nat.lt_succ_of_le (byte_and_lt _ 0xF)
  · rw [Nat.shiftRight_eq_div_pow]
    omega

/-- The decoder in terms of half_to_float: for a Q4_K super-block with 12 scale bytes and 128 bytes of `qs`, and an output
array of at least 256 floats, dequantize_row_q4_k completes and writes, for every
`t < 256` with `j = t / 32` and `l = t % 32`, the value `y[t] = d * sc * nib - dmin * m`,
where `d` and `dmin` are the floats that half_to_float returns for the two half-precision
fields, `(sc, m)` is the result of get_scale_min_k4 for `j`, and `nib < 16` is the low
nibble of `qs[32 * (j / 2) + l]` when `j` is even and the high nibble of that byte when
`j` is odd; nothing past the 256 values is written. -/
theorem dequantize_row_q4_k_spec (blk : block_q4_k) (y : List ℚ)
    (hwf : q4_k_wf blk) (hy : 256 ≤ y.length) :
    ∃ y1, dequantize_row_q4_k [blk] y 256 = some y1 ∧ y1.length = y.length ∧
      (∀ t, 256 ≤ t → y1[t]? = y[t]?) ∧
      ∀ t, t < 256 →
        ∃ sc m nib, get_scale_min_k4 (t / 32) blk.scales = some (sc, m) ∧
          nib = (if t / 32 % 2 = 0 then blk.qs.getD (32 * (t / 32 / 2) + t % 32) 0 &&& 0xF
                 else blk.qs.getD (32 * (t / 32 / 2) + t % 32) 0 >>> 4) ∧
          nib < 16 ∧
          y1[t]? = some (half_to_float blk.d * (sc : ℚ) * (nib : ℚ)
                          - half_to_float blk.dmin * (m : ℚ)) := by
  obtain ⟨y1, hrun, hl, hc⟩ := dequantize_row_q4_k_row [blk] y 256
    (fun i hi => ⟨blk, by
      have : i = 0 := by omega
      subst this
      rfl, hwf⟩)
    (by omega)
  refine ⟨y1, hrun, hl, fun t ht => ?_, fun t ht => ?_⟩
  · rw [hc t, if_neg (by omega)]
  · have g := get_scale_min_k4_eq blk.scales (t / 32) hwf.1 (by omega)
    refine ⟨_, _, _, g, rfl, q4_k_nibble_lt blk hwf t, ?_⟩
    rw [hc t, if_pos (by omega)]
    have e0 : t / 256 = 0 := by omega
    have e1 : t % 256 = t := by omega
    rw [e0, e1]
    simp only [List.getElem?_cons_zero, Option.map_some', q4_k_value, g, Option.getD_some,
      q4_k_nibble]

theorem q4_k_test_block_wf : q4_k_wf q4_k_test_block := by
  refine ⟨rfl, rfl, by decide, ?_⟩
  intro v hv
  simp only [q4_k_test_block, List.mem_cons, List.mem_replicate] at hv
  omega

theorem half_to_float_test_d : half_to_float q4_k_test_block.d = 1 := by
  have h : half_to_float_bits 0x3C00 = 0x3F800000 := by decide
  show f32_value (half_to_float_bits 0x3C00) = 1
  rw [h]
  norm_num [f32_value]

theorem half_to_float_test_dmin : half_to_float q4_k_test_block.dmin = 0 := by
  have h : half_to_float_bits 0 = 0 := by decide
  show f32_value (half_to_float_bits 0) = 0
  rw [h]
  norm_num [f32_value]

/-- On the block of the test output 32 is `1 * 1 * 15 - 0 * 0`. -/
theorem dequantize_row_q4_k_spec_witness :
    ∃ y1, dequantize_row_q4_k [q4_k_test_block] (List.replicate 256 0) 256 = some y1 ∧
      y1.length = 256 ∧ y1[32]? = some 15 :=
  let ⟨y1, h1, h2, _, h4⟩ :=
    dequantize_row_q4_k_spec q4_k_test_block (List.replicate 256 0) q4_k_test_block_wf
      (le_of_eq (List.length_replicate 256 (0 : ℚ)).symm)
  ⟨y1, h1, h2.trans (List.length_replicate 256 (0 : ℚ)),
    let ⟨sc, m, nib, g1, g2, _, g4⟩ := h4 32 (by decide)
    by
      have e : get_scale_min_k4 (32 / 32) q4_k_test_block.scales = some (1, 0) := by decide
      rw [e] at g1
      simp only [Option.some.injEq, Prod.mk.injEq] at g1
      obtain ⟨rfl, rfl⟩ := g1
      have e2 : nib = 15 := by rw [g2]; decide
      subst e2
      rw [g4, half_to_float_test_d, half_to_float_test_dmin]
      norm_num⟩

/-! ## Loops that fill an array region by region -/

/-- A loop whose pass `i` writes the cell `base + i`. -/
theorem loop_set_spec (body : Nat → List ℚ → Option (List ℚ)) (f : Nat → ℚ)
    (base n : Nat) (y : List ℚ)
    (hbody : ∀ l y1, l < n → y1.length = y.length →
      body l y1 = some (y1.set (base + l) (f l)))
    (_hlen : base + n ≤ y.length) :
    ∃ y1, loop n body y = some y1 ∧ y1.length = y.length ∧
      ∀ t, y1[t]? = if base ≤ t ∧ t < base + n then some (f (t - base)) else y[t]? := by
  obtain ⟨y1, hrun, hl1, hc⟩ := loop_inv
    (fun l (s : List ℚ) => s.length = y.length ∧
      ∀ t, s[t]? = if base ≤ t ∧ t < base + l then some (f (t - base)) else y[t]?)
    body y n
    ⟨rfl, fun t => by rw [if_neg (by omega)]⟩
    (by
      rintro l y0 hl ⟨hl0, hcell⟩
      refine ⟨_, hbody l y0 hl hl0, by simp [hl0], fun t => ?_⟩
      simp only [List.getElem?_set]
      by_cases ht : base + l = t
      · subst ht
        rw [if_pos rfl, if_pos (by omega), if_pos (by omega)]
        congr 2
        omega
      · rw [if_neg ht, hcell t]
        by_cases hr : base ≤ t ∧ t < base + l
        · rw [if_pos hr, if_pos (by omega)]
        · rw [if_neg hr, if_neg (by omega)])
  exact ⟨y1, hrun, hl1, hc⟩

/-- A loop whose pass `i` writes the `w` cells from `base + w * i` on. -/
theorem loop_region_spec (body : Nat → List ℚ → Option (List ℚ)) (g : Nat → ℚ)
    (base w n : Nat) (y : List ℚ)
    (hbody : ∀ i y1, i < n → y1.length = y.length →
      ∃ y2, body i y1 = some y2 ∧ y2.length = y1.length ∧
        ∀ t, y2[t]? = if base + w * i ≤ t ∧ t < base + w * i + w then some (g (t - base))
                      else y1[t]?) :
    ∃ y1, loop n body y = some y1 ∧ y1.length = y.length ∧
      ∀ t, y1[t]? = if base ≤ t ∧ t < base + w * n then some (g (t - base)) else y[t]? := by
  obtain ⟨y1, hrun, hl1, hc⟩ := loop_inv
    (fun i (s : List ℚ) => s.length = y.length ∧
      ∀ t, s[t]? = if base ≤ t ∧ t < base + w * i then some (g (t - base)) else y[t]?)
    body y n
    ⟨rfl, fun t => by rw [if_neg (by omega)]⟩
    (by
      rintro i y0 hi ⟨hl0, hcell⟩
      obtain ⟨y2, r2, l2, c2⟩ := hbody i y0 hi hl0
      refine ⟨y2, r2, by omega, fun t => ?_⟩
      rw [c2 t, hcell t, Nat.mul_succ]
      generalize w * i = a
      by_cases h1 : base + a ≤ t ∧ t < base + a + w
      · rw [if_pos h1, if_pos (by omega)]
      · rw [if_neg h1]
        by_cases h0 : base ≤ t ∧ t < base + a
        · rw [if_pos h0, if_pos (by omega)]
        · rw [if_neg h0, if_neg (by omega)])
  exact ⟨y1, hrun, hl1, hc⟩

/-! ## Q5_K: the decoder in closed form -/

theorem and_one_eq_mod (t : Nat) : t &&& 1 = t % 2 := Nat.and_one_is_mod t

theorem and_pow_eq_mod (t n : Nat) : t &&& (2 ^ n - 1) = t % 2 ^ n :=
  Nat.and_pow_two_sub_one_eq_mod t n

theorem or_shl4_eq_add (a b : Nat) (ha : a < 16) : a ||| (b <<< 4) = a + 16 * b := by
  have h := Nat.mul_add_lt_is_or (i := 4) ha b
  rw [Nat.shiftLeft_eq, Nat.or_comm, Nat.mul_comm b (2 ^ 4), ← h]
  omega

/-- The value `qv` that lines 157-159 build for output `idx` of a block. -/
theorem q5_k_quant_eq (blk : block_q5_k) (idx : Nat) :
    ((if idx &&& 1 ≠ 0 then (blk.qs.getD (idx / 2) 0 >>> 4) &&& 0xF
      else blk.qs.getD (idx / 2) 0 &&& 0xF) |||
      (((blk.qh.getD (idx / 8) 0 >>> (idx &&& 7)) &&& 0x1) <<< 4)) % 256 =
    q5_k_quant blk idx ∧ q5_k_quant blk idx < 32 := by
  have h7 : idx &&& 7 = idx % 8 := and_pow_eq_mod idx 3
  have hF : ∀ a : Nat, a &&& 0xF = a % 16 := fun a => and_pow_eq_mod a 4
  have hnib : (if idx &&& 1 ≠ 0 then (blk.qs.getD (idx / 2) 0 >>> 4) &&& 0xF
      else blk.qs.getD (idx / 2) 0 &&& 0xF) = q5_k_nibble blk idx := by
    unfold q5_k_nibble
    rw [and_one_eq_mod, hF, hF, Nat.shiftRight_eq_div_pow]
    by_cases hodd : idx % 2 = 1
    · rw [if_pos (by omega), if_pos hodd]
    · rw [if_neg (by omega), if_neg hodd]
  have hbit : (blk.qh.getD (idx / 8) 0 >>> (idx &&& 7)) &&& 0x1 = q5_k_bit blk idx := by
    unfold q5_k_bit
    rw [h7, and_one_eq_mod, Nat.shiftRight_eq_div_pow]
  have hn16 : q5_k_nibble blk idx < 16 := by
    unfold q5_k_nibble
    split <;> omega
  have hb2 : q5_k_bit blk idx < 2 := by
    unfold q5_k_bit
    omega
  rw [hnib, hbit, or_shl4_eq_add _ _ hn16]
  unfold q5_k_quant
  constructor
  · exact Nat.mod_eq_of_lt (by omega)
  · omega

/-- The body of the loop over `l`: one output. -/
theorem q5_k_lane_spec (blk : block_q5_k) (hwf : q5_k_wf blk) (i sb l : Nat) (d1 m1 : ℚ)
    (y : List ℚ) (hsb : sb < 8) (hl : l < 32) (hi : i * 256 + 256 ≤ 2 ^ 32)
    (hy : i * 256 + 256 ≤ y.length) :
    q5_k_lane blk i sb d1 m1 l y =
      some (y.set (i * 256 + 32 * sb + l) (d1 * (q5_k_quant blk (32 * sb + l) : ℚ) - m1)) := by
  obtain ⟨_, hqh, hqs⟩ := hwf
  have hidx : (sb * 32 + l) % 2 ^ 32 = 32 * sb + l := by omega
  have hout : (i * QK_K % 2 ^ 32 + (32 * sb + l)) % 2 ^ 32 = i * 256 + 32 * sb + l := by
    have : QK_K = 256 := rfl
    rw [this]
    omega
  unfold q5_k_lane
  simp only [hidx, hout, rd_getD blk.qs ((32 * sb + l) / 2) 0 (by omega),
    rd_getD blk.qh ((32 * sb + l) / 8) 0 (by omega), Option.bind_eq_bind, Option.some_bind]
  rw [(q5_k_quant_eq blk (32 * sb + l)).1]
  exact wr_some _ _ _ (by omega)

/-- One pass of the loop over `sb`: the 32 outputs of a sub-block. -/
theorem q5_k_sub_spec (blk : block_q5_k) (hwf : q5_k_wf blk) (i sb : Nat) (y : List ℚ)
    (hsb : sb < 8) (hi : i * 256 + 256 ≤ 2 ^ 32) (hy : i * 256 + 256 ≤ y.length) :
    ∃ y1, (do
        let sm ← get_scale_min_k4 sb blk.scales
        loop 32 (q5_k_lane blk i sb (half_to_float blk.d * sm.1)
          (half_to_float blk.dmin * sm.2)) y) = some y1 ∧
      y1.length = y.length ∧
      ∀ t, y1[t]? = if i * 256 + 32 * sb ≤ t ∧ t < i * 256 + 32 * sb + 32 then
                      some (q5_k_value blk (t - i * 256))
                    else y[t]? := by
  have g := get_scale_min_k4_eq blk.scales sb hwf.1 hsb
  generalize hX : (if sb < 4 then (blk.scales.getD sb 0 &&& 63) % 256
            else ((blk.scales.getD (sb + 4) 0 &&& 0xF) |||
              ((blk.scales.getD (sb - 4) 0 >>> 6) <<< 4)) % 256,
            if sb < 4 then (blk.scales.getD (sb + 4) 0 &&& 63) % 256
            else ((blk.scales.getD (sb + 4) 0 >>> 4) |||
              ((blk.scales.getD sb 0 >>> 6) <<< 4)) % 256) = X at g
  obtain ⟨y1, hrun, hl1, hc⟩ := loop_set_spec
    (q5_k_lane blk i sb (half_to_float blk.d * X.1) (half_to_float blk.dmin * X.2))
    (fun l => half_to_float blk.d * (X.1 : ℚ) * (q5_k_quant blk (32 * sb + l) : ℚ)
      - half_to_float blk.dmin * (X.2 : ℚ))
    (i * 256 + 32 * sb) 32 y
    (fun l y1 hl hlen => q5_k_lane_spec blk hwf i sb l _ _ y1 hsb hl hi (by omega))
    (by omega)
  refine ⟨y1, ?_, hl1, fun t => ?_⟩
  · simp only [g, Option.bind_eq_bind, Option.some_bind]
    exact hrun
  · rw [hc t]
    by_cases h : i * 256 + 32 * sb ≤ t ∧ t < i * 256 + 32 * sb + 32
    · rw [if_pos h, if_pos h]
      have e1 : (t - i * 256) / 32 = sb := by omega
      have e2 : 32 * sb + (t - (i * 256 + 32 * sb)) = t - i * 256 := by omega
      unfold q5_k_value
      rw [e1, e2, g]
      rfl
    · rw [if_neg h, if_neg h]

/-- One pass of the loop over the blocks: the 256 outputs of block `i`. -/
theorem q5_k_block_spec (x : List block_q5_k) (i : Nat) (blk : block_q5_k)
    (hx : x[i]? = some blk) (hwf : q5_k_wf blk) (y : List ℚ)
    (hi : i * 256 + 256 ≤ 2 ^ 32) (hy : i * 256 + 256 ≤ y.length) :
    ∃ y1, q5_k_block x i y = some y1 ∧ y1.length = y.length ∧
      ∀ t, y1[t]? = if i * 256 ≤ t ∧ t < i * 256 + 256 then
                      some (q5_k_value blk (t - i * 256))
                    else y[t]? := by
  obtain ⟨y1, hrun, hl1, hc⟩ := loop_region_spec
    (fun sb y => do
      let sm ← get_scale_min_k4 sb blk.scales
      loop 32 (q5_k_lane blk i sb (half_to_float blk.d * sm.1)
        (half_to_float blk.dmin * sm.2)) y)
    (fun u => q5_k_value blk u) (i * 256) 32 8 y
    (fun sb y1 hsb hlen => by
      obtain ⟨y2, r2, l2, c2⟩ := q5_k_sub_spec blk hwf i sb y1 hsb hi (by omega)
      exact ⟨y2, r2, l2, c2⟩)
  refine ⟨y1, ?_, hl1, fun t => ?_⟩
  · unfold q5_k_block
    have hrd : rd x i = some blk := hx
    simp only [hrd, Option.bind_eq_bind, Option.some_bind]
    simp only [Option.bind_eq_bind] at hrun
    exact hrun
  · rw [hc t]

/-- dequantize_row_q5_k on a row of `k / 256` well-formed blocks completes and writes the
`256 * (k / 256)` values of the blocks, in order, and nothing else. -/
theorem dequantize_row_q5_k_row (x : List block_q5_k) (y : List ℚ) (k : Nat)
    (hk : k < 2 ^ 32)
    (hx : ∀ i, i < k / 256 → ∃ blk, x[i]? = some blk ∧ q5_k_wf blk)
    (hy : 256 * (k / 256) ≤ y.length) :
    ∃ y1, dequantize_row_q5_k x y k = some y1 ∧ y1.length = y.length ∧
      ∀ t, y1[t]? =
        if t < 256 * (k / 256) then
          (x[t / 256]?).map fun blk => q5_k_value blk (t % 256)
        else y[t]? := by
  obtain ⟨y1, hrun, hl1, hc⟩ := loop_inv
    (fun i (s : List ℚ) => s.length = y.length ∧
      ∀ t, s[t]? =
        if t < 256 * i then (x[t / 256]?).map fun blk => q5_k_value blk (t % 256)
        else y[t]?)
    (q5_k_block x) y (k / 256)
    ⟨rfl, fun t => by rw [if_neg (by omega)]⟩
    (by
      rintro i y0 hi ⟨hl0, hcell⟩
      obtain ⟨blk, hblk, hwf⟩ := hx i hi
      obtain ⟨y1, r1, l1, c1⟩ := q5_k_block_spec x i blk hblk hwf y0 (by omega) (by omega)
      refine ⟨_, r1, by omega, fun t => ?_⟩
      rw [c1 t, hcell t]
      by_cases h1 : i * 256 ≤ t ∧ t < i * 256 + 256
      · rw [if_pos h1, if_pos (by omega)]
        have e1 : t / 256 = i := by omega
        have e2 : t - i * 256 = t % 256 := by omega
        rw [e1, e2, hblk]
        rfl
      · rw [if_neg h1]
        by_cases h0 : t < 256 * i
        · rw [if_pos h0, if_pos (by omega)]
        · rw [if_neg h0, if_neg (by omega)])
  exact ⟨y1, hrun, hl1, hc⟩

theorem q5_k_test_block_wf : q5_k_wf q5_k_test_block := ⟨rfl, rfl, rfl⟩

/-- The decoder in terms of half_to_float: for a Q5_K super-block with 12 scale bytes, 32 bytes of `qh` and 128 bytes of
`qs`, and an output array of at least 256 floats, dequantize_row_q5_k completes, so that
every index read is inside its array (`t / 2 < 128` in `qs`, `t / 8 < 32` in `qh`), and
writes for every `t < 256` the value `y[t] = d * sc * v - dmin * m`, where `d` and `dmin`
are the floats that half_to_float returns for the two half-precision fields, `(sc, m)`
is the result of get_scale_min_k4 for `t / 32`, and `v = nib | (bit << 4)` with `nib`
the low (even `t`) or high (odd `t`) nibble of `qs[t / 2]` and `bit` the bit `t % 8` of
`qh[t / 8]`, so that `v <= 31`; nothing past the 256 values is written. -/
theorem dequantize_row_q5_k_spec (blk : block_q5_k) (y : List ℚ)
    (hwf : q5_k_wf blk) (hy : 256 ≤ y.length) :
    ∃ y1, dequantize_row_q5_k [blk] y 256 = some y1 ∧ y1.length = y.length ∧
      (∀ t, 256 ≤ t → y1[t]? = y[t]?) ∧
      ∀ t, t < 256 →
        ∃ sc m nib bit, get_scale_min_k4 (t / 32) blk.scales = some (sc, m) ∧
          t / 2 < blk.qs.length ∧ t / 8 < blk.qh.length ∧
          nib = (if t % 2 = 1 then blk.qs.getD (t / 2) 0 / 16 % 16
                 else blk.qs.getD (t / 2) 0 % 16) ∧
          bit = blk.qh.getD (t / 8) 0 / 2 ^ (t % 8) % 2 ∧
          nib ||| (bit <<< 4) = nib + 16 * bit ∧ nib + 16 * bit ≤ 31 ∧
          y1[t]? = some (half_to_float blk.d * (sc : ℚ) * ((nib + 16 * bit : Nat) : ℚ)
                          - half_to_float blk.dmin * (m : ℚ)) := by
  obtain ⟨y1, hrun, hl, hc⟩ := dequantize_row_q5_k_row [blk] y 256 (by decide)
    (fun i hi => ⟨blk, by
      have : i = 0 := by omega
      subst this
      rfl, hwf⟩)
    (by omega)
  refine ⟨y1, hrun, hl, fun t ht => ?_, fun t ht => ?_⟩
  · rw [hc t, if_neg (by omega)]
  · have g := get_scale_min_k4_eq blk.scales (t / 32) hwf.1 (by omega)
    have hq := (q5_k_quant_eq blk t).2
    have hn : q5_k_nibble blk t < 16 := by
      unfold q5_k_nibble
      split <;> omega
    refine ⟨_, _, q5_k_nibble blk t, q5_k_bit blk t, g, by rw [hwf.2.2]; omega,
      by rw [hwf.2.1]; omega, rfl, rfl, or_shl4_eq_add _ _ hn, ?_, ?_⟩
    · unfold q5_k_quant at hq
      omega
    · rw [hc t, if_pos (by omega)]
      have e0 : t / 256 = 0 := by omega
      have e1 : t % 256 = t := by omega
      rw [e0, e1]
      simp only [List.getElem?_cons_zero, Option.map_some', q5_k_value, g, Option.getD_some,
        q5_k_quant]

/-- On the example block output 0 has nibble 0 and fifth bit 1, so it is
`1 * 1 * 16 - 0 * 0`. -/
theorem dequantize_row_q5_k_spec_witness :
    ∃ y1, dequantize_row_q5_k [q5_k_test_block] (List.replicate 256 0) 256 = some y1 ∧
      y1.length = 256 ∧
      ∃ sc m nib bit, get_scale_min_k4 (0 / 32) q5_k_test_block.scales = some (sc, m) ∧
        nib + 16 * bit ≤ 31 ∧
        y1[0]? = some (half_to_float q5_k_test_block.d * (sc : ℚ) * ((nib + 16 * bit : Nat) : ℚ)
                        - half_to_float q5_k_test_block.dmin * (m : ℚ)) :=
  let ⟨y1, h1, h2, _, h4⟩ :=
    dequantize_row_q5_k_spec q5_k_test_block (List.replicate 256 0) q5_k_test_block_wf
      (le_of_eq (List.length_replicate 256 (0 : ℚ)).symm)
  ⟨y1, h1, h2.trans (List.length_replicate 256 (0 : ℚ)),
    let ⟨sc, m, nib, bit, g1, _, _, _, _, _, g6, g7⟩ := h4 0 (by decide)
    ⟨sc, m, nib, bit, g1, g6, g7⟩⟩

/-! ## Q6_K: the decoder in closed form -/

theorem to_int8_small (v : Nat) (h : v < 128) : to_int8 v = (v : Int) := by
  unfold to_int8
  rw [if_neg (by omega), Nat.mod_eq_of_lt (by omega)]

theorem q6_k_low4_lt (blk : block_q6_k) (hwf : q6_k_wf blk) (t : Nat) :
    q6_k_low4 blk t < 16 := by
  have hb := getD_byte blk.ql hwf.2.2.2 (q6_k_ql_index t)
  unfold q6_k_low4
  split
  · rw [Nat.shiftRight_eq_div_pow]
    omega
  · exact Nat.lt_succ_of_le (byte_and_lt _ 0xF)

theorem q6_k_high2_lt (blk : block_q6_k) (t : Nat) : q6_k_high2 blk t < 4 :=
  Nat.lt_succ_of_le (byte_and_lt _ 3)

theorem q6_k_bits (blk : block_q6_k) (hwf : q6_k_wf blk) (t : Nat) :
    q6_k_low4 blk t ||| (q6_k_high2 blk t <<< 4) = q6_k_low4 blk t + 16 * q6_k_high2 blk t ∧
    q6_k_low4 blk t + 16 * q6_k_high2 blk t < 64 := by
  have h1 := q6_k_low4_lt blk hwf t
  have h2 := q6_k_high2_lt blk t
  exact ⟨or_shl4_eq_add _ _ h1, by omega⟩

theorem q6_k_quant_range (blk : block_q6_k) (hwf : q6_k_wf blk) (t : Nat) :
    -32 ≤ q6_k_quant blk t ∧ q6_k_quant blk t ≤ 31 := by
  obtain ⟨h1, h2⟩ := q6_k_bits blk hwf t
  unfold q6_k_quant
  rw [h1]
  omega

/-- The value `to_int8 (...) - 32` that lines 178-181 build is the closed form. -/
theorem q6_k_quant_eq (blk : block_q6_k) (hwf : q6_k_wf blk) (t : Nat) :
    to_int8 (q6_k_low4 blk t ||| (q6_k_high2 blk t <<< 4)) - 32 = q6_k_quant blk t := by
  obtain ⟨h1, h2⟩ := q6_k_bits blk hwf t
  unfold q6_k_quant
  rw [to_int8_small _ (by omega)]

theorem q6_k_pos_quad (c q l : Nat) (hq : q < 4) (hl : l < 32) :
    q6_k_ql_index (128 * c + 32 * q + l) = 64 * c + l + 32 * (q % 2) ∧
    q6_k_ql_high (128 * c + 32 * q + l) = decide (2 ≤ q) ∧
    q6_k_qh_index (128 * c + 32 * q + l) = 32 * c + l ∧
    q6_k_qh_shift (128 * c + 32 * q + l) = 2 * q ∧
    (128 * c + 32 * q + l) / 16 = 8 * c + l / 16 + 2 * q := by
  have e1 : (128 * c + 32 * q + l) % 128 / 32 = q := by omega
  have e2 : (128 * c + 32 * q + l) / 128 = c := by omega
  have e3 : (128 * c + 32 * q + l) % 32 = l := by omega
  unfold q6_k_ql_index q6_k_ql_high q6_k_qh_index q6_k_qh_shift
  rw [e1, e2, e3]
  exact ⟨rfl, rfl, rfl, rfl, by omega⟩

theorem q6_k_pos (c l : Nat) (hl : l < 32) :
    (q6_k_ql_index (128 * c + l) = 64 * c + l + 0 ∧ q6_k_ql_high (128 * c + l) = false ∧
      q6_k_qh_index (128 * c + l) = 32 * c + l ∧ q6_k_qh_shift (128 * c + l) = 0 ∧
      (128 * c + l) / 16 = 8 * c + l / 16 + 0) ∧
    (q6_k_ql_index (128 * c + 32 + l) = 64 * c + l + 32 ∧
      q6_k_ql_high (128 * c + 32 + l) = false ∧
      q6_k_qh_index (128 * c + 32 + l) = 32 * c + l ∧ q6_k_qh_shift (128 * c + 32 + l) = 2 ∧
      (128 * c + 32 + l) / 16 = 8 * c + l / 16 + 2) ∧
    (q6_k_ql_index (128 * c + 64 + l) = 64 * c + l + 0 ∧
      q6_k_ql_high (128 * c + 64 + l) = true ∧
      q6_k_qh_index (128 * c + 64 + l) = 32 * c + l ∧ q6_k_qh_shift (128 * c + 64 + l) = 4 ∧
      (128 * c + 64 + l) / 16 = 8 * c + l / 16 + 4) ∧
    (q6_k_ql_index (128 * c + 96 + l) = 64 * c + l + 32 ∧
      q6_k_ql_high (128 * c + 96 + l) = true ∧
      q6_k_qh_index (128 * c + 96 + l) = 32 * c + l ∧ q6_k_qh_shift (128 * c + 96 + l) = 6 ∧
      (128 * c + 96 + l) / 16 = 8 * c + l / 16 + 6) :=
  ⟨q6_k_pos_quad c 0 l (by decide) hl, q6_k_pos_quad c 1 l (by decide) hl,
   q6_k_pos_quad c 2 l (by decide) hl, q6_k_pos_quad c 3 l (by decide) hl⟩

/-- The four values `q1 .. q4` of pass `l` of chunk `c`. -/
theorem q6_k_lane_q_spec (blk : block_q6_k) (hwf : q6_k_wf blk) (c l : Nat)
    (hc : c < 2) (hl : l < 32) :
    q6_k_lane_q blk (64 * c) (32 * c) l =
      some (q6_k_quant blk (128 * c + l), q6_k_quant blk (128 * c + 32 + l),
            q6_k_quant blk (128 * c + 64 + l), q6_k_quant blk (128 * c + 96 + l)) := by
  obtain ⟨⟨a1, a2, a3, a4, _⟩, ⟨b1, b2, b3, b4, _⟩, ⟨c1, c2, c3, c4, _⟩, ⟨d1, d2, d3, d4, _⟩⟩ :=
    q6_k_pos c l hl
  have e1 := q6_k_quant_eq blk hwf (128 * c + l)
  have e2 := q6_k_quant_eq blk hwf (128 * c + 32 + l)
  have e3 := q6_k_quant_eq blk hwf (128 * c + 64 + l)
  have e4 := q6_k_quant_eq blk hwf (128 * c + 96 + l)
  unfold q6_k_low4 q6_k_high2 at e1 e2 e3 e4
  rw [a1, a2, a3, a4] at e1
  rw [b1, b2, b3, b4] at e2
  rw [c1, c2, c3, c4] at e3
  rw [d1, d2, d3, d4] at e4
  simp only [Bool.false_eq_true, if_false, if_true] at e1 e2 e3 e4
  obtain ⟨hql, hqh, _, _⟩ := hwf
  have r1 := rd_getD blk.ql (64 * c + l + 0) 0 (by omega)
  have r2 := rd_getD blk.ql (64 * c + l + 32) 0 (by omega)
  have r3 := rd_getD blk.qh (32 * c + l) 0 (by omega)
  unfold q6_k_lane_q
  rw [r1, r2, r3]
  simp only [Option.bind_eq_bind, Option.some_bind, Option.pure_def, e1, e2, e3, e4]

/-- The four cells written by pass `l` of chunk `c`. -/
theorem q6_k_lane_spec (blk : block_q6_k) (hwf : q6_k_wf blk) (c l yo : Nat) (y : List ℚ)
    (hc : c < 2) (hl : l < 32) (hy : yo + 128 ≤ y.length) :
    q6_k_lane blk (half_to_float blk.d) yo (64 * c) (32 * c) (8 * c) l y =
      some ((((y.set (yo + l + 0) (q6_k_value blk (128 * c + l))).set (yo + l + 32)
        (q6_k_value blk (128 * c + 32 + l))).set (yo + l + 64)
        (q6_k_value blk (128 * c + 64 + l))).set (yo + l + 96)
        (q6_k_value blk (128 * c + 96 + l))) := by
  obtain ⟨⟨_, _, _, _, a5⟩, ⟨_, _, _, _, b5⟩, ⟨_, _, _, _, c5⟩, ⟨_, _, _, _, d5⟩⟩ :=
    q6_k_pos c l hl
  have hs := hwf.2.2.1
  have r0 := rd_getD blk.scales (8 * c + l / 16 + 0) 0 (by omega)
  have r2 := rd_getD blk.scales (8 * c + l / 16 + 2) 0 (by omega)
  have r4 := rd_getD blk.scales (8 * c + l / 16 + 4) 0 (by omega)
  have r6 := rd_getD blk.scales (8 * c + l / 16 + 6) 0 (by omega)
  have rq := q6_k_lane_q_spec blk hwf c l hc hl
  unfold q6_k_lane
  simp only [rq, r0, r2, r4, r6, Option.bind_eq_bind, Option.some_bind]
  rw [wr_some _ _ _ (by omega)]
  simp only [Option.some_bind]
  rw [wr_some _ _ _ (by simp only [List.length_set]; omega)]
  simp only [Option.some_bind]
  rw [wr_some _ _ _ (by simp only [List.length_set]; omega)]
  simp only [Option.some_bind]
  rw [wr_some _ _ _ (by simp only [List.length_set]; omega)]
  unfold q6_k_value
  rw [a5, b5, c5, d5]

/-- The loop over `l` of chunk `c`: 128 outputs. -/
theorem q6_k_lanes_spec (blk : block_q6_k) (hwf : q6_k_wf blk) (c yo : Nat) (y : List ℚ)
    (hc : c < 2) (hy : yo + 128 ≤ y.length) :
    ∃ y1, loop 32 (q6_k_lane blk (half_to_float blk.d) yo (64 * c) (32 * c) (8 * c)) y
        = some y1 ∧ y1.length = y.length ∧
      ∀ t, y1[t]? = if yo ≤ t ∧ t < yo + 128 then some (q6_k_value blk (128 * c + (t - yo)))
                    else y[t]? := by
  obtain ⟨y1, hrun, hl1, hcell⟩ := loop_inv
    (fun l (s : List ℚ) => s.length = y.length ∧
      ∀ t, s[t]? = if yo ≤ t ∧ t < yo + 128 ∧ (t - yo) % 32 < l then
                     some (q6_k_value blk (128 * c + (t - yo)))
                   else y[t]?)
    (q6_k_lane blk (half_to_float blk.d) yo (64 * c) (32 * c) (8 * c)) y 32
    ⟨rfl, fun t => by rw [if_neg (by omega)]⟩
    (by
      rintro l y0 hl ⟨hl0, hcell⟩
      refine ⟨_, q6_k_lane_spec blk hwf c l yo y0 hc hl (by omega),
        by simp only [List.length_set]; exact hl0, fun t => ?_⟩
      simp only [List.getElem?_set, List.length_set]
      by_cases h3 : yo + l + 96 = t
      · subst h3
        rw [if_pos rfl, if_pos (by omega), if_pos (by omega)]
        have e : 128 * c + (yo + l + 96 - yo) = 128 * c + 96 + l := by omega
        rw [e]
      · rw [if_neg h3]
        by_cases h2 : yo + l + 64 = t
        · subst h2
          rw [if_pos rfl, if_pos (by omega), if_pos (by omega)]
          have e : 128 * c + (yo + l + 64 - yo) = 128 * c + 64 + l := by omega
          rw [e]
        · rw [if_neg h2]
          by_cases h1 : yo + l + 32 = t
          · subst h1
            rw [if_pos rfl, if_pos (by omega), if_pos (by omega)]
            have e : 128 * c + (yo + l + 32 - yo) = 128 * c + 32 + l := by omega
            rw [e]
          · rw [if_neg h1]
            by_cases h0 : yo + l + 0 = t
            · subst h0
              rw [if_pos rfl, if_pos (by omega), if_pos (by omega)]
              have e : 128 * c + (yo + l + 0 - yo) = 128 * c + l := by omega
              rw [e]
            · rw [if_neg h0, hcell t]
              by_cases hr : yo ≤ t ∧ t < yo + 128 ∧ (t - yo) % 32 < l
              · rw [if_pos hr, if_pos (by omega)]
              · rw [if_neg hr, if_neg (by omega)])
  refine ⟨y1, hrun, hl1, fun t => ?_⟩
  rw [hcell t]
  by_cases hr : yo ≤ t ∧ t < yo + 128
  · rw [if_pos hr, if_pos (by omega)]
  · rw [if_neg hr, if_neg (by omega)]

/-- One pass of the loop over the blocks: the 256 outputs of block `i`. -/
theorem q6_k_block_spec (x : List block_q6_k) (i : Nat) (blk : block_q6_k)
    (hx : x[i]? = some blk) (hwf : q6_k_wf blk) (y : List ℚ) (yp : Nat)
    (hlen : yp + 256 ≤ y.length) :
    ∃ y1, q6_k_block x i (y, yp) = some (y1, yp + 256) ∧ y1.length = y.length ∧
      ∀ t, y1[t]? = if yp ≤ t ∧ t < yp + 256 then some (q6_k_value blk (t - yp))
                    else y[t]? := by
  obtain ⟨⟨y1, p1, a1, b1, s1⟩, hrun, hp, ha, hb, hs, hl1, hc⟩ := loop_inv
    (fun c (s : List ℚ × Nat × Nat × Nat × Nat) =>
      s.2.1 = yp + 128 * c ∧ s.2.2.1 = 64 * c ∧ s.2.2.2.1 = 32 * c ∧ s.2.2.2.2 = 8 * c ∧
      s.1.length = y.length ∧
      ∀ t, s.1[t]? = if yp ≤ t ∧ t < yp + 128 * c then some (q6_k_value blk (t - yp))
                     else y[t]?)
    (fun _ s => q6_k_chunk blk (half_to_float blk.d) s)
    (y, yp, 0, 0, 0) 2
    ⟨rfl, rfl, rfl, rfl, rfl, fun t => by rw [if_neg (by omega)]⟩
    (by
      rintro c ⟨y0, p0, a0, b0, s0⟩ hc ⟨hp, ha, hb, hs, hl0, hcell⟩
      simp only at hp ha hb hs hl0 hcell
      subst hp ha hb hs
      obtain ⟨y1, r1, l1, c1⟩ := q6_k_lanes_spec blk hwf c (yp + 128 * c) y0 hc (by omega)
      refine ⟨(y1, yp + 128 * c + 128, 64 * c + 64, 32 * c + 32, 8 * c + 8), ?_,
        by simp only; omega, by simp only; omega, by simp only; omega, by simp only; omega,
        by simp only; omega, fun t => ?_⟩
      · unfold q6_k_chunk
        simp only [r1, Option.bind_eq_bind, Option.some_bind, Option.pure_def]
      · simp only
        rw [c1 t, hcell t]
        by_cases h1 : yp + 128 * c ≤ t ∧ t < yp + 128 * c + 128
        · rw [if_pos h1, if_pos (by omega)]
          have e : 128 * c + (t - (yp + 128 * c)) = t - yp := by omega
          rw [e]
        · rw [if_neg h1]
          by_cases h0 : yp ≤ t ∧ t < yp + 128 * c
          · rw [if_pos h0, if_pos (by omega)]
          · rw [if_neg h0, if_neg (by omega)])
  simp only at hp ha hb hs hl1 hc
  refine ⟨y1, ?_, hl1, fun t => ?_⟩
  · unfold q6_k_block
    have hrd : rd x i = some blk := hx
    have hQ : QK_K / 128 = 2 := rfl
    simp only [hrd, Option.bind_eq_bind, Option.some_bind, hQ, hrun, Option.pure_def, hp]
  · rw [hc t]

/-- dequantize_row_q6_k on a row of `k / 256` well-formed blocks completes and writes the
`256 * (k / 256)` values of the blocks, in order, and nothing else. -/
theorem dequantize_row_q6_k_row (x : List block_q6_k) (y : List ℚ) (k : Nat)
    (hx : ∀ i, i < k / 256 → ∃ blk, x[i]? = some blk ∧ q6_k_wf blk)
    (hy : 256 * (k / 256) ≤ y.length) :
    ∃ y1, dequantize_row_q6_k x y k = some y1 ∧ y1.length = y.length ∧
      ∀ t, y1[t]? =
        if t < 256 * (k / 256) then
          (x[t / 256]?).map fun blk => q6_k_value blk (t % 256)
        else y[t]? := by
  obtain ⟨⟨y1, p1⟩, hrun, hp, hl1, hc⟩ := loop_inv
    (fun i (s : List ℚ × Nat) =>
      s.2 = 256 * i ∧ s.1.length = y.length ∧
      ∀ t, s.1[t]? =
        if t < 256 * i then (x[t / 256]?).map fun blk => q6_k_value blk (t % 256)
        else y[t]?)
    (q6_k_block x) (y, 0) (k / 256)
    ⟨rfl, rfl, fun t => by rw [if_neg (by omega)]⟩
    (by
      rintro i ⟨y0, p0⟩ hi ⟨hp, hl0, hcell⟩
      simp only at hp hl0 hcell
      subst hp
      obtain ⟨blk, hblk, hwf⟩ := hx i hi
      obtain ⟨y1, r1, l1, c1⟩ := q6_k_block_spec x i blk hblk hwf y0 (256 * i) (by omega)
      refine ⟨_, r1, by simp only; omega, by simp only; omega, fun t => ?_⟩
      simp only
      rw [c1 t, hcell t]
      by_cases h1 : 256 * i ≤ t ∧ t < 256 * i + 256
      · rw [if_pos h1, if_pos (by omega)]
        have e1 : t / 256 = i := by omega
        have e2 : t - 256 * i = t % 256 := by omega
        rw [e1, e2, hblk]
        rfl
      · rw [if_neg h1]
        by_cases h0 : t < 256 * i
        · rw [if_pos h0, if_pos (by omega)]
        · rw [if_neg h0, if_neg (by omega)])
  simp only at hp hl1 hc
  refine ⟨y1, ?_, hl1, hc⟩
  unfold dequantize_row_q6_k
  have hQ : k / QK_K = k / 256 := rfl
  rw [hQ, hrun]
  rfl

/-- Output `t` is found from the byte and the half of `ql` it uses. -/
theorem q6_k_ql_inj (t u : Nat) (ht : t < 256) (hu : u < 256)
    (h1 : q6_k_ql_index t = q6_k_ql_index u) (h2 : q6_k_ql_high t = q6_k_ql_high u) :
    t = u := by
  unfold q6_k_ql_index at h1
  unfold q6_k_ql_high at h2
  have h3 : (2 ≤ t % 128 / 32) ↔ (2 ≤ u % 128 / 32) := by
    simpa using h2
  omega

/-- Output `t` is found from the byte of `qh` and the two-bit field in it that it uses. -/
theorem q6_k_qh_inj (t u : Nat) (ht : t < 256) (hu : u < 256)
    (h1 : q6_k_qh_index t = q6_k_qh_index u) (h2 : q6_k_qh_shift t = q6_k_qh_shift u) :
    t = u := by
  unfold q6_k_qh_index at h1
  unfold q6_k_qh_shift at h2
  omega

/-- Every nibble of a half of `ql` is the one of an output of that half. -/
theorem q6_k_ql_surj (c b : Nat) (high : Bool) (hb : b < 64) :
    ∃ t, 128 * c ≤ t ∧ t < 128 * c + 128 ∧ q6_k_ql_index t = 64 * c + b ∧
      q6_k_ql_high t = high := by
  refine ⟨128 * c + 32 * (b / 32 + 2 * (if high then 1 else 0)) + b % 32, ?_, ?_, ?_, ?_⟩
  · omega
  · cases high <;> simp only [Bool.false_eq_true, if_false, if_true] <;> omega
  · unfold q6_k_ql_index
    cases high <;> simp only [Bool.false_eq_true, if_false, if_true] <;> omega
  · unfold q6_k_ql_high
    cases high <;> simp only [Bool.false_eq_true, if_false, if_true, decide_eq_false_iff_not,
      decide_eq_true_eq] <;> omega

/-- Every two-bit field of a half of `qh` is the one of an output of that half. -/
theorem q6_k_qh_surj (c b f : Nat) (hb : b < 32) (hf : f < 4) :
    ∃ t, 128 * c ≤ t ∧ t < 128 * c + 128 ∧ q6_k_qh_index t = 32 * c + b ∧
      q6_k_qh_shift t = 2 * f := by
  refine ⟨128 * c + 32 * f + b, by omega, by omega, ?_, ?_⟩
  · unfold q6_k_qh_index
    omega
  · unfold q6_k_qh_shift
    omega

theorem q6_k_test_block_wf : q6_k_wf q6_k_test_block := by
  refine ⟨rfl, rfl, rfl, ?_⟩
  intro v hv
  simp only [q6_k_test_block, List.mem_cons, List.mem_replicate] at hv
  omega

/-- The decoder in terms of half_to_float: for a Q6_K super-block with 128 bytes of `ql`, 64 bytes of `qh` and 16 scales,
and an output array of at least 256 floats, dequantize_row_q6_k completes and writes for
every `t < 256` the value `y[t] = d * scales[t / 16] * q`, where `d` is the float that
half_to_float returns for the half-precision field and `q = (lo | (hi << 4)) - 32` with
`lo` a nibble of `ql` and `hi` a two-bit field of `qh`, so that `-32 <= q <= 31`; nothing
past the 256 values is written. The byte and half of `ql` and the byte and field of `qh`
that output `t` uses are given by q6_k_ql_index, q6_k_ql_high, q6_k_qh_index and
q6_k_qh_shift. No two outputs use the same nibble or the same two-bit field, and in each
half of the block (128 outputs, `c = 0` or `c = 1`) each of the 128 nibbles of the 64
bytes `ql[64c ..]` and each of the 128 two-bit fields of the 32 bytes `qh[32c ..]` is the
one of an output of that half. -/
theorem dequantize_row_q6_k_spec (blk : block_q6_k) (y : List ℚ)
    (hwf : q6_k_wf blk) (hy : 256 ≤ y.length) :
    ∃ y1, dequantize_row_q6_k [blk] y 256 = some y1 ∧ y1.length = y.length ∧
      (∀ t, 256 ≤ t → y1[t]? = y[t]?) ∧
      (∀ t, t < 256 →
        ∃ lo hi : Nat,
          lo = (if q6_k_ql_high t then blk.ql.getD (q6_k_ql_index t) 0 >>> 4
                else blk.ql.getD (q6_k_ql_index t) 0 &&& 0xF) ∧
          hi = (blk.qh.getD (q6_k_qh_index t) 0 >>> q6_k_qh_shift t) &&& 3 ∧
          q6_k_ql_index t < blk.ql.length ∧ q6_k_qh_index t < blk.qh.length ∧
          t / 16 < blk.scales.length ∧
          lo < 16 ∧ hi < 4 ∧
          (-32 : Int) ≤ ((lo ||| (hi <<< 4) : Nat) : Int) - 32 ∧
          ((lo ||| (hi <<< 4) : Nat) : Int) - 32 ≤ 31 ∧
          y1[t]? = some (half_to_float blk.d * ((blk.scales.getD (t / 16) 0 : Int) : ℚ)
                          * ((((lo ||| (hi <<< 4) : Nat) : Int) - 32 : Int) : ℚ))) ∧
      (∀ t u, t < 256 → u < 256 → q6_k_ql_index t = q6_k_ql_index u →
        q6_k_ql_high t = q6_k_ql_high u → t = u) ∧
      (∀ t u, t < 256 → u < 256 → q6_k_qh_index t = q6_k_qh_index u →
        q6_k_qh_shift t = q6_k_qh_shift u → t = u) ∧
      (∀ c b high, c < 2 → b < 64 →
        ∃ t, 128 * c ≤ t ∧ t < 128 * c + 128 ∧ q6_k_ql_index t = 64 * c + b ∧
          q6_k_ql_high t = high) ∧
      (∀ c b f, c < 2 → b < 32 → f < 4 →
        ∃ t, 128 * c ≤ t ∧ t < 128 * c + 128 ∧ q6_k_qh_index t = 32 * c + b ∧
          q6_k_qh_shift t = 2 * f) := by
  obtain ⟨y1, hrun, hl, hc⟩ := dequantize_row_q6_k_row [blk] y 256
    (fun i hi => ⟨blk, by
      have : i = 0 := by omega
      subst this
      rfl, hwf⟩)
    (by omega)
  refine ⟨y1, hrun, hl, fun t ht => ?_, fun t ht => ?_,
    fun t u ht hu h1 h2 => q6_k_ql_inj t u ht hu h1 h2,
    fun t u ht hu h1 h2 => q6_k_qh_inj t u ht hu h1 h2,
    fun c b high _ hb => q6_k_ql_surj c b high hb,
    fun c b f _ hb hf => q6_k_qh_surj c b f hb hf⟩
  · rw [hc t, if_neg (by omega)]
  · obtain ⟨r1, r2⟩ := q6_k_quant_range blk hwf t
    refine ⟨q6_k_low4 blk t, q6_k_high2 blk t, rfl, rfl, ?_, ?_, ?_,
      q6_k_low4_lt blk hwf t, q6_k_high2_lt blk t, r1, r2, ?_⟩
    · rw [hwf.1]
      unfold q6_k_ql_index
      omega
    · rw [hwf.2.1]
      unfold q6_k_qh_index
      omega
    · rw [hwf.2.2.1]
      omega
    · rw [hc t, if_pos (by omega)]
      have e0 : t / 256 = 0 := by omega
      have e1 : t % 256 = t := by omega
      rw [e0, e1]
      rfl

/-- On the example block output 0 uses the low nibble 1 of `ql[0]` and the field 3
of `qh[0]`, so `q = 1 + 48 - 32 = 17` and the output is `1 * 2 * 17`. -/
theorem dequantize_row_q6_k_spec_witness :
    ∃ y1, dequantize_row_q6_k [q6_k_test_block] (List.replicate 256 0) 256 = some y1 ∧
      y1.length = 256 ∧ y1[0]? = some 34 :=
  let ⟨y1, h1, h2, _, h4, _⟩ :=
    dequantize_row_q6_k_spec q6_k_test_block (List.replicate 256 0) q6_k_test_block_wf
      (le_of_eq (List.length_replicate 256 (0 : ℚ)).symm)
  ⟨y1, h1, h2.trans (List.length_replicate 256 (0 : ℚ)),
    let ⟨lo, hi, g1, g2, _, _, _, _, _, _, _, g3⟩ := h4 0 (by decide)
    by
      have e1 : lo = 1 := by rw [g1]; decide
      have e2 : hi = 3 := by rw [g2]; decide
      subst e1 e2
      have hd : half_to_float q6_k_test_block.d = 1 := half_to_float_test_d
      have hs : q6_k_test_block.scales.getD (0 / 16) 0 = 2 := by decide
      have hq : ((1 ||| (3 <<< 4) : Nat) : Int) - 32 = 17 := by decide
      rw [g3, hd, hs, hq]
      norm_num⟩

/-! ## The K-quant matrix-vector products -/

/-- A loop that adds `f i` in pass `i`. -/
theorem loop_sum_spec (body : Nat → ℚ → Option ℚ) (f : Nat → ℚ) (n : Nat) (s : ℚ)
    (hbody : ∀ i t, i < n → body i t = some (t + f i)) :
    loop n body s = some (s + ∑ i in Finset.range n, f i) := by
  obtain ⟨s1, hrun, hs⟩ := loop_inv
    (fun i (t : ℚ) => t = s + ∑ j in Finset.range i, f j) body s n
    (by simp)
    (by
      intro i t hi ht
      refine ⟨_, hbody i t hi, ?_⟩
      show t + f i = s + ∑ j in Finset.range (i + 1), f j
      rw [ht, Finset.sum_range_succ, add_assoc])
  rw [hrun, hs]

theorem getElem?_drop_zero {α : Type} (a : List α) (j : Nat) : (a.drop j)[0]? = a[j]? := by
  rw [List.getElem?_drop]
  rfl

/-- The shared body of the three products, for a decoder `deq` that turns one well-formed
block into its 256 values `val blk`. -/
theorem op_matmul_k_spec {β : Type} [Inhabited β]
    (deq : List β → List ℚ → Nat → Option (List ℚ)) (wf : β → Prop) (val : β → Nat → ℚ)
    (hdeq : ∀ (xs : List β) (tmp : List ℚ) (blk : β), xs[0]? = some blk → wf blk →
      tmp.length = 256 →
      ∃ tmp1, deq xs tmp 256 = some tmp1 ∧ tmp1.length = 256 ∧
        ∀ t, t < 256 → tmp1[t]? = some (val blk t))
    (a : List β) (b_f32 y : List ℚ) (m nb : Nat) (hnb : 1 ≤ nb)
    (ha : ∀ j, j < m * nb → ∃ blk, a[j]? = some blk ∧ wf blk)
    (hb : 256 * nb ≤ b_f32.length) (hy : m ≤ y.length) :
    ∃ c1, op_matmul_k deq a b_f32 y m (256 * nb) = some (0, c1) ∧ c1.length = y.length ∧
      ∀ r, c1[r]? =
        if r < m then
          some (∑ bi in Finset.range nb, ∑ i in Finset.range 256,
            val (a.getD (r * nb + bi) default) i * b_f32.getD (256 * bi + i) 0)
        else y[r]? := by
  have hk1 : ¬ (256 * nb = 0 ∨ 256 * nb % QK_K ≠ 0) := by
    have : QK_K = 256 := rfl
    rw [this]
    omega
  have hk2 : 256 * nb / QK_K = nb := by
    have : QK_K = 256 := rfl
    rw [this]
    omega
  -- one row
  have hone : ∀ (row : Nat) (tmp : List ℚ), row < m → tmp.length = 256 →
      ∃ r : ℚ × List ℚ,
        loop nb (fun b (t : ℚ × List ℚ) => do
          let tmp ← deq (a.drop (row * nb + b)) t.2 QK_K
          let sum ← loop QK_K (fun i sum => do
            let w ← rd tmp i
            let bv ← rd b_f32 (b * QK_K + i)
            pure (sum + w * bv)) t.1
          pure (sum, tmp)) (0, tmp) = some r ∧
        r.2.length = 256 ∧
        r.1 = ∑ bi in Finset.range nb, ∑ i in Finset.range 256,
          val (a.getD (row * nb + bi) default) i * b_f32.getD (256 * bi + i) 0 := by
    intro row tmp hrow htmp
    have hlt : ∀ bi, bi < nb → row * nb + bi < m * nb := by
      intro bi hbi
      have h1 : (row + 1) * nb ≤ m * nb := Nat.mul_le_mul_right nb hrow
      rw [Nat.succ_mul] at h1
      omega
    obtain ⟨r, hrun, hlen, hsum⟩ := loop_inv
      (fun bi (t : ℚ × List ℚ) => t.2.length = 256 ∧
        t.1 = ∑ b' in Finset.range bi, ∑ i in Finset.range 256,
          val (a.getD (row * nb + b') default) i * b_f32.getD (256 * b' + i) 0)
      (fun b (t : ℚ × List ℚ) => do
          let tmp ← deq (a.drop (row * nb + b)) t.2 QK_K
          let sum ← loop QK_K (fun i sum => do
            let w ← rd tmp i
            let bv ← rd b_f32 (b * QK_K + i)
            pure (sum + w * bv)) t.1
          pure (sum, tmp)) (0, tmp) nb
      ⟨htmp, by simp⟩
      (by
        rintro bi ⟨s0, t0⟩ hbi ⟨hl0, hs0⟩
        simp only at hl0 hs0
        obtain ⟨blk, hblk, hwf⟩ := ha (row * nb + bi) (hlt bi hbi)
        obtain ⟨tmp1, hd1, hl1, hv1⟩ := hdeq (a.drop (row * nb + bi)) t0 blk
          (by rw [getElem?_drop_zero]; exact hblk) hwf hl0
        have hgetD : a.getD (row * nb + bi) default = blk := by
          rw [List.getD_eq_getElem?_getD, hblk]
          rfl
        have hinner := loop_sum_spec
          (fun i sum => do
            let w ← rd tmp1 i
            let bv ← rd b_f32 (bi * QK_K + i)
            pure (sum + w * bv))
          (fun i => val blk i * b_f32.getD (256 * bi + i) 0) 256 s0
          (by
            intro i t hi
            have h1 : rd tmp1 i = some (val blk i) := hv1 i hi
            have h2 : rd b_f32 (bi * QK_K + i) = some (b_f32.getD (256 * bi + i) 0) := by
              have e : bi * QK_K + i = 256 * bi + i := by
                have : QK_K = 256 := rfl
                rw [this]
                omega
              rw [e]
              exact rd_getD b_f32 _ 0 (by omega)
            simp only [h1, h2, Option.bind_eq_bind, Option.some_bind, Option.pure_def])
        have hQ : QK_K = 256 := rfl
        refine ⟨(s0 + ∑ i in Finset.range 256, val blk i * b_f32.getD (256 * bi + i) 0, tmp1),
          ?_, hl1, ?_⟩
        · simp only [hQ] at hd1 hinner ⊢
          simp only [hd1, Option.bind_eq_bind, Option.some_bind, Option.pure_def]
          simp only [Option.bind_eq_bind, Option.pure_def] at hinner
          rw [hinner]
          rfl
        · show s0 + ∑ i in Finset.range 256, val blk i * b_f32.getD (256 * bi + i) 0 =
            ∑ b' in Finset.range (bi + 1), ∑ i in Finset.range 256,
              val (a.getD (row * nb + b') default) i * b_f32.getD (256 * b' + i) 0
          rw [hs0, ← hgetD]
          exact (Finset.sum_range_succ (fun b' => ∑ i in Finset.range 256,
            val (a.getD (row * nb + b') default) i * b_f32.getD (256 * b' + i) 0) bi).symm)
    exact ⟨r, hrun, hlen, hsum⟩
  -- all rows
  obtain ⟨s1, hrun, htl, hcl, hcell⟩ := loop_inv
    (fun row (s : List ℚ × List ℚ) => s.2.length = 256 ∧ s.1.length = y.length ∧
      ∀ r, s.1[r]? =
        if r < row then
          some (∑ bi in Finset.range nb, ∑ i in Finset.range 256,
            val (a.getD (r * nb + bi) default) i * b_f32.getD (256 * bi + i) 0)
        else y[r]?)
    (fun row (s : List ℚ × List ℚ) => do
      let r ← loop nb (fun b (t : ℚ × List ℚ) => do
        let tmp ← deq (a.drop (row * nb + b)) t.2 QK_K
        let sum ← loop QK_K (fun i sum => do
          let w ← rd tmp i
          let bv ← rd b_f32 (b * QK_K + i)
          pure (sum + w * bv)) t.1
        pure (sum, tmp)) (0, s.2)
      let c ← wr s.1 row r.1
      pure (c, r.2)) (y, List.replicate QK_K 0) m
    ⟨List.length_replicate QK_K (0 : ℚ), rfl, fun r => by rw [if_neg (by omega)]⟩
    (by
      rintro row ⟨c0, t0⟩ hrow ⟨ht0, hc0, hcell⟩
      simp only at ht0 hc0 hcell
      obtain ⟨r, hr, hrl, hrs⟩ := hone row t0 hrow ht0
      refine ⟨(c0.set row r.1, r.2), ?_, hrl, by simp only [List.length_set]; exact hc0,
        fun j => ?_⟩
      · simp only [Option.bind_eq_bind, Option.pure_def] at hr
        simp only [hr, Option.bind_eq_bind, Option.some_bind, wr_some c0 row r.1 (by omega),
          Option.pure_def]
      · simp only [List.getElem?_set]
        by_cases hj : row = j
        · subst hj
          rw [if_pos rfl, if_pos (by omega), if_pos (by omega), hrs]
        · rw [if_neg hj, hcell j]
          by_cases hlt : j < row
          · rw [if_pos hlt, if_pos (by omega)]
          · rw [if_neg hlt, if_neg (by omega)])
  refine ⟨s1.1, ?_, hcl, hcell⟩
  unfold op_matmul_k
  rw [if_neg hk1]
  simp only [hk2]
  rw [hrun]
  rfl

/-- A rejected `k` leaves `c` as it is. -/
theorem op_matmul_k_reject {β : Type} (deq : List β → List ℚ → Nat → Option (List ℚ))
    (a : List β) (b_f32 y : List ℚ) (m k : Nat) (hk : k = 0 ∨ k % 256 ≠ 0) :
    op_matmul_k deq a b_f32 y m k = some (-1, y) := by
  unfold op_matmul_k
  have hQ : QK_K = 256 := rfl
  rw [hQ, if_pos hk]

theorem q4_k_decode (xs : List block_q4_k) (tmp : List ℚ) (blk : block_q4_k)
    (hx : xs[0]? = some blk) (hwf : q4_k_wf blk) (htmp : tmp.length = 256) :
    ∃ tmp1, dequantize_row_q4_k xs tmp 256 = some tmp1 ∧ tmp1.length = 256 ∧
      ∀ t, t < 256 → tmp1[t]? = some (q4_k_value blk t) := by
  obtain ⟨y1, hrun, hl, hc⟩ := dequantize_row_q4_k_row xs tmp 256
    (fun i hi => ⟨blk, by
      have : i = 0 := by omega
      subst this
      exact hx, hwf⟩)
    (by omega)
  refine ⟨y1, hrun, by omega, fun t ht => ?_⟩
  rw [hc t, if_pos (by omega)]
  have e0 : t / 256 = 0 := by omega
  have e1 : t % 256 = t := by omega
  rw [e0, e1, hx]
  rfl

theorem q5_k_decode (xs : List block_q5_k) (tmp : List ℚ) (blk : block_q5_k)
    (hx : xs[0]? = some blk) (hwf : q5_k_wf blk) (htmp : tmp.length = 256) :
    ∃ tmp1, dequantize_row_q5_k xs tmp 256 = some tmp1 ∧ tmp1.length = 256 ∧
      ∀ t, t < 256 → tmp1[t]? = some (q5_k_value blk t) := by
  obtain ⟨y1, hrun, hl, hc⟩ := dequantize_row_q5_k_row xs tmp 256 (by decide)
    (fun i hi => ⟨blk, by
      have : i = 0 := by omega
      subst this
      exact hx, hwf⟩)
    (by omega)
  refine ⟨y1, hrun, by omega, fun t ht => ?_⟩
  rw [hc t, if_pos (by omega)]
  have e0 : t / 256 = 0 := by omega
  have e1 : t % 256 = t := by omega
  rw [e0, e1, hx]
  rfl

theorem q6_k_decode (xs : List block_q6_k) (tmp : List ℚ) (blk : block_q6_k)
    (hx : xs[0]? = some blk) (hwf : q6_k_wf blk) (htmp : tmp.length = 256) :
    ∃ tmp1, dequantize_row_q6_k xs tmp 256 = some tmp1 ∧ tmp1.length = 256 ∧
      ∀ t, t < 256 → tmp1[t]? = some (q6_k_value blk t) := by
  obtain ⟨y1, hrun, hl, hc⟩ := dequantize_row_q6_k_row xs tmp 256
    (fun i hi => ⟨blk, by
      have : i = 0 := by omega
      subst this
      exact hx, hwf⟩)
    (by omega)
  refine ⟨y1, hrun, by omega, fun t ht => ?_⟩
  rw [hc t, if_pos (by omega)]
  have e0 : t / 256 = 0 := by omega
  have e1 : t % 256 = t := by omega
  rw [e0, e1, hx]
  rfl

/-- The decoded block, value by value. -/
theorem q4_k_dequant_getD (blk : block_q4_k) (hwf : q4_k_wf blk) (t : Nat) (ht : t < 256) :
    (q4_k_dequant blk).getD t 0 = q4_k_value blk t := by
  obtain ⟨tmp1, hrun, _, hv⟩ := q4_k_decode [blk] (List.replicate 256 0) blk rfl hwf
    (List.length_replicate 256 (0 : ℚ))
  unfold q4_k_dequant
  rw [hrun, Option.getD_some, List.getD_eq_getElem?_getD, hv t ht]
  rfl

theorem q4_k_test_x_getD (i : Nat) (hi : i < 256) :
    q4_k_test_x.getD i 0 = if i = 0 ∨ i = 32 then 1 else 0 := by
  unfold q4_k_test_x
  rw [List.getD_eq_getElem?_getD, List.getElem?_map, List.getElem?_range hi]
  rfl

theorem q4_k_test_value_zero : q4_k_value q4_k_test_block 0 = 0 := by
  have e : get_scale_min_k4 (0 / 32) q4_k_test_block.scales = some (1, 0) := by decide
  have n : q4_k_nibble q4_k_test_block 0 = 0 := by decide
  unfold q4_k_value
  rw [e, n, half_to_float_test_d, half_to_float_test_dmin]
  norm_num

theorem q4_k_test_value_32 : q4_k_value q4_k_test_block 32 = 15 := by
  have e : get_scale_min_k4 (32 / 32) q4_k_test_block.scales = some (1, 0) := by decide
  have n : q4_k_nibble q4_k_test_block 32 = 15 := by decide
  unfold q4_k_value
  rw [e, n, half_to_float_test_d, half_to_float_test_dmin]
  norm_num

/-- The dot product of the test: only lanes 0 and 32 of the input are non-zero. -/
theorem q4_k_test_dot :
    ∑ bi in Finset.range 1, ∑ i in Finset.range 256,
      (q4_k_dequant ([q4_k_test_block].getD (0 * 1 + bi) default)).getD i 0
        * q4_k_test_x.getD (256 * bi + i) 0 = 15 := by
  rw [Finset.sum_range_one]
  have hterm : ∀ i ∈ Finset.range 256,
      (q4_k_dequant ([q4_k_test_block].getD (0 * 1 + 0) default)).getD i 0
        * q4_k_test_x.getD (256 * 0 + i) 0 =
      (if i = 0 then q4_k_value q4_k_test_block 0 else 0) +
        (if i = 32 then q4_k_value q4_k_test_block 32 else 0) := by
    intro i hi
    have hi2 : i < 256 := Finset.mem_range.mp hi
    have hb : [q4_k_test_block].getD (0 * 1 + 0) default = q4_k_test_block := rfl
    have hidx : 256 * 0 + i = i := by omega
    rw [hb, hidx, q4_k_dequant_getD q4_k_test_block q4_k_test_block_wf i hi2,
      q4_k_test_x_getD i hi2]
    by_cases h0 : i = 0
    · subst h0
      simp
    · by_cases h32 : i = 32
      · subst h32
        simp
      · rw [if_neg (by omega), if_neg h0, if_neg h32]
        simp
  rw [Finset.sum_congr rfl hterm, Finset.sum_add_distrib, Finset.sum_ite_eq',
    Finset.sum_ite_eq', if_pos (Finset.mem_range.mpr (by decide)),
    if_pos (Finset.mem_range.mpr (by decide)), q4_k_test_value_zero, q4_k_test_value_32]
  norm_num

/-- C17: for `m` rows of `nb >= 1` well-formed Q4_K blocks, an input `x` of at least
`k = 256 * nb` floats and an output `y` of at least `m` floats, op_matmul_q4_k returns 0
and writes, for each row `r < m`, the sum over the blocks `b < nb` and the lanes
`i < 256` of `dequant(W[r * nb + b])[i] * x[256 * b + i]`, where `dequant` is what
dequantize_row_q4_k yields for that block; the rest of `y` is as before. -/
theorem op_matmul_q4_k_spec (a : List block_q4_k) (x y : List ℚ) (m nb : Nat)
    (hnb : 1 ≤ nb) (ha : ∀ j, j < m * nb → ∃ blk, a[j]? = some blk ∧ q4_k_wf blk)
    (hx : 256 * nb ≤ x.length) (hy : m ≤ y.length) :
    ∃ y1, op_matmul_q4_k a x y m (256 * nb) = some (0, y1) ∧ y1.length = y.length ∧
      (∀ r, r < m → y1[r]? =
        some (∑ b in Finset.range nb, ∑ i in Finset.range 256,
          (q4_k_dequant (a.getD (r * nb + b) default)).getD i 0 * x.getD (256 * b + i) 0)) ∧
      ∀ r, m ≤ r → y1[r]? = y[r]? := by
  obtain ⟨y1, hrun, hl, hc⟩ := op_matmul_k_spec dequantize_row_q4_k q4_k_wf q4_k_value
    q4_k_decode a x y m nb hnb ha hx hy
  refine ⟨y1, hrun, hl, fun r hr => ?_, fun r hr => ?_⟩
  · rw [hc r, if_pos hr]
    congr 1
    refine Finset.sum_congr rfl (fun b hb => Finset.sum_congr rfl (fun i hi => ?_))
    have hlt : r * nb + b < m * nb := by
      have h1 : (r + 1) * nb ≤ m * nb := Nat.mul_le_mul_right nb hr
      rw [Nat.succ_mul] at h1
      have := Finset.mem_range.mp hb
      omega
    obtain ⟨blk, hblk, hwf⟩ := ha (r * nb + b) hlt
    have hgetD : a.getD (r * nb + b) default = blk := by
      rw [List.getD_eq_getElem?_getD, hblk]
      rfl
    rw [hgetD, q4_k_dequant_getD blk hwf i (Finset.mem_range.mp hi)]
  · rw [hc r, if_neg (by omega)]

/-- C17 on the test of tests/ops_test.c: one row of one block with `d = 1`, `dmin = 0`,
scales `[1,1,1,1,0,0,0,0,1,1,1,1]` and `qs[0] = 0xF0`, against the input that is 1 at
indices 0 and 32 and 0 elsewhere; the call returns 0 and the result is 15. -/
theorem op_matmul_q4_k_spec_witness :
    op_matmul_q4_k [q4_k_test_block] q4_k_test_x [0] 1 (256 * 1) = some (0, [15]) :=
  let ⟨y1, h1, h2, h3, _⟩ :=
    op_matmul_q4_k_spec [q4_k_test_block] q4_k_test_x [0] 1 1 (le_refl 1)
      (fun j hj => ⟨q4_k_test_block, by
        have : j = 0 := by omega
        subst this
        rfl, q4_k_test_block_wf⟩)
      (by
        have : q4_k_test_x.length = 256 := by
          unfold q4_k_test_x
          rw [List.length_map, List.length_range]
        omega)
      (by decide)
  by
    have h0 := h3 0 (by decide)
    rw [q4_k_test_dot] at h0
    have hy : y1 = [15] := by
      apply List.ext_getElem?
      intro j
      cases j with
      | zero => rw [h0]; rfl
      | succ j =>
        rw [List.getElem?_eq_none (by rw [h2]; simp)]
        rfl
    rw [h1, hy]

/-- C18 fails as stated: with `k = 0`, for which `k % 256 == 0`, the three functions
return -1. -/
theorem op_matmul_k_zero_rejected :
    0 % 256 = 0 ∧
    op_matmul_q4_k [q4_k_test_block] q4_k_test_x [0] 1 0 = some (-1, [0]) ∧
    op_matmul_q5_k [q5_k_test_block] q4_k_test_x [0] 1 0 = some (-1, [0]) ∧
    op_matmul_q6_k [q6_k_test_block] q4_k_test_x [0] 1 0 = some (-1, [0]) :=
  ⟨rfl, op_matmul_k_reject _ _ _ _ _ _ (Or.inl rfl), op_matmul_k_reject _ _ _ _ _ _ (Or.inl rfl),
    op_matmul_k_reject _ _ _ _ _ _ (Or.inl rfl)⟩

/-- C18, as the code has it. For every `m` and `k`, with `m * (k / 256)` well-formed blocks, an
input of at least `k` floats and an output of at least `m` floats, op_matmul_q4_k,
op_matmul_q5_k and op_matmul_q6_k return 0 whenever `k` is a non-zero multiple of 256,
and return -1, leaving the output as it is, whenever `k` is 0 or not a multiple
of 256. -/
theorem op_matmul_k_status (a4 : List block_q4_k) (a5 : List block_q5_k)
    (a6 : List block_q6_k) (x y : List ℚ) (m k : Nat)
    (h4 : ∀ j, j < m * (k / 256) → ∃ blk, a4[j]? = some blk ∧ q4_k_wf blk)
    (h5 : ∀ j, j < m * (k / 256) → ∃ blk, a5[j]? = some blk ∧ q5_k_wf blk)
    (h6 : ∀ j, j < m * (k / 256) → ∃ blk, a6[j]? = some blk ∧ q6_k_wf blk)
    (hx : k ≤ x.length) (hy : m ≤ y.length) :
    ((k ≠ 0 ∧ k % 256 = 0) →
      (∃ y1, op_matmul_q4_k a4 x y m k = some (0, y1)) ∧
      (∃ y1, op_matmul_q5_k a5 x y m k = some (0, y1)) ∧
      (∃ y1, op_matmul_q6_k a6 x y m k = some (0, y1))) ∧
    ((k = 0 ∨ k % 256 ≠ 0) →
      op_matmul_q4_k a4 x y m k = some (-1, y) ∧
      op_matmul_q5_k a5 x y m k = some (-1, y) ∧
      op_matmul_q6_k a6 x y m k = some (-1, y)) := by
  constructor
  · rintro ⟨hk0, hk⟩
    have hk2 : k = 256 * (k / 256) := by omega
    have hnb : 1 ≤ k / 256 := by omega
    obtain ⟨y4, r4, _⟩ := op_matmul_k_spec dequantize_row_q4_k q4_k_wf q4_k_value
      q4_k_decode a4 x y m (k / 256) hnb h4 (by omega) hy
    obtain ⟨y5, r5, _⟩ := op_matmul_k_spec dequantize_row_q5_k q5_k_wf q5_k_value
      q5_k_decode a5 x y m (k / 256) hnb h5 (by omega) hy
    obtain ⟨y6, r6, _⟩ := op_matmul_k_spec dequantize_row_q6_k q6_k_wf q6_k_value
      q6_k_decode a6 x y m (k / 256) hnb h6 (by omega) hy
    rw [← hk2] at r4 r5 r6
    exact ⟨⟨y4, r4⟩, ⟨y5, r5⟩, ⟨y6, r6⟩⟩
  · intro hk
    exact ⟨op_matmul_k_reject _ _ _ _ _ _ hk, op_matmul_k_reject _ _ _ _ _ _ hk,
      op_matmul_k_reject _ _ _ _ _ _ hk⟩

/-- C18 on one row of one example block of each format: `k = 256` is
accepted and `k = 100` is rejected. -/
theorem op_matmul_k_status_witness :
    ((∃ y1, op_matmul_q4_k [q4_k_test_block] q4_k_test_x [0] 1 256 = some (0, y1)) ∧
      (∃ y1, op_matmul_q5_k [q5_k_test_block] q4_k_test_x [0] 1 256 = some (0, y1)) ∧
      (∃ y1, op_matmul_q6_k [q6_k_test_block] q4_k_test_x [0] 1 256 = some (0, y1))) ∧
    (op_matmul_q4_k [q4_k_test_block] q4_k_test_x [0] 1 100 = some (-1, [0]) ∧
      op_matmul_q5_k [q5_k_test_block] q4_k_test_x [0] 1 100 = some (-1, [0]) ∧
      op_matmul_q6_k [q6_k_test_block] q4_k_test_x [0] 1 100 = some (-1, [0])) :=
  ⟨(op_matmul_k_status [q4_k_test_block] [q5_k_test_block] [q6_k_test_block] q4_k_test_x [0]
      1 256
      (fun j hj => ⟨q4_k_test_block, by
        have : j = 0 := by omega
        subst this
        rfl, q4_k_test_block_wf⟩)
      (fun j hj => ⟨q5_k_test_block, by
        have : j = 0 := by omega
        subst this
        rfl, q5_k_test_block_wf⟩)
      (fun j hj => ⟨q6_k_test_block, by
        have : j = 0 := by omega
        subst this
        rfl, q6_k_test_block_wf⟩)
      (by
        have : q4_k_test_x.length = 256 := by
          unfold q4_k_test_x
          rw [List.length_map, List.length_range]
        omega)
      (by decide)).1 ⟨by decide, by decide⟩,
   (op_matmul_k_status [q4_k_test_block] [q5_k_test_block] [q6_k_test_block] q4_k_test_x [0]
      1 100
      (fun j hj => absurd hj (by omega))
      (fun j hj => absurd hj (by omega))
      (fun j hj => absurd hj (by omega))
      (by
        have : q4_k_test_x.length = 256 := by
          unfold q4_k_test_x
          rw [List.length_map, List.length_range]
        omega)
      (by decide)).2 (Or.inr (by decide))⟩

/-! ## Loops that update an array in place -/

/-- A loop `for d < m: a[p + d] = g d a[p + d]` over a list, cell by cell. -/
theorem foldl_update_range {α : Type} (g : Nat → α → α) (z : α) (p : Nat) :
    ∀ (m : Nat) (a : List α),
      ((List.range m).foldl (fun o d => o.set (p + d) (g d (o.getD (p + d) z))) a).length
        = a.length ∧
      ∀ j, ((List.range m).foldl (fun o d => o.set (p + d) (g d (o.getD (p + d) z))) a)[j]? =
        if p ≤ j ∧ j < p + m then a[j]?.map (g (j - p)) else a[j]? := by
  intro m
  induction m with
  | zero =>
    intro a
    exact ⟨rfl, fun j => by rw [if_neg (by omega)]; rfl⟩
  | succ m ih =>
    intro a
    obtain ⟨hlen, hget⟩ := ih a
    simp only [List.range_succ, List.foldl_append, List.foldl_cons, List.foldl_nil]
    generalize (List.range m).foldl (fun o d => o.set (p + d) (g d (o.getD (p + d) z))) a = r
      at hlen hget
    refine ⟨by rw [List.length_set]; exact hlen, fun j => ?_⟩
    rw [List.getElem?_set]
    by_cases hj : p + m = j
    · subst hj
      have e : p + m - p = m := by omega
      rw [if_pos rfl, if_pos (show p ≤ p + m ∧ p + m < p + (m + 1) by omega), e]
      by_cases hin : p + m < a.length
      · rw [if_pos (show p + m < r.length by omega), List.getD_eq_getElem?_getD,
          hget (p + m), if_neg (by omega), List.getElem?_eq_getElem hin]
        rfl
      · rw [if_neg (show ¬ p + m < r.length by omega), List.getElem?_eq_none (by omega)]
        rfl
    · rw [if_neg hj, hget j]
      by_cases hr : p ≤ j ∧ j < p + m
      · rw [if_pos hr, if_pos (by omega)]
      · rw [if_neg hr, if_neg (by omega)]

/-- The running maximum of a loop is an upper bound of what it has seen and is one of the
values it has seen. -/
theorem foldl_max_spec {F : Type} [LinearOrder F] (f : Nat → F) :
    ∀ (l : List Nat) (init : F),
      init ≤ l.foldl (fun m i => if f i > m then f i else m) init ∧
      (∀ i ∈ l, f i ≤ l.foldl (fun m i => if f i > m then f i else m) init) ∧
      (l.foldl (fun m i => if f i > m then f i else m) init = init ∨
        ∃ i ∈ l, l.foldl (fun m i => if f i > m then f i else m) init = f i) := by
  intro l
  induction l with
  | nil => intro init; exact ⟨le_refl _, fun i hi => (by cases hi), Or.inl rfl⟩
  | cons a as ih =>
    intro init
    simp only [List.foldl_cons]
    obtain ⟨g1, g2, g3⟩ := ih (if f a > init then f a else init)
    have hinit : init ≤ (if f a > init then f a else init) := by
      split
      · rename_i h; exact le_of_lt h
      · exact le_refl _
    have ha : f a ≤ (if f a > init then f a else init) := by
      split
      · exact le_refl _
      · rename_i h; exact not_lt.mp h
    refine ⟨le_trans hinit g1, ?_, ?_⟩
    · intro i hi
      rcases List.mem_cons.mp hi with rfl | hi
      · exact le_trans ha g1
      · exact g2 i hi
    · rcases g3 with h | ⟨i, hi, h⟩
      · rw [h]
        by_cases hgt : f a > init
        · rw [if_pos hgt]
          exact Or.inr ⟨a, List.mem_cons_self a as, rfl⟩
        · rw [if_neg hgt]
          exact Or.inl rfl
      · exact Or.inr ⟨i, List.mem_cons_of_mem a hi, h⟩

/-- The result of the maximum loop is the largest of `x[0 .. n-1]`. -/
theorem max_loop_spec {F : Type} [LinearOrderedField F] (x : List F) (n : Nat) (hn : 0 < n) :
    (∀ i, i < n → x.getD i 0 ≤ max_loop x n) ∧ ∃ i, i < n ∧ x.getD i 0 = max_loop x n := by
  obtain ⟨g1, g2, g3⟩ := foldl_max_spec (fun i => x.getD i 0) (List.range' 1 (n - 1))
    (x.getD 0 0)
  constructor
  · intro i hi
    by_cases h0 : i = 0
    · subst h0
      exact g1
    · exact g2 i (by rw [List.mem_range']; exact ⟨i - 1, by omega, by omega⟩)
  · rcases g3 with h | ⟨i, hi, h⟩
    · exact ⟨0, hn, h.symm⟩
    · rw [List.mem_range'] at hi
      obtain ⟨j, hj, rfl⟩ := hi
      exact ⟨1 + 1 * j, by omega, h.symm⟩

/-- The exponential loop, in closed form. -/
theorem exp_sum_loop_spec {F : Type} [LinearOrderedField F] (expf : F → F) (x : List F)
    (maxv : F) :
    ∀ n, n ≤ x.length →
      (exp_sum_loop expf x n maxv).1.length = x.length ∧
      (∀ j, (exp_sum_loop expf x n maxv).1[j]? =
        if j < n then x[j]?.map (fun v => expf (v - maxv)) else x[j]?) ∧
      (exp_sum_loop expf x n maxv).2 = ∑ i in Finset.range n, expf (x.getD i 0 - maxv) := by
  intro n
  induction n with
  | zero =>
    intro _
    exact ⟨rfl, fun j => by rw [if_neg (by omega)]; rfl, by simp [exp_sum_loop]⟩
  | succ n ih =>
    intro hn
    obtain ⟨hlen, hget, hsum⟩ := ih (by omega)
    have hstep : exp_sum_loop expf x (n + 1) maxv =
        exp_sum_step expf maxv (exp_sum_loop expf x n maxv) n := by
      unfold exp_sum_loop
      rw [List.range_succ, List.foldl_append]
      rfl
    rw [hstep]
    generalize exp_sum_loop expf x n maxv = r at hlen hget hsum
    have hcur : r.1.getD n 0 = x.getD n 0 := by
      rw [List.getD_eq_getElem?_getD, List.getD_eq_getElem?_getD, hget n, if_neg (by omega)]
    unfold exp_sum_step
    rw [hcur]
    refine ⟨by simp only [List.length_set]; exact hlen, fun j => ?_, ?_⟩
    · simp only [List.getElem?_set]
      by_cases hj : n = j
      · subst hj
        rw [if_pos rfl, if_pos (by omega), if_pos (by omega),
          List.getD_eq_getElem?_getD, List.getElem?_eq_getElem (by omega)]
        rfl
      · rw [if_neg hj, hget j]
        by_cases hlt : j < n
        · rw [if_pos hlt, if_pos (by omega)]
        · rw [if_neg hlt, if_neg (by omega)]
    · simp only
      rw [Finset.sum_range_succ, hsum]
      congr 1
      rw [List.getD_eq_getElem?_getD, List.getElem?_set, if_pos rfl, if_pos (by omega)]
      rfl


/-! ## Softmax -/

/-- op_softmax in closed form, for any positive `expf` with `expf 0 = 1`. -/
theorem op_softmax_closed {F : Type} [LinearOrderedField F] (expf : F → F)
    (hpos : ∀ a, 0 < expf a) (hzero : expf 0 = 1) (x : List F) (hx : x ≠ []) :
    1 ≤ (exp_sum_loop expf x x.length (max_loop x x.length)).2 ∧
    (exp_sum_loop expf x x.length (max_loop x x.length)).2 =
      ∑ i in Finset.range x.length, expf (x.getD i 0 - max_loop x x.length) ∧
    op_softmax expf x x.length =
      (0, x.map (fun v => expf (v - max_loop x x.length) *
        (1 / ∑ i in Finset.range x.length, expf (x.getD i 0 - max_loop x x.length)))) := by
  have hn : 0 < x.length := List.length_pos.mpr hx
  obtain ⟨_, i0, hi0, hmax⟩ := max_loop_spec x x.length hn
  obtain ⟨hlen, hget, hsum⟩ := exp_sum_loop_spec expf x (max_loop x x.length) x.length
    (le_refl _)
  have hS : 1 ≤ ∑ i in Finset.range x.length, expf (x.getD i 0 - max_loop x x.length) := by
    have h1 := Finset.single_le_sum
      (f := fun i => expf (x.getD i 0 - max_loop x x.length))
      (fun i _ => le_of_lt (hpos _)) (Finset.mem_range.mpr hi0)
    simp only at h1
    rw [hmax, sub_self, hzero] at h1
    exact h1
  refine ⟨by rw [hsum]; exact hS, hsum, ?_⟩
  unfold op_softmax
  rw [if_neg (by omega)]
  simp only
  rw [if_neg (by rw [hsum]; exact ne_of_gt (lt_of_lt_of_le one_pos hS))]
  have hupd := foldl_update_range
    (fun _ v => v * (1 / (exp_sum_loop expf x x.length (max_loop x x.length)).2)) (0 : F) 0
    x.length (exp_sum_loop expf x x.length (max_loop x x.length)).1
  simp only [Nat.zero_add] at hupd
  obtain ⟨ulen, uget⟩ := hupd
  congr 1
  apply List.ext_getElem?
  intro j
  rw [uget j, hget j, List.getElem?_map, hsum]
  by_cases hj : j < x.length
  · rw [if_pos ⟨by omega, hj⟩, if_pos hj]
    cases x[j]? <;> rfl
  · rw [if_neg (by omega), if_neg hj, List.getElem?_eq_none (by omega)]
    rfl

/-- C20: for every non-empty real vector `x`, op_softmax (with the real exponential, on
`n = length x`) returns 0: the sum of the exponentials that it computes is at least 1,
so the branch `sum == 0` is not taken. Every output is in (0, 1], the outputs sum to 1,
`x[i] < x[j]` implies `y[i] < y[j]`, and `y[i]` is `exp x[i]` over the sum of the
`exp x[j]`. -/
theorem op_softmax_spec (x : List ℝ) (hx : x ≠ []) :
    ∃ y, op_softmax Real.exp x x.length = (0, y) ∧ y.length = x.length ∧
      1 ≤ (exp_sum_loop Real.exp x x.length (max_loop x x.length)).2 ∧
      (∀ i, i < x.length → 0 < y.getD i 0 ∧ y.getD i 0 ≤ 1) ∧
      ∑ i in Finset.range x.length, y.getD i 0 = 1 ∧
      (∀ i j, i < x.length → j < x.length → x.getD i 0 < x.getD j 0 →
        y.getD i 0 < y.getD j 0) ∧
      ∀ i, i < x.length →
        y.getD i 0 = softmax_weight Real.exp (fun j => x.getD j 0) x.length i := by
  obtain ⟨hS1, hsum, hrun⟩ := op_softmax_closed Real.exp Real.exp_pos Real.exp_zero x hx
  rw [hsum] at hS1
  generalize hM : max_loop x x.length = M at hS1 hsum hrun
  generalize hSd : ∑ i in Finset.range x.length, Real.exp (x.getD i 0 - M) = S at hS1 hrun
  have hSpos : 0 < S := lt_of_lt_of_le one_pos hS1
  have hy : ∀ i, i < x.length →
      (x.map (fun v => Real.exp (v - M) * (1 / S))).getD i 0 =
        Real.exp (x.getD i 0 - M) * (1 / S) := by
    intro i hi
    rw [List.getD_eq_getElem?_getD, List.getD_eq_getElem?_getD, List.getElem?_map,
      List.getElem?_eq_getElem hi]
    rfl
  refine ⟨_, hrun, by rw [List.length_map], by rw [hsum, hSd]; exact hS1, ?_, ?_, ?_, ?_⟩
  · intro i hi
    rw [hy i hi]
    constructor
    · exact mul_pos (Real.exp_pos _) (by positivity)
    · have hle : Real.exp (x.getD i 0 - M) ≤ S := by
        rw [← hSd]
        exact Finset.single_le_sum (f := fun i => Real.exp (x.getD i 0 - M))
          (fun i _ => le_of_lt (Real.exp_pos _)) (Finset.mem_range.mpr hi)
      rw [mul_one_div]
      exact (div_le_one hSpos).mpr hle
  · rw [Finset.sum_congr rfl (fun i hi => hy i (Finset.mem_range.mp hi)), ← Finset.sum_mul,
      hSd, mul_one_div, div_self (ne_of_gt hSpos)]
  · intro i j hi hj hlt
    rw [hy i hi, hy j hj]
    exact mul_lt_mul_of_pos_right (Real.exp_lt_exp.mpr (by linarith)) (by positivity)
  · intro i hi
    rw [hy i hi]
    unfold softmax_weight
    have hEM : 0 < Real.exp M := Real.exp_pos M
    have hsumdiv : S = (∑ j in Finset.range x.length, Real.exp (x.getD j 0)) / Real.exp M := by
      rw [← hSd, Finset.sum_div]
      exact Finset.sum_congr rfl (fun j _ => Real.exp_sub _ _)
    rw [hsumdiv, Real.exp_sub, mul_one_div]
    have hT : 0 < ∑ j in Finset.range x.length, Real.exp (x.getD j 0) := by
      have := hSpos
      rw [hsumdiv] at this
      exact (div_pos_iff_of_pos_right hEM).mp this
    field_simp

/-- C20 on the vector `[1, 2, 3]` of the test: the call returns 0, the outputs sum to 1
and are strictly increasing. -/
theorem op_softmax_spec_witness :
    ∃ y, op_softmax Real.exp [1, 2, 3] 3 = (0, y) ∧
      ∑ i in Finset.range 3, y.getD i 0 = 1 ∧
      y.getD 0 0 < y.getD 1 0 ∧ y.getD 1 0 < y.getD 2 0 :=
  let ⟨y, h1, _, _, _, h5, h6, _⟩ := op_softmax_spec [1, 2, 3] (List.cons_ne_nil 1 [2, 3])
  ⟨y, h1, h5,
    h6 0 1 (by decide) (by decide) (by norm_num),
    h6 1 2 (by decide) (by decide) (by norm_num)⟩

/-! ## Attention -/

/-- A loop that adds `f d` in pass `d`, as a sum. -/
theorem foldl_add_sum {F : Type} [LinearOrderedField F] (f : Nat → F) :
    ∀ n : Nat, (List.range n).foldl (fun dot d => dot + f d) 0 = ∑ d in Finset.range n, f d := by
  intro n
  induction n with
  | zero => rfl
  | succ n ih =>
    rw [List.range_succ, List.foldl_append, ih, Finset.sum_range_succ]
    rfl

theorem attn_score_none {F : Type} [LinearOrderedField F] (q k : List F)
    (n_kv_heads head_dim : Nat) (scale : F) (h i : Nat) :
    attn_score q k n_kv_heads head_dim scale none h i =
      attn_logit q k n_kv_heads head_dim scale h i := by
  unfold attn_score attn_logit attn_dot
  simp only
  rw [foldl_add_sum
    (fun d => q.getD (h * head_dim + d) 0 *
      k.getD ((i * n_kv_heads + h % n_kv_heads) * head_dim + d) 0), mul_comm]

/-- The loop of lines 424-435 overwrites the whole array `scores`. -/
theorem attn_scores_fill {F : Type} [LinearOrderedField F] (f : Nat → F) (n : Nat)
    (sc : List F) (hsc : sc.length = n) :
    (List.range n).foldl (fun sc i => sc.set i (f i)) sc = (List.range n).map f := by
  obtain ⟨ulen, uget⟩ := foldl_update_range (fun i (_ : F) => f i) (0 : F) 0 n sc
  simp only [Nat.zero_add] at ulen uget
  apply List.ext_getElem?
  intro j
  rw [uget j, List.getElem?_map]
  by_cases hj : j < n
  · rw [if_pos ⟨by omega, hj⟩, List.getElem?_eq_getElem (by omega), List.getElem?_range hj]
    simp
  · rw [if_neg (by omega), List.getElem?_eq_none (by omega),
      List.getElem?_eq_none (by rw [List.length_range]; omega)]
    rfl

/-- The loops of lines 451-457: `out[p + d] += c i d` for `i < m` and `d < hd`. -/
theorem foldl_accumulate {F : Type} [LinearOrderedField F] (c : Nat → Nat → F) (p hd : Nat) :
    ∀ (m : Nat) (a : List F),
      ((List.range m).foldl
        (fun o i => (List.range hd).foldl
          (fun o d => o.set (p + d) (o.getD (p + d) 0 + c i d)) o) a).length = a.length ∧
      ∀ j, ((List.range m).foldl
        (fun o i => (List.range hd).foldl
          (fun o d => o.set (p + d) (o.getD (p + d) 0 + c i d)) o) a)[j]? =
        if p ≤ j ∧ j < p + hd then
          a[j]?.map (fun x => x + ∑ i in Finset.range m, c i (j - p))
        else a[j]? := by
  intro m
  induction m with
  | zero =>
    intro a
    refine ⟨rfl, fun j => ?_⟩
    simp only [List.range_zero, List.foldl_nil, Finset.range_zero, Finset.sum_empty, add_zero]
    split
    · cases a[j]? <;> rfl
    · rfl
  | succ m ih =>
    intro a
    obtain ⟨hlen, hget⟩ := ih a
    simp only [List.range_succ, List.foldl_append, List.foldl_cons, List.foldl_nil]
    generalize (List.range m).foldl
        (fun o i => (List.range hd).foldl
          (fun o d => o.set (p + d) (o.getD (p + d) 0 + c i d)) o) a = r at hlen hget
    obtain ⟨ulen, uget⟩ := foldl_update_range (fun d (x : F) => x + c m d) (0 : F) p hd r
    refine ⟨by rw [ulen, hlen], fun j => ?_⟩
    rw [uget j, hget j]
    by_cases hr : p ≤ j ∧ j < p + hd
    · rw [if_pos hr, if_pos hr, if_pos hr]
      cases a[j]? with
      | none => rfl
      | some x =>
        simp only [Option.map_some', Option.some.injEq]
        rw [Finset.sum_range_succ, add_assoc]
    · rw [if_neg hr, if_neg hr, if_neg hr]

theorem head_index_lt (h n hd d : Nat) (hh : h < n) (hd1 : d < hd) :
    h * hd + d < n * hd := by
  have h1 : (h + 1) * hd ≤ n * hd := Nat.mul_le_mul_right hd hh
  rw [Nat.succ_mul] at h1
  omega

/-- One pass of the loop over the heads: the `head_dim` outputs of head `h`. -/
theorem attn_head_spec {F : Type} [LinearOrderedField F] (expf : F → F) (q k v : List F)
    (n_kv_heads head_dim seq_len : Nat) (scale : F) (mask : Option (List F))
    (out scores : List F) (h : Nat) (hsc : scores.length = seq_len)
    (hfit : h * head_dim + head_dim ≤ 2 ^ 32) :
    (attn_head expf q k v n_kv_heads head_dim seq_len scale mask (out, scores) h).2.length
      = seq_len ∧
    (attn_head expf q k v n_kv_heads head_dim seq_len scale mask (out, scores) h).1.length
      = out.length ∧
    ∀ j, (attn_head expf q k v n_kv_heads head_dim seq_len scale mask (out, scores) h).1[j]? =
      if h * head_dim ≤ j ∧ j < h * head_dim + head_dim then
        out[j]?.map (fun _ => ∑ i in Finset.range seq_len,
          attn_weight expf q k n_kv_heads head_dim seq_len scale mask h i *
            v.getD ((i * n_kv_heads + h % n_kv_heads) * head_dim + (j - h * head_dim)) 0)
      else out[j]? := by
  have hfill := attn_scores_fill (attn_score q k n_kv_heads head_dim scale mask h) seq_len
    scores hsc
  -- the indices into `out` do not wrap
  have hzero : (List.range head_dim).foldl
      (fun o d => o.set ((h * head_dim + d) % 2 ^ 32) 0) out =
      (List.range head_dim).foldl
        (fun o d => o.set (h * head_dim + d) ((fun _ (_ : F) => (0 : F)) d
          (o.getD (h * head_dim + d) 0))) out := by
    apply List.foldl_ext
    intro o d hd1
    rw [Nat.mod_eq_of_lt (by have := List.mem_range.mp hd1; omega)]
  have hacc : ∀ (w : Nat → F) (o0 : List F),
      (List.range seq_len).foldl
        (fun o i => (List.range head_dim).foldl
          (fun o d => o.set ((h * head_dim + d) % 2 ^ 32)
            (o.getD ((h * head_dim + d) % 2 ^ 32) 0
              + w i * v.getD ((i * n_kv_heads + h % n_kv_heads) * head_dim + d) 0)) o) o0 =
      (List.range seq_len).foldl
        (fun o i => (List.range head_dim).foldl
          (fun o d => o.set (h * head_dim + d)
            (o.getD (h * head_dim + d) 0
              + (fun i d => w i * v.getD ((i * n_kv_heads + h % n_kv_heads) * head_dim + d) 0)
                i d)) o) o0 := by
    intro w o0
    apply List.foldl_ext
    intro o i _
    apply List.foldl_ext
    intro o1 d hd1
    rw [Nat.mod_eq_of_lt (by have := List.mem_range.mp hd1; omega)]
  obtain ⟨zlen, zget⟩ := foldl_update_range (fun _ (_ : F) => (0 : F)) (0 : F)
    (h * head_dim) head_dim out
  obtain ⟨elen, _, _⟩ := exp_sum_loop_spec expf
    ((List.range seq_len).map (attn_score q k n_kv_heads head_dim scale mask h))
    (max_loop ((List.range seq_len).map (attn_score q k n_kv_heads head_dim scale mask h))
      seq_len) seq_len (by rw [List.length_map, List.length_range])
  unfold attn_head
  simp only
  rw [hfill, hzero, hacc]
  obtain ⟨alen, aget⟩ := foldl_accumulate
    (fun i d => attn_weight expf q k n_kv_heads head_dim seq_len scale mask h i *
      v.getD ((i * n_kv_heads + h % n_kv_heads) * head_dim + d) 0)
    (h * head_dim) head_dim seq_len
    ((List.range head_dim).foldl
      (fun o d => o.set (h * head_dim + d) ((fun _ (_ : F) => (0 : F)) d
        (o.getD (h * head_dim + d) 0))) out)
  refine ⟨by rw [elen, List.length_map, List.length_range], ?_, fun j => ?_⟩
  · exact alen.trans zlen
  · have := aget j
    unfold attn_weight at this
    simp only at this
    rw [this, zget j]
    by_cases hr : h * head_dim ≤ j ∧ j < h * head_dim + head_dim
    · rw [if_pos hr, if_pos hr, if_pos hr]
      cases out[j]? with
      | none => rfl
      | some x =>
        simp only [Option.map_some', Option.some.injEq, zero_add]
        rfl
    · rw [if_neg hr, if_neg hr, if_neg hr]

theorem head_div_mod (m hd j : Nat) (h1 : m * hd ≤ j) (h2 : j < m * hd + hd) :
    j / hd = m ∧ j % hd = j - m * hd := by
  have hdiv : j / hd = m :=
    Nat.div_eq_of_lt_le h1 (by rw [Nat.succ_mul]; exact h2)
  have hmod := Nat.div_add_mod j hd
  rw [hdiv, Nat.mul_comm] at hmod
  exact ⟨hdiv, by omega⟩

/-- The loop over the heads: the outputs of the first `m` heads. -/
theorem attn_heads_spec {F : Type} [LinearOrderedField F] (expf : F → F) (q k v out : List F)
    (n_kv_heads head_dim seq_len : Nat) (scale : F) (mask : Option (List F)) :
    ∀ m : Nat, m * head_dim ≤ 2 ^ 32 →
      ((List.range m).foldl (attn_head expf q k v n_kv_heads head_dim seq_len scale mask)
        (out, List.replicate seq_len 0)).2.length = seq_len ∧
      ((List.range m).foldl (attn_head expf q k v n_kv_heads head_dim seq_len scale mask)
        (out, List.replicate seq_len 0)).1.length = out.length ∧
      ∀ j, ((List.range m).foldl
          (attn_head expf q k v n_kv_heads head_dim seq_len scale mask)
          (out, List.replicate seq_len 0)).1[j]? =
        if j < m * head_dim then
          out[j]?.map (fun _ => ∑ i in Finset.range seq_len,
            attn_weight expf q k n_kv_heads head_dim seq_len scale mask (j / head_dim) i *
              v.getD ((i * n_kv_heads + j / head_dim % n_kv_heads) * head_dim
                + j % head_dim) 0)
        else out[j]? := by
  intro m
  induction m with
  | zero =>
    intro _
    exact ⟨List.length_replicate _ _, rfl, fun j => by rw [if_neg (by omega)]; rfl⟩
  | succ m ih =>
    intro hfit
    have hfit1 : m * head_dim + head_dim ≤ 2 ^ 32 := by
      rw [Nat.succ_mul] at hfit
      exact hfit
    obtain ⟨hsc, hlen, hget⟩ := ih (by omega)
    rw [List.range_succ, List.foldl_append]
    simp only [List.foldl_cons, List.foldl_nil]
    generalize (List.range m).foldl
      (attn_head expf q k v n_kv_heads head_dim seq_len scale mask)
      (out, List.replicate seq_len 0) = st at hsc hlen hget
    obtain ⟨o, sc⟩ := st
    simp only at hsc hlen hget
    obtain ⟨g1, g2, g3⟩ := attn_head_spec expf q k v n_kv_heads head_dim seq_len scale mask
      o sc m hsc hfit1
    refine ⟨g1, g2.trans hlen, fun j => ?_⟩
    rw [g3 j, hget j, Nat.succ_mul]
    by_cases hr : m * head_dim ≤ j ∧ j < m * head_dim + head_dim
    · obtain ⟨e1, e2⟩ := head_div_mod m head_dim j hr.1 hr.2
      rw [if_pos hr, if_neg (by omega), if_pos hr.2, e1, e2]
    · rw [if_neg hr]
      by_cases hlt : j < m * head_dim
      · rw [if_pos hlt, if_pos (by omega)]
      · rw [if_neg hlt, if_neg (by omega)]

/-- Shifting all logits by `M` does not change the softmax. -/
theorem softmax_shift (s : Nat → ℝ) (n : Nat) (M : ℝ) (i : Nat) (hn : 0 < n) :
    Real.exp (s i - M) * (1 / ∑ j in Finset.range n, Real.exp (s j - M)) =
      softmax_weight Real.exp s n i := by
  unfold softmax_weight
  have hEM : 0 < Real.exp M := Real.exp_pos M
  have hT : 0 < ∑ j in Finset.range n, Real.exp (s j) :=
    Finset.sum_pos (fun j _ => Real.exp_pos _) ⟨0, Finset.mem_range.mpr hn⟩
  have hsumdiv : ∑ j in Finset.range n, Real.exp (s j - M) =
      (∑ j in Finset.range n, Real.exp (s j)) / Real.exp M := by
    rw [Finset.sum_div]
    exact Finset.sum_congr rfl (fun j _ => Real.exp_sub _ _)
  rw [hsumdiv, Real.exp_sub, mul_one_div]
  field_simp

/-- The softmax weights are positive and sum to 1. -/
theorem softmax_weight_props (s : Nat → ℝ) (n : Nat) (hn : 0 < n) :
    (∀ i, 0 < softmax_weight Real.exp s n i) ∧
    ∑ i in Finset.range n, softmax_weight Real.exp s n i = 1 := by
  have hT : 0 < ∑ j in Finset.range n, Real.exp (s j) :=
    Finset.sum_pos (fun j _ => Real.exp_pos _) ⟨0, Finset.mem_range.mpr hn⟩
  constructor
  · intro i
    exact div_pos (Real.exp_pos _) hT
  · unfold softmax_weight
    rw [← Finset.sum_div, div_self (ne_of_gt hT)]

/-- The weight that the code computes is the softmax of the logits. -/
theorem attn_weight_softmax (q k : List ℝ) (n_kv_heads head_dim seq_len : Nat) (scale : ℝ)
    (h i : Nat) (hn : 0 < seq_len) (hi : i < seq_len) :
    attn_weight Real.exp q k n_kv_heads head_dim seq_len scale none h i =
      softmax_weight Real.exp (attn_logit q k n_kv_heads head_dim scale h) seq_len i := by
  have hsc : attn_score q k n_kv_heads head_dim scale none h =
      attn_logit q k n_kv_heads head_dim scale h := by
    funext j
    exact attn_score_none q k n_kv_heads head_dim scale h j
  unfold attn_weight
  simp only
  rw [hsc]
  generalize hx : (List.range seq_len).map (attn_logit q k n_kv_heads head_dim scale h) = x
  have hxlen : x.length = seq_len := by rw [← hx, List.length_map, List.length_range]
  have hxget : ∀ j, j < seq_len → x.getD j 0 = attn_logit q k n_kv_heads head_dim scale h j := by
    intro j hj
    rw [← hx, List.getD_eq_getElem?_getD, List.getElem?_map, List.getElem?_range hj]
    rfl
  have hne : x ≠ [] := by
    intro h0
    rw [h0] at hxlen
    simp at hxlen
    omega
  obtain ⟨hS1, hsum, _⟩ := op_softmax_closed Real.exp Real.exp_pos Real.exp_zero x hne
  obtain ⟨_, hget, _⟩ := exp_sum_loop_spec Real.exp x (max_loop x x.length) x.length (le_refl _)
  rw [hxlen] at hS1 hsum hget
  have hcell : (exp_sum_loop Real.exp x seq_len (max_loop x seq_len)).1.getD i 0 =
      Real.exp (x.getD i 0 - max_loop x seq_len) := by
    rw [List.getD_eq_getElem?_getD, hget i, if_pos hi, List.getD_eq_getElem?_getD,
      List.getElem?_eq_getElem (by omega)]
    rfl
  rw [hcell, if_neg (ne_of_gt (lt_of_lt_of_le one_pos hS1)), hsum,
    Finset.sum_congr rfl (fun j hj => by rw [hxget j (Finset.mem_range.mp hj)]),
    hxget i hi]
  exact softmax_shift _ seq_len _ i hn

/-- C19: for non-zero `n_heads`, `n_kv_heads`, `head_dim` and `seq_len`, `mask = NULL`,
an array `out` of at least `n_heads * head_dim` floats and `n_heads * head_dim` within
32 bits, op_attention (over the reals, with the real exponential) returns 0 and writes
for every head `h` and lane `d` the value
`out[h * head_dim + d] = sum over i < seq_len of w i * V[i][h mod n_kv_heads][d]`, where
`w` is the softmax over `i < seq_len` of `scale * <Q_h, K[i][h mod n_kv_heads]>`; the
weights are positive and sum to 1. Nothing past the `n_heads * head_dim` floats is
written. -/
theorem op_attention_spec (q k v out : List ℝ) (n_heads n_kv_heads head_dim seq_len : Nat)
    (scale : ℝ) (hh : n_heads ≠ 0) (hkv : n_kv_heads ≠ 0) (hd : head_dim ≠ 0)
    (hs : seq_len ≠ 0) (hfit : n_heads * head_dim ≤ 2 ^ 32)
    (hout : n_heads * head_dim ≤ out.length) :
    ∃ out1, op_attention Real.exp q k v out n_heads n_kv_heads head_dim seq_len scale none
        = (0, out1) ∧ out1.length = out.length ∧
      (∀ j, n_heads * head_dim ≤ j → out1[j]? = out[j]?) ∧
      ∀ h, h < n_heads →
        (∀ i, 0 < softmax_weight Real.exp (attn_logit q k n_kv_heads head_dim scale h)
          seq_len i) ∧
        ∑ i in Finset.range seq_len,
          softmax_weight Real.exp (attn_logit q k n_kv_heads head_dim scale h) seq_len i = 1 ∧
        ∀ d, d < head_dim →
          out1.getD (h * head_dim + d) 0 =
            ∑ i in Finset.range seq_len,
              softmax_weight Real.exp (attn_logit q k n_kv_heads head_dim scale h) seq_len i *
                v.getD ((i * n_kv_heads + h % n_kv_heads) * head_dim + d) 0 := by
  obtain ⟨_, hlen, hget⟩ := attn_heads_spec Real.exp q k v out n_kv_heads head_dim seq_len
    scale none n_heads hfit
  have hn : 0 < seq_len := Nat.pos_of_ne_zero hs
  refine ⟨_, ?_, hlen, fun j hj => ?_, fun h hlt => ?_⟩
  · unfold op_attention
    rw [if_neg (by omega), if_neg hkv]
  · rw [hget j, if_neg (by omega)]
  · obtain ⟨p1, p2⟩ := softmax_weight_props (attn_logit q k n_kv_heads head_dim scale h)
      seq_len hn
    refine ⟨p1, p2, fun d hd1 => ?_⟩
    have hidx := head_index_lt h n_heads head_dim d hlt hd1
    obtain ⟨e1, e2⟩ := head_div_mod h head_dim (h * head_dim + d) (by omega) (by omega)
    have e3 : h * head_dim + d - h * head_dim = d := by omega
    rw [List.getD_eq_getElem?_getD, hget (h * head_dim + d), if_pos hidx,
      List.getElem?_eq_getElem (by omega)]
    simp only [Option.map_some', Option.getD_some, e1, e2, e3]
    exact Finset.sum_congr rfl (fun i hi => by
      rw [attn_weight_softmax q k n_kv_heads head_dim seq_len scale h i hn
        (Finset.mem_range.mp hi)])

/-- C19 on the call of tests/ops_test.c: one head of dimension 2 over two positions,
`Q = [1, 0]`, `K = [[1, 0], [0, 1]]`, `V = [[1, 2], [3, 4]]`, scale `1 / sqrt 2`; the call
returns 0 and the
two outputs are `w 0 * 1 + w 1 * 3` and `w 0 * 2 + w 1 * 4` for weights that sum to 1. -/
theorem op_attention_spec_witness :
    ∃ out1 w0 w1, op_attention Real.exp [1, 0] [1, 0, 0, 1] [1, 2, 3, 4] [0, 0] 1 1 2 2
        (1 / Real.sqrt 2) none = (0, out1) ∧ 0 < w0 ∧ 0 < w1 ∧ w0 + w1 = 1 ∧
      out1.getD 0 0 = w0 * 1 + w1 * 3 ∧ out1.getD 1 0 = w0 * 2 + w1 * 4 :=
  let ⟨out1, h1, _, _, h4⟩ :=
    op_attention_spec [1, 0] [1, 0, 0, 1] [1, 2, 3, 4] [0, 0] 1 1 2 2 (1 / Real.sqrt 2)
      (by decide) (by decide) (by decide) (by decide) (by norm_num) (by decide)
  let ⟨p1, p2, p3⟩ := h4 0 (by decide)
  ⟨out1, _, _, h1, p1 0, p1 1,
    by
      rw [Finset.sum_range_succ, Finset.sum_range_one] at p2
      exact p2,
    by
      have := p3 0 (by decide)
      rw [Finset.sum_range_succ, Finset.sum_range_one] at this
      simpa using this,
    by
      have := p3 1 (by decide)
      rw [Finset.sum_range_succ, Finset.sum_range_one] at this
      simpa using this⟩

/-! ## Tensor names -/

/-- A string without NUL is the string it denotes. -/
theorem c_str_eq_self (q : List Char) (h : NUL ∉ q) : c_str q = q := by
  unfold c_str
  rw [List.takeWhile_eq_self_iff]
  intro c hc
  simp only [ne_eq, decide_eq_true_eq]
  rintro rfl
  exact h hc

/-- The first characters of a C string are those of `q` exactly when `q` starts the
array, for `q` without NUL. -/
theorem c_str_take_eq_iff (q : List Char) (hq : NUL ∉ q) :
    ∀ p : List Char, (c_str p).take q.length = q ↔ q <+: p := by
  induction q with
  | nil => intro p; simp
  | cons a q ih =>
    intro p
    have ha : a ≠ NUL := fun h => hq (h ▸ List.mem_cons_self _ _)
    have hq2 : NUL ∉ q := fun h => hq (List.mem_cons_of_mem _ h)
    cases p with
    | nil => simp [c_str]
    | cons b p =>
      by_cases hb : b = NUL
      · subst hb
        simp only [c_str, List.takeWhile, ne_eq, not_true_eq_false, decide_False,
          List.take_nil, List.cons_prefix_cons]
        constructor
        · intro h; cases h
        · intro h; exact absurd h.1 ha
      · have hc : c_str (b :: p) = b :: c_str p := by
          simp [c_str, List.takeWhile, hb]
        rw [hc, List.length_cons, List.take_succ_cons, List.cons_prefix_cons, ← ih hq2 p]
        constructor
        · intro h; injection h with h1 h2; exact ⟨h1.symm, h2⟩
        · rintro ⟨h1, h2⟩; rw [h1, h2]

/-- strncmp against `blk.` is 0 exactly on the names that start with `blk.`. -/
theorem strncmp_blk (name : List Char) :
    strncmp name "blk.".toList 4 = 0 ↔ "blk.".toList <+: name := by
  have h : (c_str name).take 4 = "blk.".toList ↔ "blk.".toList <+: name :=
    c_str_take_eq_iff "blk.".toList (by decide) name
  have h2 : (c_str "blk.".toList).take 4 = "blk.".toList := by decide
  unfold strncmp
  rw [h2]
  constructor
  · intro h3
    by_cases h4 : (c_str name).take 4 = "blk.".toList
    · exact h.1 h4
    · rw [if_neg h4] at h3; cases h3
  · intro h3
    rw [if_pos (h.2 h3)]

/-- strcmp against a string without NUL is 0 exactly on that string. -/
theorem strcmp_eq_zero (p q : List Char) (hq : NUL ∉ q) : strcmp p q = 0 ↔ c_str p = q := by
  unfold strcmp
  rw [c_str_eq_self q hq]
  constructor
  · intro h
    by_cases h4 : c_str p = q
    · exact h4
    · rw [if_neg h4] at h; cases h
  · intro h; rw [if_pos h]

/-- An `int` expression whose result fits 31 bits has that result. -/
theorem to_int_small (x : Int) (h0 : 0 ≤ x) (h1 : x < 2 ^ 31) : to_int x = x := by
  unfold to_int
  omega

/-- The number a digit denotes. -/
theorem is_digit_val (c : Char) (h : is_digit c) :
    ∃ d : Nat, d < 10 ∧ ((c.toNat : Int) - ('0'.toNat : Int)) = d := by
  obtain ⟨h1, h2⟩ := h
  have h3 : '0'.toNat ≤ c.toNat := h1
  have h4 : c.toNat ≤ '9'.toNat := h2
  have e0 : '0'.toNat = 48 := by decide
  have e9 : '9'.toNat = 57 := by decide
  refine ⟨c.toNat - 48, by omega, by omega⟩

theorem digits_value_ge (ds : List Char) : ∀ acc, acc ≤ digits_value acc ds := by
  induction ds with
  | nil => intro acc; exact le_refl _
  | cons c ds ih =>
    intro acc
    have h := ih (acc * 10 + (c.toNat - 48))
    show acc ≤ digits_value (acc * 10 + (c.toNat - 48)) ds
    omega

theorem digits_value_append (ds es : List Char) (acc : Nat) :
    digits_value acc (ds ++ es) = digits_value (digits_value acc ds) es := by
  unfold digits_value
  rw [List.foldl_append]

theorem digits_value_pow (ds : List Char) :
    ∀ acc, digits_value acc ds = acc * 10 ^ ds.length + digits_value 0 ds := by
  induction ds with
  | nil => intro acc; simp [digits_value]
  | cons c ds ih =>
    intro acc
    show digits_value (acc * 10 + (c.toNat - 48)) ds = _
    rw [ih]
    have h2 : digits_value 0 (c :: ds) = digits_value (0 * 10 + (c.toNat - 48)) ds := rfl
    rw [h2, ih (0 * 10 + (c.toNat - 48)), List.length_cons, pow_succ]
    ring

/-- The character of a digit is a digit and denotes it. -/
theorem digitChar_spec : ∀ d, d < 10 →
    is_digit (Nat.digitChar d) ∧ (Nat.digitChar d).toNat - 48 = d := by
  decide

/-- The decimal digits that Nat.toDigitsCore puts in front of `ds`. -/
theorem toDigitsCore_spec : ∀ fuel n ds, n < fuel →
    ∃ pre, Nat.toDigitsCore 10 fuel n ds = pre ++ ds ∧ pre ≠ [] ∧
      (∀ c ∈ pre, is_digit c) ∧ digits_value 0 pre = n := by
  intro fuel
  induction fuel with
  | zero => intro n ds h; omega
  | succ fuel ih =>
    intro n ds h
    have hd := digitChar_spec (n % 10) (Nat.mod_lt _ (by decide))
    unfold Nat.toDigitsCore
    by_cases h0 : n / 10 = 0
    · simp only [h0, if_true]
      refine ⟨[Nat.digitChar (n % 10)], rfl, by simp, ?_, ?_⟩
      · intro c hc
        rw [List.mem_singleton] at hc
        rw [hc]; exact hd.1
      · show 0 * 10 + ((Nat.digitChar (n % 10)).toNat - 48) = n
        rw [hd.2]; omega
    · simp only [h0, if_false]
      obtain ⟨pre, e, _, hdig, hval⟩ := ih (n / 10) (Nat.digitChar (n % 10) :: ds) (by omega)
      refine ⟨pre ++ [Nat.digitChar (n % 10)], by rw [e]; simp, by simp, ?_, ?_⟩
      · intro c hc
        rw [List.mem_append, List.mem_singleton] at hc
        rcases hc with hc | hc
        · exact hdig c hc
        · rw [hc]; exact hd.1
      · rw [digits_value_append, hval]
        show n / 10 * 10 + ((Nat.digitChar (n % 10)).toNat - 48) = n
        rw [hd.2]; omega

/-- The decimal form of `N` is a non-empty list of digits that denotes `N`. -/
theorem toDigits_spec (N : Nat) :
    Nat.toDigits 10 N ≠ [] ∧ (∀ c ∈ Nat.toDigits 10 N, is_digit c) ∧
      digits_value 0 (Nat.toDigits 10 N) = N := by
  obtain ⟨pre, e, h1, h2, h3⟩ := toDigitsCore_spec (N + 1) N [] (by omega)
  rw [List.append_nil] at e
  unfold Nat.toDigits
  rw [e]
  exact ⟨h1, h2, h3⟩

/-- The digit loop of parse_layer_id on a run of digits whose value fits an `int`: it
stops after the run with that value. -/
theorem parse_layer_id_digits_run (pre rest : List Char)
    (hrest : ¬ is_digit (rest.headD NUL)) :
    ∀ acc : Nat, (∀ c ∈ pre, is_digit c) → digits_value acc pre < 2 ^ 31 →
      parse_layer_id_digits (pre ++ rest) (acc : Int) =
        (((digits_value acc pre : Nat) : Int), rest) := by
  induction pre with
  | nil =>
    intro acc _ _
    cases rest with
    | nil => rfl
    | cons c p =>
      have hc : ¬ ('0' ≤ c ∧ c ≤ '9') := hrest
      show parse_layer_id_digits (c :: p) (acc : Int) = _
      unfold parse_layer_id_digits
      rw [if_neg hc]
      rfl
  | cons c pre ih =>
    intro acc hd hv
    have hc : is_digit c := hd c (List.mem_cons_self _ _)
    have hc2 : '0' ≤ c ∧ c ≤ '9' := hc
    obtain ⟨d, hd10, hdv⟩ := is_digit_val c hc
    have e0 : '0'.toNat = 48 := by decide
    have hsub : c.toNat - 48 = d := by omega
    have hv2 : digits_value (acc * 10 + (c.toNat - 48)) pre < 2 ^ 31 := hv
    have hge := digits_value_ge pre (acc * 10 + (c.toNat - 48))
    show parse_layer_id_digits (c :: (pre ++ rest)) (acc : Int) = _
    unfold parse_layer_id_digits
    rw [if_pos hc2, hdv]
    have e1 : to_int ((acc : Int) * 10 + (d : Int)) = ((acc * 10 + (c.toNat - 48) : Nat) : Int) := by
      have hlt : acc * 10 + d < 2 ^ 31 := by omega
      rw [to_int_small _ (by positivity) (by exact_mod_cast hlt), hsub]
      push_cast; rfl
    rw [e1, ih _ (fun c hc => hd c (List.mem_cons_of_mem _ hc)) hv2]
    rfl

/-- The digit loop of map_tensor_to_field skips a run of digits. -/
theorem map_tensor_to_field_digits_run (pre rest : List Char)
    (hrest : ¬ is_digit (rest.headD NUL)) (hd : ∀ c ∈ pre, is_digit c) :
    map_tensor_to_field_digits (pre ++ rest) = rest := by
  induction pre with
  | nil =>
    cases rest with
    | nil => rfl
    | cons c p =>
      have hc : ¬ ('0' ≤ c ∧ c ≤ '9') := hrest
      show map_tensor_to_field_digits (c :: p) = _
      unfold map_tensor_to_field_digits
      rw [if_neg hc]
  | cons c pre ih =>
    have hc2 : '0' ≤ c ∧ c ≤ '9' := hd c (List.mem_cons_self _ _)
    show map_tensor_to_field_digits (c :: (pre ++ rest)) = _
    unfold map_tensor_to_field_digits
    rw [if_pos hc2, ih (fun c hc => hd c (List.mem_cons_of_mem _ hc))]

/-- parse_layer_id on `blk.<digits>.<text>` when the digits denote a number that fits an
`int`. -/
theorem parse_layer_id_of_digits (ds sfx : List Char) (h0 : ds ≠ [])
    (hd : ∀ c ∈ ds, is_digit c) (hv : digits_value 0 ds < 2 ^ 31) :
    parse_layer_id ("blk.".toList ++ ds ++ '.' :: sfx) = (digits_value 0 ds : Nat) := by
  have hpre : strncmp ("blk.".toList ++ ds ++ '.' :: sfx) "blk.".toList 4 = 0 :=
    (strncmp_blk _).2 ⟨ds ++ '.' :: sfx, by simp⟩
  have hdrop : ("blk.".toList ++ ds ++ '.' :: sfx).drop 4 = ds ++ '.' :: sfx := by
    rw [List.append_assoc]; rfl
  have hdot : ¬ is_digit (('.' :: sfx).headD NUL) := by
    show ¬ is_digit '.'
    decide
  have hrun := parse_layer_id_digits_run ds ('.' :: sfx) hdot 0 hd hv
  obtain ⟨c, ds2, rfl⟩ := List.exists_cons_of_ne_nil h0
  have hc : '0' ≤ c ∧ c ≤ '9' := hd c (List.mem_cons_self _ _)
  unfold parse_layer_id
  simp only [hpre, ne_eq, not_true_eq_false, if_false, hdrop]
  have hhead : ¬ (((c :: ds2) ++ '.' :: sfx).headD NUL < '0' ∨
      ((c :: ds2) ++ '.' :: sfx).headD NUL > '9') := by
    show ¬ (c < '0' ∨ c > '9')
    rintro (h | h)
    · exact absurd hc.1 (not_le.2 h)
    · exact absurd hc.2 (not_le.2 h)
  rw [if_neg hhead]
  have hrun2 : parse_layer_id_digits ((c :: ds2) ++ '.' :: sfx) 0 =
      (((digits_value 0 (c :: ds2) : Nat) : Int), '.' :: sfx) := hrun
  simp only [hrun2, List.headD_cons, ne_eq, not_true_eq_false, if_false]

/-- map_tensor_to_field on `blk.<digits>.<text>` is decided by the text. -/
theorem map_tensor_to_field_of_digits (ds sfx : List Char) (hd : ∀ c ∈ ds, is_digit c) :
    map_tensor_to_field ("blk.".toList ++ ds ++ '.' :: sfx) = map_tensor_to_field_suffix sfx := by
  have hpre : strncmp ("blk.".toList ++ ds ++ '.' :: sfx) "blk.".toList 4 = 0 :=
    (strncmp_blk _).2 ⟨ds ++ '.' :: sfx, by simp⟩
  have hdrop : ("blk.".toList ++ ds ++ '.' :: sfx).drop 4 = ds ++ '.' :: sfx := by
    rw [List.append_assoc]; rfl
  have hdot : ¬ is_digit (('.' :: sfx).headD NUL) := by
    show ¬ is_digit '.'
    decide
  unfold map_tensor_to_field
  simp only [hpre, ne_eq, not_true_eq_false, if_false, hdrop,
    map_tensor_to_field_digits_run ds ('.' :: sfx) hdot hd, List.headD_cons, List.drop_succ_cons,
    List.drop_zero]

/-- The comparisons of map_tensor_to_field on each of the nine names. -/
theorem map_tensor_to_field_suffix_names : ∀ fld ∈ layer_field_names,
    map_tensor_to_field_suffix (fld.1.toList ++ ".weight".toList) = fld.2 := by
  decide

/-- The comparisons of map_tensor_to_field reject every other text. -/
theorem map_tensor_to_field_suffix_other (sfx : List Char)
    (h : c_str sfx ∉ layer_field_names.map (fun fld => fld.1.toList ++ ".weight".toList)) :
    map_tensor_to_field_suffix sfx = LLAMA_TF_UNKNOWN := by
  simp only [layer_field_names, List.map_cons, List.map_nil, List.mem_cons, List.mem_nil_iff,
    or_false, not_or] at h
  obtain ⟨h1, h2, h3, h4, h5, h6, h7, h8, h9⟩ := h
  have k1 : ¬ strcmp sfx "attn_norm.weight".toList = 0 := fun k =>
    h1 ((strcmp_eq_zero _ _ (by decide)).1 k)
  have k2 : ¬ strcmp sfx "attn_q.weight".toList = 0 := fun k =>
    h2 ((strcmp_eq_zero _ _ (by decide)).1 k)
  have k3 : ¬ strcmp sfx "attn_k.weight".toList = 0 := fun k =>
    h3 ((strcmp_eq_zero _ _ (by decide)).1 k)
  have k4 : ¬ strcmp sfx "attn_v.weight".toList = 0 := fun k =>
    h4 ((strcmp_eq_zero _ _ (by decide)).1 k)
  have k5 : ¬ strcmp sfx "attn_output.weight".toList = 0 := fun k =>
    h5 ((strcmp_eq_zero _ _ (by decide)).1 k)
  have k6 : ¬ strcmp sfx "ffn_norm.weight".toList = 0 := fun k =>
    h6 ((strcmp_eq_zero _ _ (by decide)).1 k)
  have k7 : ¬ strcmp sfx "ffn_gate.weight".toList = 0 := fun k =>
    h7 ((strcmp_eq_zero _ _ (by decide)).1 k)
  have k8 : ¬ strcmp sfx "ffn_up.weight".toList = 0 := fun k =>
    h8 ((strcmp_eq_zero _ _ (by decide)).1 k)
  have k9 : ¬ strcmp sfx "ffn_down.weight".toList = 0 := fun k =>
    h9 ((strcmp_eq_zero _ _ (by decide)).1 k)
  unfold map_tensor_to_field_suffix
  rw [if_neg k1, if_neg k2, if_neg k3, if_neg k4, if_neg k5, if_neg k6, if_neg k7, if_neg k8,
    if_neg k9]

/-- The digit loop of parse_layer_id stops after a run of digits, whatever the value it
has accumulated. -/
theorem parse_layer_id_digits_rest (pre rest : List Char)
    (hrest : ¬ is_digit (rest.headD NUL)) :
    ∀ acc : Int, (∀ c ∈ pre, is_digit c) →
      (parse_layer_id_digits (pre ++ rest) acc).2 = rest := by
  induction pre with
  | nil =>
    intro acc _
    cases rest with
    | nil => rfl
    | cons c p =>
      have hc : ¬ ('0' ≤ c ∧ c ≤ '9') := hrest
      show (parse_layer_id_digits (c :: p) acc).2 = _
      unfold parse_layer_id_digits
      rw [if_neg hc]
  | cons c pre ih =>
    intro acc hd
    have hc2 : '0' ≤ c ∧ c ≤ '9' := hd c (List.mem_cons_self _ _)
    show (parse_layer_id_digits (c :: (pre ++ rest)) acc).2 = _
    unfold parse_layer_id_digits
    rw [if_pos hc2]
    exact ih _ (fun c hc => hd c (List.mem_cons_of_mem _ hc))

/-- Both functions reject `blk.<digits><text>` when the text does not start with a dot. -/
theorem layer_tensor_name_no_dot (ds rest : List Char) (hd : ∀ c ∈ ds, is_digit c)
    (hrest : ¬ is_digit (rest.headD NUL)) (hdot : rest.headD NUL ≠ '.') :
    parse_layer_id ("blk.".toList ++ ds ++ rest) = -1 ∧
    map_tensor_to_field ("blk.".toList ++ ds ++ rest) = LLAMA_TF_UNKNOWN := by
  have hpre : strncmp ("blk.".toList ++ ds ++ rest) "blk.".toList 4 = 0 :=
    (strncmp_blk _).2 ⟨ds ++ rest, by simp⟩
  have hdrop : ("blk.".toList ++ ds ++ rest).drop 4 = ds ++ rest := by
    rw [List.append_assoc]; rfl
  constructor
  · unfold parse_layer_id
    simp only [hpre, ne_eq, not_true_eq_false, if_false, hdrop]
    split
    · rfl
    · rw [parse_layer_id_digits_rest ds rest hrest 0 hd, if_pos hdot]
  · unfold map_tensor_to_field
    simp only [hpre, ne_eq, not_true_eq_false, if_false, hdrop,
      map_tensor_to_field_digits_run ds rest hrest hd]
    rw [if_pos hdot]

/-- C29: for every layer number N below 2^31 and each of the nine field names, the name
blk.N.field.weight, with N in decimal, is classified by parse_layer_id as layer N and by
map_tensor_to_field as the slot of that field (attn_output as the slot attn_o). A name that
does not start with blk. is rejected by both functions (-1 and UNKNOWN), a name with no
digit after blk. is rejected by parse_layer_id, a name blk.digits followed by anything but
a dot (the end of the name included) is rejected by both functions, and a name
blk.digits.text whose text is none of the nine names followed by .weight is rejected by
map_tensor_to_field; in each of the four cases build_layer_specs takes the tensor for no
layer tensor. -/
theorem layer_tensor_name_classified :
    (∀ N : Nat, N < 2 ^ 31 → ∀ fld ∈ layer_field_names,
      parse_layer_id (layer_tensor_name N fld.1) = (N : Int) ∧
      map_tensor_to_field (layer_tensor_name N fld.1) = fld.2) ∧
    (∀ name : List Char, ¬ "blk.".toList <+: name →
      parse_layer_id name = -1 ∧ map_tensor_to_field name = LLAMA_TF_UNKNOWN) ∧
    (∀ p : List Char, ¬ is_digit (p.headD NUL) →
      parse_layer_id ("blk.".toList ++ p) = -1) ∧
    (∀ ds rest : List Char, (∀ c ∈ ds, is_digit c) → ¬ is_digit (rest.headD NUL) →
      rest.headD NUL ≠ '.' →
      parse_layer_id ("blk.".toList ++ ds ++ rest) = -1 ∧
      map_tensor_to_field ("blk.".toList ++ ds ++ rest) = LLAMA_TF_UNKNOWN) ∧
    (∀ ds sfx : List Char, (∀ c ∈ ds, is_digit c) →
      c_str sfx ∉ layer_field_names.map (fun fld => fld.1.toList ++ ".weight".toList) →
      map_tensor_to_field ("blk.".toList ++ ds ++ '.' :: sfx) = LLAMA_TF_UNKNOWN) := by
  refine ⟨?_, ?_, ?_, ?_, ?_⟩
  · intro N hN fld hfld
    obtain ⟨h1, h2, h3⟩ := toDigits_spec N
    constructor
    · have h := parse_layer_id_of_digits (Nat.toDigits 10 N)
        (fld.1.toList ++ ".weight".toList) h1 h2 (by rw [h3]; exact hN)
      rw [h3] at h
      exact h
    · have h := map_tensor_to_field_of_digits (Nat.toDigits 10 N)
        (fld.1.toList ++ ".weight".toList) h2
      rw [map_tensor_to_field_suffix_names fld hfld] at h
      exact h
  · intro name hname
    have h : strncmp name "blk.".toList 4 ≠ 0 := fun h => hname ((strncmp_blk name).1 h)
    constructor
    · unfold parse_layer_id
      rw [if_pos h]
    · unfold map_tensor_to_field
      rw [if_pos h]
  · intro p hp
    have hpre : strncmp ("blk.".toList ++ p) "blk.".toList 4 = 0 :=
      (strncmp_blk _).2 ⟨p, rfl⟩
    have hdrop : ("blk.".toList ++ p).drop 4 = p := rfl
    have hhead : p.headD NUL < '0' ∨ p.headD NUL > '9' := by
      by_contra hc
      rw [not_or, not_lt, not_lt] at hc
      exact hp hc
    unfold parse_layer_id
    simp only [hpre, ne_eq, not_true_eq_false, if_false, hdrop]
    rw [if_pos hhead]
  · intro ds rest hd hrest hdot
    exact layer_tensor_name_no_dot ds rest hd hrest hdot
  · intro ds sfx hd hs
    rw [map_tensor_to_field_of_digits ds sfx hd, map_tensor_to_field_suffix_other sfx hs]

/-- C29 on an example: blk.7.attn_output.weight is layer 7, slot attn_o; token_embd.weight,
blk.x.attn_q.weight, blk.0xattn_q.weight, blk.7 and blk.7.attn_q.bias are no layer
tensors. -/
theorem layer_tensor_name_classified_witness :
    (parse_layer_id "blk.7.attn_output.weight".toList = 7 ∧
      map_tensor_to_field "blk.7.attn_output.weight".toList = LLAMA_TF_ATTN_O) ∧
    (parse_layer_id "token_embd.weight".toList = -1 ∧
      map_tensor_to_field "token_embd.weight".toList = LLAMA_TF_UNKNOWN) ∧
    parse_layer_id "blk.x.attn_q.weight".toList = -1 ∧
    (parse_layer_id "blk.0xattn_q.weight".toList = -1 ∧
      map_tensor_to_field "blk.0xattn_q.weight".toList = LLAMA_TF_UNKNOWN) ∧
    (parse_layer_id "blk.7".toList = -1 ∧
      map_tensor_to_field "blk.7".toList = LLAMA_TF_UNKNOWN) ∧
    map_tensor_to_field "blk.7.attn_q.bias".toList = LLAMA_TF_UNKNOWN :=
  ⟨layer_tensor_name_classified.1 7 (by decide) ("attn_output", LLAMA_TF_ATTN_O) (by decide),
   layer_tensor_name_classified.2.1 "token_embd.weight".toList (by decide),
   layer_tensor_name_classified.2.2.1 "x.attn_q.weight".toList (by decide),
   layer_tensor_name_classified.2.2.2.1 "0".toList "xattn_q.weight".toList (by decide)
     (by decide) (by decide),
   layer_tensor_name_classified.2.2.2.1 "7".toList [] (by decide) (by decide) (by decide),
   layer_tensor_name_classified.2.2.2.2 "7".toList "attn_q.bias".toList (by decide)
     (by decide)⟩

/-! ## Rotary embedding -/

/-- One pass of the inner loop of op_rope: the two lanes of the pair are rewritten. -/
theorem op_rope_pair_spec {F : Type} [Field F] (powf : F → F → F) (cosf sinf : F → F)
    (head_dim pos : Nat) (rope_theta : F) (base p : Nat) (q : List F)
    (hq : base + 2 * p + 1 < q.length) :
    op_rope_pair powf cosf sinf head_dim pos (1 / rope_theta) base p q =
      some ((q.set (base + 2 * p)
          (rope_lane powf cosf sinf q head_dim pos rope_theta base (2 * p))).set
        (base + 2 * p + 1)
          (rope_lane powf cosf sinf q head_dim pos rope_theta base (2 * p + 1))) := by
  have e1 : (2 * p) / 2 = p := by omega
  have e2 : (2 * p + 1) / 2 = p := by omega
  have e3 : (2 * p) % 2 = 0 := by omega
  have e4 : ¬ (2 * p + 1) % 2 = 0 := by omega
  unfold op_rope_pair rope_lane rope_angle
  simp only [e1, e2, e3, e4, if_true, if_false, Option.bind_eq_bind,
    ← Nat.add_assoc, rd_getD q (base + 2 * p) 0 (by omega),
    rd_getD q (base + 2 * p + 1) 0 (by omega),
    Option.some_bind, wr_some q (base + 2 * p) _ (by omega)]
  rw [wr_some _ _ _ (by rw [List.length_set]; omega)]

/-- The inner loop of op_rope on the head at `base`: the lanes of its complete pairs are
rewritten from the values they had, everything else is kept. -/
theorem op_rope_head_spec {F : Type} [Field F] (powf : F → F → F) (cosf sinf : F → F)
    (head_dim pos : Nat) (rope_theta : F) (base : Nat) (q : List F)
    (hq : base + head_dim ≤ q.length) :
    ∃ q1, loop (head_dim / 2) (fun p q =>
        op_rope_pair powf cosf sinf head_dim pos (1 / rope_theta) base p q) q = some q1 ∧
      q1.length = q.length ∧
      ∀ t, q1[t]? = if base ≤ t ∧ t < base + 2 * (head_dim / 2) then
          some (rope_lane powf cosf sinf q head_dim pos rope_theta base (t - base))
        else q[t]? := by
  obtain ⟨q1, hrun, hl1, hc⟩ := loop_inv
    (fun P (s : List F) => s.length = q.length ∧
      ∀ t, s[t]? = if base ≤ t ∧ t < base + 2 * P then
          some (rope_lane powf cosf sinf q head_dim pos rope_theta base (t - base))
        else q[t]?)
    (fun p q => op_rope_pair powf cosf sinf head_dim pos (1 / rope_theta) base p q) q
    (head_dim / 2)
    ⟨rfl, fun t => by rw [if_neg (by omega)]⟩
    (by
      rintro p s hp ⟨hl, hcell⟩
      have hb : base + 2 * p + 1 < s.length := by omega
      refine ⟨_, op_rope_pair_spec powf cosf sinf head_dim pos rope_theta base p s hb,
        by simp [hl], fun t => ?_⟩
      have hs0 : s.getD (base + 2 * p) 0 = q.getD (base + 2 * p) 0 := by
        rw [List.getD_eq_getElem?_getD, List.getD_eq_getElem?_getD, hcell, if_neg (by omega)]
      have hs1 : s.getD (base + 2 * p + 1) 0 = q.getD (base + 2 * p + 1) 0 := by
        rw [List.getD_eq_getElem?_getD, List.getD_eq_getElem?_getD, hcell, if_neg (by omega)]
      have hlane : ∀ l, l / 2 = p →
          rope_lane powf cosf sinf s head_dim pos rope_theta base l =
            rope_lane powf cosf sinf q head_dim pos rope_theta base l := by
        intro l hl2
        unfold rope_lane
        simp only [hl2, hs0, hs1]
      simp only [List.getElem?_set, List.length_set]
      by_cases h1 : base + 2 * p + 1 = t
      · subst h1
        rw [if_pos rfl, if_pos hb, if_pos (by omega)]
        have e : base + 2 * p + 1 - base = 2 * p + 1 := by omega
        rw [e, hlane _ (by omega)]
      · rw [if_neg h1]
        by_cases h0 : base + 2 * p = t
        · subst h0
          rw [if_pos rfl, if_pos (by omega), if_pos (by omega)]
          have e : base + 2 * p - base = 2 * p := by omega
          rw [e, hlane _ (by omega)]
        · rw [if_neg h0, hcell t]
          by_cases hr : base ≤ t ∧ t < base + 2 * p
          · rw [if_pos hr, if_pos (by omega)]
          · rw [if_neg hr, if_neg (by omega)])
  exact ⟨q1, hrun, hl1, hc⟩

/-- op_rope in closed form: it returns 0, keeps the length of the array, rewrites the lanes
of the complete pairs of the first `n_heads` heads and keeps every other element. -/
theorem op_rope_closed {F : Type} [Field F] (powf : F → F → F) (cosf sinf : F → F)
    (qk : List F) (n_heads head_dim pos : Nat) (rope_theta : F)
    (hd : head_dim ≠ 0) (hlen : n_heads * head_dim ≤ qk.length) :
    ∃ out, op_rope powf cosf sinf qk n_heads head_dim pos rope_theta = some (0, out) ∧
      out.length = qk.length ∧
      ∀ t, out[t]? =
        if t < n_heads * head_dim ∧ t % head_dim < 2 * (head_dim / 2) then
          some (rope_lane powf cosf sinf qk head_dim pos rope_theta
            (t / head_dim * head_dim) (t % head_dim))
        else qk[t]? := by
  have hdpos : 0 < head_dim := Nat.pos_of_ne_zero hd
  obtain ⟨q1, hrun, hl1, hc⟩ := loop_inv
    (fun H (s : List F) => s.length = qk.length ∧
      ∀ t, s[t]? =
        if t < H * head_dim ∧ t % head_dim < 2 * (head_dim / 2) then
          some (rope_lane powf cosf sinf qk head_dim pos rope_theta
            (t / head_dim * head_dim) (t % head_dim))
        else qk[t]?)
    (fun h q => loop (head_dim / 2) (fun p q =>
      op_rope_pair powf cosf sinf head_dim pos (1 / rope_theta) (h * head_dim) p q) q) qk
    n_heads
    ⟨rfl, fun t => by rw [if_neg (by omega)]⟩
    (by
      rintro H s hH ⟨hl, hcell⟩
      have hle : (H + 1) * head_dim ≤ n_heads * head_dim :=
        Nat.mul_le_mul_right _ (by omega)
      have hsucc : (H + 1) * head_dim = H * head_dim + head_dim := by ring
      obtain ⟨s1, r1, l1, c1⟩ := op_rope_head_spec powf cosf sinf head_dim pos rope_theta
        (H * head_dim) s (by omega)
      refine ⟨s1, r1, by omega, fun t => ?_⟩
      have hlane : ∀ l,
          rope_lane powf cosf sinf s head_dim pos rope_theta (H * head_dim) l =
            rope_lane powf cosf sinf qk head_dim pos rope_theta (H * head_dim) l := by
        intro l
        have g : ∀ u, s.getD (H * head_dim + u) 0 = qk.getD (H * head_dim + u) 0 := by
          intro u
          rw [List.getD_eq_getElem?_getD, List.getD_eq_getElem?_getD, hcell,
            if_neg (by omega)]
        unfold rope_lane
        simp only [g, Nat.add_assoc]
      rw [c1 t, hlane, hcell t, hsucc]
      by_cases h1 : H * head_dim ≤ t ∧ t < H * head_dim + 2 * (head_dim / 2)
      · obtain ⟨hdiv, hmod⟩ := head_div_mod H head_dim t h1.1 (by omega)
        rw [if_pos h1, if_pos (by omega), hdiv, hmod]
      · rw [if_neg h1]
        by_cases h0 : t < H * head_dim ∧ t % head_dim < 2 * (head_dim / 2)
        · rw [if_pos h0, if_pos (by omega)]
        · rw [if_neg h0]
          by_cases h2 : H * head_dim ≤ t ∧ t < H * head_dim + head_dim
          · obtain ⟨_, hmod⟩ := head_div_mod H head_dim t h2.1 h2.2
            rw [if_neg (by omega)]
          · rw [if_neg (by omega)])
  refine ⟨q1, ?_, hl1, hc⟩
  unfold op_rope
  rw [if_neg hd]
  simp only [hrun, Option.map_some']

/-- The angle of op_rope over the reals, for a positive base theta. -/
theorem rope_angle_real (head_dim pos : Nat) (theta : ℝ) (p : Nat) (hθ : 0 < theta) :
    rope_angle (fun x y : ℝ => x ^ y) head_dim pos theta p =
      (pos : ℝ) * theta ^ (-(2 * (p : ℝ)) / (head_dim : ℝ)) := by
  unfold rope_angle
  show (pos : ℝ) * (1 / theta) ^ (((2 * p : Nat) : ℝ) / (head_dim : ℝ)) = _
  rw [one_div, Real.inv_rpow hθ.le, neg_div, Real.rpow_neg hθ.le]
  push_cast
  rfl

/-- C21: over the reals, with the real power, cosine and sine and a positive base theta,
op_rope on an array that holds the n_heads * head_dim lanes returns 0 and, for every head
h and every pair p with 2p+1 < head_dim, replaces (x[2p], x[2p+1]) of head h by its rotation
through the angle a = pos * theta^(-2p/head_dim), that is by (x0 cos a - x1 sin a,
x0 sin a + x1 cos a); for n_heads = 1, head_dim = 2, pos = 1, theta = 10000 and the input
[1, 0] the result is [cos 1, sin 1]. -/
theorem op_rope_spec (qk : List ℝ) (n_heads head_dim pos : Nat) (theta : ℝ) (h p : Nat)
    (hθ : 0 < theta) (hlen : n_heads * head_dim ≤ qk.length) (hh : h < n_heads)
    (hp : 2 * p + 1 < head_dim) :
    (∃ out, op_rope (fun x y : ℝ => x ^ y) Real.cos Real.sin qk n_heads head_dim pos theta =
        some (0, out) ∧
      out.getD (h * head_dim + 2 * p) 0 =
        qk.getD (h * head_dim + 2 * p) 0 *
            Real.cos ((pos : ℝ) * theta ^ (-(2 * (p : ℝ)) / (head_dim : ℝ))) -
          qk.getD (h * head_dim + 2 * p + 1) 0 *
            Real.sin ((pos : ℝ) * theta ^ (-(2 * (p : ℝ)) / (head_dim : ℝ))) ∧
      out.getD (h * head_dim + 2 * p + 1) 0 =
        qk.getD (h * head_dim + 2 * p) 0 *
            Real.sin ((pos : ℝ) * theta ^ (-(2 * (p : ℝ)) / (head_dim : ℝ))) +
          qk.getD (h * head_dim + 2 * p + 1) 0 *
            Real.cos ((pos : ℝ) * theta ^ (-(2 * (p : ℝ)) / (head_dim : ℝ)))) ∧
    op_rope (fun x y : ℝ => x ^ y) Real.cos Real.sin [1, 0] 1 2 1 10000 =
      some (0, [Real.cos 1, Real.sin 1]) := by
  constructor
  · obtain ⟨out, hrun, _, hc⟩ := op_rope_closed (fun x y : ℝ => x ^ y) Real.cos Real.sin qk
      n_heads head_dim pos theta (by omega) hlen
    have hlt := head_index_lt h n_heads head_dim (2 * p + 1) hh hp
    obtain ⟨d0, m0⟩ := head_div_mod h head_dim (h * head_dim + 2 * p) (by omega) (by omega)
    obtain ⟨d1, m1⟩ := head_div_mod h head_dim (h * head_dim + 2 * p + 1) (by omega)
      (by omega)
    have e0 : h * head_dim + 2 * p - h * head_dim = 2 * p := by omega
    have e1 : h * head_dim + 2 * p + 1 - h * head_dim = 2 * p + 1 := by omega
    have a0 : (2 * p) / 2 = p := by omega
    have a1 : (2 * p + 1) / 2 = p := by omega
    have b0 : (2 * p) % 2 = 0 := by omega
    have b1 : ¬ (2 * p + 1) % 2 = 0 := by omega
    refine ⟨out, hrun, ?_, ?_⟩
    · rw [List.getD_eq_getElem?_getD, hc, if_pos (by omega), d0, m0, e0]
      simp only [rope_lane, a0, b0, if_true, rope_angle_real head_dim pos theta p hθ,
        Option.getD_some]
    · rw [List.getD_eq_getElem?_getD, hc, if_pos (by omega), d1, m1, e1]
      simp only [rope_lane, a1, b1, if_false, rope_angle_real head_dim pos theta p hθ,
        Option.getD_some]
  · obtain ⟨out, hrun, hl, hc⟩ := op_rope_closed (fun x y : ℝ => x ^ y) Real.cos Real.sin
      [1, 0] 1 2 1 10000 (by decide) (le_refl _)
    rw [hrun]
    have h0 := hc 0
    have h1 := hc 1
    have hangle : rope_angle (fun x y : ℝ => x ^ y) 2 1 10000 0 = 1 := by
      rw [rope_angle_real 2 1 10000 0 (by norm_num)]
      norm_num
    simp only [rope_lane, hangle] at h0 h1
    norm_num at h0 h1
    have e : out = [Real.cos 1, Real.sin 1] := by
      apply List.ext_getElem?
      intro t
      rcases t with _ | _ | t
      · rw [h0]; rfl
      · rw [h1]; rfl
      · have : out.length = 2 := hl
        rw [List.getElem?_eq_none (by omega)]
        rfl
    rw [e]

/-- C21 on an example: the pair of a head of two lanes at position 1. -/
theorem op_rope_spec_witness :
    (∃ out, op_rope (fun x y : ℝ => x ^ y) Real.cos Real.sin [1, 0] 1 2 1 10000 =
        some (0, out) ∧
      out.getD (0 * 2 + 2 * 0) 0 =
        ([1, 0] : List ℝ).getD (0 * 2 + 2 * 0) 0 *
            Real.cos (((1 : Nat) : ℝ) * (10000 : ℝ) ^ (-(2 * ((0 : Nat) : ℝ)) / ((2 : Nat) : ℝ))) -
          ([1, 0] : List ℝ).getD (0 * 2 + 2 * 0 + 1) 0 *
            Real.sin (((1 : Nat) : ℝ) * (10000 : ℝ) ^ (-(2 * ((0 : Nat) : ℝ)) / ((2 : Nat) : ℝ))) ∧
      out.getD (0 * 2 + 2 * 0 + 1) 0 =
        ([1, 0] : List ℝ).getD (0 * 2 + 2 * 0) 0 *
            Real.sin (((1 : Nat) : ℝ) * (10000 : ℝ) ^ (-(2 * ((0 : Nat) : ℝ)) / ((2 : Nat) : ℝ))) +
          ([1, 0] : List ℝ).getD (0 * 2 + 2 * 0 + 1) 0 *
            Real.cos (((1 : Nat) : ℝ) * (10000 : ℝ) ^ (-(2 * ((0 : Nat) : ℝ)) / ((2 : Nat) : ℝ)))) ∧
    op_rope (fun x y : ℝ => x ^ y) Real.cos Real.sin [1, 0] 1 2 1 10000 =
      some (0, [Real.cos 1, Real.sin 1]) :=
  op_rope_spec [1, 0] 1 2 1 10000 0 0 (by norm_num) (le_refl _) (by decide) (by decide)

/-- C22: for every odd head_dim, every n_heads, pos and theta, and whatever the functions
powf, cosf and sinf are, op_rope on an array that holds the n_heads * head_dim lanes
returns 0, leaves the last lane (index head_dim - 1) of every head as it was, and leaves
every element from index n_heads * head_dim on as it was; no access falls outside the first
n_heads * head_dim elements, since the call completes on an array of exactly that
length. -/
theorem op_rope_odd_head_dim {F : Type} [Field F] (powf : F → F → F) (cosf sinf : F → F)
    (qk : List F) (n_heads head_dim pos : Nat) (rope_theta : F)
    (hodd : head_dim % 2 = 1) (hlen : n_heads * head_dim ≤ qk.length) :
    ∃ out, op_rope powf cosf sinf qk n_heads head_dim pos rope_theta = some (0, out) ∧
      out.length = qk.length ∧
      (∀ h, h < n_heads →
        out[h * head_dim + (head_dim - 1)]? = qk[h * head_dim + (head_dim - 1)]?) ∧
      (∀ t, n_heads * head_dim ≤ t → out[t]? = qk[t]?) := by
  obtain ⟨out, hrun, hl, hc⟩ := op_rope_closed powf cosf sinf qk n_heads head_dim pos
    rope_theta (by omega) hlen
  refine ⟨out, hrun, hl, ?_, ?_⟩
  · intro h hh
    obtain ⟨_, m0⟩ := head_div_mod h head_dim (h * head_dim + (head_dim - 1)) (by omega)
      (by omega)
    rw [hc, if_neg (by omega)]
  · intro t ht
    rw [hc, if_neg (by omega)]

/-- C22 on an example: one head of three lanes followed by one more element. -/
theorem op_rope_odd_head_dim_witness :
    ∃ out, op_rope (fun x y : ℝ => x ^ y) Real.cos Real.sin [1, 2, 3, 4] 1 3 5 10000 =
        some (0, out) ∧
      out.length = ([1, 2, 3, 4] : List ℝ).length ∧
      (∀ h, h < 1 → out[h * 3 + (3 - 1)]? = ([1, 2, 3, 4] : List ℝ)[h * 3 + (3 - 1)]?) ∧
      (∀ t, 1 * 3 ≤ t → out[t]? = ([1, 2, 3, 4] : List ℝ)[t]?) :=
  op_rope_odd_head_dim (fun x y : ℝ => x ^ y) Real.cos Real.sin [1, 2, 3, 4] 1 3 5 10000
    (by decide) (by decide)

/-! ## Token embedding -/

/-- The inner loop of the F16 path of op_embed: row `tok` of the table is decoded into
row `i` of the output. -/
theorem op_embed_f16_row (t : List Nat) (out : List ℚ) (tok i n_embd : Nat)
    (ht : tok * n_embd + n_embd ≤ t.length) (ho : i * n_embd + n_embd ≤ out.length) :
    ∃ o, loop n_embd (fun j out => do
        let h ← rd t (tok * n_embd + j)
        wr out (i * n_embd + j) (half_to_float h)) out = some o ∧
      o.length = out.length ∧
      ∀ u, o[u]? = if i * n_embd ≤ u ∧ u < i * n_embd + n_embd then
          some (half_to_float (t.getD (tok * n_embd + (u - i * n_embd)) 0))
        else out[u]? :=
  loop_set_spec _ (fun j => half_to_float (t.getD (tok * n_embd + j) 0)) (i * n_embd) n_embd
    out
    (by
      intro j y1 hj hl
      simp only [Option.bind_eq_bind, rd_getD t (tok * n_embd + j) 0 (by omega),
        Option.some_bind]
      exact wr_some _ _ _ (by omega))
    ho

/-- The F16 path of op_embed in closed form. -/
theorem op_embed_f16_closed (t : List Nat) (tokens : List Nat) (out : List ℚ)
    (seq_len n_embd : Nat)
    (htok : ∀ i, i < seq_len →
      ∃ tok, tokens[i]? = some tok ∧ tok * n_embd + n_embd ≤ t.length)
    (ho : seq_len * n_embd ≤ out.length) :
    ∃ o, op_embed (.f16 t) 1 tokens out seq_len n_embd = some (0, o) ∧
      o.length = out.length ∧
      ∀ u, o[u]? = if u < seq_len * n_embd then
          some (half_to_float
            (t.getD (tokens.getD (u / n_embd) 0 * n_embd + u % n_embd) 0))
        else out[u]? := by
  obtain ⟨o, hrun, hl, hc⟩ := loop_inv
    (fun m (s : List ℚ) => s.length = out.length ∧
      ∀ u, s[u]? = if u < m * n_embd then
          some (half_to_float
            (t.getD (tokens.getD (u / n_embd) 0 * n_embd + u % n_embd) 0))
        else out[u]?)
    (fun i out => do
        let tok ← rd tokens i
        loop n_embd (fun j out => do
          let h ← rd t (tok * n_embd + j)
          wr out (i * n_embd + j) (half_to_float h)) out) out seq_len
    ⟨rfl, fun u => by rw [if_neg (by omega)]⟩
    (by
      rintro i s hi ⟨hl, hcell⟩
      obtain ⟨tok, htk, hrow⟩ := htok i hi
      have hle : (i + 1) * n_embd ≤ seq_len * n_embd := Nat.mul_le_mul_right _ (by omega)
      have hsucc : (i + 1) * n_embd = i * n_embd + n_embd := by ring
      obtain ⟨o, r1, l1, c1⟩ := op_embed_f16_row t s tok i n_embd hrow (by omega)
      have hrd : rd tokens i = some tok := htk
      refine ⟨o, ?_, by omega, fun u => ?_⟩
      · simp only [Option.bind_eq_bind, hrd, Option.some_bind]
        exact r1
      · rw [c1 u, hcell u, hsucc]
        by_cases h1 : i * n_embd ≤ u ∧ u < i * n_embd + n_embd
        · obtain ⟨hdiv, hmod⟩ := head_div_mod i n_embd u h1.1 h1.2
          have hg : tokens.getD i 0 = tok := by
            rw [List.getD_eq_getElem?_getD, htk]; rfl
          rw [if_pos h1, if_pos (by omega), hdiv, hmod, hg]
        · rw [if_neg h1]
          by_cases h0 : u < i * n_embd
          · rw [if_pos h0, if_pos (by omega)]
          · rw [if_neg h0, if_neg (by omega)])
  refine ⟨o, ?_, hl, hc⟩
  unfold op_embed
  rw [if_pos rfl]
  simp only [hrun, Option.map_some']

/-- The gather in terms of half_to_float: for an F16 table (dtype 1), a token list whose first seq_len ids index rows of
the table, and an output array of at least seq_len * n_embd floats, op_embed returns 0 and
writes out[i * n_embd + j] = half_to_float(table[tokens[i] * n_embd + j]) for all
i < seq_len and j < n_embd, the value that the decoder of ops.c gives to the half: row
tokens[i] of the table is gathered to row i of the output. For every table dtype other
than 1 (F16), 10 (Q8_0) and 12 (Q4_K) op_embed returns -1 and leaves the output as it
was. -/
theorem op_embed_spec (t : List Nat) (tokens : List Nat) (out : List ℚ)
    (seq_len n_embd : Nat)
    (htok : ∀ i, i < seq_len →
      ∃ tok, tokens[i]? = some tok ∧ tok * n_embd + n_embd ≤ t.length)
    (ho : seq_len * n_embd ≤ out.length) :
    (∃ o, op_embed (.f16 t) 1 tokens out seq_len n_embd = some (0, o) ∧
      o.length = out.length ∧
      ∀ i j, i < seq_len → j < n_embd →
        o.getD (i * n_embd + j) 0 =
          half_to_float (t.getD (tokens.getD i 0 * n_embd + j) 0)) ∧
    ∀ (table : embed_table) (table_dtype : Nat) (tokens1 : List Nat) (out1 : List ℚ)
      (seq_len1 n_embd1 : Nat),
      table_dtype ≠ 1 → table_dtype ≠ 10 → table_dtype ≠ 12 →
        op_embed table table_dtype tokens1 out1 seq_len1 n_embd1 = some (-1, out1) := by
  constructor
  · obtain ⟨o, hrun, hl, hc⟩ := op_embed_f16_closed t tokens out seq_len n_embd htok ho
    refine ⟨o, hrun, hl, fun i j hi hj => ?_⟩
    have hlt := head_index_lt i seq_len n_embd j hi hj
    obtain ⟨hdiv, hmod⟩ := head_div_mod i n_embd (i * n_embd + j) (by omega) (by omega)
    have e : i * n_embd + j - i * n_embd = j := by omega
    rw [List.getD_eq_getElem?_getD, hc, if_pos hlt, hdiv, hmod, e]
    rfl
  · intro table table_dtype tokens1 out1 seq_len1 n_embd1 h1 h10 h12
    unfold op_embed
    rw [if_neg h1, if_neg h10, if_neg h12]

/-- An example of the gather: a table of two rows of two halves, gathered in the order 1, 0. -/
theorem op_embed_spec_witness :
    (∃ o, op_embed (.f16 [0x3C00, 0, 0x4000, 0xBC00]) 1 [1, 0] [0, 0, 0, 0] 2 2 =
        some (0, o) ∧
      o.length = ([0, 0, 0, 0] : List ℚ).length ∧
      ∀ i j, i < 2 → j < 2 →
        o.getD (i * 2 + j) 0 =
          half_to_float
            (([0x3C00, 0, 0x4000, 0xBC00] : List Nat).getD
              (([1, 0] : List Nat).getD i 0 * 2 + j) 0)) ∧
    ∀ (table : embed_table) (table_dtype : Nat) (tokens1 : List Nat) (out1 : List ℚ)
      (seq_len1 n_embd1 : Nat),
      table_dtype ≠ 1 → table_dtype ≠ 10 → table_dtype ≠ 12 →
        op_embed table table_dtype tokens1 out1 seq_len1 n_embd1 = some (-1, out1) :=
  op_embed_spec [0x3C00, 0, 0x4000, 0xBC00] [1, 0] [0, 0, 0, 0] 2 2
    (fun i hi => by
      rcases i with _ | _ | i
      · exact ⟨1, rfl, by decide⟩
      · exact ⟨0, rfl, by decide⟩
      · omega)
    (by decide)

/-! ## Loops: what a completed loop kept, and loops that fail -/

/-- A loop that completes has kept every invariant of its passes. -/
theorem loop_some_inv {σ : Type} (P : Nat → σ → Prop) (body : Nat → σ → Option σ) (s0 : σ) :
    ∀ n : Nat, P 0 s0 →
      (∀ i s s1, i < n → P i s → body i s = some s1 → P (i + 1) s1) →
      ∀ s1, loop n body s0 = some s1 → P n s1 := by
  intro n
  induction n with
  | zero =>
    intro h0 _ s1 h
    have e : s0 = s1 := by
      have : loop 0 body s0 = some s0 := rfl
      rw [this] at h
      exact Option.some.inj h
    rw [← e]; exact h0
  | succ n ih =>
    intro h0 hstep s1 h
    rw [loop_succ] at h
    cases hn : loop n body s0 with
    | none => rw [hn] at h; cases h
    | some s =>
      rw [hn] at h
      exact hstep n s s1 (by omega) (ih h0 (fun i s s1 hi => hstep i s s1 (by omega)) s hn) h

/-- A loop with a pass that fails on every state that meets the invariant fails. -/
theorem loop_none_of_fail {σ : Type} (P : Nat → σ → Prop) (body : Nat → σ → Option σ)
    (s0 : σ) (n i : Nat) (h0 : P 0 s0)
    (hstep : ∀ i s s1, i < n → P i s → body i s = some s1 → P (i + 1) s1)
    (hi : i < n) (hfail : ∀ s, P i s → body i s = none) :
    loop n body s0 = none := by
  induction n with
  | zero => omega
  | succ n ih =>
    rw [loop_succ]
    cases hn : loop n body s0 with
    | none => rfl
    | some s =>
      have hP := loop_some_inv P body s0 n h0 (fun i s s1 hi => hstep i s s1 (by omega)) s hn
      by_cases hin : i = n
      · subst hin
        exact hfail s hP
      · have := ih (fun i s s1 hi => hstep i s s1 (by omega)) (by omega)
        rw [this] at hn
        cases hn

/-! ## The container: tensor sizes -/

/-- What a pass of the size loop of gguf_read_header does to a state in which the
descriptors from `i` on are still those of `f`. -/
theorem gguf_read_header_sizes_pass (f : gguf_file) (i : Nat) (ts : List gguf_tensor_internal)
    (hi : i < f.tensors.length) (hl : ts.length = f.tensors.length)
    (hrest : ∀ j, i ≤ j → ts[j]? = f.tensors[j]?) :
    gguf_read_header_size f i ts =
    if gguf_next_offset f i < gguf_offset f i then none
    else some (ts.set i { f.tensors.getD i default with
      size := gguf_next_offset f i - gguf_offset f i }) := by
  have h1 : rd ts i = some (f.tensors.getD i default) := by
    unfold rd
    rw [hrest i (le_refl _), List.getD_eq_getElem?_getD, List.getElem?_eq_getElem hi]
    rfl
  have h2 : gguf_read_header_next f i ts = some (gguf_next_offset f i) := by
    unfold gguf_read_header_next gguf_next_offset gguf_offset gguf_data_size
    by_cases hn : i + 1 < f.tensors.length
    · rw [if_pos hn, if_pos hn]
      unfold rd
      rw [hrest (i + 1) (by omega), List.getD_eq_getElem?_getD, List.getElem?_eq_getElem hn]
      rfl
    · rw [if_neg hn, if_neg hn]
      show some _ = some _
      congr 1
      split <;> omega
  unfold gguf_read_header_size
  simp only [Option.bind_eq_bind, h1, h2, Option.some_bind]
  show (if gguf_next_offset f i < gguf_offset f i then none else _) = _
  by_cases hlt : gguf_next_offset f i < gguf_offset f i
  · rw [if_pos hlt, if_pos hlt]
  · rw [if_neg hlt, if_neg hlt]
    exact wr_some _ _ _ (by omega)

/-- The size loop of gguf_read_header fails as soon as a tensor would have to end before
its own offset. -/
theorem gguf_read_header_sizes_none (f : gguf_file) (i : Nat) (hi : i < f.tensors.length)
    (hlt : gguf_next_offset f i < gguf_offset f i) : gguf_read_header_sizes f = none := by
  have h := loop_none_of_fail
    (fun m (ts : List gguf_tensor_internal) => ts.length = f.tensors.length ∧
      ∀ j, m ≤ j → ts[j]? = f.tensors[j]?)
    (gguf_read_header_size f)
    f.tensors f.tensors.length i ⟨rfl, fun _ _ => rfl⟩
    (by
      rintro m ts ts1 hm ⟨hl, hrest⟩ hb
      rw [gguf_read_header_sizes_pass f m ts hm hl hrest] at hb
      by_cases hc : gguf_next_offset f m < gguf_offset f m
      · rw [if_pos hc] at hb; cases hb
      · rw [if_neg hc] at hb
        have e := Option.some.inj hb
        rw [← e]
        refine ⟨by simp [hl], fun j hj => ?_⟩
        rw [List.getElem?_set, if_neg (by omega)]
        exact hrest j (by omega))
    hi
    (by
      rintro ts ⟨hl, hrest⟩
      rw [gguf_read_header_sizes_pass f i ts hi hl hrest, if_pos hlt])
  unfold gguf_read_header_sizes
  rw [h]
  rfl

/-- The size loop of gguf_read_header, when it completes: every tensor ends where its
successor starts, the last one at the end of the data region, and nothing else changes. -/
theorem gguf_read_header_sizes_some (f g : gguf_file) (h : gguf_read_header_sizes f = some g) :
    g.data_start = f.data_start ∧ g.file_size = f.file_size ∧
    g.tensors.length = f.tensors.length ∧
    ∀ i, i < f.tensors.length →
      gguf_offset f i ≤ gguf_next_offset f i ∧
      g.tensors[i]? = some { f.tensors.getD i default with
        size := gguf_next_offset f i - gguf_offset f i } := by
  unfold gguf_read_header_sizes at h
  cases hrun : loop f.tensors.length (gguf_read_header_size f) f.tensors with
  | none => rw [hrun] at h; cases h
  | some ts =>
    rw [hrun] at h
    have hg : g = { f with tensors := ts } := (Option.some.inj h).symm
    have hinv := loop_some_inv
      (fun m (ts : List gguf_tensor_internal) => ts.length = f.tensors.length ∧
        (∀ j, m ≤ j → ts[j]? = f.tensors[j]?) ∧
        ∀ j, j < m → gguf_offset f j ≤ gguf_next_offset f j ∧
          ts[j]? = some { f.tensors.getD j default with
            size := gguf_next_offset f j - gguf_offset f j })
      (gguf_read_header_size f) f.tensors f.tensors.length
      ⟨rfl, fun _ _ => rfl, fun j hj => by omega⟩
      (by
        rintro m ts ts1 hm ⟨hl, hrest, hdone⟩ hb
        rw [gguf_read_header_sizes_pass f m ts hm hl hrest] at hb
        by_cases hc : gguf_next_offset f m < gguf_offset f m
        · rw [if_pos hc] at hb; cases hb
        · rw [if_neg hc] at hb
          have e := Option.some.inj hb
          rw [← e]
          refine ⟨by simp [hl], fun j hj => ?_, fun j hj => ?_⟩
          · rw [List.getElem?_set, if_neg (by omega)]
            exact hrest j (by omega)
          · by_cases hjm : j = m
            · subst hjm
              refine ⟨by omega, ?_⟩
              rw [List.getElem?_set, if_pos rfl, if_pos (by omega)]
            · obtain ⟨h1, h2⟩ := hdone j (by omega)
              refine ⟨h1, ?_⟩
              rw [List.getElem?_set, if_neg (by omega)]
              exact h2)
      ts hrun
    obtain ⟨hl, _, hdone⟩ := hinv
    rw [hg]
    exact ⟨rfl, rfl, hl, hdone⟩

/-- The size loop of gguf_read_header completes when no tensor would have to end before
its own offset. -/
theorem gguf_read_header_sizes_complete (f : gguf_file)
    (hle : ∀ i, i < f.tensors.length → gguf_offset f i ≤ gguf_next_offset f i) :
    ∃ g, gguf_read_header_sizes f = some g := by
  obtain ⟨ts, hrun, _⟩ := loop_inv
    (fun m (ts : List gguf_tensor_internal) => ts.length = f.tensors.length ∧
      ∀ j, m ≤ j → ts[j]? = f.tensors[j]?)
    (gguf_read_header_size f)
    f.tensors f.tensors.length ⟨rfl, fun _ _ => rfl⟩
    (by
      rintro m ts hm ⟨hl, hrest⟩
      rw [gguf_read_header_sizes_pass f m ts hm hl hrest,
        if_neg (not_lt.2 (hle m hm))]
      refine ⟨_, rfl, by simp [hl], fun j hj => ?_⟩
      rw [List.getElem?_set, if_neg (by omega)]
      exact hrest j (by omega))
  refine ⟨{ f with tensors := ts }, ?_⟩
  unfold gguf_read_header_sizes
  rw [hrun]
  rfl

/-- The offsets and the other fields of a descriptor are those that were parsed. -/
theorem gguf_read_header_sizes_offset (f g : gguf_file)
    (h : gguf_read_header_sizes f = some g) (i : Nat) (hi : i < f.tensors.length) :
    gguf_offset g i = gguf_offset f i ∧
      gguf_size g i = gguf_next_offset f i - gguf_offset f i := by
  obtain ⟨_, _, _, hall⟩ := gguf_read_header_sizes_some f g h
  obtain ⟨_, hget⟩ := hall i hi
  unfold gguf_offset gguf_size
  rw [List.getD_eq_getElem?_getD g.tensors, hget]
  exact ⟨rfl, rfl⟩

/-- C30: let the descriptors of a container parse (gguf_read_header up to the start of the
data region), the data region having file_size - data_start bytes (none when the file ends
before data_start). If the offset of some tensor is larger than the offset of its
successor, or that of the last tensor larger than the size of the data region,
gguf_read_header fails; otherwise it succeeds. After a successful gguf_read_header every
tensor but the last has size offset[i+1] - offset[i], the last one has size
(file_size - data_start) - offset[n-1], and each tensor ends where the next one starts,
the last one at the end of the data region: in descriptor order the tensors tile the data
region from offset[0] to its end without overlap. -/
theorem gguf_read_header_tiles (f f1 : gguf_file)
    (hmeta : gguf_read_header_meta f = some f1) :
    ((∃ i, i < f1.tensors.length ∧ gguf_next_offset f1 i < gguf_offset f1 i) →
      gguf_read_header f = none) ∧
    ((∀ i, i < f1.tensors.length → gguf_offset f1 i ≤ gguf_next_offset f1 i) →
      ∃ g, gguf_read_header f = some g) ∧
    ∀ g, gguf_read_header f = some g →
      g.tensors.length = f1.tensors.length ∧
      ∀ i, i < g.tensors.length →
        gguf_offset g i = gguf_offset f1 i ∧
        gguf_size g i =
          (if i + 1 < g.tensors.length then gguf_offset g (i + 1)
           else g.file_size - g.data_start) - gguf_offset g i ∧
        gguf_offset g i + gguf_size g i =
          (if i + 1 < g.tensors.length then gguf_offset g (i + 1)
           else g.file_size - g.data_start) := by
  have hrun : gguf_read_header f = gguf_read_header_sizes f1 := by
    unfold gguf_read_header
    rw [hmeta]
    rfl
  refine ⟨?_, ?_, ?_⟩
  · rintro ⟨i, hi, hlt⟩
    rw [hrun]
    exact gguf_read_header_sizes_none f1 i hi hlt
  · intro hle
    rw [hrun]
    exact gguf_read_header_sizes_complete f1 hle
  · intro g hg
    rw [hrun] at hg
    obtain ⟨hds, hfs, hlen, hall⟩ := gguf_read_header_sizes_some f1 g hg
    refine ⟨hlen, fun i hi => ?_⟩
    rw [hlen] at hi
    obtain ⟨ho, hs⟩ := gguf_read_header_sizes_offset f1 g hg i hi
    obtain ⟨hle, _⟩ := hall i hi
    have hnext : (if i + 1 < g.tensors.length then gguf_offset g (i + 1)
        else g.file_size - g.data_start) = gguf_next_offset f1 i := by
      unfold gguf_next_offset gguf_data_size
      rw [hlen, hds, hfs]
      by_cases hn : i + 1 < f1.tensors.length
      · rw [if_pos hn, if_pos hn]
        exact (gguf_read_header_sizes_offset f1 g hg (i + 1) hn).1
      · rw [if_neg hn, if_neg hn]
    rw [hnext, ho, hs]
    exact ⟨rfl, rfl, by omega⟩

set_option maxRecDepth 1000000 in
/-- The descriptors of the test container parse. -/
theorem gguf_test_meta_parses :
    gguf_read_header_meta (gguf_open gguf_test_bytes false false) = some gguf_test_meta := by
  decide

set_option maxRecDepth 1000000 in
/-- The test container: the data region starts at byte 96 and the two tensors have 32 bytes
each. -/
theorem gguf_read_header_test :
    (gguf_read_header (gguf_open gguf_test_bytes false false)).map
      (fun g => (g.data_start, g.tensors.map fun t => (t.offset, t.size))) =
    some (96, [(0, 32), (32, 32)]) := by
  decide

/-- C30 on an example: the test container of two tensors. -/
theorem gguf_read_header_tiles_witness :
    ((∃ i, i < gguf_test_meta.tensors.length ∧
        gguf_next_offset gguf_test_meta i < gguf_offset gguf_test_meta i) →
      gguf_read_header (gguf_open gguf_test_bytes false false) = none) ∧
    ((∀ i, i < gguf_test_meta.tensors.length →
        gguf_offset gguf_test_meta i ≤ gguf_next_offset gguf_test_meta i) →
      ∃ g, gguf_read_header (gguf_open gguf_test_bytes false false) = some g) ∧
    ∀ g, gguf_read_header (gguf_open gguf_test_bytes false false) = some g →
      g.tensors.length = gguf_test_meta.tensors.length ∧
      ∀ i, i < g.tensors.length →
        gguf_offset g i = gguf_offset gguf_test_meta i ∧
        gguf_size g i =
          (if i + 1 < g.tensors.length then gguf_offset g (i + 1)
           else g.file_size - g.data_start) - gguf_offset g i ∧
        gguf_offset g i + gguf_size g i =
          (if i + 1 < g.tensors.length then gguf_offset g (i + 1)
           else g.file_size - g.data_start) :=
  gguf_read_header_tiles (gguf_open gguf_test_bytes false false) gguf_test_meta
    gguf_test_meta_parses

/-! ## The layer functions -/

/-- Clearing the low `k` bits of a 64-bit number rounds it down to a multiple of `2^k`. -/
theorem and_high_mask (y k : Nat) (hk : k ≤ 64) (hy : y < 2 ^ 64) :
    y &&& (2 ^ 64 - 2 ^ k) = y / 2 ^ k * 2 ^ k := by
  have hM : 2 ^ 64 - 2 ^ k = (2 ^ (64 - k) - 1) <<< k := by
    rw [Nat.shiftLeft_eq, Nat.sub_mul, ← pow_add, Nat.sub_add_cancel hk, one_mul]
  have hR : y / 2 ^ k * 2 ^ k = (y >>> k) <<< k := by
    rw [Nat.shiftLeft_eq, Nat.shiftRight_eq_div_pow]
  rw [hM, hR]
  apply Nat.eq_of_testBit_eq
  intro i
  rw [Nat.testBit_and, Nat.testBit_shiftLeft, Nat.testBit_shiftLeft, Nat.testBit_shiftRight,
    Nat.testBit_two_pow_sub_one]
  by_cases hi : k ≤ i
  · have e : k + (i - k) = i := by omega
    simp only [hi, ge_iff_le, decide_True, Bool.true_and, e]
    by_cases h64 : i < 64
    · have : i - k < 64 - k := by omega
      simp [this]
    · have : ¬ i - k < 64 - k := by omega
      have hf : y.testBit i = false :=
        Nat.testBit_lt_two_pow
          (lt_of_lt_of_le hy (Nat.pow_le_pow_right (by decide) (by omega)))
      simp [this, hf]
  · simp [hi]

/-- align_up_size to 32 rounds up to the next multiple of 32, when `x + 31` fits 64
bits. -/
theorem align_up_size_32 (x : Nat) (hx : x + 31 < 2 ^ 64) :
    align_up_size x 32 = round_up_32 x := by
  have hmask : (32 + 2 ^ 64 - 1) % 2 ^ 64 = 31 := by norm_num
  have hnot : 2 ^ 64 - 1 - 31 = 2 ^ 64 - 2 ^ 5 := by norm_num
  unfold align_up_size round_up_32
  simp only [hmask, hnot, Nat.mod_eq_of_lt hx]
  rw [and_high_mask (x + 31) 5 (by decide) hx]
  norm_num

theorem round_up_32_ge (x : Nat) : x ≤ round_up_32 x := by
  unfold round_up_32
  omega

theorem round_up_32_lt (x : Nat) : round_up_32 x < x + 32 := by
  unfold round_up_32
  omega

theorem round_up_32_dvd (x : Nat) : 32 ∣ round_up_32 x := Nat.dvd_mul_left 32 _

/-- The offset of tensor `i` is the cursor after `i` tensors, rounded up. -/
theorem layout_offset_cursor (sizes : List Nat) :
    ∀ i, layout_offset sizes i = round_up_32 (layout_cursor sizes i) := by
  intro i
  induction i with
  | zero =>
    show 0 = round_up_32 0
    unfold round_up_32
    norm_num
  | succ i ih =>
    show round_up_32 (layout_offset sizes i + sizes.getD i 0) =
      round_up_32 (round_up_32 (layout_cursor sizes i) + sizes.getD i 0)
    rw [ih]

theorem layout_cursor_succ (sizes : List Nat) (i : Nat) :
    layout_cursor sizes (i + 1) = layout_offset sizes i + sizes.getD i 0 := by
  rw [layout_offset_cursor]
  rfl

theorem layout_cursor_mono (sizes : List Nat) (i j : Nat) (h : i ≤ j) :
    layout_cursor sizes i ≤ layout_cursor sizes j := by
  induction j with
  | zero =>
    have : i = 0 := by omega
    rw [this]
  | succ j ih =>
    by_cases hij : i = j + 1
    · rw [hij]
    · have h1 := ih (by omega)
      have h2 := round_up_32_ge (layout_cursor sizes j)
      show _ ≤ round_up_32 (layout_cursor sizes j) + sizes.getD j 0
      omega

/-- Every offset of a layout is a multiple of 32. -/
theorem layout_offset_dvd (sizes : List Nat) (i : Nat) : 32 ∣ layout_offset sizes i := by
  rw [layout_offset_cursor]
  exact round_up_32_dvd _

/-- A tensor of a layout ends before every later tensor starts. -/
theorem layout_offset_disjoint (sizes : List Nat) (i j : Nat) (h : i < j) :
    layout_offset sizes i + sizes.getD i 0 ≤ layout_offset sizes j := by
  rw [← layout_cursor_succ, layout_offset_cursor sizes j]
  exact le_trans (layout_cursor_mono sizes (i + 1) j h) (round_up_32_ge _)

/-- The cursor of a layer is the cursor of its layout after nine tensors. -/
theorem layer_cursor_eq (ls : layer_spec) :
    layer_cursor ls = layout_cursor (layer_sizes ls) 9 := by
  unfold layer_cursor layer_offset
  rw [layout_cursor_succ]

/-- The loop of model_get_layer_buffer_size returns -1 when a tensor has size 0. -/
theorem buffer_size_fold_none (refs : List tensor_ref) :
    ∀ total, (∃ r ∈ refs, r.size = 0) →
      refs.foldlM model_get_layer_buffer_size_step total = none := by
  induction refs with
  | nil => intro total h; obtain ⟨r, hr, _⟩ := h; cases hr
  | cons r refs ih =>
    intro total h
    rw [List.foldlM_cons]
    by_cases h0 : r.size = 0
    · simp [model_get_layer_buffer_size_step, h0]
    · obtain ⟨r1, hr1, h1⟩ := h
      have hmem : r1 ∈ refs := by
        rcases List.mem_cons.1 hr1 with e | e
        · rw [e] at h1; exact absurd h1 h0
        · exact e
      simp only [model_get_layer_buffer_size_step, h0, if_false, Option.bind_eq_bind,
        Option.some_bind]
      exact ih _ ⟨r1, hmem, h1⟩

/-- The loop of model_get_layer_buffer_size completes when no tensor has size 0. -/
theorem buffer_size_fold_some (refs : List tensor_ref) :
    ∀ total, (∀ r ∈ refs, r.size ≠ 0) →
      ∃ v, refs.foldlM model_get_layer_buffer_size_step total = some v := by
  induction refs with
  | nil => intro total _; exact ⟨total, rfl⟩
  | cons r refs ih =>
    intro total h
    rw [List.foldlM_cons]
    have h0 : r.size ≠ 0 := h r (List.mem_cons_self _ _)
    simp only [model_get_layer_buffer_size_step, h0, if_false, Option.bind_eq_bind,
      Option.some_bind]
    exact ih _ (fun r1 hr1 => h r1 (List.mem_cons_of_mem _ hr1))

/-- The loop of model_get_layer_buffer_size on the first `n` tensors, when no size is 0 and
the cursor stays below 2^63: the cursor of the layout. -/
theorem buffer_size_fold_take (refs : List tensor_ref) (hnz : ∀ r ∈ refs, r.size ≠ 0) :
    ∀ n, n ≤ refs.length →
      layout_cursor (refs.map fun r => r.size) n < 2 ^ 63 →
      (refs.take n).foldlM model_get_layer_buffer_size_step 0 =
        some (layout_cursor (refs.map fun r => r.size) n) := by
  intro n
  induction n with
  | zero => intro _ _; rfl
  | succ n ih =>
    intro hn hc
    have hlt : n < refs.length := by omega
    have hmono := layout_cursor_mono (refs.map fun r => r.size) n (n + 1) (by omega)
    have hsz : (refs.map fun r => r.size).getD n 0 = (refs[n]).size := by
      rw [List.getD_eq_getElem?_getD, List.getElem?_map, List.getElem?_eq_getElem hlt]
      rfl
    have hstep : layout_cursor (refs.map fun r => r.size) (n + 1) =
        round_up_32 (layout_cursor (refs.map fun r => r.size) n) + (refs[n]).size := by
      rw [← hsz]; rfl
    rw [List.take_succ, List.foldlM_append, ih (by omega) (by omega),
      List.getElem?_eq_getElem hlt]
    have h0 : (refs[n]).size ≠ 0 := hnz _ (List.getElem_mem _)
    simp only [Option.toList, List.foldlM_cons, List.foldlM_nil, Option.bind_eq_bind,
      Option.some_bind, model_get_layer_buffer_size_step, h0, if_false]
    rw [align_up_size_32 _ (by omega), hstep, Nat.mod_eq_of_lt (by omega)]
    rfl

/-- model_get_layer_buffer_size in closed form: the final cursor of the layout of the nine
sizes, when no size is 0 and the cursor stays below 2^63. -/
theorem model_get_layer_buffer_size_closed (m : model_handle) (layer_id : Nat)
    (ls : layer_spec) (hls : m.layers[layer_id]? = some ls)
    (hnz : ∀ r ∈ layer_refs ls, r.size ≠ 0) (hc : layer_cursor ls < 2 ^ 63) :
    model_get_layer_buffer_size m layer_id = some (layer_cursor ls) := by
  have he : layer_cursor ls = layout_cursor ((layer_refs ls).map fun r => r.size) 9 :=
    layer_cursor_eq ls
  have h := buffer_size_fold_take (layer_refs ls) hnz 9 (le_refl _) (by rw [← he]; exact hc)
  unfold model_get_layer_buffer_size
  rw [hls, he]
  exact h

/-- The loop of model_get_max_layer_size: it returns -1 when the size of some layer cannot
be computed. -/
theorem model_get_max_layer_size_none (m : model_handle) (l : Nat) (hl : l < m.layers.length)
    (h : model_get_layer_buffer_size m l = none) : model_get_max_layer_size m = none := by
  unfold model_get_max_layer_size
  exact loop_none_of_fail (fun _ _ => True) _ 0 m.layers.length l trivial
    (fun _ _ _ _ _ _ => trivial) hl
    (fun s _ => by simp only [h, Option.bind_eq_bind, Option.none_bind])

/-- The loop of model_get_max_layer_size: the maximum of the sizes of the layers. -/
theorem model_get_max_layer_size_some (m : model_handle)
    (h : ∀ l, l < m.layers.length → ∃ sz, model_get_layer_buffer_size m l = some sz) :
    ∃ M, model_get_max_layer_size m = some M ∧
      (∀ l, l < m.layers.length →
        ∃ sz, model_get_layer_buffer_size m l = some sz ∧ sz ≤ M) ∧
      (m.layers.length = 0 → M = 0) ∧
      (m.layers.length ≠ 0 →
        ∃ l, l < m.layers.length ∧ model_get_layer_buffer_size m l = some M) := by
  unfold model_get_max_layer_size
  exact loop_inv
    (fun i (M : Nat) =>
      (∀ l, l < i → ∃ sz, model_get_layer_buffer_size m l = some sz ∧ sz ≤ M) ∧
      (i = 0 → M = 0) ∧
      (i ≠ 0 → ∃ l, l < i ∧ model_get_layer_buffer_size m l = some M))
    _ 0 m.layers.length
    ⟨fun l hl => by omega, fun _ => rfl, fun hne => absurd rfl hne⟩
    (by
      rintro i M hi ⟨hall, hzero, hmax⟩
      obtain ⟨sz, hsz⟩ := h i hi
      refine ⟨if sz > M then sz else M, ?_, ?_, ?_, ?_⟩
      · simp only [hsz, Option.bind_eq_bind, Option.some_bind]
        rfl
      · intro l hl
        by_cases hli : l = i
        · subst hli
          refine ⟨sz, hsz, ?_⟩
          split <;> omega
        · obtain ⟨sz1, h1, h2⟩ := hall l (by omega)
          refine ⟨sz1, h1, ?_⟩
          split <;> omega
      · intro h0; omega
      · intro _
        by_cases hgt : sz > M
        · rw [if_pos hgt]
          exact ⟨i, by omega, hsz⟩
        · rw [if_neg hgt]
          by_cases hi0 : i = 0
          · have hM := hzero hi0
            have : sz = M := by omega
            exact ⟨i, by omega, by rw [← this]; exact hsz⟩
          · obtain ⟨l, hl, hlm⟩ := hmax hi0
            exact ⟨l, by omega, hlm⟩)

set_option maxRecDepth 1000000 in
/-- C26 fails on a model of one layer whose nine tensors have one byte each, at the offsets
0 to 8: the byte span of the layer is 9, so the claim gives 9 + 9 * 32 = 297, while
model_get_max_layer_size returns 257, the end of the ninth tensor in the 32-byte-aligned
layout (8 * 32 + 1). -/
theorem model_get_max_layer_size_not_span :
    model_get_max_layer_size load_test_model = some 257 ∧
    layer_span_end load_test_layer - layer_span_start load_test_layer + 9 * 32 = 297 := by
  decide

/-- C26, amended: model_get_max_layer_size fails when a tensor of some layer has size 0;
otherwise it returns the maximum over all layers of model_get_layer_buffer_size(layer)
(every layer size is at most the result, the result is the size of some layer, and it is 0
for a model without layers); and the size of a layer is the final write cursor of the
32-byte-aligned layout of its nine tensor sizes, off_8 + size_8, as long as that cursor is
below 2^63. The tensor offsets, hence the byte span, play no role. -/
theorem model_get_max_layer_size_spec (m : model_handle) :
    ((∃ ls ∈ m.layers, ∃ r ∈ layer_refs ls, r.size = 0) →
      model_get_max_layer_size m = none) ∧
    ((∀ ls ∈ m.layers, ∀ r ∈ layer_refs ls, r.size ≠ 0) →
      ∃ M, model_get_max_layer_size m = some M ∧
        (∀ l, l < m.layers.length →
          ∃ sz, model_get_layer_buffer_size m l = some sz ∧ sz ≤ M) ∧
        (m.layers.length = 0 → M = 0) ∧
        (m.layers.length ≠ 0 →
          ∃ l, l < m.layers.length ∧ model_get_layer_buffer_size m l = some M)) ∧
    (∀ l ls, m.layers[l]? = some ls → (∀ r ∈ layer_refs ls, r.size ≠ 0) →
      layer_cursor ls < 2 ^ 63 →
      model_get_layer_buffer_size m l = some (layer_cursor ls)) := by
  refine ⟨?_, ?_, ?_⟩
  · rintro ⟨ls, hls, r, hr, h0⟩
    obtain ⟨l, hl, hget⟩ := List.getElem_of_mem hls
    have hq : m.layers[l]? = some ls := by rw [List.getElem?_eq_getElem hl, hget]
    refine model_get_max_layer_size_none m l hl ?_
    unfold model_get_layer_buffer_size
    rw [hq]
    exact buffer_size_fold_none (layer_refs ls) 0 ⟨r, hr, h0⟩
  · intro hnz
    refine model_get_max_layer_size_some m (fun l hl => ?_)
    have hq : m.layers[l]? = some (m.layers[l]) := List.getElem?_eq_getElem hl
    unfold model_get_layer_buffer_size
    rw [hq]
    exact buffer_size_fold_some (layer_refs (m.layers[l])) 0
      (hnz _ (List.getElem_mem _))
  · intro l ls hls hnz hc
    exact model_get_layer_buffer_size_closed m l ls hls hnz hc

set_option maxRecDepth 1000000 in
/-- C26, amended, on the test model: the one layer has no tensor of size 0 and its cursor
is 257. -/
theorem model_get_max_layer_size_spec_witness :
    (∃ M, model_get_max_layer_size load_test_model = some M ∧
      (∀ l, l < load_test_model.layers.length →
        ∃ sz, model_get_layer_buffer_size load_test_model l = some sz ∧ sz ≤ M) ∧
      (load_test_model.layers.length = 0 → M = 0) ∧
      (load_test_model.layers.length ≠ 0 →
        ∃ l, l < load_test_model.layers.length ∧
          model_get_layer_buffer_size load_test_model l = some M)) ∧
    model_get_layer_buffer_size load_test_model 0 = some (layer_cursor load_test_layer) :=
  ⟨(model_get_max_layer_size_spec load_test_model).2.1 (by decide),
   (model_get_max_layer_size_spec load_test_model).2.2 0 load_test_layer rfl (by decide)
     (by decide)⟩

/-! ## The byte span of a layer -/

theorem foldl_min_le_init (l : List Nat) : ∀ a, l.foldl min a ≤ a := by
  induction l with
  | nil => intro a; exact le_refl _
  | cons x l ih => intro a; exact le_trans (ih _) (min_le_left _ _)

theorem foldl_min_le_mem (l : List Nat) : ∀ a, ∀ x ∈ l, l.foldl min a ≤ x := by
  induction l with
  | nil => intro a x hx; cases hx
  | cons y l ih =>
    intro a x hx
    rcases List.mem_cons.1 hx with e | e
    · rw [e]; exact le_trans (foldl_min_le_init l _) (min_le_right _ _)
    · exact ih _ x e

theorem foldl_min_mem (l : List Nat) : ∀ a, l.foldl min a = a ∨ l.foldl min a ∈ l := by
  induction l with
  | nil => intro a; exact Or.inl rfl
  | cons y l ih =>
    intro a
    rcases ih (min a y) with h | h
    · rcases min_choice a y with h2 | h2
      · left; show l.foldl min (min a y) = a; rw [h, h2]
      · right; show l.foldl min (min a y) ∈ y :: l; rw [h, h2]; exact List.mem_cons_self _ _
    · right; exact List.mem_cons_of_mem _ h

theorem foldl_max_ge_init (l : List Nat) : ∀ a, a ≤ l.foldl max a := by
  induction l with
  | nil => intro a; exact le_refl _
  | cons x l ih => intro a; exact le_trans (le_max_left _ _) (ih _)

theorem foldl_max_ge_mem (l : List Nat) : ∀ a, ∀ x ∈ l, x ≤ l.foldl max a := by
  induction l with
  | nil => intro a x hx; cases hx
  | cons y l ih =>
    intro a x hx
    rcases List.mem_cons.1 hx with e | e
    · rw [e]; exact le_trans (le_max_right _ _) (foldl_max_ge_init l _)
    · exact ih _ x e

theorem foldl_max_mem (l : List Nat) : ∀ a, l.foldl max a = a ∨ l.foldl max a ∈ l := by
  induction l with
  | nil => intro a; exact Or.inl rfl
  | cons y l ih =>
    intro a
    rcases ih (max a y) with h | h
    · rcases max_choice a y with h2 | h2
      · left; show l.foldl max (max a y) = a; rw [h, h2]
      · right; show l.foldl max (max a y) ∈ y :: l; rw [h, h2]; exact List.mem_cons_self _ _
    · right; exact List.mem_cons_of_mem _ h

/-- The span loop of model_load_layer, when no size is 0 and no tensor ends past 2^64: the
least offset and the largest end. -/
theorem span_fold (refs : List tensor_ref) :
    ∀ sp : Nat × Nat, (∀ r ∈ refs, r.size ≠ 0) → (∀ r ∈ refs, r.offset + r.size < 2 ^ 64) →
      refs.foldlM model_load_layer_span_step sp =
        some ((refs.map fun r => r.offset).foldl min sp.1,
              (refs.map fun r => r.offset + r.size).foldl max sp.2) := by
  induction refs with
  | nil => intro sp _ _; rfl
  | cons r refs ih =>
    intro sp hnz hfit
    have h0 : r.size ≠ 0 := hnz r (List.mem_cons_self _ _)
    have hf : r.offset + r.size < 2 ^ 64 := hfit r (List.mem_cons_self _ _)
    have hmin : (if r.offset < sp.1 then r.offset else sp.1) = min sp.1 r.offset := by
      rw [min_def]; split <;> split <;> omega
    have hmax : (if r.offset + r.size > sp.2 then r.offset + r.size else sp.2) =
        max sp.2 (r.offset + r.size) := by
      rw [max_def]; split <;> split <;> omega
    rw [List.foldlM_cons]
    simp only [model_load_layer_span_step, h0, if_false, Nat.mod_eq_of_lt hf, hmin, hmax,
      Option.bind_eq_bind, Option.some_bind]
    rw [ih _ (fun r1 hr1 => hnz r1 (List.mem_cons_of_mem _ hr1))
      (fun r1 hr1 => hfit r1 (List.mem_cons_of_mem _ hr1))]
    rfl

/-- The span loop of model_load_layer returns -1 when a tensor has size 0. -/
theorem span_fold_none (refs : List tensor_ref) :
    ∀ sp : Nat × Nat, (∃ r ∈ refs, r.size = 0) →
      refs.foldlM model_load_layer_span_step sp = none := by
  induction refs with
  | nil => intro sp h; obtain ⟨r, hr, _⟩ := h; cases hr
  | cons r refs ih =>
    intro sp h
    rw [List.foldlM_cons]
    by_cases h0 : r.size = 0
    · simp [model_load_layer_span_step, h0]
    · obtain ⟨r1, hr1, h1⟩ := h
      have hmem : r1 ∈ refs := by
        rcases List.mem_cons.1 hr1 with e | e
        · rw [e] at h1; exact absurd h1 h0
        · exact e
      simp only [model_load_layer_span_step, h0, if_false, Option.bind_eq_bind,
        Option.some_bind]
      exact ih _ ⟨r1, hmem, h1⟩

/-- The span of a layer whose tensors have non-zero sizes and end below 2^64: what the span
loop computes, the least offset and the largest end of the nine tensors; every tensor lies
inside the span, and the span is not empty. -/
theorem layer_span_spec (ls : layer_spec) (hnz : ∀ r ∈ layer_refs ls, r.size ≠ 0)
    (hfit : ∀ r ∈ layer_refs ls, r.offset + r.size < 2 ^ 64) :
    model_load_layer_span (layer_refs ls) = some (layer_span_start ls, layer_span_end ls) ∧
    (∃ r ∈ layer_refs ls, layer_span_start ls = r.offset) ∧
    (∃ r ∈ layer_refs ls, layer_span_end ls = r.offset + r.size) ∧
    (∀ r ∈ layer_refs ls,
      layer_span_start ls ≤ r.offset ∧ r.offset + r.size ≤ layer_span_end ls) ∧
    layer_span_start ls ≠ UINT64_MAX ∧ layer_span_start ls < layer_span_end ls ∧
    layer_span_end ls < 2 ^ 64 := by
  have hmem0 : ls.attn_norm ∈ layer_refs ls := List.mem_cons_self _ _
  have hle : ∀ r ∈ layer_refs ls,
      layer_span_start ls ≤ r.offset ∧ r.offset + r.size ≤ layer_span_end ls := by
    intro r hr
    exact ⟨foldl_min_le_mem _ _ _ (List.mem_map_of_mem (fun r => r.offset) hr),
      foldl_max_ge_mem _ _ _ (List.mem_map_of_mem (fun r => r.offset + r.size) hr)⟩
  have h0 := hle _ hmem0
  have hf0 := hfit _ hmem0
  have hz0 := hnz _ hmem0
  have hU : UINT64_MAX = 2 ^ 64 - 1 := by norm_num [UINT64_MAX]
  have hne : layer_span_start ls ≠ UINT64_MAX := by omega
  have hlt2 : layer_span_start ls < layer_span_end ls := by omega
  have hend0 : layer_span_end ls ≠ 0 := by omega
  have hstart : ∃ r ∈ layer_refs ls, layer_span_start ls = r.offset := by
    rcases foldl_min_mem ((layer_refs ls).map fun r => r.offset) UINT64_MAX with h | h
    · exact absurd h hne
    · obtain ⟨r, hr, e⟩ := List.mem_map.1 h
      exact ⟨r, hr, e.symm⟩
  have hend : ∃ r ∈ layer_refs ls, layer_span_end ls = r.offset + r.size := by
    rcases foldl_max_mem ((layer_refs ls).map fun r => r.offset + r.size) 0 with h | h
    · exact absurd h hend0
    · obtain ⟨r, hr, e⟩ := List.mem_map.1 h
      exact ⟨r, hr, e.symm⟩
  have hspan : model_load_layer_span (layer_refs ls) =
      some (layer_span_start ls, layer_span_end ls) := by
    unfold model_load_layer_span layer_span_start layer_span_end
    exact span_fold (layer_refs ls) (UINT64_MAX, 0) hnz hfit
  refine ⟨hspan, hstart, hend, hle, hne, hlt2, ?_⟩
  obtain ⟨r, hr, e⟩ := hend
  rw [e]
  exact hfit r hr

/-! ## memcpy and the span read -/

/-- A memcpy inside its arrays. -/
theorem memcpy_ok (dst : List Nat) (doff : Nat) (src : List Nat) (soff n : Nat)
    (h1 : soff + n ≤ src.length) (h2 : doff + n ≤ dst.length) :
    memcpy dst doff src soff n =
      some (dst.take doff ++ (src.drop soff).take n ++ dst.drop (doff + n)) := by
  unfold memcpy
  rw [if_pos ⟨h1, h2⟩]

/-- What a memcpy that is carried out leaves: the `n` bytes of the source in place of
those of the destination. -/
theorem memcpy_some (dst : List Nat) (doff : Nat) (src : List Nat) (soff n : Nat)
    (d : List Nat) (h : memcpy dst doff src soff n = some d) :
    soff + n ≤ src.length ∧ doff + n ≤ dst.length ∧ d.length = dst.length ∧
    ∀ t, d.getD t 0 =
      if doff ≤ t ∧ t < doff + n then src.getD (soff + (t - doff)) 0 else dst.getD t 0 := by
  unfold memcpy at h
  by_cases hb : soff + n ≤ src.length ∧ doff + n ≤ dst.length
  · rw [if_pos hb] at h
    have e := Option.some.inj h
    obtain ⟨h1, h2⟩ := hb
    have l1 : (dst.take doff).length = doff := by rw [List.length_take]; omega
    have l2 : ((src.drop soff).take n).length = n := by
      rw [List.length_take, List.length_drop]; omega
    refine ⟨h1, h2, ?_, fun t => ?_⟩
    · rw [← e]
      simp only [List.length_append, l1, l2, List.length_drop]
      omega
    · rw [← e, List.getD_eq_getElem?_getD, List.getD_eq_getElem?_getD,
        List.getD_eq_getElem?_getD]
      by_cases ht1 : t < doff
      · rw [if_neg (by omega), List.append_assoc,
          List.getElem?_append_left (by rw [l1]; exact ht1), List.getElem?_take_of_lt ht1]
      · by_cases ht2 : t < doff + n
        · rw [if_pos ⟨by omega, ht2⟩, List.append_assoc,
            List.getElem?_append_right (by rw [l1]; omega), l1,
            List.getElem?_append_left (by rw [l2]; omega),
            List.getElem?_take_of_lt (by omega), List.getElem?_drop]
        · rw [if_neg (by omega), List.getElem?_append_right
            (by simp only [List.length_append, l1, l2]; omega)]
          simp only [List.length_append, l1, l2, List.getElem?_drop]
          congr 2
          omega
  · rw [if_neg hb] at h
    cases h

/-- A span read that returns 0 has filled the first `size` bytes of the destination with the
bytes of the data region from `offset` on. -/
theorem gguf_read_span_ok (f : gguf_file) (offset size : Nat) (dst io1 : List Nat)
    (h : gguf_read_span f offset size dst = some (0, io1))
    (hfit : f.data_start + offset + size < 2 ^ 64) :
    io1.length = dst.length ∧ size ≤ dst.length ∧
    ∀ k, k < size → io1.getD k 0 = f.fp.bytes.getD (f.data_start + offset + k) 0 := by
  have hoff : (f.data_start + offset) % 2 ^ 64 = f.data_start + offset :=
    Nat.mod_eq_of_lt (by omega)
  unfold gguf_read_span at h
  by_cases h0 : size = 0
  · rw [if_pos h0] at h
    cases h
  · rw [if_neg h0] at h
    simp only [hoff] at h
    by_cases hm : f.use_mmap = true ∧ f.map_base = true ∧
        (f.data_start + offset + size) % 2 ^ 64 ≤ f.map_size
    · rw [if_pos hm] at h
      cases hc : memcpy dst 0 (f.fp.bytes.take f.map_size) (f.data_start + offset) size with
      | none => rw [hc] at h; cases h
      | some d =>
        rw [hc] at h
        have e : d = io1 := by
          have h2 := Option.some.inj h
          exact congrArg Prod.snd h2
        obtain ⟨b1, b2, b3, b4⟩ := memcpy_some _ _ _ _ _ _ hc
        rw [← e]
        refine ⟨b3, by omega, fun k hk => ?_⟩
        rw [b4 k, if_pos ⟨by omega, by omega⟩, List.getD_eq_getElem?_getD,
          List.getD_eq_getElem?_getD, Nat.sub_zero]
        rw [List.length_take] at b1
        rw [List.getElem?_take_of_lt (by omega)]
    · rw [if_neg hm] at h
      by_cases hp : f.data_start + offset + size ≤ f.fp.bytes.length
      · rw [if_pos hp] at h
        cases hc : memcpy dst 0 f.fp.bytes (f.data_start + offset) size with
        | none => rw [hc] at h; cases h
        | some d =>
          rw [hc] at h
          have e : d = io1 := by
            have h2 := Option.some.inj h
            exact congrArg Prod.snd h2
          obtain ⟨b1, b2, b3, b4⟩ := memcpy_some _ _ _ _ _ _ hc
          rw [← e]
          refine ⟨b3, by omega, fun k hk => ?_⟩
          rw [b4 k, if_pos ⟨by omega, by omega⟩, Nat.sub_zero]
      · rw [if_neg hp] at h
        by_cases hq : f.data_start + offset < f.fp.bytes.length
        · rw [if_pos hq] at h
          cases hc : memcpy dst 0 f.fp.bytes (f.data_start + offset)
              (f.fp.bytes.length - (f.data_start + offset)) with
          | none => rw [hc] at h; cases h
          | some d =>
            rw [hc] at h
            have h2 := congrArg Prod.fst (Option.some.inj h)
            cases h2
        · rw [if_neg hq] at h
          have h2 := congrArg Prod.fst (Option.some.inj h)
          cases h2

/-- A span read whose destination has room, on a file whose mapping lies inside it, is
carried out: it returns 0 or -1 and keeps the length of the destination. -/
theorem gguf_read_span_total (f : gguf_file) (offset size : Nat) (dst : List Nat)
    (hfit : f.data_start + offset + size < 2 ^ 64) (hdst : size ≤ dst.length)
    (hmap : f.map_size ≤ f.fp.bytes.length) :
    ∃ st d, gguf_read_span f offset size dst = some (st, d) ∧ d.length = dst.length := by
  have hoff : (f.data_start + offset) % 2 ^ 64 = f.data_start + offset :=
    Nat.mod_eq_of_lt (by omega)
  unfold gguf_read_span
  by_cases h0 : size = 0
  · rw [if_pos h0]
    exact ⟨-1, dst, rfl, rfl⟩
  · rw [if_neg h0]
    simp only [hoff]
    by_cases hm : f.use_mmap = true ∧ f.map_base = true ∧
        (f.data_start + offset + size) % 2 ^ 64 ≤ f.map_size
    · rw [if_pos hm]
      have hle := hm.2.2
      rw [Nat.mod_eq_of_lt hfit] at hle
      have hc := memcpy_ok dst 0 (f.fp.bytes.take f.map_size) (f.data_start + offset) size
        (by rw [List.length_take]; omega) (by omega)
      obtain ⟨_, _, b3, _⟩ := memcpy_some _ _ _ _ _ _ hc
      rw [hc]
      exact ⟨0, _, rfl, b3⟩
    · rw [if_neg hm]
      by_cases hp : f.data_start + offset + size ≤ f.fp.bytes.length
      · rw [if_pos hp]
        have hc := memcpy_ok dst 0 f.fp.bytes (f.data_start + offset) size hp (by omega)
        obtain ⟨_, _, b3, _⟩ := memcpy_some _ _ _ _ _ _ hc
        rw [hc]
        exact ⟨0, _, rfl, b3⟩
      · rw [if_neg hp]
        by_cases hq : f.data_start + offset < f.fp.bytes.length
        · rw [if_pos hq]
          have hc := memcpy_ok dst 0 f.fp.bytes (f.data_start + offset)
            (f.fp.bytes.length - (f.data_start + offset)) (by omega) (by omega)
          obtain ⟨_, _, b3, _⟩ := memcpy_some _ _ _ _ _ _ hc
          rw [hc]
          exact ⟨-1, _, rfl, b3⟩
        · rw [if_neg hq]
          exact ⟨-1, dst, rfl, rfl⟩

/-! ## The copy loop of model_load_layer -/

theorem layer_refs_length (ls : layer_spec) : (layer_refs ls).length = 9 := rfl

theorem layer_refs_get (ls : layer_spec) (i : Nat) (hi : i < 9) :
    (layer_refs ls)[i]? = some (layer_ref ls i) := by
  unfold layer_ref
  rw [List.getD_eq_getElem?_getD, List.getElem?_eq_getElem (by rw [layer_refs_length]; exact hi)]
  rfl

theorem layer_ref_mem (ls : layer_spec) (i : Nat) (hi : i < 9) :
    layer_ref ls i ∈ layer_refs ls :=
  List.getElem?_mem (layer_refs_get ls i hi)

theorem layer_sizes_get (ls : layer_spec) (i : Nat) :
    (layer_sizes ls).getD i 0 = (layer_ref ls i).size := by
  unfold layer_sizes layer_ref
  rw [List.getD_eq_getElem?_getD, List.getD_eq_getElem?_getD, List.getElem?_map]
  cases (layer_refs ls)[i]? <;> rfl

theorem copy_view_succ (ls : layer_spec) (v : layer_view) (n : Nat) :
    copy_view ls v (n + 1) =
      layer_view_store n (layer_offset ls n) (layer_ref ls n) (copy_view ls v n) := by
  unfold copy_view
  rw [List.range_succ, List.foldl_append]
  rfl

/-- The view after the nine passes of the copy loop. -/
theorem copy_view_nine (ls : layer_spec) (layer_id : Nat) :
    copy_view ls { layer_view.zero with layer_id := layer_id } 9 =
      layer_view_loaded ls layer_id := rfl

/-- Pass `i` of the copy loop on a state that has not returned, for a tensor that lies
inside the span: the bounds check passes and the pass is the memcpy to the offset of the
layout. -/
theorem copy_pass (io : List Nat) (span_start span_size : Nat) (ls : layer_spec)
    (buf0 : List Nat) (v0 : layer_view) (i : Nat) (c : load_cursor) (hi : i < 9)
    (hinv : copy_inv io span_start ls buf0 v0 i c) (hlen : buf0.length < 2 ^ 63)
    (h1 : span_start ≤ (layer_ref ls i).offset)
    (h2 : (layer_ref ls i).offset + (layer_ref ls i).size ≤ span_start + span_size)
    (h3 : (layer_ref ls i).offset + (layer_ref ls i).size < 2 ^ 64) :
    model_load_layer_copy io span_start span_size (layer_refs ls) i c =
      (memcpy c.buffer (layer_offset ls i) io ((layer_ref ls i).offset - span_start)
        (layer_ref ls i).size).map fun b =>
        { returned := false,
          off := (layer_offset ls i + (layer_ref ls i).size) % 2 ^ 64,
          buffer := b,
          view := layer_view_store i (layer_offset ls i) (layer_ref ls i) c.view } := by
  have hoff := hinv.off
  have hle := hinv.off_le
  have halign : align_up_size c.off 32 = layer_offset ls i := by
    rw [align_up_size_32 _ (by omega), hoff]
    exact (layout_offset_cursor (layer_sizes ls) i).symm
  have hrel : ((layer_ref ls i).offset + 2 ^ 64 - span_start) % 2 ^ 64 =
      (layer_ref ls i).offset - span_start := by
    have e : (layer_ref ls i).offset + 2 ^ 64 - span_start =
        (layer_ref ls i).offset - span_start + 2 ^ 64 := by omega
    rw [e, Nat.add_mod_right, Nat.mod_eq_of_lt (by omega)]
  have hchk : ¬ ((layer_ref ls i).offset - span_start + (layer_ref ls i).size) % 2 ^ 64 >
      span_size := by
    rw [Nat.mod_eq_of_lt (by omega)]
    omega
  have hrd : rd (layer_refs ls) i = some (layer_ref ls i) := layer_refs_get ls i hi
  unfold model_load_layer_copy
  simp only [hinv.returned, Bool.false_eq_true, if_false, Option.bind_eq_bind, hrd,
    Option.some_bind, halign, hrel, hchk]
  cases memcpy c.buffer (layer_offset ls i) io ((layer_ref ls i).offset - span_start)
    (layer_ref ls i).size <;> rfl

/-- The state after a pass of the copy loop whose memcpy is carried out. -/
theorem copy_step (io : List Nat) (span_start : Nat) (ls : layer_spec)
    (buf0 : List Nat) (v0 : layer_view) (i : Nat) (c : load_cursor) (b : List Nat)
    (hinv : copy_inv io span_start ls buf0 v0 i c) (hlen : buf0.length < 2 ^ 63)
    (hb : memcpy c.buffer (layer_offset ls i) io ((layer_ref ls i).offset - span_start)
      (layer_ref ls i).size = some b) :
    copy_inv io span_start ls buf0 v0 (i + 1)
      { returned := false,
        off := (layer_offset ls i + (layer_ref ls i).size) % 2 ^ 64,
        buffer := b,
        view := layer_view_store i (layer_offset ls i) (layer_ref ls i) c.view } := by
  obtain ⟨b1, b2, b3, b4⟩ := memcpy_some _ _ _ _ _ _ hb
  have hl := hinv.length
  have hcur : layout_cursor (layer_sizes ls) (i + 1) =
      layer_offset ls i + (layer_ref ls i).size := by
    rw [layout_cursor_succ, layer_sizes_get]
    rfl
  refine ⟨rfl, ?_, ?_, by rw [b3, hl], ?_, ?_⟩
  · show (layer_offset ls i + (layer_ref ls i).size) % 2 ^ 64 = _
    rw [hcur, Nat.mod_eq_of_lt (by omega)]
  · show (layer_offset ls i + (layer_ref ls i).size) % 2 ^ 64 ≤ _
    rw [Nat.mod_eq_of_lt (by omega)]
    omega
  · intro j hj k hk
    show b.getD (layer_offset ls j + k) 0 = _
    rw [b4]
    by_cases hji : j = i
    · subst hji
      rw [if_pos ⟨by omega, by omega⟩]
      congr 2
      omega
    · have hd := layout_offset_disjoint (layer_sizes ls) j i (by omega)
      rw [layer_sizes_get] at hd
      have hd2 : layer_offset ls j + (layer_ref ls j).size ≤ layer_offset ls i := hd
      rw [if_neg (by omega)]
      exact hinv.bytes j (by omega) k hk
  · show layer_view_store i (layer_offset ls i) (layer_ref ls i) c.view = _
    rw [copy_view_succ, hinv.view]

/-- The copy loop, for a layer that lies inside the span that was read and a buffer that
holds the layout: no pass returns, and the nine tensors are in place. -/
theorem copy_loop_total (io : List Nat) (span_start span_size : Nat) (ls : layer_spec)
    (buf0 : List Nat) (v0 : layer_view) (hlen : buf0.length < 2 ^ 63)
    (hspan : ∀ r ∈ layer_refs ls,
      span_start ≤ r.offset ∧ r.offset + r.size ≤ span_start + span_size ∧
      r.offset + r.size < 2 ^ 64)
    (hio : span_size ≤ io.length) (hcur : layer_cursor ls ≤ buf0.length) :
    ∃ c, loop 9 (model_load_layer_copy io span_start span_size (layer_refs ls))
        { returned := false, off := 0, buffer := buf0, view := v0 } = some c ∧
      copy_inv io span_start ls buf0 v0 9 c := by
  refine loop_inv (copy_inv io span_start ls buf0 v0) _ _ 9
    ⟨rfl, rfl, Nat.zero_le _, rfl, fun j hj => by omega, rfl⟩ ?_
  intro i c hi hinv
  obtain ⟨h1, h2, h3⟩ := hspan _ (layer_ref_mem ls i hi)
  have hmono := layout_cursor_mono (layer_sizes ls) (i + 1) 9 (by omega)
  rw [← layer_cursor_eq, layout_cursor_succ, layer_sizes_get] at hmono
  have hmono2 : layer_offset ls i + (layer_ref ls i).size ≤ layer_cursor ls := hmono
  have hb := memcpy_ok c.buffer (layer_offset ls i) io ((layer_ref ls i).offset - span_start)
    (layer_ref ls i).size (by omega) (by rw [hinv.length]; omega)
  rw [copy_pass io span_start span_size ls buf0 v0 i c hi hinv hlen h1 h2 h3, hb]
  exact ⟨_, rfl, copy_step io span_start ls buf0 v0 i c _ hinv hlen hb⟩

/-- The copy loop, when it completes without returning, for a layer that lies inside the
span that was read: the nine tensors are in place. -/
theorem copy_loop_partial (io : List Nat) (span_start span_size : Nat) (ls : layer_spec)
    (buf0 : List Nat) (v0 : layer_view) (hlen : buf0.length < 2 ^ 63)
    (hspan : ∀ r ∈ layer_refs ls,
      span_start ≤ r.offset ∧ r.offset + r.size ≤ span_start + span_size ∧
      r.offset + r.size < 2 ^ 64)
    (c : load_cursor)
    (hrun : loop 9 (model_load_layer_copy io span_start span_size (layer_refs ls))
      { returned := false, off := 0, buffer := buf0, view := v0 } = some c)
    (hret : c.returned = false) :
    copy_inv io span_start ls buf0 v0 9 c := by
  have h := loop_some_inv
    (fun i (c : load_cursor) => i ≤ 9 ∧
      (c.returned = false → copy_inv io span_start ls buf0 v0 i c))
    (model_load_layer_copy io span_start span_size (layer_refs ls))
    { returned := false, off := 0, buffer := buf0, view := v0 } 9
    ⟨by omega, fun _ => ⟨rfl, rfl, Nat.zero_le _, rfl, fun j hj => by omega, rfl⟩⟩
    (by
      rintro i c0 c1 hi ⟨_, hinv⟩ hbody
      refine ⟨by omega, fun hr1 => ?_⟩
      have hr0 : c0.returned = false := by
        by_contra hne
        have ht : c0.returned = true := by
          cases hc : c0.returned
          · exact absurd hc hne
          · rfl
        unfold model_load_layer_copy at hbody
        rw [if_pos ht] at hbody
        rw [← Option.some.inj hbody] at hr1
        exact hne hr1
      have hinv0 := hinv hr0
      obtain ⟨h1, h2, h3⟩ := hspan _ (layer_ref_mem ls i hi)
      rw [copy_pass io span_start span_size ls buf0 v0 i c0 hi hinv0 hlen h1 h2 h3] at hbody
      cases hb : memcpy c0.buffer (layer_offset ls i) io
          ((layer_ref ls i).offset - span_start) (layer_ref ls i).size with
      | none => rw [hb] at hbody; cases hbody
      | some b =>
        rw [hb] at hbody
        rw [← Option.some.inj hbody]
        exact copy_step io span_start ls buf0 v0 i c0 b hinv0 hlen hb)
    c hrun
  exact h.2 hret

/-! ## model_load_layer -/

theorem ensure_io_buf_length (m : model_handle) (size : Nat) :
    size ≤ (ensure_io_buf m size).layer_io_buf.length := by
  unfold ensure_io_buf
  split
  · assumption
  · simp only [List.length_append, List.length_replicate]
    omega

theorem ensure_io_buf_gguf (m : model_handle) (size : Nat) :
    (ensure_io_buf m size).gguf = m.gguf := by
  unfold ensure_io_buf
  split <;> rfl

theorem ensure_io_buf_stats (m : model_handle) (stats : streaming_stats) (size : Nat) :
    (ensure_io_buf { m with stats := stats } size).layer_io_buf =
      (ensure_io_buf m size).layer_io_buf := by
  unfold ensure_io_buf
  split <;> rfl

/-- model_load_layer after the size checks, for a layer whose tensors have non-zero sizes
and end below 2^64: the one span read, of the span of the layer, and what follows it. -/
theorem model_load_layer_read_eq (s : load_state) (layer_id : Nat) (ls : layer_spec)
    (hnz : ∀ r ∈ layer_refs ls, r.size ≠ 0)
    (hfit : ∀ r ∈ layer_refs ls, r.offset + r.size < 2 ^ 64) :
    model_load_layer_read s layer_id ls =
      (gguf_read_span s.m.gguf (layer_span_start ls)
        (layer_span_end ls - layer_span_start ls)
        (ensure_io_buf s.m (layer_span_end ls - layer_span_start ls)).layer_io_buf).bind
        fun r =>
          if r.1 ≠ 0 then
            some (-1, { s with
              m := { ensure_io_buf s.m (layer_span_end ls - layer_span_start ls) with
                layer_io_buf := r.2 },
              trace := s.trace ++
                [load_event.span_read (layer_span_start ls)
                  (layer_span_end ls - layer_span_start ls)] ++
                [load_event.read_span_failed layer_id (layer_span_start ls)
                  (layer_span_end ls - layer_span_start ls)] })
          else
            model_load_layer_fill
              { s with
                m := { ensure_io_buf s.m (layer_span_end ls - layer_span_start ls) with
                  layer_io_buf := r.2 },
                trace := s.trace ++
                  [load_event.span_read (layer_span_start ls)
                    (layer_span_end ls - layer_span_start ls)] }
              layer_id ls (layer_span_start ls) (layer_span_end ls - layer_span_start ls) := by
  obtain ⟨hspan, _, _, _, hne, hlt, _⟩ := layer_span_spec ls hnz hfit
  unfold model_load_layer_read
  rw [hspan]
  simp only [hne, false_or, not_le.2 hlt, if_false, ensure_io_buf_gguf]

/-- The trace, the model outside its statistics and the outputs of model_load_layer_fill. -/
theorem model_load_layer_fill_eq (s : load_state) (layer_id : Nat) (ls : layer_spec)
    (span_start span_size : Nat) (c : load_cursor)
    (hrun : loop 9 (model_load_layer_copy s.m.layer_io_buf span_start span_size
      (layer_refs ls)) { returned := false, off := 0, buffer := s.buffer, view := s.out_view } =
        some c)
    (hret : c.returned = false) :
    model_load_layer_fill s layer_id ls span_start span_size =
      some (0, { s with
        m := { s.m with stats := { s.m.stats with
          layer_bytes_read := (s.m.stats.layer_bytes_read + span_size) % 2 ^ 64,
          layer_loads := (s.m.stats.layer_loads + 1) % 2 ^ 64 } },
        buffer := c.buffer, out_view := c.view, out_used := c.off }) := by
  unfold model_load_layer_fill
  simp only [hrun, Option.map_some', hret, Bool.false_eq_true, if_false]

theorem span_rel_lt (a ss se sz k : Nat) (h1 : ss ≤ a) (h2 : a + sz ≤ se) (hk : k < sz) :
    a - ss + k < se - ss := by
  omega

theorem span_rel_eq (ds ss a k : Nat) (h1 : ss ≤ a) : ds + ss + (a - ss + k) = ds + a + k := by
  omega

/-- A model_load_layer_fill that returns 0 has run the copy loop to its end. -/
theorem model_load_layer_fill_some (s s1 : load_state) (layer_id : Nat) (ls : layer_spec)
    (span_start span_size : Nat)
    (h : model_load_layer_fill s layer_id ls span_start span_size = some (0, s1)) :
    ∃ c, loop 9 (model_load_layer_copy s.m.layer_io_buf span_start span_size
        (layer_refs ls))
        { returned := false, off := 0, buffer := s.buffer, view := s.out_view } = some c ∧
      c.returned = false ∧ s1.buffer = c.buffer ∧ s1.out_view = c.view ∧
      s1.out_used = c.off := by
  unfold model_load_layer_fill at h
  cases hrun : loop 9 (model_load_layer_copy s.m.layer_io_buf span_start span_size
      (layer_refs ls))
      { returned := false, off := 0, buffer := s.buffer, view := s.out_view } with
  | none =>
    rw [hrun] at h
    cases h
  | some c =>
    rw [hrun] at h
    have h2 := Option.some.inj h
    by_cases hret : c.returned = true
    · simp only [hret, if_true] at h2
      have := congrArg Prod.fst h2
      cases this
    · have hret0 : c.returned = false := by
        cases hc : c.returned
        · rfl
        · exact absurd hc hret
      simp only [hret0, Bool.false_eq_true, if_false] at h2
      have hs1 := (Prod.mk.inj h2).2
      refine ⟨c, rfl, hret0, ?_, ?_, ?_⟩ <;> rw [← hs1]

/-- The size of a layer can be computed only when none of its tensors has size 0. -/
theorem model_get_layer_buffer_size_nonzero (m : model_handle) (layer_id : Nat)
    (ls : layer_spec) (hls : m.layers[layer_id]? = some ls) (need : Nat)
    (h : model_get_layer_buffer_size m layer_id = some need) :
    ∀ r ∈ layer_refs ls, r.size ≠ 0 := by
  intro r hr h0
  unfold model_get_layer_buffer_size at h
  rw [hls] at h
  have hn := buffer_size_fold_none (layer_refs ls) 0 ⟨r, hr, h0⟩
  rw [show (match some ls with
    | none => none
    | some ls => List.foldlM model_get_layer_buffer_size_step 0 (layer_refs ls)) =
      List.foldlM model_get_layer_buffer_size_step 0 (layer_refs ls) from rfl, hn] at h
  cases h

/-- model_load_layer when the size of the layer is known. -/
theorem model_load_layer_eq (s : load_state) (layer_id buffer_size : Nat) (ls : layer_spec)
    (need : Nat) (hls : s.m.layers[layer_id]? = some ls)
    (hneed : model_get_layer_buffer_size s.m layer_id = some need) :
    model_load_layer s layer_id buffer_size =
      if buffer_size < need then
        some (-1, { s with trace :=
          s.trace ++ [load_event.buffer_too_small layer_id need buffer_size] })
      else
        model_load_layer_read
          { s with
            m := { s.m with stats := { s.m.stats with
              max_layer_size :=
                if need > s.m.stats.max_layer_size then need else s.m.stats.max_layer_size,
              peak_buffer_usage :=
                if buffer_size > s.m.stats.peak_buffer_usage then buffer_size
                else s.m.stats.peak_buffer_usage } },
            out_view := { layer_view.zero with layer_id := layer_id } }
          layer_id ls := by
  unfold model_load_layer
  rw [hls]
  simp only [hneed]

/-- What a successful model_load_layer has done, for a buffer of fewer than 2^63 bytes and
a layer whose tensors lie below 2^64 in the file. -/
theorem model_load_layer_success (s s1 : load_state) (layer_id buffer_size : Nat)
    (ls : layer_spec) (hls : s.m.layers[layer_id]? = some ls)
    (hlen : s.buffer.length < 2 ^ 63)
    (hfit : ∀ r ∈ layer_refs ls, s.m.gguf.data_start + r.offset + r.size < 2 ^ 64)
    (hok : model_load_layer s layer_id buffer_size = some (0, s1)) :
    model_get_layer_buffer_size s.m layer_id = some (layer_cursor ls) ∧
    layer_cursor ls ≤ buffer_size ∧ layer_cursor ls ≤ s.buffer.length ∧
    s1.out_used = layer_cursor ls ∧
    s1.out_view = layer_view_loaded ls layer_id ∧
    s1.buffer.length = s.buffer.length ∧
    ∀ i, i < 9 → ∀ k, k < (layer_ref ls i).size →
      s1.buffer.getD (layer_offset ls i + k) 0 =
        s.m.gguf.fp.bytes.getD (s.m.gguf.data_start + (layer_ref ls i).offset + k) 0 := by
  cases hneed : model_get_layer_buffer_size s.m layer_id with
  | none =>
    unfold model_load_layer at hok
    rw [hls] at hok
    simp only [hneed] at hok
    have := congrArg Prod.fst (Option.some.inj hok)
    cases this
  | some need =>
    have hnz := model_get_layer_buffer_size_nonzero s.m layer_id ls hls need hneed
    have hfit2 : ∀ r ∈ layer_refs ls, r.offset + r.size < 2 ^ 64 :=
      fun r hr => by have := hfit r hr; omega
    obtain ⟨_, ⟨r0, hr0, hs0⟩, ⟨r1, hr1, he1⟩, hin, _, hlt, _⟩ := layer_span_spec ls hnz hfit2
    rw [model_load_layer_eq s layer_id buffer_size ls need hls hneed] at hok
    by_cases hsmall : buffer_size < need
    · rw [if_pos hsmall] at hok
      have := congrArg Prod.fst (Option.some.inj hok)
      cases this
    · rw [if_neg hsmall, model_load_layer_read_eq _ layer_id ls hnz hfit2] at hok
      simp only [ensure_io_buf_stats] at hok
      cases hread : gguf_read_span s.m.gguf (layer_span_start ls)
          (layer_span_end ls - layer_span_start ls)
          (ensure_io_buf s.m (layer_span_end ls - layer_span_start ls)).layer_io_buf with
      | none => rw [hread] at hok; cases hok
      | some r =>
        obtain ⟨st, io1⟩ := r
        rw [hread] at hok
        simp only [Option.bind_eq_bind, Option.some_bind] at hok
        by_cases hst : st ≠ 0
        · rw [if_pos hst] at hok
          have := congrArg Prod.fst (Option.some.inj hok)
          cases this
        · rw [if_neg hst] at hok
          have hst0 : st = 0 := not_not.1 hst
          rw [hst0] at hread
          have hdata : s.m.gguf.data_start + layer_span_start ls +
              (layer_span_end ls - layer_span_start ls) < 2 ^ 64 := by
            have := hfit r1 hr1
            omega
          obtain ⟨hl1, hsz, hbytes⟩ := gguf_read_span_ok s.m.gguf _ _ _ io1 hread hdata
          obtain ⟨c, hrun0, hret0, hb1, hv1, hu1⟩ :=
            model_load_layer_fill_some _ s1 layer_id ls _ _ hok
          have hrun : loop 9 (model_load_layer_copy io1 (layer_span_start ls)
              (layer_span_end ls - layer_span_start ls) (layer_refs ls))
              { returned := false, off := 0, buffer := s.buffer,
                view := { layer_view.zero with layer_id := layer_id } } = some c := hrun0
          · ·
              have hspan : ∀ r ∈ layer_refs ls,
                  layer_span_start ls ≤ r.offset ∧
                  r.offset + r.size ≤
                    layer_span_start ls + (layer_span_end ls - layer_span_start ls) ∧
                  r.offset + r.size < 2 ^ 64 := by
                intro r hr
                have h1 := hin r hr
                have h2 := hfit2 r hr
                omega
              have hinv := copy_loop_partial io1 _ _ ls s.buffer _ hlen hspan c hrun hret0
              have hcur : c.off = layer_cursor ls := by
                rw [hinv.off, layer_cursor_eq]
              have hc63 : layer_cursor ls < 2 ^ 63 := by
                have := hinv.off_le
                omega
              have hclosed := model_get_layer_buffer_size_closed s.m layer_id ls hls hnz hc63
              have hn : need = layer_cursor ls := by
                rw [hneed] at hclosed
                exact Option.some.inj hclosed
              have hle := hinv.off_le
              have hle1 : layer_cursor ls ≤ buffer_size := by
                rw [← hn]; exact not_lt.1 hsmall
              have hle2 : layer_cursor ls ≤ s.buffer.length := by
                rw [← hcur]; exact hle
              refine ⟨congrArg some hn, hle1, hle2, by rw [hu1, hcur], ?_,
                by rw [hb1, hinv.length], fun i hi k hk => ?_⟩
              · rw [hv1, hinv.view, copy_view_nine]
              · rw [hb1]
                have hi3 := hin _ (layer_ref_mem ls i hi)
                rw [hinv.bytes i hi k hk,
                  hbytes _ (span_rel_lt _ _ _ _ _ hi3.1 hi3.2 hk),
                  span_rel_eq _ _ _ _ hi3.1]

/-- A model_load_layer whose size check passes and whose span read returns 0, for a call
that stays inside its arrays: it returns 0 with the final cursor in `out_used`. -/
theorem model_load_layer_total (s : load_state) (layer_id buffer_size : Nat)
    (ls : layer_spec) (hv : load_valid s layer_id buffer_size ls)
    (hnz : ∀ r ∈ layer_refs ls, r.size ≠ 0) (hneed : layer_cursor ls ≤ buffer_size)
    (io1 : List Nat)
    (hread : gguf_read_span s.m.gguf (layer_span_start ls)
      (layer_span_end ls - layer_span_start ls)
      (ensure_io_buf s.m (layer_span_end ls - layer_span_start ls)).layer_io_buf =
        some (0, io1)) :
    ∃ s1, model_load_layer s layer_id buffer_size = some (0, s1) ∧
      s1.out_used = layer_cursor ls ∧
      s1.trace = s.trace ++ [load_event.span_read (layer_span_start ls)
        (layer_span_end ls - layer_span_start ls)] := by
  have hfit2 : ∀ r ∈ layer_refs ls, r.offset + r.size < 2 ^ 64 :=
    fun r hr => by have := hv.fits r hr; omega
  have hspec := layer_span_spec ls hnz hfit2
  have hin := hspec.2.2.2.1
  have hsize := model_get_layer_buffer_size_closed s.m layer_id ls hv.layer hnz hv.cursor
  have hdata : s.m.gguf.data_start + layer_span_start ls +
      (layer_span_end ls - layer_span_start ls) < 2 ^ 64 := by
    obtain ⟨r1, hr1, he1⟩ := hspec.2.2.1
    have h1 := hv.fits r1 hr1
    have h2 := hspec.2.2.2.2.2.1
    clear hspec hin hfit2 hnz hread
    omega
  obtain ⟨hl1, hsz, _⟩ := gguf_read_span_ok s.m.gguf _ _ _ io1 hread hdata
  have hspan : ∀ r ∈ layer_refs ls,
      layer_span_start ls ≤ r.offset ∧
      r.offset + r.size ≤
        layer_span_start ls + (layer_span_end ls - layer_span_start ls) ∧
      r.offset + r.size < 2 ^ 64 := by
    intro r hr
    have h1 := hin r hr
    have h2 := hfit2 r hr
    clear hspec hin hfit2 hnz hread
    omega
  have hbl := hv.buffer
  clear hspec
  obtain ⟨c, hrun, hinv⟩ := copy_loop_total io1 (layer_span_start ls)
    (layer_span_end ls - layer_span_start ls) ls s.buffer
    { layer_view.zero with layer_id := layer_id } hv.buffer_lt hspan (by omega) (by omega)
  rw [model_load_layer_eq s layer_id buffer_size ls _ hv.layer hsize,
    if_neg (not_lt.2 hneed), model_load_layer_read_eq _ layer_id ls hnz hfit2]
  simp only [ensure_io_buf_stats]
  rw [hread]
  simp only [Option.bind_eq_bind, Option.some_bind, ne_eq, not_true_eq_false, if_false]
  rw [model_load_layer_fill_eq _ layer_id ls _ _ c hrun hinv.returned]
  refine ⟨_, rfl, ?_, rfl⟩
  show c.off = _
  rw [hinv.off, layer_cursor_eq]

/-- C24: let model_load_layer succeed on a buffer of fewer than 2^63 bytes, for a layer
whose tensors lie below 2^64 in the file. The nine tensors are placed in the fixed order
attn_norm, attn_q, attn_k, attn_v, attn_o, ffn_norm, ffn_gate, ffn_up, ffn_down at the
destination offsets off_0 = 0 and off_(i+1) = round-up-to-32(off_i + size_i). Every offset
is a multiple of 32, the regions [off_i, off_i + size_i) are pairwise disjoint (each ends
before the next starts) and lie in the buffer, region i holds exactly the size_i bytes found
at ref_i.offset in the data region, the view records the pointer off_i, the dtype of ref_i
and, for the seven entries that have one, its size, and
used_bytes = off_8 + size_8 = model_get_layer_buffer_size(layer). -/
theorem model_load_layer_layout (s s1 : load_state) (layer_id buffer_size : Nat)
    (ls : layer_spec) (hls : s.m.layers[layer_id]? = some ls)
    (hlen : s.buffer.length < 2 ^ 63)
    (hfit : ∀ r ∈ layer_refs ls, s.m.gguf.data_start + r.offset + r.size < 2 ^ 64)
    (hok : model_load_layer s layer_id buffer_size = some (0, s1)) :
    layer_refs ls = [ls.attn_norm, ls.attn_q, ls.attn_k, ls.attn_v, ls.attn_o,
      ls.ffn_norm, ls.ffn_gate, ls.ffn_up, ls.ffn_down] ∧
    layer_offset ls 0 = 0 ∧
    (∀ i, i < 8 →
      layer_offset ls (i + 1) = round_up_32 (layer_offset ls i + (layer_ref ls i).size)) ∧
    (∀ i, i < 9 → 32 ∣ layer_offset ls i) ∧
    (∀ i j, i < j → j < 9 →
      layer_offset ls i + (layer_ref ls i).size ≤ layer_offset ls j) ∧
    (∀ i, i < 9 → layer_offset ls i + (layer_ref ls i).size ≤ s1.buffer.length) ∧
    (∀ i, i < 9 → ∀ k, k < (layer_ref ls i).size →
      s1.buffer.getD (layer_offset ls i + k) 0 =
        s.m.gguf.fp.bytes.getD (s.m.gguf.data_start + (layer_ref ls i).offset + k) 0) ∧
    s1.out_view = layer_view_loaded ls layer_id ∧
    s1.out_used = layer_offset ls 8 + (layer_ref ls 8).size ∧
    model_get_layer_buffer_size s.m layer_id =
      some (layer_offset ls 8 + (layer_ref ls 8).size) := by
  obtain ⟨h1, _, h3, h4, h5, h6, h7⟩ :=
    model_load_layer_success s s1 layer_id buffer_size ls hls hlen hfit hok
  have hcur : layer_cursor ls = layer_offset ls 8 + (layer_ref ls 8).size := by
    unfold layer_cursor
    rw [layer_sizes_get]
  have hdis : ∀ i j, i < j → layer_offset ls i + (layer_ref ls i).size ≤ layer_offset ls j := by
    intro i j hij
    have h := layout_offset_disjoint (layer_sizes ls) i j hij
    rw [layer_sizes_get] at h
    exact h
  refine ⟨rfl, rfl, fun i _ => ?_, fun i _ => layout_offset_dvd _ i,
    fun i j hij _ => hdis i j hij, fun i hi => ?_, h7, h5, by rw [h4, hcur],
    by rw [h1, hcur]⟩
  · show round_up_32 (layer_offset ls i + (layer_sizes ls).getD i 0) = _
    rw [layer_sizes_get]
  · rw [h6]
    by_cases h8 : i = 8
    · rw [h8, ← hcur]; exact h3
    · have := hdis i 8 (by omega)
      have h9 : layer_offset ls 8 ≤ layer_cursor ls := by rw [hcur]; omega
      omega

set_option maxRecDepth 1000000 in
/-- The test layer loads into the test buffer. -/
theorem load_test_loads :
    model_load_layer load_test_state 0 257 = some (0, load_test_loaded) := by
  decide

set_option maxRecDepth 1000000 in
/-- C24 on an example: the test layer, nine tensors of one byte, in a buffer of 257
bytes. -/
theorem model_load_layer_layout_witness :
    layer_refs load_test_layer =
      [load_test_layer.attn_norm, load_test_layer.attn_q, load_test_layer.attn_k,
       load_test_layer.attn_v, load_test_layer.attn_o, load_test_layer.ffn_norm,
       load_test_layer.ffn_gate, load_test_layer.ffn_up, load_test_layer.ffn_down] ∧
    layer_offset load_test_layer 0 = 0 ∧
    (∀ i, i < 8 →
      layer_offset load_test_layer (i + 1) =
        round_up_32 (layer_offset load_test_layer i + (layer_ref load_test_layer i).size)) ∧
    (∀ i, i < 9 → 32 ∣ layer_offset load_test_layer i) ∧
    (∀ i j, i < j → j < 9 →
      layer_offset load_test_layer i + (layer_ref load_test_layer i).size ≤
        layer_offset load_test_layer j) ∧
    (∀ i, i < 9 →
      layer_offset load_test_layer i + (layer_ref load_test_layer i).size ≤
        load_test_loaded.buffer.length) ∧
    (∀ i, i < 9 → ∀ k, k < (layer_ref load_test_layer i).size →
      load_test_loaded.buffer.getD (layer_offset load_test_layer i + k) 0 =
        load_test_state.m.gguf.fp.bytes.getD
          (load_test_state.m.gguf.data_start + (layer_ref load_test_layer i).offset + k) 0) ∧
    load_test_loaded.out_view = layer_view_loaded load_test_layer 0 ∧
    load_test_loaded.out_used =
      layer_offset load_test_layer 8 + (layer_ref load_test_layer 8).size ∧
    model_get_layer_buffer_size load_test_state.m 0 =
      some (layer_offset load_test_layer 8 + (layer_ref load_test_layer 8).size) :=
  model_load_layer_layout load_test_state load_test_loaded 0 257 load_test_layer rfl
    (by decide) (by decide) load_test_loads

/-- C25: take a call of model_load_layer that stays inside its arrays, for a valid layer
whose nine tensors have non-zero size. If buffer_size is smaller than the final write
cursor (the 32-byte-aligned sum of the nine sizes), the call returns -1, leaves the
destination buffer and the model, with its counters layer_loads and layer_bytes_read, as
they were. If buffer_size is at least that cursor and the span read returns 0, the call
returns 0 with used_bytes equal to the cursor, so used_bytes <= buffer_size. -/
theorem model_load_layer_buffer_check (s : load_state) (layer_id buffer_size : Nat)
    (ls : layer_spec) (hv : load_valid s layer_id buffer_size ls)
    (hnz : ∀ r ∈ layer_refs ls, r.size ≠ 0) :
    (buffer_size < layer_cursor ls →
      ∃ s1, model_load_layer s layer_id buffer_size = some (-1, s1) ∧
        s1.buffer = s.buffer ∧ s1.m = s.m ∧
        s1.m.stats.layer_loads = s.m.stats.layer_loads ∧
        s1.m.stats.layer_bytes_read = s.m.stats.layer_bytes_read) ∧
    (layer_cursor ls ≤ buffer_size →
      ∀ io1, gguf_read_span s.m.gguf (layer_span_start ls)
        (layer_span_end ls - layer_span_start ls)
        (ensure_io_buf s.m (layer_span_end ls - layer_span_start ls)).layer_io_buf =
          some (0, io1) →
      ∃ s1, model_load_layer s layer_id buffer_size = some (0, s1) ∧
        s1.out_used = layer_cursor ls ∧ s1.out_used ≤ buffer_size) := by
  have hsize := model_get_layer_buffer_size_closed s.m layer_id ls hv.layer hnz hv.cursor
  constructor
  · intro hsmall
    rw [model_load_layer_eq s layer_id buffer_size ls _ hv.layer hsize, if_pos hsmall]
    exact ⟨_, rfl, rfl, rfl, rfl, rfl⟩
  · intro hneed io1 hread
    obtain ⟨s1, h1, h2, _⟩ :=
      model_load_layer_total s layer_id buffer_size ls hv hnz hneed io1 hread
    exact ⟨s1, h1, h2, by rw [h2]; exact hneed⟩

set_option maxRecDepth 1000000 in
/-- The test call stays inside its arrays. -/
theorem load_test_valid : load_valid load_test_state 0 257 load_test_layer :=
  ⟨rfl, by decide, by decide, by decide, by decide, by decide⟩

set_option maxRecDepth 1000000 in
/-- C25 on an example: the test layer with a buffer size of 257 bytes, its cursor. -/
theorem model_load_layer_buffer_check_witness :
    (257 < layer_cursor load_test_layer →
      ∃ s1, model_load_layer load_test_state 0 257 = some (-1, s1) ∧
        s1.buffer = load_test_state.buffer ∧ s1.m = load_test_state.m ∧
        s1.m.stats.layer_loads = load_test_state.m.stats.layer_loads ∧
        s1.m.stats.layer_bytes_read = load_test_state.m.stats.layer_bytes_read) ∧
    (layer_cursor load_test_layer ≤ 257 →
      ∀ io1, gguf_read_span load_test_state.m.gguf (layer_span_start load_test_layer)
        (layer_span_end load_test_layer - layer_span_start load_test_layer)
        (ensure_io_buf load_test_state.m
          (layer_span_end load_test_layer - layer_span_start load_test_layer)).layer_io_buf =
          some (0, io1) →
      ∃ s1, model_load_layer load_test_state 0 257 = some (0, s1) ∧
        s1.out_used = layer_cursor load_test_layer ∧ s1.out_used ≤ 257) :=
  model_load_layer_buffer_check load_test_state 0 257 load_test_layer load_test_valid
    (by decide)

set_option maxRecDepth 1000000 in
/-- C27 fails when the buffer is too small: the nine tensors of the test layer have
non-zero sizes and end below 2^64, yet model_load_layer with buffer_size = 0 returns -1 at
the size check, having printed one line and issued no span read. -/
theorem model_load_layer_small_buffer_no_read :
    (∀ r ∈ layer_refs load_test_layer, r.size ≠ 0 ∧ r.offset + r.size < 2 ^ 64) ∧
    model_load_layer load_test_state 0 0 =
      some (-1, { load_test_state with
        trace := [load_event.buffer_too_small 0 257 0] }) := by
  decide

/-- C27, amended: for every layer whose nine refs have non-zero size and whose offset+size
do not overflow 64 bits, the span of the layer has span_start = min(ref.offset) and
span_end = max(ref.offset + ref.size) over the nine refs (both are attained and bound every
ref), and every ref satisfies (ref.offset - span_start) + ref.size <= span_end - span_start.
A call of model_load_layer that stays inside its arrays and whose buffer_size is at least
model_get_layer_buffer_size(layer) issues exactly one span read, of
[span_start, span_end), and never takes the span bounds error branch: its events are that
read alone, or that read followed by the line of a failed read. -/
theorem model_load_layer_one_span_read (s : load_state) (layer_id buffer_size : Nat)
    (ls : layer_spec) (hnz : ∀ r ∈ layer_refs ls, r.size ≠ 0)
    (hfit : ∀ r ∈ layer_refs ls, r.offset + r.size < 2 ^ 64) :
    (∃ r ∈ layer_refs ls, layer_span_start ls = r.offset) ∧
    (∃ r ∈ layer_refs ls, layer_span_end ls = r.offset + r.size) ∧
    (∀ r ∈ layer_refs ls,
      layer_span_start ls ≤ r.offset ∧ r.offset + r.size ≤ layer_span_end ls ∧
      (r.offset - layer_span_start ls) + r.size ≤
        layer_span_end ls - layer_span_start ls) ∧
    (load_valid s layer_id buffer_size ls → layer_cursor ls ≤ buffer_size →
      model_get_layer_buffer_size s.m layer_id = some (layer_cursor ls) ∧
      ∃ st s1, model_load_layer s layer_id buffer_size = some (st, s1) ∧
        (s1.trace = s.trace ++ [load_event.span_read (layer_span_start ls)
            (layer_span_end ls - layer_span_start ls)] ∨
         s1.trace = s.trace ++ [load_event.span_read (layer_span_start ls)
            (layer_span_end ls - layer_span_start ls),
          load_event.read_span_failed layer_id (layer_span_start ls)
            (layer_span_end ls - layer_span_start ls)])) := by
  have hspec := layer_span_spec ls hnz hfit
  have hin := hspec.2.2.2.1
  refine ⟨hspec.2.1, hspec.2.2.1, fun r hr => ?_, fun hv hneed => ?_⟩
  · have h1 := hin r hr
    clear hspec hin hnz hfit
    omega
  · have hsize := model_get_layer_buffer_size_closed s.m layer_id ls hv.layer hnz hv.cursor
    refine ⟨hsize, ?_⟩
    have hdata : s.m.gguf.data_start + layer_span_start ls +
        (layer_span_end ls - layer_span_start ls) < 2 ^ 64 := by
      obtain ⟨r1, hr1, he1⟩ := hspec.2.2.1
      have h1 := hv.fits r1 hr1
      have h2 := hspec.2.2.2.2.2.1
      clear hspec hin hfit hnz
      omega
    obtain ⟨st, io1, hread, hl1⟩ := gguf_read_span_total s.m.gguf (layer_span_start ls)
      (layer_span_end ls - layer_span_start ls)
      (ensure_io_buf s.m (layer_span_end ls - layer_span_start ls)).layer_io_buf hdata
      (ensure_io_buf_length _ _) hv.mapping
    by_cases hst : st = 0
    · rw [hst] at hread
      obtain ⟨s1, h1, _, h3⟩ :=
        model_load_layer_total s layer_id buffer_size ls hv hnz hneed io1 hread
      exact ⟨0, s1, h1, Or.inl h3⟩
    · rw [model_load_layer_eq s layer_id buffer_size ls _ hv.layer hsize,
        if_neg (not_lt.2 hneed), model_load_layer_read_eq _ layer_id ls hnz hfit]
      simp only [ensure_io_buf_stats]
      rw [hread]
      simp only [Option.bind_eq_bind, Option.some_bind, ne_eq, hst, not_false_eq_true,
        if_true]
      exact ⟨-1, _, rfl, Or.inr (by simp)⟩

set_option maxRecDepth 1000000 in
/-- C27, amended, on an example: the test layer with a buffer size of 257 bytes. -/
theorem model_load_layer_one_span_read_witness :
    (∃ r ∈ layer_refs load_test_layer, layer_span_start load_test_layer = r.offset) ∧
    (∃ r ∈ layer_refs load_test_layer, layer_span_end load_test_layer = r.offset + r.size) ∧
    (∀ r ∈ layer_refs load_test_layer,
      layer_span_start load_test_layer ≤ r.offset ∧
      r.offset + r.size ≤ layer_span_end load_test_layer ∧
      (r.offset - layer_span_start load_test_layer) + r.size ≤
        layer_span_end load_test_layer - layer_span_start load_test_layer) ∧
    (load_valid load_test_state 0 257 load_test_layer → layer_cursor load_test_layer ≤ 257 →
      model_get_layer_buffer_size load_test_state.m 0 = some (layer_cursor load_test_layer) ∧
      ∃ st s1, model_load_layer load_test_state 0 257 = some (st, s1) ∧
        (s1.trace = load_test_state.trace ++
            [load_event.span_read (layer_span_start load_test_layer)
              (layer_span_end load_test_layer - layer_span_start load_test_layer)] ∨
         s1.trace = load_test_state.trace ++
            [load_event.span_read (layer_span_start load_test_layer)
              (layer_span_end load_test_layer - layer_span_start load_test_layer),
             load_event.read_span_failed 0 (layer_span_start load_test_layer)
              (layer_span_end load_test_layer - layer_span_start load_test_layer)])) :=
  model_load_layer_one_span_read load_test_state 0 257 load_test_layer (by decide)
    (by decide)

/-! ## build_layer_specs -/

/-- C28 fails on the container of 1056 bytes `overflow_bytes`: llama.block_count = 1,
then token_embd.weight, output_norm.weight, output.weight, the nine tensors
blk.0.field.weight and, last, a tensor named blk.4294967296.attn_q.weight of dtype 2 at
offset 384. gguf_read_header parses it. The last tensor names the layer 4294967296, which
is not below n_layers = 1, and blk.0.attn_q.weight (dtype 1, offset 128) is present; yet
build_layer_specs, called as in model_open with a zeroed resident spec, succeeds with the
attn_q ref of layer 0 holding offset 384 and dtype 2: the `int` accumulation of
parse_layer_id overflows on the tenth digit and, reduced to 32 bits, yields layer 0. -/
theorem build_layer_specs_layer_overflow :
    gguf_read_header (gguf_open overflow_bytes false false) = some overflow_file ∧
    get_kv_u32 overflow_file "llama.block_count".toList = some 1 ∧
    (overflow_file.tensors.getD 12 default).name = layer_tensor_name 4294967296 "attn_q" ∧
    gguf_find_tensor overflow_file (layer_tensor_name 0 "attn_q") =
      some { name := layer_tensor_name 0 "attn_q", dtype := 1, offset := 128, size := 32 } ∧
    parse_layer_id (layer_tensor_name 4294967296 "attn_q") = 0 ∧
    (build_layer_specs overflow_file {}).status = 0 ∧
    (build_layer_specs overflow_file {}).layers_out =
      some [{ attn_norm := ⟨96, 32, 1⟩, attn_q := ⟨384, 32, 2⟩, attn_k := ⟨160, 32, 1⟩,
              attn_v := ⟨192, 32, 1⟩, attn_o := ⟨224, 32, 1⟩, ffn_norm := ⟨256, 32, 1⟩,
              ffn_gate := ⟨288, 32, 1⟩, ffn_up := ⟨320, 32, 1⟩,
              ffn_down := ⟨352, 32, 1⟩ }] := by
  decide!

/-! ## The container: magic, version and the start of the data region -/

/-- A file that does not start with the four bytes `GGUF` is rejected. -/
theorem gguf_read_header_magic (bytes : List Nat) (use_mmap mmap_ok : Bool)
    (h : bytes.take 4 ≠ "GGUF".toList.map Char.toNat) :
    gguf_read_header (gguf_open bytes use_mmap mmap_ok) = none := by
  have hm : gguf_read_header_meta (gguf_open bytes use_mmap mmap_ok) = none := by
    unfold gguf_read_header_meta
    have hfp : (gguf_open bytes use_mmap mmap_ok).fp = { bytes := bytes, pos := 0 } := rfl
    rw [hfp]
    unfold fread
    by_cases hl : 0 + 4 ≤ bytes.length
    · simp only [hl, if_true, List.drop_zero, Option.bind_eq_bind, Option.some_bind, h,
        ne_eq, not_false_eq_true]
    · simp only [hl, if_false, Option.bind_eq_bind, Option.none_bind]
  unfold gguf_read_header
  rw [hm]
  rfl

/-- C33: for a Q4_K gate matrix of `r` rows and `n_embd` columns, `n_embd` a positive
multiple of 256 (a uint32_t), `r < 2^32` and the byte size `r * (n_embd / 256) * 144`
inside 64 bits, q4k_rows_from_bytes recovers `r` from the byte size, and it computes
`((size / 144) * 256) / n_embd`. -/
theorem q4k_rows_from_bytes_spec (n_embd r : Nat) (hn : 0 < n_embd) (hn32 : n_embd < 2 ^ 32)
    (hdvd : 256 ∣ n_embd) (hsize : r * (n_embd / 256) * 144 < 2 ^ 64) (hr : r < 2 ^ 32) :
    q4k_rows_from_bytes (r * (n_embd / 256) * 144) n_embd = r ∧
    q4k_rows_from_bytes (r * (n_embd / 256) * 144) n_embd =
      ((r * (n_embd / 256) * 144 / 144) * 256) / n_embd := by
  obtain ⟨c, rfl⟩ := hdvd
  have hc : 0 < c := by omega
  have e1 : 256 * c / 256 = c := Nat.mul_div_cancel_left c (by decide)
  have e2 : r * c * 144 / 144 = r * c := Nat.mul_div_cancel _ (by decide)
  have e3 : r * c * 256 = r * (256 * c) := by ring
  have e4 : r * (256 * c) / (256 * c) = r := Nat.mul_div_cancel _ hn
  have hlt : r * (256 * c) < 2 ^ 64 := by
    calc r * (256 * c) < 2 ^ 32 * (256 * c) := Nat.mul_lt_mul_of_pos_right hr hn
      _ ≤ 2 ^ 32 * 2 ^ 32 := Nat.mul_le_mul_left _ (le_of_lt hn32)
      _ = 2 ^ 64 := by norm_num
  rw [e1, e2, e3, e4]
  refine ⟨?_, ?_⟩
  · unfold q4k_rows_from_bytes
    by_cases hz : r * c * 144 = 0
    · have : r = 0 := by
        rcases Nat.mul_eq_zero.1 hz with h | h
        · rcases Nat.mul_eq_zero.1 h with h | h
          · exact h
          · omega
        · omega
      simp [this]
    · rw [if_neg (by omega)]
      simp only []
      rw [e2, e3, Nat.mod_eq_of_lt hlt, e4, Nat.mod_eq_of_lt hr]
  · unfold q4k_rows_from_bytes
    by_cases hz : r * c * 144 = 0
    · have : r = 0 := by
        rcases Nat.mul_eq_zero.1 hz with h | h
        · rcases Nat.mul_eq_zero.1 h with h | h
          · exact h
          · omega
        · omega
      simp [this]
    · rw [if_neg (by omega)]
      simp only []
      rw [e2, e3, Nat.mod_eq_of_lt hlt, e4, Nat.mod_eq_of_lt hr]

/-- C33 on an example: 11008 rows of 4096 columns. -/
theorem q4k_rows_from_bytes_spec_witness :
    q4k_rows_from_bytes (11008 * (4096 / 256) * 144) 4096 = 11008 ∧
    q4k_rows_from_bytes (11008 * (4096 / 256) * 144) 4096 =
      ((11008 * (4096 / 256) * 144 / 144) * 256) / 4096 :=
  q4k_rows_from_bytes_spec 4096 11008 (by decide) (by decide) (by decide) (by decide)
    (by decide)

/-! ## The decode step: the choice of the next token -/

theorem argmax_step_inv (logits : List ℚ) (m : Nat) (s : Nat × ℚ)
    (h : argmax_inv logits m s) :
    argmax_inv logits (m + 1) (engine_generate_argmax_step logits s m) := by
  unfold engine_generate_argmax_step
  by_cases hgt : logits.getD m 0 > s.2
  · rw [if_pos hgt]
    refine ⟨Nat.lt_succ_self m, rfl, fun j hj => ?_, fun j hj => ?_⟩
    · rcases Nat.lt_succ_iff_lt_or_eq.1 hj with hj1 | hj1
      · exact le_of_lt (lt_of_le_of_lt (h.max j hj1) hgt)
      · rw [hj1]
    · exact lt_of_le_of_lt (h.max j hj) hgt
  · rw [if_neg hgt]
    refine ⟨Nat.lt_succ_of_lt h.lt, h.val, fun j hj => ?_, h.first⟩
    rcases Nat.lt_succ_iff_lt_or_eq.1 hj with hj1 | hj1
    · exact h.max j hj1
    · rw [hj1]; exact not_lt.1 hgt

theorem argmax_fold_inv (logits : List ℚ) (cnt : Nat) :
    ∀ (m : Nat) (s : Nat × ℚ), argmax_inv logits m s →
      argmax_inv logits (m + cnt)
        ((List.range' m cnt).foldl (engine_generate_argmax_step logits) s) := by
  induction cnt with
  | zero => intro m s h; exact h
  | succ n ih =>
    intro m s h
    rw [List.range'_succ, List.foldl_cons]
    have := ih (m + 1) _ (argmax_step_inv logits m s h)
    rw [show m + (n + 1) = m + 1 + n by omega]
    exact this

/-- C34: for a non-empty vector of logits the decode step chooses an index inside the
vector whose logit is maximal, and the smallest such index: every logit is at most the
chosen one and every logit before it is smaller. These properties determine the index, so
the choice depends on the logits alone. -/
theorem engine_generate_argmax_spec (logits : List ℚ) (hne : logits ≠ []) :
    engine_generate_argmax logits logits.length < logits.length ∧
    (∀ j, j < logits.length →
      logits.getD j 0 ≤ logits.getD (engine_generate_argmax logits logits.length) 0) ∧
    (∀ j, j < engine_generate_argmax logits logits.length →
      logits.getD j 0 < logits.getD (engine_generate_argmax logits logits.length) 0) ∧
    ∀ k, k < logits.length →
      (∀ j, j < logits.length → logits.getD j 0 ≤ logits.getD k 0) →
      (∀ j, j < k → logits.getD j 0 < logits.getD k 0) →
      k = engine_generate_argmax logits logits.length := by
  have hlen : 0 < logits.length := List.length_pos.2 hne
  have h0 : argmax_inv logits 1 (0, logits.getD 0 0) :=
    ⟨Nat.one_pos, rfl, fun j hj => by
      have : j = 0 := by omega
      rw [this], fun j hj => absurd hj (Nat.not_lt_zero j)⟩
  have h := argmax_fold_inv logits (logits.length - 1) 1 _ h0
  rw [show 1 + (logits.length - 1) = logits.length by omega] at h
  have hv := h.val
  have hmax : ∀ j, j < logits.length →
      logits.getD j 0 ≤ logits.getD (engine_generate_argmax logits logits.length) 0 := by
    intro j hj
    have := h.max j hj
    rw [hv] at this
    exact this
  have hfirst : ∀ j, j < engine_generate_argmax logits logits.length →
      logits.getD j 0 < logits.getD (engine_generate_argmax logits logits.length) 0 := by
    intro j hj
    have := h.first j hj
    rw [hv] at this
    exact this
  refine ⟨h.lt, hmax, hfirst, fun k hk hkmax hkfirst => ?_⟩
  rcases Nat.lt_trichotomy k (engine_generate_argmax logits logits.length) with hlt | heq | hgt
  · exact absurd (hfirst k hlt) (not_lt.2 (hkmax _ h.lt))
  · exact heq
  · exact absurd (hkfirst _ hgt) (not_lt.2 (hmax k hk))

/-- C34 on an example: the maximum 5 occurs at indices 1 and 3, the choice is index 1. -/
theorem engine_generate_argmax_spec_witness :
    engine_generate_argmax argmax_test_logits 4 = 1 ∧
    engine_generate_argmax argmax_test_logits argmax_test_logits.length
      < argmax_test_logits.length ∧
    (∀ j, j < argmax_test_logits.length →
      argmax_test_logits.getD j 0 ≤ argmax_test_logits.getD
        (engine_generate_argmax argmax_test_logits argmax_test_logits.length) 0) ∧
    (∀ j, j < engine_generate_argmax argmax_test_logits argmax_test_logits.length →
      argmax_test_logits.getD j 0 < argmax_test_logits.getD
        (engine_generate_argmax argmax_test_logits argmax_test_logits.length) 0) ∧
    ∀ k, k < argmax_test_logits.length →
      (∀ j, j < argmax_test_logits.length →
        argmax_test_logits.getD j 0 ≤ argmax_test_logits.getD k 0) →
      (∀ j, j < k → argmax_test_logits.getD j 0 < argmax_test_logits.getD k 0) →
      k = engine_generate_argmax argmax_test_logits argmax_test_logits.length :=
  ⟨by decide, engine_generate_argmax_spec argmax_test_logits (by decide)⟩

/-! ## The size of a layer and the capacity of the pool buffers -/

/-- When model_get_max_layer_size returns 0, the size of every layer was computed and is at
most the result. -/
theorem model_get_max_layer_size_bound (m : model_handle) (M : Nat)
    (h : model_get_max_layer_size m = some M) :
    ∀ l, l < m.layers.length →
      ∃ sz, model_get_layer_buffer_size m l = some sz ∧ sz ≤ M := by
  unfold model_get_max_layer_size at h
  exact loop_some_inv
    (fun i (M : Nat) => ∀ l, l < i → ∃ sz, model_get_layer_buffer_size m l = some sz ∧ sz ≤ M)
    _ 0 m.layers.length (fun l hl => absurd hl (Nat.not_lt_zero l))
    (by
      intro i s s1 _ hP hb l hl
      cases hsz : model_get_layer_buffer_size m i with
      | none => rw [hsz] at hb; cases hb
      | some sz =>
        rw [hsz] at hb
        have e : s1 = if sz > s then sz else s := (Option.some.inj hb).symm
        have hs : s ≤ s1 ∧ sz ≤ s1 := by
          rw [e]
          by_cases hgt : sz > s
          · rw [if_pos hgt]; omega
          · rw [if_neg hgt]; omega
        by_cases hli : l = i
        · rw [hli]; exact ⟨sz, hsz, hs.2⟩
        · obtain ⟨sz1, h1, h2⟩ := hP l (by omega)
          exact ⟨sz1, h1, le_trans h2 hs.1⟩)
    M h

/-- The write cursor of a layout after `n + 1` tensors lies between the sum of their sizes
and that sum plus `31 * n`: each of the `n` alignment gaps has at most 31 bytes. -/
theorem layout_cursor_sum (sizes : List Nat) (n : Nat) :
    ((List.range (n + 1)).map fun i => sizes.getD i 0).sum ≤ layout_cursor sizes (n + 1) ∧
    layout_cursor sizes (n + 1) ≤
      ((List.range (n + 1)).map fun i => sizes.getD i 0).sum + n * 31 := by
  induction n with
  | zero =>
    have h0 : layout_cursor sizes 1 = sizes.getD 0 0 := by
      show round_up_32 0 + sizes.getD 0 0 = sizes.getD 0 0
      unfold round_up_32
      norm_num
    have hr : List.range (0 + 1) = [0] := rfl
    rw [h0, hr]
    simp
  | succ n ih =>
    have hstep : layout_cursor sizes (n + 1 + 1) =
        round_up_32 (layout_cursor sizes (n + 1)) + sizes.getD (n + 1) 0 := rfl
    have h1 := round_up_32_ge (layout_cursor sizes (n + 1))
    have h2 := round_up_32_lt (layout_cursor sizes (n + 1))
    rw [hstep, List.range_succ, List.map_append, List.sum_append]
    simp only [List.map_cons, List.map_nil, List.sum_cons, List.sum_nil, Nat.add_zero]
    omega

/-- The sum of the nine sizes of a layer, written over the positions of the layout. -/
theorem layer_sizes_sum (ls : layer_spec) :
    ((List.range 9).map fun i => (layer_sizes ls).getD i 0).sum = (layer_sizes ls).sum := by
  rfl

/-- The buffers of a pool created with `buffer_size == 0` have the capacity that
model_get_max_layer_size reported. -/
theorem prefetcher_create_capacity (cfg : prefetcher_config) (M : Nat) (p : prefetcher)
    (h0 : cfg.buffer_size = 0) (h : prefetcher_create cfg (some M) = some p) :
    ∀ b ∈ p.buffers, b.capacity = M := by
  unfold prefetcher_create at h
  split at h
  · cases h
  · dsimp only at h
    by_cases hz : M = 0
    · rw [if_pos hz] at h; cases h
    · rw [if_neg hz] at h
      simp only [Option.some.injEq] at h
      subst h
      intro b hb
      rw [List.eq_of_mem_replicate hb]

/-- C38: let model_get_max_layer_size return 0 with the value `M`. For every layer
`l < n_layers`, model_get_layer_buffer_size returns 0 with a size that is at most `M`; the
size lies between the sum of the nine tensor sizes and that sum plus 8 * 31 (when that
bound is below 2^63, so that no 64-bit sum wraps); the buffers of a pool created with
`buffer_size == 0` have capacity `M`; and model_load_layer with a buffer of `M` bytes
passes the buffer-too-small check of lines 239-243 and goes on to the span read. -/
theorem model_get_max_layer_size_fits (m : model_handle) (M : Nat)
    (hM : model_get_max_layer_size m = some M) (l : Nat) (hl : l < m.layers.length) :
    ∃ ls sz, m.layers[l]? = some ls ∧ model_get_layer_buffer_size m l = some sz ∧ sz ≤ M ∧
      ((layer_sizes ls).sum + 8 * 31 < 2 ^ 63 →
        (layer_sizes ls).sum ≤ sz ∧ sz ≤ (layer_sizes ls).sum + 8 * 31) ∧
      (∀ (cfg : prefetcher_config) (p : prefetcher), cfg.buffer_size = 0 →
        prefetcher_create cfg (model_get_max_layer_size m) = some p →
        ∀ b ∈ p.buffers, b.capacity = M) ∧
      ∀ s : load_state, s.m = m →
        model_load_layer s l M =
          model_load_layer_read
            { s with
              m := { s.m with stats := { s.m.stats with
                max_layer_size :=
                  if sz > s.m.stats.max_layer_size then sz else s.m.stats.max_layer_size,
                peak_buffer_usage :=
                  if M > s.m.stats.peak_buffer_usage then M
                  else s.m.stats.peak_buffer_usage } },
              out_view := { layer_view.zero with layer_id := l } }
            l ls := by
  obtain ⟨sz, hsz, hle⟩ := model_get_max_layer_size_bound m M hM l hl
  have hls : m.layers[l]? = some (m.layers[l]) := List.getElem?_eq_getElem hl
  refine ⟨m.layers[l], sz, hls, hsz, hle, ?_, ?_, ?_⟩
  · intro hsum
    have hnz := model_get_layer_buffer_size_nonzero m l _ hls sz hsz
    have hb : (layer_sizes (m.layers[l])).sum ≤ layout_cursor (layer_sizes (m.layers[l])) 9 ∧
        layout_cursor (layer_sizes (m.layers[l])) 9 ≤ (layer_sizes (m.layers[l])).sum + 8 * 31 := by
      have hb := layout_cursor_sum (layer_sizes (m.layers[l])) 8
      rw [layer_sizes_sum] at hb
      exact hb
    have hc : layer_cursor (m.layers[l]) < 2 ^ 63 := by
      rw [layer_cursor_eq]
      omega
    have hclosed := model_get_layer_buffer_size_closed m l _ hls hnz hc
    rw [hsz] at hclosed
    have e : sz = layer_cursor (m.layers[l]) := Option.some.inj hclosed
    rw [e, layer_cursor_eq]
    exact hb
  · intro cfg p h0 hp
    rw [hM] at hp
    exact prefetcher_create_capacity cfg M p h0 hp
  · intro s hs
    subst hs
    rw [model_load_layer_eq s l M _ sz hls hsz, if_neg (not_lt.2 hle)]

set_option maxRecDepth 1000000 in
/-- C38 on the test model: one layer of nine tensors of one byte, of size 257. -/
theorem model_get_max_layer_size_fits_witness :
    ∃ ls sz, load_test_model.layers[0]? = some ls ∧
      model_get_layer_buffer_size load_test_model 0 = some sz ∧ sz ≤ 257 ∧
      ((layer_sizes ls).sum + 8 * 31 < 2 ^ 63 →
        (layer_sizes ls).sum ≤ sz ∧ sz ≤ (layer_sizes ls).sum + 8 * 31) ∧
      (∀ (cfg : prefetcher_config) (p : prefetcher), cfg.buffer_size = 0 →
        prefetcher_create cfg (model_get_max_layer_size load_test_model) = some p →
        ∀ b ∈ p.buffers, b.capacity = 257) ∧
      ∀ s : load_state, s.m = load_test_model →
        model_load_layer s 0 257 =
          model_load_layer_read
            { s with
              m := { s.m with stats := { s.m.stats with
                max_layer_size :=
                  if sz > s.m.stats.max_layer_size then sz else s.m.stats.max_layer_size,
                peak_buffer_usage :=
                  if 257 > s.m.stats.peak_buffer_usage then 257
                  else s.m.stats.peak_buffer_usage } },
              out_view := { layer_view.zero with layer_id := 0 } }
            0 ls :=
  model_get_max_layer_size_fits load_test_model 257 (by decide) 0 (by decide)

/-! ## Q5_K with a zero `qh` against Q4_K -/

theorem half_to_float_one : half_to_float 0x3C00 = 1 := by
  have h : half_to_float_bits 0x3C00 = 0x3F800000 := by decide
  show f32_value (half_to_float_bits 0x3C00) = 1
  rw [h]
  norm_num [f32_value]

theorem half_to_float_zero : half_to_float 0 = 0 := by
  have h : half_to_float_bits 0 = 0 := by decide
  show f32_value (half_to_float_bits 0) = 0
  rw [h]
  norm_num [f32_value]

/-- The fifth bit of every output of a Q5_K block is 0 when `qh` holds zeros. -/
theorem q5_k_bit_zero (blk : block_q5_k) (hqh : ∀ v ∈ blk.qh, v = 0) (t : Nat) :
    q5_k_bit blk t = 0 := by
  have h0 : blk.qh.getD (t / 8) 0 = 0 := by
    rw [List.getD_eq_getElem?_getD]
    cases hg : blk.qh[t / 8]? with
    | none => rfl
    | some v => exact hqh v (List.getElem?_mem hg)
  unfold q5_k_bit
  rw [h0]
  simp

/-- The nibble that dequantize_row_q4_k takes for output `t`, in arithmetic form. -/
theorem q4_k_nibble_eq (blk : block_q4_k) (t : Nat) :
    q4_k_nibble blk t =
      if t / 32 % 2 = 0 then blk.qs.getD (32 * (t / 64) + t % 32) 0 % 16
      else blk.qs.getD (32 * (t / 64) + t % 32) 0 / 16 := by
  have e : t / 32 / 2 = t / 64 := by omega
  unfold q4_k_nibble
  rw [e]
  by_cases h : t / 32 % 2 = 0
  · rw [if_pos h, if_pos h]
    exact Nat.and_pow_two_sub_one_eq_mod _ 4
  · rw [if_neg h, if_neg h, Nat.shiftRight_eq_div_pow]

theorem q5_k_zero_qh_block_wf : q5_k_wf q5_k_zero_qh_block := ⟨rfl, rfl, rfl⟩

set_option maxRecDepth 1000000 in
theorem q5_k_zero_qh_block_q4_wf : q4_k_wf (q5_k_as_q4_k q5_k_zero_qh_block) := by
  decide

/-- C37: the two decoders do not take the low four bits of a value from the same nibble
of `qs`. For the Q5_K block above, whose `qh` is zero and whose `qs[0]` is
0x10, dequantize_row_q5_k gives output 1 the high nibble of `qs[0]`, so the value 1, while
dequantize_row_q4_k on the Q4_K block with the same `d`, `dmin`, `scales` and `qs` gives
output 1 the low nibble of `qs[1]`, so the value 0 (the high nibble of `qs[0]` is its
output 32). -/
theorem q5_k_zero_qh_differs :
    (∀ v ∈ q5_k_zero_qh_block.qh, v = 0) ∧
    ∃ y5 y4,
      dequantize_row_q5_k [q5_k_zero_qh_block] (List.replicate 256 0) 256 = some y5 ∧
      dequantize_row_q4_k [q5_k_as_q4_k q5_k_zero_qh_block] (List.replicate 256 0) 256
        = some y4 ∧
      y5[1]? = some 1 ∧ y4[1]? = some 0 ∧ y5[32]? = some 0 ∧ y4[32]? = some 1 := by
  obtain ⟨y5, h5, _, v5⟩ := q5_k_decode [q5_k_zero_qh_block] (List.replicate 256 0)
    q5_k_zero_qh_block rfl q5_k_zero_qh_block_wf (List.length_replicate 256 (0 : ℚ))
  obtain ⟨y4, h4, _, v4⟩ := q4_k_decode [q5_k_as_q4_k q5_k_zero_qh_block] (List.replicate 256 0)
    (q5_k_as_q4_k q5_k_zero_qh_block) rfl q5_k_zero_qh_block_q4_wf
    (List.length_replicate 256 (0 : ℚ))
  have hd5 : half_to_float q5_k_zero_qh_block.d = 1 := half_to_float_one
  have hm5 : half_to_float q5_k_zero_qh_block.dmin = 0 := half_to_float_zero
  have hd4 : half_to_float (q5_k_as_q4_k q5_k_zero_qh_block).d = 1 := half_to_float_one
  have hm4 : half_to_float (q5_k_as_q4_k q5_k_zero_qh_block).dmin = 0 := half_to_float_zero
  have s0 : get_scale_min_k4 (1 / 32) q5_k_zero_qh_block.scales = some (1, 0) := by decide
  have s1 : get_scale_min_k4 (32 / 32) q5_k_zero_qh_block.scales = some (1, 0) := by decide
  have t0 : get_scale_min_k4 (1 / 32) (q5_k_as_q4_k q5_k_zero_qh_block).scales = some (1, 0) :=
    by decide
  have t1 : get_scale_min_k4 (32 / 32) (q5_k_as_q4_k q5_k_zero_qh_block).scales
      = some (1, 0) := by decide
  have q1 : q5_k_quant q5_k_zero_qh_block 1 = 1 := by decide
  have q32 : q5_k_quant q5_k_zero_qh_block 32 = 0 := by decide
  have n1 : q4_k_nibble (q5_k_as_q4_k q5_k_zero_qh_block) 1 = 0 := by decide
  have n32 : q4_k_nibble (q5_k_as_q4_k q5_k_zero_qh_block) 32 = 1 := by decide
  refine ⟨fun _ hv => List.eq_of_mem_replicate hv, y5, y4, h5, h4, ?_, ?_, ?_, ?_⟩
  · rw [v5 1 (by decide)]
    unfold q5_k_value
    rw [hd5, hm5, s0, q1]
    norm_num
  · rw [v4 1 (by decide)]
    unfold q4_k_value
    rw [hd4, hm4, t0, n1]
    norm_num
  · rw [v5 32 (by decide)]
    unfold q5_k_value
    rw [hd5, hm5, s1, q32]
    norm_num
  · rw [v4 32 (by decide)]
    unfold q4_k_value
    rw [hd4, hm4, t1, n32]
    norm_num

/-- The two decoders side by side. Take a Q5_K super-block of the declared sizes, holding bytes,
whose 32 `qh` bytes are all zero, and the Q4_K super-block with the same `d`, `dmin`,
`scales` and `qs`. Both dequantize_row_q5_k and dequantize_row_q4_k complete, and they give
output `t < 256` the same scale and minimum, `y[t] = d * sc * n - dmin * m` with `(sc, m)`
the result of get_scale_min_k4 for sub-block `t / 32`; but the 4-bit value `n` comes from
different nibbles of `qs`: Q5_K takes byte `t / 2` (low nibble for even `t`, high for odd
`t`), Q4_K takes byte `32 * (t / 64) + t % 32` (low nibble when `t / 32` is even, high
when it is odd). The two outputs agree at `t` when these two nibbles are equal. -/
theorem q5_k_zero_qh_spec (blk : block_q5_k) (y : List ℚ)
    (hwf : q5_k_wf blk) (hbytes : q4_k_wf (q5_k_as_q4_k blk))
    (hqh : ∀ v ∈ blk.qh, v = 0) (hy : y.length = 256) :
    ∃ y5 y4, dequantize_row_q5_k [blk] y 256 = some y5 ∧
      dequantize_row_q4_k [q5_k_as_q4_k blk] y 256 = some y4 ∧
      ∀ t, t < 256 →
        ∃ sc m n5 n4, get_scale_min_k4 (t / 32) blk.scales = some (sc, m) ∧
          n5 = (if t % 2 = 1 then blk.qs.getD (t / 2) 0 / 16 % 16
                else blk.qs.getD (t / 2) 0 % 16) ∧
          n4 = (if t / 32 % 2 = 0 then blk.qs.getD (32 * (t / 64) + t % 32) 0 % 16
                else blk.qs.getD (32 * (t / 64) + t % 32) 0 / 16) ∧
          y5[t]? = some (half_to_float blk.d * (sc : ℚ) * (n5 : ℚ)
                          - half_to_float blk.dmin * (m : ℚ)) ∧
          y4[t]? = some (half_to_float blk.d * (sc : ℚ) * (n4 : ℚ)
                          - half_to_float blk.dmin * (m : ℚ)) ∧
          (n5 = n4 → y5[t]? = y4[t]?) := by
  obtain ⟨y5, h5, _, v5⟩ := q5_k_decode [blk] y blk rfl hwf hy
  obtain ⟨y4, h4, _, v4⟩ := q4_k_decode [q5_k_as_q4_k blk] y (q5_k_as_q4_k blk) rfl hbytes hy
  refine ⟨y5, y4, h5, h4, fun t ht => ?_⟩
  have g := get_scale_min_k4_eq blk.scales (t / 32) hwf.1 (by omega)
  have e5 : y5[t]? = some (half_to_float blk.d *
      (((get_scale_min_k4 (t / 32) blk.scales).getD (0, 0)).1 : ℚ)
        * ((if t % 2 = 1 then blk.qs.getD (t / 2) 0 / 16 % 16
            else blk.qs.getD (t / 2) 0 % 16 : Nat) : ℚ)
      - half_to_float blk.dmin *
        (((get_scale_min_k4 (t / 32) blk.scales).getD (0, 0)).2 : ℚ)) := by
    rw [v5 t ht]
    unfold q5_k_value q5_k_quant
    rw [q5_k_bit_zero blk hqh t]
    unfold q5_k_nibble
    simp only [Nat.mul_zero, Nat.add_zero]
  have e4 : y4[t]? = some (half_to_float blk.d *
      (((get_scale_min_k4 (t / 32) blk.scales).getD (0, 0)).1 : ℚ)
        * ((if t / 32 % 2 = 0 then blk.qs.getD (32 * (t / 64) + t % 32) 0 % 16
            else blk.qs.getD (32 * (t / 64) + t % 32) 0 / 16 : Nat) : ℚ)
      - half_to_float blk.dmin *
        (((get_scale_min_k4 (t / 32) blk.scales).getD (0, 0)).2 : ℚ)) := by
    rw [v4 t ht]
    unfold q4_k_value
    rw [q4_k_nibble_eq]
    rfl
  rw [g] at e5 e4
  refine ⟨_, _, _, _, g, rfl, rfl, e5, e4, fun hn => ?_⟩
  rw [e5, e4, hn]

/-- On the example block outputs 0 of the two codecs agree (both take the
low nibble of `qs[0]`). -/
theorem q5_k_zero_qh_spec_witness :
    ∃ y5 y4, dequantize_row_q5_k [q5_k_zero_qh_block] (List.replicate 256 0) 256 = some y5 ∧
      dequantize_row_q4_k [q5_k_as_q4_k q5_k_zero_qh_block] (List.replicate 256 0) 256
        = some y4 ∧
      ∀ t, t < 256 →
        ∃ sc m n5 n4, get_scale_min_k4 (t / 32) q5_k_zero_qh_block.scales = some (sc, m) ∧
          n5 = (if t % 2 = 1 then q5_k_zero_qh_block.qs.getD (t / 2) 0 / 16 % 16
                else q5_k_zero_qh_block.qs.getD (t / 2) 0 % 16) ∧
          n4 = (if t / 32 % 2 = 0 then
                  q5_k_zero_qh_block.qs.getD (32 * (t / 64) + t % 32) 0 % 16
                else q5_k_zero_qh_block.qs.getD (32 * (t / 64) + t % 32) 0 / 16) ∧
          y5[t]? = some (half_to_float q5_k_zero_qh_block.d * (sc : ℚ) * (n5 : ℚ)
                          - half_to_float q5_k_zero_qh_block.dmin * (m : ℚ)) ∧
          y4[t]? = some (half_to_float q5_k_zero_qh_block.d * (sc : ℚ) * (n4 : ℚ)
                          - half_to_float q5_k_zero_qh_block.dmin * (m : ℚ)) ∧
          (n5 = n4 → y5[t]? = y4[t]?) :=
  q5_k_zero_qh_spec q5_k_zero_qh_block (List.replicate 256 0) q5_k_zero_qh_block_wf
    q5_k_zero_qh_block_q4_wf (fun _ hv => List.eq_of_mem_replicate hv)
    (List.length_replicate 256 (0 : ℚ))

/-! ## half_to_float against IEEE-754 binary16 -/

/-- The three fields that half_to_float masks out of a 16-bit pattern. -/
theorem half_fields (h : Nat) (hh : h < 2 ^ 16) :
    h &&& 0x03FF = h % 2 ^ 10 ∧ h &&& 0x7C00 = h / 2 ^ 10 % 32 * 2 ^ 10 ∧
    h &&& 0x8000 = h / 2 ^ 15 * 2 ^ 15 := by
  refine ⟨Nat.and_pow_two_sub_one_eq_mod h 10, ?_, ?_⟩
  · have e1 : (0x7C00 : Nat) = (2 ^ 15 - 1) &&& (2 ^ 64 - 2 ^ 10) := by decide
    rw [e1, ← Nat.and_assoc, Nat.and_pow_two_sub_one_eq_mod h 15,
      and_high_mask _ 10 (by decide) (by omega)]
    omega
  · have e1 : (0x8000 : Nat) = (2 ^ 16 - 1) &&& (2 ^ 64 - 2 ^ 15) := by decide
    rw [e1, ← Nat.and_assoc, Nat.and_pow_two_sub_one_eq_mod h 16,
      and_high_mask _ 15 (by decide) (by omega)]
    omega

/-- The pattern that half_to_float builds for a normal number: the sign moves to bit 31,
the exponent field is rebiased by 112 and the fraction moves up by 13 bits. -/
theorem half_to_float_bits_normal (h : Nat) (hh : h < 2 ^ 16)
    (he0 : h / 2 ^ 10 % 32 ≠ 0) (he31 : h / 2 ^ 10 % 32 ≠ 31) :
    half_to_float_bits h =
      h / 2 ^ 15 * 2 ^ 31 + (h / 2 ^ 10 % 32 + 112) * 2 ^ 23 + h % 2 ^ 10 * 2 ^ 13 := by
  obtain ⟨hm, hx, hs⟩ := half_fields h hh
  have hx0 : h / 2 ^ 10 % 32 * 2 ^ 10 ≠ 0 := by omega
  have hx31 : h / 2 ^ 10 % 32 * 2 ^ 10 ≠ 0x7C00 := by omega
  have hexp : (h / 2 ^ 10 % 32 * 2 ^ 10) >>> 10 = h / 2 ^ 10 % 32 := by
    rw [Nat.shiftRight_eq_div_pow, Nat.mul_div_cancel _ (by decide)]
  have hs1 : h / 2 ^ 15 < 2 := by omega
  have he : h / 2 ^ 10 % 32 < 32 := Nat.mod_lt _ (by decide)
  have hmm : h % 2 ^ 10 < 2 ^ 10 := Nat.mod_lt _ (by decide)
  unfold half_to_float_bits
  simp only [hm, hx, hs, if_neg hx0, if_neg hx31, hexp, Nat.shiftLeft_eq]
  have a1 : h / 2 ^ 15 * 2 ^ 15 * 2 ^ 16 % 2 ^ 32 = h / 2 ^ 15 * 2 ^ 31 := by omega
  have a2 : (h / 2 ^ 10 % 32 + (127 - 15)) * 2 ^ 23 % 2 ^ 32 =
      (h / 2 ^ 10 % 32 + 112) * 2 ^ 23 := by omega
  have a3 : h % 2 ^ 10 * 2 ^ 13 % 2 ^ 32 = h % 2 ^ 10 * 2 ^ 13 := by omega
  rw [a1, a2, a3, Nat.or_assoc]
  have b1 : (h / 2 ^ 10 % 32 + 112) * 2 ^ 23 ||| h % 2 ^ 10 * 2 ^ 13 =
      (h / 2 ^ 10 % 32 + 112) * 2 ^ 23 + h % 2 ^ 10 * 2 ^ 13 := by
    rw [Nat.mul_comm _ (2 ^ 23), ← Nat.mul_add_lt_is_or (by omega)]
  rw [b1]
  have b2 : h / 2 ^ 15 * 2 ^ 31 |||
      ((h / 2 ^ 10 % 32 + 112) * 2 ^ 23 + h % 2 ^ 10 * 2 ^ 13) =
      h / 2 ^ 15 * 2 ^ 31 + ((h / 2 ^ 10 % 32 + 112) * 2 ^ 23 + h % 2 ^ 10 * 2 ^ 13) := by
    rw [Nat.mul_comm _ (2 ^ 31), ← Nat.mul_add_lt_is_or (by omega)]
  rw [b2]
  omega

/-- half_to_float is exact on the normal numbers of binary16. -/
theorem half_to_float_normal (h : Nat) (hh : h < 2 ^ 16)
    (he0 : h / 2 ^ 10 % 32 ≠ 0) (he31 : h / 2 ^ 10 % 32 ≠ 31) :
    half_to_float h = half_value h := by
  have hb := half_to_float_bits_normal h hh he0 he31
  have he : h / 2 ^ 10 % 32 < 32 := Nat.mod_lt _ (by decide)
  have hmm : h % 2 ^ 10 < 2 ^ 10 := Nat.mod_lt _ (by decide)
  have hs1 : h / 2 ^ 15 < 2 := by omega
  have f1 : half_to_float_bits h / 2 ^ 31 % 2 = h / 2 ^ 15 % 2 := by omega
  have f2 : half_to_float_bits h / 2 ^ 23 % 256 = h / 2 ^ 10 % 32 + 112 := by omega
  have f3 : half_to_float_bits h % 2 ^ 23 = h % 2 ^ 10 * 2 ^ 13 := by omega
  unfold half_to_float f32_value half_value
  simp only [f1, f2, f3, if_neg he0]
  rw [if_neg (by omega)]
  generalize h / 2 ^ 10 % 32 = e
  generalize h % 2 ^ 10 = m
  generalize (if h / 2 ^ 15 % 2 = 1 then (-1 : ℚ) else 1) = sign
  push_cast
  rw [pow_add]
  field_simp
  ring

/-- The pattern that half_to_float builds for a subnormal with fraction `m`: a normal
binary32 whose significand times its power of two is `m * 2^125`. -/
theorem half_to_float_bits_subnormal : ∀ s, s < 2 → ∀ m, m < 1024 → m ≠ 0 →
    half_to_float_bits (s * 32768 + m) / 2 ^ 31 % 2 = s ∧
    half_to_float_bits (s * 32768 + m) / 2 ^ 23 % 256 ≠ 0 ∧
    (2 ^ 23 + half_to_float_bits (s * 32768 + m) % 2 ^ 23) *
      2 ^ (half_to_float_bits (s * 32768 + m) / 2 ^ 23 % 256) = m * 2 ^ 125 := by
  decide!

/-- half_to_float returns half of the binary16 value for every subnormal: the exponent of
line 76 is `127 - 15 - shift`, one less than the exponent `127 - 15 - shift + 1` of the
normalised number. -/
theorem half_to_float_subnormal (h : Nat) (hh : h < 2 ^ 16)
    (he0 : h / 2 ^ 10 % 32 = 0) (hm0 : h % 2 ^ 10 ≠ 0) :
    half_to_float h = half_value h / 2 ∧ half_to_float h ≠ half_value h := by
  have hs1 : h / 2 ^ 15 < 2 := by omega
  have hmm : h % 2 ^ 10 < 1024 := Nat.mod_lt _ (by decide)
  have hsplit : h = h / 2 ^ 15 * 32768 + h % 2 ^ 10 := by omega
  obtain ⟨f1, f2, f3⟩ := half_to_float_bits_subnormal (h / 2 ^ 15) hs1 (h % 2 ^ 10) hmm hm0
  rw [← hsplit] at f1 f2 f3
  have f1' : half_to_float_bits h / 2 ^ 31 % 2 = h / 2 ^ 15 % 2 := by omega
  have hq : ((2 ^ 23 + half_to_float_bits h % 2 ^ 23 : Nat) : ℚ) *
      (2 : ℚ) ^ (half_to_float_bits h / 2 ^ 23 % 256) = ((h % 2 ^ 10 : Nat) : ℚ) * 2 ^ 125 := by
    exact_mod_cast f3
  have hval : half_to_float h = half_value h / 2 := by
    unfold half_to_float f32_value half_value
    simp only [f1', if_neg f2, if_pos he0]
    rw [mul_assoc, hq]
    generalize (if h / 2 ^ 15 % 2 = 1 then (-1 : ℚ) else 1) = sign
    field_simp
    ring
  refine ⟨hval, ?_⟩
  rw [hval]
  have hne : half_value h ≠ 0 := by
    unfold half_value
    simp only [if_pos he0]
    have hmq : ((h % 2 ^ 10 : Nat) : ℚ) ≠ 0 := by exact_mod_cast hm0
    have hsg : (if h / 2 ^ 15 % 2 = 1 then (-1 : ℚ) else 1) ≠ 0 := by
      split <;> norm_num
    exact div_ne_zero (mul_ne_zero hsg hmq) (by norm_num)
  intro hc
  apply hne
  linarith

/-- C36: half_to_float returns the binary16 value for every normal number and for the two
zeros, and the infinities map to the binary32 infinities of the same sign; but for every
subnormal (exponent field 0, fraction not 0) it returns half of the binary16 value. The
smallest subnormal 0x0001, which denotes 2^-24, is returned as 2^-25. -/
theorem half_to_float_subnormal_halved :
    (∀ h, h < 2 ^ 16 → h / 2 ^ 10 % 32 ≠ 0 → h / 2 ^ 10 % 32 ≠ 31 →
      half_to_float h = half_value h) ∧
    (half_to_float 0x0000 = half_value 0x0000 ∧ half_to_float 0x8000 = half_value 0x8000) ∧
    (half_to_float_bits 0x7C00 = 0x7F800000 ∧ half_to_float_bits 0xFC00 = 0xFF800000) ∧
    (∀ h, h < 2 ^ 16 → h / 2 ^ 10 % 32 = 0 → h % 2 ^ 10 ≠ 0 →
      half_to_float h = half_value h / 2 ∧ half_to_float h ≠ half_value h) ∧
    half_to_float 0x0001 = 1 / 2 ^ 25 ∧ half_value 0x0001 = 1 / 2 ^ 24 := by
  have z0 : half_to_float_bits 0x0000 = 0 := by decide
  have z1 : half_to_float_bits 0x8000 = 0x80000000 := by decide
  have hv1 : half_value 0x0001 = 1 / 2 ^ 24 := by
    norm_num [half_value]
  refine ⟨half_to_float_normal, ⟨?_, ?_⟩, ⟨by decide, by decide⟩, half_to_float_subnormal,
    ?_, hv1⟩
  · unfold half_to_float
    rw [z0]
    norm_num [f32_value, half_value]
  · unfold half_to_float
    rw [z1]
    norm_num [f32_value, half_value]
  · rw [(half_to_float_subnormal 0x0001 (by decide) (by decide) (by decide)).1, hv1]
    norm_num

/-! ## The pool: a buffer in ERROR stays in ERROR -/

theorem modify_slot {α : Type} (f : α → α) (l : List α) (idx j : Nat) (b : α)
    (hj : l[j]? = some b) :
    (l.modify f idx)[j]? = some (if idx = j then f b else b) := by
  rw [List.getElem?_modify, hj]
  by_cases h : idx = j
  · simp [h]
  · simp [h]

theorem modify_slot_inv {α : Type} (f : α → α) (l : List α) (idx j : Nat) (b1 : α)
    (hj : (l.modify f idx)[j]? = some b1) :
    ∃ b, l[j]? = some b ∧ b1 = if idx = j then f b else b := by
  cases hb : l[j]? with
  | none =>
    rw [List.getElem?_modify, hb] at hj
    simp at hj
  | some b =>
    rw [modify_slot f l idx j b hb] at hj
    exact ⟨b, rfl, (Option.some.inj hj).symm⟩

/-- What a pool operation does to the buffers: one function applied to one slot. -/
theorem pool_step_buffers (p : prefetcher) (ev : pool_event) :
    (pool_step p ev).buffers =
      match ev with
      | pool_event.request l =>
        (match find_empty p.buffers with
         | none => p.buffers
         | some idx => p.buffers.modify (mark_loading l) idx)
      | pool_event.worker_done i r => p.buffers.modify (store_load r) i
      | pool_event.wait idx _ =>
        p.buffers.modify (fun b => if b.state = BUF_READY then mark_in_use b else b) idx
      | pool_event.release idx => p.buffers.modify clear_buffer idx := by
  cases ev with
  | request l => exact request_buffers p l
  | worker_done i r => rfl
  | wait idx w => exact wait_poll_buffers p idx w
  | release idx => rfl

theorem store_load_not_loading (r : load_result) (b : layer_buffer)
    (h : b.state ≠ BUF_LOADING) : store_load r b = b := by
  unfold store_load
  rw [if_neg h]

/-- A buffer in ERROR is not touched by a pool operation, a release being of a held
buffer. -/
theorem pool_step_error (p : prefetcher) (held : List Nat) (ev : pool_event)
    (hinv : held_in_use p held) (hrel : ∀ idx, ev = pool_event.release idx → idx ∈ held)
    (i : Nat) (b : layer_buffer) (hb : p.buffers[i]? = some b) (he : b.state = BUF_ERROR) :
    (pool_step p ev).buffers[i]? = some b := by
  rw [pool_step_buffers]
  cases ev with
  | request l =>
    cases hfe : find_empty p.buffers with
    | none => exact hb
    | some idx =>
      obtain ⟨⟨b0, hb0, hs0⟩, _⟩ := find_empty_some hfe
      show (p.buffers.modify (mark_loading l) idx)[i]? = some b
      rw [modify_slot _ _ idx i b hb]
      by_cases hi : idx = i
      · rw [hi, hb] at hb0
        rw [← Option.some.inj hb0, he] at hs0
        cases hs0
      · rw [if_neg hi]
  | worker_done j r =>
    show (p.buffers.modify (store_load r) j)[i]? = some b
    rw [modify_slot _ _ j i b hb, store_load_not_loading r b (by rw [he]; decide)]
    simp
  | wait idx w =>
    show (p.buffers.modify (fun b => if b.state = BUF_READY then mark_in_use b else b) idx)[i]?
      = some b
    rw [modify_slot _ _ idx i b hb]
    have : ¬ b.state = BUF_READY := by rw [he]; decide
    simp [this]
  | release idx =>
    show (p.buffers.modify clear_buffer idx)[i]? = some b
    rw [modify_slot _ _ idx i b hb]
    by_cases hi : idx = i
    · have hin := hinv idx (hrel idx rfl) b (by rw [hi]; exact hb)
      rw [he] at hin
      cases hin
    · rw [if_neg hi]

/-- The held buffers after a wait: the slot is added when its buffer was READY. -/
theorem held_after_wait (p : prefetcher) (held : List Nat) (idx : Nat) (w : Bool) :
    held_after p held (pool_event.wait idx w) =
      match p.buffers[idx]? with
      | some b => if b.state = BUF_READY then idx :: held else held
      | none => held := by
  show (match (prefetcher_wait_poll p idx w).2 with
    | wait_poll.got k => k :: held
    | _ => held) = _
  rw [wait_poll_result]
  cases p.buffers[idx]? with
  | none => rfl
  | some b =>
    dsimp only
    by_cases hr : b.state = BUF_READY
    · rw [if_pos hr, if_pos hr]
    · rw [if_neg hr, if_neg hr]
      by_cases hc : (decide (b.state = BUF_ERROR) || p.cancel) = true
      · rw [if_pos hc]
      · rw [if_neg hc]

/-- The held buffers stay IN_USE through a pool operation. -/
theorem pool_step_held (p : prefetcher) (held : List Nat) (ev : pool_event)
    (hinv : held_in_use p held) :
    held_in_use (pool_step p ev) (held_after p held ev) := by
  intro j hj b1 hb1
  rw [pool_step_buffers] at hb1
  cases ev with
  | request l =>
    have hj0 : j ∈ held := hj
    cases hfe : find_empty p.buffers with
    | none =>
      rw [hfe] at hb1
      exact hinv j hj0 b1 hb1
    | some idx =>
      rw [hfe] at hb1
      obtain ⟨⟨b0, hb0, hs0⟩, _⟩ := find_empty_some hfe
      obtain ⟨b, hb, e⟩ := modify_slot_inv _ _ idx j b1 hb1
      have hin := hinv j hj0 b hb
      by_cases hi : idx = j
      · rw [hi, hb] at hb0
        rw [← Option.some.inj hb0, hin] at hs0
        cases hs0
      · rw [if_neg hi] at e
        rw [e]; exact hin
  | worker_done i r =>
    have hj0 : j ∈ held := hj
    obtain ⟨b, hb, e⟩ := modify_slot_inv _ _ i j b1 hb1
    have hin := hinv j hj0 b hb
    rw [store_load_not_loading r b (by rw [hin]; decide)] at e
    rw [e]
    simp [hin]
  | wait idx w =>
    obtain ⟨b, hb, e⟩ := modify_slot_inv _ _ idx j b1 hb1
    rw [held_after_wait] at hj
    by_cases hi : idx = j
    · rw [if_pos hi] at e
      by_cases hr : b.state = BUF_READY
      · rw [e, if_pos hr]
        rfl
      · rw [if_neg hr] at e
        rw [hi, hb] at hj
        simp only [hr, if_false] at hj
        rw [e]
        exact hinv j hj b hb
    · rw [if_neg hi] at e
      have hj0 : j ∈ held := by
        cases hq : p.buffers[idx]? with
        | none => rw [hq] at hj; exact hj
        | some b0 =>
          rw [hq] at hj
          by_cases hr : b0.state = BUF_READY
          · simp only [hr, if_true] at hj
            rcases List.mem_cons.1 hj with h1 | h1
            · exact absurd h1.symm hi
            · exact h1
          · simp only [hr, if_false] at hj
            exact hj
      rw [e]
      exact hinv j hj0 b hb
  | release idx =>
    have hj1 : j ∈ held.filter fun j => j ≠ idx := hj
    obtain ⟨hj0, hne⟩ := List.mem_filter.1 hj1
    have hne1 : j ≠ idx := by simpa using hne
    obtain ⟨b, hb, e⟩ := modify_slot_inv _ _ idx j b1 hb1
    rw [if_neg (fun h => hne1 h.symm)] at e
    rw [e]
    exact hinv j hj0 b hb

theorem error_count_modify (f : layer_buffer → layer_buffer) (bs : List layer_buffer)
    (idx : Nat) (k : Nat)
    (h : ∀ b, bs[idx]? = some b →
      (if is_error (f b) then 1 else 0) = (if is_error b then 1 else 0) + k)
    (hk : bs[idx]? = none → k = 0) :
    (bs.modify f idx).countP is_error = bs.countP is_error + k := by
  cases hb : bs[idx]? with
  | none => rw [modify_of_none f bs idx hb, hk hb]; rfl
  | some b =>
    have h1 := countP_modify is_error f bs idx b hb
    have h2 := h b hb
    omega

/-- A pool operation adds one buffer in ERROR when it is a load failure and none
otherwise, a release being of a held buffer. -/
theorem pool_step_error_count (p : prefetcher) (held : List Nat) (ev : pool_event)
    (hinv : held_in_use p held) (hrel : ∀ idx, ev = pool_event.release idx → idx ∈ held) :
    error_count (pool_step p ev) =
      error_count p + (if is_load_failure p ev then 1 else 0) := by
  unfold error_count
  rw [pool_step_buffers]
  cases ev with
  | request l =>
    cases hfe : find_empty p.buffers with
    | none => rfl
    | some idx =>
      obtain ⟨⟨b0, hb0, hs0⟩, _⟩ := find_empty_some hfe
      show (p.buffers.modify (mark_loading l) idx).countP is_error = _
      apply error_count_modify
      · intro b hb
        rw [hb0] at hb
        have e := Option.some.inj hb
        subst e
        simp [is_error, mark_loading, hs0, is_load_failure]
      · intro hn
        rw [hb0] at hn
        cases hn
  | worker_done i r =>
    show (p.buffers.modify (store_load r) i).countP is_error = _
    apply error_count_modify
    · intro b hb
      by_cases hl : b.state = BUF_LOADING
      · cases hok : r.ok <;> simp [is_error, store_load, hl, is_load_failure, hb, hok]
      · rw [store_load_not_loading r b hl]
        simp [is_load_failure, hb, hl]
    · intro hn
      simp [is_load_failure, hn]
  | wait idx w =>
    show (p.buffers.modify (fun b => if b.state = BUF_READY then mark_in_use b else b)
      idx).countP is_error = _
    apply error_count_modify
    · intro b hb
      by_cases hr : b.state = BUF_READY
      · simp [is_error, mark_in_use, hr, is_load_failure]
      · simp [hr, is_load_failure]
    · intro _
      rfl
  | release idx =>
    show (p.buffers.modify clear_buffer idx).countP is_error = _
    apply error_count_modify
    · intro b hb
      have hin := hinv idx (hrel idx rfl) b hb
      simp [is_error, clear_buffer, hin, is_load_failure]
    · intro _
      rfl

/-- Through a sequence of pool operations whose releases are of held buffers, a buffer in
ERROR is not touched and the number of buffers in ERROR grows by the number of load
failures. -/
theorem pool_run_error (evs : List pool_event) :
    ∀ (p : prefetcher) (held : List Nat), held_in_use p held →
      releases_held p held evs = true →
      (∀ (i : Nat) (b : layer_buffer), p.buffers[i]? = some b → b.state = BUF_ERROR →
        (pool_run p evs).buffers[i]? = some b) ∧
      error_count (pool_run p evs) = error_count p + load_failures p evs := by
  induction evs with
  | nil => intro p held _ _; exact ⟨fun i b hb _ => hb, rfl⟩
  | cons ev evs ih =>
    intro p held hinv hrel
    have hrel0 : (release_held held ev && releases_held (pool_step p ev)
        (held_after p held ev) evs) = true := hrel
    obtain ⟨hrel3, hrel2⟩ := Bool.and_eq_true_iff.1 hrel0
    have hrel1 : ∀ idx, ev = pool_event.release idx → idx ∈ held := by
      intro idx h
      rw [h] at hrel3
      exact of_decide_eq_true hrel3
    obtain ⟨h1, h2⟩ := ih (pool_step p ev) (held_after p held ev) (pool_step_held p held ev hinv)
      hrel2
    have hrun : pool_run p (ev :: evs) = pool_run (pool_step p ev) evs := rfl
    rw [hrun]
    refine ⟨fun i b hb he => h1 i b (pool_step_error p held ev hinv hrel1 i b hb he) he, ?_⟩
    rw [h2, pool_step_error_count p held ev hinv hrel1]
    show _ = error_count p + ((if is_load_failure p ev then 1 else 0) +
      load_failures (pool_step p ev) evs)
    omega

/-- A wait on a buffer in ERROR returns NULL and changes nothing. -/
theorem wait_poll_error (p : prefetcher) (i : Nat) (b : layer_buffer) (w : Bool)
    (hb : p.buffers[i]? = some b) (he : b.state = BUF_ERROR) :
    prefetcher_wait_poll p i w = (p, wait_poll.null) := by
  unfold prefetcher_wait_poll
  rw [hb]
  have h1 : ¬ b.state = BUF_READY := by rw [he]; decide
  simp [h1, he]

/-- A request never selects a buffer in ERROR. -/
theorem request_not_error (p : prefetcher) (i l : Nat) (b : layer_buffer)
    (hb : p.buffers[i]? = some b) (he : b.state = BUF_ERROR) :
    (prefetcher_request p l).2 ≠ some { buf_index := i } := by
  rw [request_result]
  intro h
  cases hfe : find_empty p.buffers with
  | none => rw [hfe] at h; cases h
  | some k =>
    rw [hfe] at h
    have hk : k = i := by simpa using h
    obtain ⟨⟨b0, hb0, hs0⟩, _⟩ := find_empty_some hfe
    rw [hk, hb] at hb0
    rw [← Option.some.inj hb0, he] at hs0
    cases hs0

/-- When every buffer is in ERROR a request returns NULL and changes nothing. -/
theorem request_all_error (p : prefetcher) (l : Nat)
    (h : p.buffers.length ≤ error_count p) :
    prefetcher_request p l = (p, none) := by
  have hall : ∀ b ∈ p.buffers, is_error b = true := by
    have hle : p.buffers.countP is_error ≤ p.buffers.length := List.countP_le_length _
    have heq : p.buffers.countP is_error = p.buffers.length := le_antisymm hle h
    exact List.countP_eq_length.1 heq
  have hfe : find_empty p.buffers = none := by
    rw [find_empty_none]
    intro b hb hs
    have := hall b hb
    simp [is_error, hs] at this
  unfold prefetcher_request
  rw [hfe]

/-- C39: take a pool in which the buffers that the compute thread holds are IN_USE, and any
sequence of requests, load completions, waits and releases in which every release is of a
buffer that a wait has returned and that was not released since. A buffer that is in ERROR
at the start is the same at the end (it never comes back to EMPTY); in the state reached,
a wait on a buffer in ERROR returns NULL without changing the pool and a request never
selects it; the number of buffers in ERROR has grown by the number of load failures; and
once that number has reached the depth of the pool every request returns NULL and leaves
the pool as it is. -/
theorem pool_error_permanent (p : prefetcher) (held : List Nat) (evs : List pool_event)
    (hinv : held_in_use p held) (hrel : releases_held p held evs = true) :
    (∀ (i : Nat) (b : layer_buffer), p.buffers[i]? = some b → b.state = BUF_ERROR →
      (pool_run p evs).buffers[i]? = some b) ∧
    (∀ (i : Nat) (b : layer_buffer), (pool_run p evs).buffers[i]? = some b →
      b.state = BUF_ERROR →
      (∀ waited, prefetcher_wait_poll (pool_run p evs) i waited =
        (pool_run p evs, wait_poll.null)) ∧
      ∀ l, (prefetcher_request (pool_run p evs) l).2 ≠ some { buf_index := i }) ∧
    error_count (pool_run p evs) = error_count p + load_failures p evs ∧
    (p.buffers.length ≤ error_count p + load_failures p evs →
      ∀ l, prefetcher_request (pool_run p evs) l = (pool_run p evs, none)) := by
  obtain ⟨h1, h2⟩ := pool_run_error evs p held hinv hrel
  refine ⟨h1, fun i b hb he => ⟨fun w => wait_poll_error _ i b w hb he,
    fun l => request_not_error _ i l b hb he⟩, h2, fun hfull l => ?_⟩
  apply request_all_error
  rw [h2]
  have hlen : (pool_run p evs).buffers.length = p.buffers.length := by
    clear h1 h2 hfull hinv hrel
    induction evs generalizing p with
    | nil => rfl
    | cons ev evs ih =>
      have hrun : pool_run p (ev :: evs) = pool_run (pool_step p ev) evs := rfl
      rw [hrun, ih, pool_step_buffers]
      cases ev with
      | request l =>
        cases hfe : find_empty p.buffers with
        | none => rfl
        | some idx => simp
      | worker_done i r => simp
      | wait idx w => simp
      | release idx => simp
  rw [hlen]
  exact hfull

/-- C39 on an example: a pool of depth 2 after two load failures; both buffers are in
ERROR and every request returns NULL. -/
theorem pool_error_permanent_witness :
    (load_failures pool_error_test pool_error_events = 2 ∧
      (pool_run pool_error_test pool_error_events).buffers.map (fun b => b.state) =
        [BUF_ERROR, BUF_ERROR]) ∧
    error_count (pool_run pool_error_test pool_error_events) =
      error_count pool_error_test + load_failures pool_error_test pool_error_events ∧
    (pool_error_test.buffers.length ≤
        error_count pool_error_test + load_failures pool_error_test pool_error_events →
      ∀ l, prefetcher_request (pool_run pool_error_test pool_error_events) l =
        (pool_run pool_error_test pool_error_events, none)) :=
  ⟨by decide,
   (pool_error_permanent pool_error_test [] pool_error_events
      (fun _ h => absurd h (List.not_mem_nil _)) (by decide)).2.2⟩

/-! ## The rope theta of the forward pass -/

/-- model_get_info leaves `rope_theta` at the 0.0 of the memset, whatever the metadata
holds. -/
theorem model_get_info_rope_theta (m : model_handle) : (model_get_info m).rope_theta = 0 := by
  unfold model_get_info
  dsimp only
  split <;> rfl

/-- C32: for every model the info record that model_get_info fills has `rope_theta = 0`, so
the forward pass always runs op_rope with theta 10000; in particular for the container
`rope_bytes`, which gguf_read_header and build_layer_specs accept and whose metadata
holds `llama.rope.freq_base = 500000`. -/
theorem rope_theta_ignores_freq_base :
    (∀ m : model_handle, (model_get_info m).rope_theta = 0 ∧
      forward_layer_view_rope_theta (model_get_info m) = 10000) ∧
    gguf_read_header (gguf_open rope_bytes false false) = some rope_file ∧
    (build_layer_specs rope_file {}).status = 0 ∧
    (build_layer_specs rope_file {}).layers_out = some [rope_layer] ∧
    metadata_rope_theta rope_file = 500000 ∧
    forward_layer_view_rope_theta (model_get_info rope_model) = 10000 := by
  have hall : ∀ m : model_handle, (model_get_info m).rope_theta = 0 ∧
      forward_layer_view_rope_theta (model_get_info m) = 10000 := by
    intro m
    refine ⟨model_get_info_rope_theta m, ?_⟩
    unfold forward_layer_view_rope_theta
    rw [model_get_info_rope_theta m]
    norm_num
  have hkv : (gguf_find_kv rope_file "llama.rope.freq_base".toList).map
      (fun kv => (kv.type, le_value (kv.value.take 4))) = some (6, 0x48F42400) := by
    decide!
  have hmeta : metadata_rope_theta rope_file = 500000 := by
    unfold metadata_rope_theta
    cases hk : gguf_find_kv rope_file "llama.rope.freq_base".toList with
    | none => rw [hk] at hkv; cases hkv
    | some kv =>
      rw [hk] at hkv
      have h1 := Option.some.inj hkv
      have ht : kv.type = GGUF_TYPE_FLOAT32 := congrArg (fun t => t.1) h1
      have hv : le_value (kv.value.take 4) = 0x48F42400 := congrArg (fun t => t.2) h1
      simp only [ht, if_true, hv]
      norm_num [f32_value]
  refine ⟨hall, ?_, ?_, ?_, hmeta, (hall rope_model).2⟩
  · decide!
  · decide!
  · decide!

/-! ## The tokenizer -/

theorem half_to_float_neg_zero : half_to_float 0x8000 = half_value 0x8000 := by
  have h : half_to_float_bits 0x8000 = 0x80000000 := by decide
  unfold half_to_float
  rw [h]
  norm_num [f32_value, half_value]

theorem half_to_float_pos_zero : half_to_float 0 = half_value 0 := by
  have h : half_to_float_bits 0 = 0 := by decide
  unfold half_to_float
  rw [h]
  norm_num [f32_value, half_value]

/-- half_to_float returns the binary16 value of every finite pattern that is not
subnormal. -/
theorem half_to_float_exact (h : Nat) (hh : half_not_subnormal h) :
    half_to_float h = half_value h := by
  obtain ⟨h16, h31, h0⟩ := hh
  by_cases he : h / 2 ^ 10 % 32 = 0
  · have hm := h0 he
    have hs : h / 2 ^ 15 < 2 := by omega
    have hcase : h = 0 ∨ h = 0x8000 := by omega
    rcases hcase with e | e
    · rw [e]; exact half_to_float_pos_zero
    · rw [e]; exact half_to_float_neg_zero
  · exact half_to_float_normal h h16 he h31

/-- The smallest subnormal half is returned as 2^-25; it denotes 2^-24. -/
theorem half_to_float_min_subnormal :
    half_to_float 0x0001 = 1 / 2 ^ 25 ∧ half_value 0x0001 = 1 / 2 ^ 24 := by
  have hv1 : half_value 0x0001 = 1 / 2 ^ 24 := by
    norm_num [half_value]
  refine ⟨?_, hv1⟩
  rw [(half_to_float_subnormal 0x0001 (by decide) (by decide) (by decide)).1, hv1]
  norm_num

theorem q4_k_subnormal_block_wf : q4_k_wf q4_k_subnormal_block := by
  refine ⟨rfl, rfl, by decide, ?_⟩
  intro v hv
  simp only [q4_k_subnormal_block, List.mem_cons, List.mem_replicate] at hv
  omega

theorem q5_k_subnormal_block_wf : q5_k_wf q5_k_subnormal_block := ⟨rfl, rfl, rfl⟩

theorem q6_k_subnormal_block_wf : q6_k_wf q6_k_subnormal_block := by
  refine ⟨rfl, rfl, rfl, ?_⟩
  intro v hv
  simp only [q6_k_subnormal_block, List.mem_cons, List.mem_replicate] at hv
  omega

/-- C14: dequantize_row_q4_k computes `y[t] = d * sc * nib - dmin * m` with `d` and `dmin`
the floats that half_to_float returns, which are the values of the two halves only when
these are not subnormal. For the block `q4_k_subnormal_block`, whose `d` is the subnormal
half 0x0001 (the number 2^-24) with scale 1 and nibble 1 for output 0, the function writes
`y[0] = 2^-25`, while `d * sc * nib - dmin * m` is 2^-24. For every block whose `d` and
`dmin` are finite and not subnormal the outputs are the values of the claim, with `nib`
the low nibble of `qs[32 * (j / 2) + l]` for even `j = t / 32` and the high nibble for odd
`j`. -/
theorem dequantize_row_q4_k_subnormal :
    (∃ y1, dequantize_row_q4_k [q4_k_subnormal_block] (List.replicate 256 0) 256 = some y1 ∧
      y1[0]? = some (1 / 2 ^ 25)) ∧
    (get_scale_min_k4 (0 / 32) q4_k_subnormal_block.scales = some (1, 0) ∧
      q4_k_subnormal_block.qs.getD (32 * (0 / 32 / 2) + 0 % 32) 0 &&& 0xF = 1 ∧
      half_value q4_k_subnormal_block.d * ((1 : Nat) : ℚ) * ((1 : Nat) : ℚ)
        - half_value q4_k_subnormal_block.dmin * ((0 : Nat) : ℚ) = 1 / 2 ^ 24) ∧
    ∀ (blk : block_q4_k) (y : List ℚ), q4_k_wf blk → 256 ≤ y.length →
      half_not_subnormal blk.d → half_not_subnormal blk.dmin →
      ∃ y1, dequantize_row_q4_k [blk] y 256 = some y1 ∧
        ∀ t, t < 256 →
          ∃ sc m nib, get_scale_min_k4 (t / 32) blk.scales = some (sc, m) ∧
            nib = (if t / 32 % 2 = 0 then blk.qs.getD (32 * (t / 32 / 2) + t % 32) 0 &&& 0xF
                   else blk.qs.getD (32 * (t / 32 / 2) + t % 32) 0 >>> 4) ∧
            y1[t]? = some (half_value blk.d * (sc : ℚ) * (nib : ℚ)
                            - half_value blk.dmin * (m : ℚ)) := by
  refine ⟨?_, ⟨by decide, by decide, ?_⟩, ?_⟩
  · obtain ⟨y1, hrun, _, _, hval⟩ := dequantize_row_q4_k_spec q4_k_subnormal_block
      (List.replicate 256 0) q4_k_subnormal_block_wf
      (le_of_eq (List.length_replicate 256 (0 : ℚ)).symm)
    refine ⟨y1, hrun, ?_⟩
    obtain ⟨sc, m, nib, g1, g2, _, g3⟩ := hval 0 (by decide)
    have e0 : get_scale_min_k4 (0 / 32) q4_k_subnormal_block.scales = some (1, 0) := by decide
    rw [e0] at g1
    have e1 : sc = 1 := (congrArg (fun t => t.1) (Option.some.inj g1)).symm
    have e2 : m = 0 := (congrArg (fun t => t.2) (Option.some.inj g1)).symm
    have e3 : nib = 1 := by rw [g2]; decide
    have hd : half_to_float q4_k_subnormal_block.d = 1 / 2 ^ 25 := half_to_float_min_subnormal.1
    have hm : half_to_float q4_k_subnormal_block.dmin = 0 := half_to_float_zero
    rw [g3, hd, hm, e1, e2, e3]
    norm_num
  · have hd : half_value q4_k_subnormal_block.d = 1 / 2 ^ 24 := half_to_float_min_subnormal.2
    have hm : half_value q4_k_subnormal_block.dmin = 0 := by
      exact half_to_float_pos_zero.symm.trans half_to_float_zero
    rw [hd, hm]
    norm_num
  · intro blk y hwf hy hd hm
    obtain ⟨y1, hrun, _, _, hval⟩ := dequantize_row_q4_k_spec blk y hwf hy
    refine ⟨y1, hrun, fun t ht => ?_⟩
    obtain ⟨sc, m, nib, g1, g2, _, g3⟩ := hval t ht
    refine ⟨sc, m, nib, g1, g2, ?_⟩
    rw [g3, half_to_float_exact _ hd, half_to_float_exact _ hm]

/-- C15: dequantize_row_q5_k computes `y[t] = d * sc * v - dmin * m` with `d` and `dmin`
the floats that half_to_float returns, which are the values of the two halves only when
these are not subnormal. For the block `q5_k_subnormal_block`, whose `d` is the subnormal
half 0x0001 (the number 2^-24) with scale 1 and `v = 1` for output 0, the function writes
`y[0] = 2^-25`, while `d * sc * v - dmin * m` is 2^-24. For every block whose `d` and
`dmin` are finite and not subnormal the outputs are the values of the claim, with
`v = nib | (bit << 4) <= 31`, every `qs` index below 128 and every `qh` index below 32. -/
theorem dequantize_row_q5_k_subnormal :
    (∃ y1, dequantize_row_q5_k [q5_k_subnormal_block] (List.replicate 256 0) 256 = some y1 ∧
      y1[0]? = some (1 / 2 ^ 25)) ∧
    (get_scale_min_k4 (0 / 32) q5_k_subnormal_block.scales = some (1, 0) ∧
      q5_k_subnormal_block.qs.getD (0 / 2) 0 % 16 = 1 ∧
      q5_k_subnormal_block.qh.getD (0 / 8) 0 / 2 ^ (0 % 8) % 2 = 0 ∧
      half_value q5_k_subnormal_block.d * ((1 : Nat) : ℚ) * ((1 + 16 * 0 : Nat) : ℚ)
        - half_value q5_k_subnormal_block.dmin * ((0 : Nat) : ℚ) = 1 / 2 ^ 24) ∧
    ∀ (blk : block_q5_k) (y : List ℚ), q5_k_wf blk → 256 ≤ y.length →
      half_not_subnormal blk.d → half_not_subnormal blk.dmin →
      ∃ y1, dequantize_row_q5_k [blk] y 256 = some y1 ∧
        ∀ t, t < 256 →
          ∃ sc m nib bit, get_scale_min_k4 (t / 32) blk.scales = some (sc, m) ∧
            t / 2 < blk.qs.length ∧ t / 8 < blk.qh.length ∧
            nib = (if t % 2 = 1 then blk.qs.getD (t / 2) 0 / 16 % 16
                   else blk.qs.getD (t / 2) 0 % 16) ∧
            bit = blk.qh.getD (t / 8) 0 / 2 ^ (t % 8) % 2 ∧
            nib ||| (bit <<< 4) = nib + 16 * bit ∧ nib + 16 * bit ≤ 31 ∧
            y1[t]? = some (half_value blk.d * (sc : ℚ) * ((nib + 16 * bit : Nat) : ℚ)
                            - half_value blk.dmin * (m : ℚ)) := by
  refine ⟨?_, ⟨by decide, by decide, by decide, ?_⟩, ?_⟩
  · obtain ⟨y1, hrun, _, _, hval⟩ := dequantize_row_q5_k_spec q5_k_subnormal_block
      (List.replicate 256 0) q5_k_subnormal_block_wf
      (le_of_eq (List.length_replicate 256 (0 : ℚ)).symm)
    refine ⟨y1, hrun, ?_⟩
    obtain ⟨sc, m, nib, bit, g1, _, _, g2, g3, _, _, g4⟩ := hval 0 (by decide)
    have e0 : get_scale_min_k4 (0 / 32) q5_k_subnormal_block.scales = some (1, 0) := by decide
    rw [e0] at g1
    have e1 : sc = 1 := (congrArg (fun t => t.1) (Option.some.inj g1)).symm
    have e2 : m = 0 := (congrArg (fun t => t.2) (Option.some.inj g1)).symm
    have e3 : nib = 1 := by rw [g2]; decide
    have e4 : bit = 0 := by rw [g3]; decide
    have hd : half_to_float q5_k_subnormal_block.d = 1 / 2 ^ 25 := half_to_float_min_subnormal.1
    have hm : half_to_float q5_k_subnormal_block.dmin = 0 := half_to_float_zero
    rw [g4, hd, hm, e1, e2, e3, e4]
    norm_num
  · have hd : half_value q5_k_subnormal_block.d = 1 / 2 ^ 24 := half_to_float_min_subnormal.2
    have hm : half_value q5_k_subnormal_block.dmin = 0 := by
      exact half_to_float_pos_zero.symm.trans half_to_float_zero
    rw [hd, hm]
    norm_num
  · intro blk y hwf hy hd hm
    obtain ⟨y1, hrun, _, _, hval⟩ := dequantize_row_q5_k_spec blk y hwf hy
    refine ⟨y1, hrun, fun t ht => ?_⟩
    obtain ⟨sc, m, nib, bit, g1, a1, a2, g2, g3, a3, a4, g4⟩ := hval t ht
    refine ⟨sc, m, nib, bit, g1, a1, a2, g2, g3, a3, a4, ?_⟩
    rw [g4, half_to_float_exact _ hd, half_to_float_exact _ hm]

/-- C16: dequantize_row_q6_k computes `y[t] = d * scales[t / 16] * q` with `d` the float
that half_to_float returns, which is the value of the half only when it is not subnormal.
For the block `q6_k_subnormal_block`, whose `d` is the subnormal half 0x0001 (the number
2^-24) with scale 1 and `q = 1` for output 0, the function writes `y[0] = 2^-25`, while
`d * scales[0] * q` is 2^-24. For every block whose `d` is finite and not subnormal the
outputs are the values of the claim, with `q = (lo | (hi << 4)) - 32` in [-32, 31], `lo` a
nibble of `ql` and `hi` a two-bit field of `qh`; no two outputs use the same nibble or the
same two-bit field, and in each half of the block (128 outputs) each of the 128 nibbles of
its 64 bytes of `ql` and each of the 128 two-bit fields of its 32 bytes of `qh` is used. -/
theorem dequantize_row_q6_k_subnormal :
    (∃ y1, dequantize_row_q6_k [q6_k_subnormal_block] (List.replicate 256 0) 256 = some y1 ∧
      y1[0]? = some (1 / 2 ^ 25)) ∧
    (q6_k_subnormal_block.scales.getD (0 / 16) 0 = 1 ∧ q6_k_quant q6_k_subnormal_block 0 = 1 ∧
      half_value q6_k_subnormal_block.d * ((1 : Int) : ℚ) * ((1 : Int) : ℚ) = 1 / 2 ^ 24) ∧
    ∀ (blk : block_q6_k) (y : List ℚ), q6_k_wf blk → 256 ≤ y.length →
      half_not_subnormal blk.d →
      ∃ y1, dequantize_row_q6_k [blk] y 256 = some y1 ∧
        (∀ t, t < 256 →
          ∃ lo hi : Nat,
            lo = (if q6_k_ql_high t then blk.ql.getD (q6_k_ql_index t) 0 >>> 4
                  else blk.ql.getD (q6_k_ql_index t) 0 &&& 0xF) ∧
            hi = (blk.qh.getD (q6_k_qh_index t) 0 >>> q6_k_qh_shift t) &&& 3 ∧
            lo < 16 ∧ hi < 4 ∧
            (-32 : Int) ≤ ((lo ||| (hi <<< 4) : Nat) : Int) - 32 ∧
            ((lo ||| (hi <<< 4) : Nat) : Int) - 32 ≤ 31 ∧
            y1[t]? = some (half_value blk.d * ((blk.scales.getD (t / 16) 0 : Int) : ℚ)
                            * ((((lo ||| (hi <<< 4) : Nat) : Int) - 32 : Int) : ℚ))) ∧
        (∀ t u, t < 256 → u < 256 → q6_k_ql_index t = q6_k_ql_index u →
          q6_k_ql_high t = q6_k_ql_high u → t = u) ∧
        (∀ t u, t < 256 → u < 256 → q6_k_qh_index t = q6_k_qh_index u →
          q6_k_qh_shift t = q6_k_qh_shift u → t = u) ∧
        (∀ c b high, c < 2 → b < 64 →
          ∃ t, 128 * c ≤ t ∧ t < 128 * c + 128 ∧ q6_k_ql_index t = 64 * c + b ∧
            q6_k_ql_high t = high) ∧
        (∀ c b f, c < 2 → b < 32 → f < 4 →
          ∃ t, 128 * c ≤ t ∧ t < 128 * c + 128 ∧ q6_k_qh_index t = 32 * c + b ∧
            q6_k_qh_shift t = 2 * f) := by
  refine ⟨?_, ⟨by decide, by decide, ?_⟩, ?_⟩
  · obtain ⟨y1, hrun, _, hval⟩ := q6_k_decode [q6_k_subnormal_block] (List.replicate 256 0)
      q6_k_subnormal_block rfl q6_k_subnormal_block_wf (List.length_replicate 256 (0 : ℚ))
    refine ⟨y1, hrun, ?_⟩
    have hd : half_to_float q6_k_subnormal_block.d = 1 / 2 ^ 25 := half_to_float_min_subnormal.1
    have hs : q6_k_subnormal_block.scales.getD (0 / 16) 0 = 1 := by decide
    have hq : q6_k_quant q6_k_subnormal_block 0 = 1 := by decide
    rw [hval 0 (by decide)]
    unfold q6_k_value
    rw [hd, hs, hq]
    norm_num
  · have hd : half_value q6_k_subnormal_block.d = 1 / 2 ^ 24 := half_to_float_min_subnormal.2
    rw [hd]
    norm_num
  · intro blk y hwf hy hd
    obtain ⟨y1, hrun, _, _, hval, u1, u2, u3, u4⟩ := dequantize_row_q6_k_spec blk y hwf hy
    refine ⟨y1, hrun, fun t ht => ?_, u1, u2, u3, u4⟩
    obtain ⟨lo, hi, g1, g2, _, _, _, a1, a2, a3, a4, g3⟩ := hval t ht
    refine ⟨lo, hi, g1, g2, a1, a2, a3, a4, ?_⟩
    rw [g3, half_to_float_exact _ hd]

/-- C23: for an F16 table op_embed returns 0 and writes
`out[i * n_embd + j] = half_to_float(table[tokens[i] * n_embd + j])`, which is the value of
the half only when the half is not subnormal. For the table of the one half 0x0001 (the
number 2^-24) and the token 0 the function writes `out[0] = 2^-25`. For every table whose
halves are finite and not subnormal the output is the value of the half, row `tokens[i]`
gathered to row `i`; and for every table dtype other than 1 (F16), 10 (Q8_0) and 12 (Q4_K)
op_embed returns -1 and leaves the output as it was. -/
theorem op_embed_subnormal :
    (op_embed (.f16 [0x0001]) 1 [0] [0] 1 1 = some (0, [1 / 2 ^ 25]) ∧
      half_value 0x0001 = 1 / 2 ^ 24) ∧
    (∀ (t : List Nat) (tokens : List Nat) (out : List ℚ) (seq_len n_embd : Nat),
      (∀ i, i < seq_len → ∃ tok, tokens[i]? = some tok ∧ tok * n_embd + n_embd ≤ t.length) →
      seq_len * n_embd ≤ out.length → (∀ h ∈ t, half_not_subnormal h) →
      ∃ o, op_embed (.f16 t) 1 tokens out seq_len n_embd = some (0, o) ∧
        o.length = out.length ∧
        ∀ i j, i < seq_len → j < n_embd →
          o.getD (i * n_embd + j) 0 = half_value (t.getD (tokens.getD i 0 * n_embd + j) 0)) ∧
    ∀ (table : embed_table) (table_dtype : Nat) (tokens1 : List Nat) (out1 : List ℚ)
      (seq_len1 n_embd1 : Nat),
      table_dtype ≠ 1 → table_dtype ≠ 10 → table_dtype ≠ 12 →
        op_embed table table_dtype tokens1 out1 seq_len1 n_embd1 = some (-1, out1) := by
  refine ⟨⟨?_, half_to_float_min_subnormal.2⟩, ?_, ?_⟩
  · have hrun : op_embed (.f16 [0x0001]) 1 [0] [0] 1 1 =
        some (0, [half_to_float 0x0001]) := by
      simp [op_embed, loop, rd, wr, List.range_succ]
    rw [hrun, half_to_float_min_subnormal.1]
  · intro t tokens out seq_len n_embd htok ho hex
    obtain ⟨o, hrun, hl, hval⟩ := (op_embed_spec t tokens out seq_len n_embd htok ho).1
    refine ⟨o, hrun, hl, fun i j hi hj => ?_⟩
    rw [hval i j hi hj]
    obtain ⟨tok, h1, h2⟩ := htok i hi
    have htk : tokens.getD i 0 = tok := by
      rw [List.getD_eq_getElem?_getD, h1]; rfl
    have hlt : tokens.getD i 0 * n_embd + j < t.length := by
      rw [htk]; omega
    apply half_to_float_exact
    apply hex
    rw [List.getD_eq_getElem?_getD, List.getElem?_eq_getElem hlt]
    exact List.getElem_mem _
  · exact (op_embed_spec [] [] [] 0 0 (fun i hi => absurd hi (Nat.not_lt_zero i))
      (Nat.zero_le _)).2

theorem with_version_length (v : Nat) (bytes : List Nat) (h : 8 ≤ bytes.length) :
    (with_version v bytes).length = bytes.length := by
  simp only [with_version, le_bytes, List.length_append, List.length_take, List.length_map,
    List.length_range, List.length_drop]
  omega

theorem with_version_drop (v : Nat) (bytes : List Nat) (pos : Nat) (h : 8 ≤ bytes.length)
    (hp : 8 ≤ pos) : (with_version v bytes).drop pos = bytes.drop pos := by
  have hl : (bytes.take 4 ++ le_bytes 4 v).length = 8 := by
    simp only [le_bytes, List.length_append, List.length_take, List.length_map,
      List.length_range]
    omega
  unfold with_version
  rw [List.drop_append_eq_append_drop, hl, List.drop_eq_nil_of_le (by omega), List.nil_append,
    List.drop_drop]
  congr 1
  omega

theorem with_version_take (v : Nat) (bytes : List Nat) (h : 8 ≤ bytes.length) :
    (with_version v bytes).take 4 = bytes.take 4 := by
  unfold with_version
  rw [List.append_assoc, List.take_append_of_le_length (by simp; omega)]
  simp

theorem with_version_field (v : Nat) (bytes : List Nat) (h : 8 ≤ bytes.length) :
    ((with_version v bytes).drop 4).take 4 = le_bytes 4 v := by
  have hl : (bytes.take 4).length = 4 := by simp; omega
  unfold with_version
  rw [List.append_assoc, List.drop_append_eq_append_drop, hl,
    List.drop_eq_nil_of_le (by omega), List.nil_append]
  simp [le_bytes]

theorem le_value_le_bytes_four (v : Nat) (h : v < 2 ^ 32) : le_value (le_bytes 4 v) = v := by
  simp only [le_value, le_bytes, List.range, List.range.loop, List.map, List.foldr]
  omega

theorem past_version_fread (v n : Nat) : past_version v (fun fp => fread fp n) := by
  intro fp hp hl
  have h1 := with_version_length v fp.bytes hl
  have h2 := with_version_drop v fp.bytes fp.pos hl hp
  constructor
  · show fread (stream_with_version v fp) n = (fread fp n).map _
    unfold fread
    simp only [stream_with_version, h1, h2]
    split
    · rfl
    · rfl
  · intro r hr
    have hr2 : fread fp n = some r := hr
    unfold fread at hr2
    split at hr2
    · cases hr2
      exact ⟨by show 8 ≤ fp.pos + n; omega, rfl⟩
    · cases hr2

theorem past_version_map {α β : Type} (v : Nat) (g : α → β)
    (R : c_file → Option (α × c_file)) (hR : past_version v R) :
    past_version v (fun fp => (R fp).map fun r => (g r.1, r.2)) := by
  intro fp hp hl
  obtain ⟨h1, h2⟩ := hR fp hp hl
  constructor
  · show (R (stream_with_version v fp)).map (fun r => (g r.1, r.2)) =
      ((R fp).map fun r => (g r.1, r.2)).map (fun r => (r.1, stream_with_version v r.2))
    rw [h1]
    cases R fp <;> rfl
  · intro r hr
    have hr2 : (R fp).map (fun r => (g r.1, r.2)) = some r := hr
    cases h : R fp with
    | none => rw [h] at hr2; cases hr2
    | some r0 =>
      rw [h] at hr2
      cases hr2
      exact h2 r0 h

theorem past_version_bind {α β : Type} (v : Nat) (R : c_file → Option (α × c_file))
    (K : α → c_file → Option (β × c_file)) (hR : past_version v R)
    (hK : ∀ a, past_version v (K a)) :
    past_version v (fun fp => (R fp).bind fun r => K r.1 r.2) := by
  intro fp hp hl
  obtain ⟨h1, h2⟩ := hR fp hp hl
  constructor
  · show (R (stream_with_version v fp)).bind (fun r => K r.1 r.2) =
      ((R fp).bind fun r => K r.1 r.2).map (fun r => (r.1, stream_with_version v r.2))
    rw [h1]
    cases h : R fp with
    | none => rfl
    | some r0 =>
      obtain ⟨g1, g2⟩ := h2 r0 h
      exact (hK r0.1 r0.2 g1 (by rw [g2]; exact hl)).1
  · intro r hr
    have hr2 : (R fp).bind (fun r => K r.1 r.2) = some r := hr
    cases h : R fp with
    | none => rw [h] at hr2; cases hr2
    | some r0 =>
      rw [h] at hr2
      obtain ⟨g1, g2⟩ := h2 r0 h
      obtain ⟨k1, k2⟩ := (hK r0.1 r0.2 g1 (by rw [g2]; exact hl)).2 r hr2
      exact ⟨k1, k2.trans g2⟩

theorem past_version_pure {α : Type} (v : Nat) (a : α) :
    past_version v (fun fp => some (a, fp)) := by
  intro fp hp hl
  exact ⟨rfl, fun r hr => by cases hr; exact ⟨hp, rfl⟩⟩

theorem past_version_none {α : Type} (v : Nat) :
    past_version v (fun _ => (none : Option (α × c_file))) := by
  intro fp hp hl
  exact ⟨rfl, fun r hr => by cases hr⟩

theorem past_version_ite {α : Type} (v : Nat) (c : Prop) [Decidable c]
    (R S : c_file → Option (α × c_file)) (hR : past_version v R) (hS : past_version v S) :
    past_version v (fun fp => if c then R fp else S fp) := by
  by_cases hc : c
  · simp only [hc, if_true]; exact hR
  · simp only [hc, if_false]; exact hS

theorem past_version_loop {β : Type} (v : Nat) (R : c_file → Option (β × c_file))
    (hR : past_version v R) (n : Nat) :
    ∀ acc : List β, past_version v (fun fp =>
      loop n (fun _ (s : List β × c_file) =>
        (R s.2).bind fun r => some (s.1 ++ [r.1], r.2)) (acc, fp)) := by
  induction n with
  | zero =>
    intro acc
    exact past_version_pure v acc
  | succ n ih =>
    intro acc
    have h := past_version_bind v _
      (fun (a : List β) fp => (R fp).bind fun r => some (a ++ [r.1], r.2)) (ih acc)
      (fun a => past_version_bind v R (fun b fp => some (a ++ [b], fp)) hR
        (fun b => past_version_pure v _))
    intro fp hp hl
    have e : ∀ fp0 : c_file, loop (n + 1) (fun _ (s : List β × c_file) =>
        (R s.2).bind fun r => some (s.1 ++ [r.1], r.2)) (acc, fp0) =
        (loop n (fun _ (s : List β × c_file) =>
          (R s.2).bind fun r => some (s.1 ++ [r.1], r.2)) (acc, fp0)).bind
          fun r => (R r.2).bind fun r1 => some (r.1 ++ [r1.1], r1.2) := fun fp0 =>
      loop_succ n _ _
    simp only [e]
    exact h fp hp hl

theorem past_version_read_u32 (v : Nat) : past_version v read_u32 :=
  past_version_map v le_value _ (past_version_fread v 4)

theorem past_version_read_u64 (v : Nat) : past_version v read_u64 :=
  past_version_map v le_value _ (past_version_fread v 8)

theorem past_version_read_i64 (v : Nat) : past_version v read_i64 :=
  past_version_map v
    (fun bs => if le_value bs < 2 ^ 63 then (le_value bs : Int) else (le_value bs : Int) - 2 ^ 64)
    _ (past_version_fread v 8)

theorem past_version_then {α β : Type} (v : Nat) (R : c_file → Option (α × c_file))
    (K : α × c_file → Option (β × c_file)) (hR : past_version v R)
    (hK : ∀ a, past_version v (fun fp => K (a, fp))) :
    past_version v (fun fp => (R fp).bind K) :=
  past_version_bind v R (fun a fp => K (a, fp)) hR hK

theorem past_version_read_string (v : Nat) : past_version v read_string := by
  delta read_string
  apply past_version_then v _ _ (past_version_read_u64 v)
  intro len
  dsimp only
  apply past_version_ite v _ _ _ (past_version_none v)
  apply past_version_ite
  · apply past_version_then v _ _ (past_version_fread v len)
    intro s
    dsimp only
    exact past_version_pure v _
  · exact past_version_pure v _

theorem past_version_array (v : Nat) : past_version v gguf_read_header_array := by
  delta gguf_read_header_array
  apply past_version_then v _ _ (past_version_read_u32 v)
  intro arr_type
  dsimp only
  apply past_version_then v _ _ (past_version_read_u64 v)
  intro n
  dsimp only
  apply past_version_ite
  · apply past_version_then v _ _
      (past_version_loop v read_string (past_version_read_string v) n [])
    intro strs
    dsimp only
    exact past_version_pure v _
  · apply past_version_ite v _ _ _ (past_version_none v)
    apply past_version_ite
    · apply past_version_then v _ _ (past_version_fread v _)
      intro buf
      dsimp only
      exact past_version_pure v _
    · exact past_version_pure v _

theorem past_version_kv (v : Nat) : past_version v gguf_read_header_kv := by
  delta gguf_read_header_kv
  apply past_version_then v _ _ (past_version_read_string v)
  intro key
  dsimp only
  apply past_version_then v _ _ (past_version_read_u32 v)
  intro type
  dsimp only
  apply past_version_ite
  · apply past_version_then v _ _ (past_version_array v)
    intro arr
    dsimp only
    exact past_version_pure v _
  · apply past_version_ite
    · apply past_version_then v _ _ (past_version_read_string v)
      intro val
      dsimp only
      exact past_version_pure v _
    · apply past_version_ite v _ _ _ (past_version_none v)
      apply past_version_then v _ _ (past_version_fread v _)
      intro val
      dsimp only
      exact past_version_pure v _

theorem past_version_tensor (v : Nat) : past_version v gguf_read_header_tensor := by
  delta gguf_read_header_tensor
  apply past_version_then v _ _ (past_version_read_string v)
  intro name
  dsimp only
  apply past_version_then v _ _ (past_version_read_u32 v)
  intro n_dims
  dsimp only
  apply past_version_then v _ _
    (past_version_loop v read_i64 (past_version_read_i64 v) n_dims [])
  intro dims
  dsimp only
  apply past_version_then v _ _ (past_version_read_u32 v)
  intro ttype
  dsimp only
  apply past_version_then v _ _ (past_version_read_u64 v)
  intro off
  dsimp only
  exact past_version_pure v _

theorem past_version_body (v : Nat) : past_version v gguf_read_header_body := by
  delta gguf_read_header_body
  apply past_version_then v _ _ (past_version_read_i64 v)
  intro n_tensors
  dsimp only
  apply past_version_then v _ _ (past_version_read_i64 v)
  intro n_kv
  dsimp only
  apply past_version_ite v _ _ _ (past_version_none v)
  apply past_version_then v _ _
    (past_version_loop v gguf_read_header_kv (past_version_kv v) n_kv.toNat [])
  intro kvs
  dsimp only
  apply past_version_then v _ _
    (past_version_loop v gguf_read_header_tensor (past_version_tensor v) n_tensors.toNat [])
  intro ts
  dsimp only
  exact past_version_pure v _

/-- gguf_read_header_meta in terms of the part after the version field. -/
theorem gguf_read_header_meta_body (f : gguf_file) :
    gguf_read_header_meta f =
      (fread f.fp 4).bind fun r0 =>
        if r0.1 ≠ "GGUF".toList.map Char.toNat then none
        else (read_u32 r0.2).bind fun rv =>
          (gguf_read_header_body rv.2).map fun t =>
            { f with fp := t.2, version := rv.1,
                     alignment := gguf_read_header_alignment t.1.1, kvs := t.1.1,
                     tensors := t.1.2,
                     data_start := align_up t.2.pos (gguf_read_header_alignment t.1.1) } := by
  unfold gguf_read_header_meta gguf_read_header_body
  cases h0 : fread f.fp 4 with
  | none => rfl
  | some r0 =>
    simp only [Option.bind_eq_bind, Option.some_bind, Option.pure_def]
    split
    · rfl
    · cases h1 : read_u32 r0.2 with
      | none => rfl
      | some rv =>
        simp only [Option.some_bind]
        cases h2 : read_i64 rv.2 with
        | none => rfl
        | some r1 =>
          simp only [Option.some_bind]
          cases h3 : read_i64 r1.2 with
          | none => rfl
          | some r2 =>
            simp only [Option.some_bind]
            split
            · rfl
            · simp only [Option.map_bind]
              congr 1
              funext r3
              simp only [Function.comp_apply, Option.map_bind]
              congr 1
theorem gguf_open_with_version (v : Nat) (bytes : List Nat) (use_mmap mmap_ok : Bool)
    (h : 8 ≤ bytes.length) :
    gguf_open (with_version v bytes) use_mmap mmap_ok =
      { gguf_open bytes use_mmap mmap_ok with
        fp := { bytes := with_version v bytes, pos := 0 } } := by
  unfold gguf_open
  simp only [with_version_length v bytes h]

/-- The header up to the tensor descriptors does not depend on the version field, except
for the version that it stores. -/
theorem gguf_read_header_meta_with_version (v : Nat) (bytes : List Nat)
    (use_mmap mmap_ok : Bool) (h : 8 ≤ bytes.length) (hv : v < 2 ^ 32) :
    gguf_read_header_meta (gguf_open (with_version v bytes) use_mmap mmap_ok) =
      (gguf_read_header_meta (gguf_open bytes use_mmap mmap_ok)).map fun g =>
        { g with version := v, fp := stream_with_version v g.fp } := by
  rw [gguf_open_with_version v bytes use_mmap mmap_ok h, gguf_read_header_meta_body,
    gguf_read_header_meta_body]
  have hl := with_version_length v bytes h
  have e0 : (gguf_open bytes use_mmap mmap_ok).fp = { bytes := bytes, pos := 0 } := rfl
  have f1 : fread { bytes := with_version v bytes, pos := 0 } 4 =
      some (bytes.take 4, { bytes := with_version v bytes, pos := 4 }) := by
    unfold fread
    rw [if_pos (by show 0 + 4 ≤ (with_version v bytes).length; omega)]
    simp only [List.drop_zero, with_version_take v bytes h, Nat.zero_add]
  have f2 : fread { bytes := bytes, pos := 0 } 4 =
      some (bytes.take 4, { bytes := bytes, pos := 4 }) := by
    unfold fread
    rw [if_pos (by show 0 + 4 ≤ bytes.length; omega)]
    simp only [List.drop_zero, Nat.zero_add]
  have u1 : read_u32 { bytes := with_version v bytes, pos := 4 } =
      some (v, stream_with_version v { bytes := bytes, pos := 8 }) := by
    unfold read_u32 fread
    rw [if_pos (by show 4 + 4 ≤ (with_version v bytes).length; omega)]
    simp only [Option.map_some', with_version_field v bytes h, le_value_le_bytes_four v hv]
    rfl
  have u2 : read_u32 { bytes := bytes, pos := 4 } =
      some (le_value ((bytes.drop 4).take 4), { bytes := bytes, pos := 8 }) := by
    unfold read_u32 fread
    rw [if_pos (by show 4 + 4 ≤ bytes.length; omega)]
    rfl
  have hb := (past_version_body v { bytes := bytes, pos := 8 } (le_refl 8) h).1
  dsimp only
  rw [e0, f1, f2]
  simp only [Option.some_bind]
  split
  · rfl
  · rw [u1, u2]
    simp only [Option.some_bind]
    rw [hb]
    cases gguf_read_header_body { bytes := bytes, pos := 8 } with
    | none => rfl
    | some t => rfl

/-- The size loop of gguf_read_header looks at the tensors, the file size and the start of
the data region only. -/
theorem gguf_read_header_sizes_with_version (v : Nat) (g : gguf_file) :
    gguf_read_header_sizes { g with version := v, fp := stream_with_version v g.fp } =
      (gguf_read_header_sizes g).map fun g1 =>
        { g1 with version := v, fp := stream_with_version v g1.fp } := by
  have e : gguf_read_header_size { g with version := v, fp := stream_with_version v g.fp } =
      gguf_read_header_size g := rfl
  unfold gguf_read_header_sizes
  dsimp only
  rw [e]
  cases loop g.tensors.length (gguf_read_header_size g) g.tensors <;> rfl

/-- What gguf_read_header stores as the version: the four bytes after the magic. -/
theorem gguf_read_header_version (bytes : List Nat) (use_mmap mmap_ok : Bool) (g : gguf_file)
    (h : gguf_read_header (gguf_open bytes use_mmap mmap_ok) = some g) :
    8 ≤ bytes.length ∧ g.version = le_value ((bytes.drop 4).take 4) := by
  unfold gguf_read_header at h
  rw [gguf_read_header_meta_body] at h
  have e0 : (gguf_open bytes use_mmap mmap_ok).fp = { bytes := bytes, pos := 0 } := rfl
  rw [e0] at h
  cases h0 : fread { bytes := bytes, pos := 0 } 4 with
  | none => rw [h0] at h; cases h
  | some r0 =>
    have h0c := h0
    unfold fread at h0c
    split at h0c
    · rename_i hlen
      have hr0 : r0.2 = { bytes := bytes, pos := 4 } := by
        cases h0c; rfl
      rw [h0] at h
      simp only [Option.some_bind] at h
      split at h
      · cases h
      · rw [hr0] at h
        cases h1 : read_u32 { bytes := bytes, pos := 4 } with
        | none => rw [h1] at h; cases h
        | some rv =>
          have h1c := h1
          unfold read_u32 fread at h1c
          split at h1c
          · rename_i hlen2
            have hl8 : 4 + 4 ≤ bytes.length := hlen2
            have hrv : rv.1 = le_value ((bytes.drop 4).take 4) := by
              cases h1c; rfl
            rw [h1] at h
            simp only [Option.some_bind] at h
            cases hb : gguf_read_header_body rv.2 with
            | none => rw [hb] at h; cases h
            | some t =>
              rw [hb] at h
              simp only [Option.map_some', Option.some_bind] at h
              unfold gguf_read_header_sizes at h
              cases hs : loop _ _ _ with
              | none => rw [hs] at h; cases h
              | some ts =>
                rw [hs] at h
                cases h
                exact ⟨by omega, hrv⟩
          · cases h1c
    · cases h0c

set_option maxRecDepth 1000000 in
/-- C31 fails as stated: the test container with the version field set to 0 or to
0xFFFFFFFF is accepted by gguf_read_header, with that version and the same data region and
tensors as with version 3. -/
theorem gguf_read_header_version_unchecked :
    (gguf_read_header (gguf_open (gguf_version_bytes 0) false false)).map
      (fun g => (g.version, g.data_start, g.tensors.map fun t => (t.offset, t.size))) =
      some (0, 96, [(0, 32), (32, 32)]) ∧
    (gguf_read_header (gguf_open (gguf_version_bytes 0xFFFFFFFF) false false)).map
      (fun g => (g.version, g.data_start, g.tensors.map fun t => (t.offset, t.size))) =
      some (0xFFFFFFFF, 96, [(0, 32), (32, 32)]) ∧
    gguf_version_bytes 3 = gguf_test_bytes := by
  refine ⟨?_, ?_, ?_⟩
  · decide
  · decide
  · decide

/-- C31, as the code has it: gguf_read_header rejects every file whose first four bytes
are not `GGUF`. The version field is read and stored, never compared: when the header is
accepted the stored version is the number in bytes 4 to 7, and replacing the version field
of a file by any other 32-bit number changes neither whether the header is accepted nor
anything of the result but the stored version (and the bytes of the stream). -/
theorem gguf_read_header_version_ignored :
    (∀ (bytes : List Nat) (use_mmap mmap_ok : Bool),
      bytes.take 4 ≠ "GGUF".toList.map Char.toNat →
      gguf_read_header (gguf_open bytes use_mmap mmap_ok) = none) ∧
    (∀ (bytes : List Nat) (use_mmap mmap_ok : Bool) (g : gguf_file),
      gguf_read_header (gguf_open bytes use_mmap mmap_ok) = some g →
      8 ≤ bytes.length ∧ g.version = le_value ((bytes.drop 4).take 4)) ∧
    (∀ (bytes : List Nat) (v : Nat) (use_mmap mmap_ok : Bool),
      8 ≤ bytes.length → v < 2 ^ 32 →
      gguf_read_header (gguf_open (with_version v bytes) use_mmap mmap_ok) =
        (gguf_read_header (gguf_open bytes use_mmap mmap_ok)).map fun g =>
          { g with version := v, fp := stream_with_version v g.fp }) := by
  refine ⟨gguf_read_header_magic, gguf_read_header_version, ?_⟩
  intro bytes v use_mmap mmap_ok h hv
  unfold gguf_read_header
  rw [gguf_read_header_meta_with_version v bytes use_mmap mmap_ok h hv]
  cases gguf_read_header_meta (gguf_open bytes use_mmap mmap_ok) with
  | none => rfl
  | some g => exact gguf_read_header_sizes_with_version v g

set_option maxRecDepth 1000000 in
/-- C31 on examples: a file that starts with `GGUX` is rejected, and the test container
with the version field set to 7 is accepted exactly as the test container is, with
version 7. -/
theorem gguf_read_header_version_ignored_witness :
    gguf_read_header (gguf_open [71, 71, 85, 88, 3, 0, 0, 0] false false) = none ∧
    gguf_read_header (gguf_open (with_version 7 gguf_test_bytes) false false) =
      (gguf_read_header (gguf_open gguf_test_bytes false false)).map fun g =>
        { g with version := 7, fp := stream_with_version 7 g.fp } :=
  ⟨gguf_read_header_version_ignored.1 [71, 71, 85, 88, 3, 0, 0, 0] false false (by decide),
   gguf_read_header_version_ignored.2.2 gguf_test_bytes 7 false false (by decide) (by decide)⟩

theorem thread_step_buffers (w : thread_pool) (ev : thread_event) :
    (thread_step w ev).pool.buffers =
      match ev with
      | thread_event.request l =>
        (match find_empty w.pool.buffers with
         | none => w.pool.buffers
         | some idx => w.pool.buffers.modify (mark_loading l) idx)
      | thread_event.check _ => w.pool.buffers
      | thread_event.finish r =>
        (match w.loading with
         | none => w.pool.buffers
         | some i => w.pool.buffers.modify (prefetch_thread_store r) i)
      | thread_event.wait idx _ =>
        w.pool.buffers.modify (fun b => if b.state = BUF_READY then mark_in_use b else b) idx
      | thread_event.release idx => w.pool.buffers.modify clear_buffer idx := by
  cases ev with
  | request l => exact request_buffers w.pool l
  | check i =>
    show (prefetch_thread_check w i).pool.buffers = _
    unfold prefetch_thread_check
    cases w.loading with
    | some j => rfl
    | none =>
      dsimp only
      cases w.pool.buffers[i]? with
      | none => rfl
      | some b => dsimp only; split <;> rfl
  | finish r =>
    show (prefetch_thread_finish w r).pool.buffers = _
    unfold prefetch_thread_finish
    cases w.loading <;> rfl
  | wait idx wtd => exact wait_poll_buffers w.pool idx wtd
  | release idx => rfl

theorem thread_step_loading (w : thread_pool) (ev : thread_event) (i : Nat)
    (h : (thread_step w ev).loading = some i) :
    w.loading = some i ∨
      (∃ k, ev = thread_event.check k) ∧ ∃ b, w.pool.buffers[i]? = some b ∧
        b.state = BUF_LOADING := by
  cases ev with
  | request l => exact Or.inl h
  | wait idx wtd => exact Or.inl h
  | release idx => exact Or.inl h
  | finish r =>
    have h2 : (prefetch_thread_finish w r).loading = some i := h
    unfold prefetch_thread_finish at h2
    cases hl : w.loading with
    | none => rw [hl] at h2; dsimp only at h2; rw [hl] at h2; cases h2
    | some j => rw [hl] at h2; cases h2
  | check k =>
    have h2 : (prefetch_thread_check w k).loading = some i := h
    unfold prefetch_thread_check at h2
    cases hl : w.loading with
    | some j => rw [hl] at h2; dsimp only at h2; rw [hl] at h2; exact Or.inl h2
    | none =>
      rw [hl] at h2
      dsimp only at h2
      cases hb : w.pool.buffers[k]? with
      | none => rw [hb] at h2; dsimp only at h2; rw [hl] at h2; cases h2
      | some b =>
        rw [hb] at h2
        dsimp only at h2
        split at h2
        · rename_i hs
          have hki : k = i := Option.some.inj h2
          subst hki
          exact Or.inr ⟨⟨k, rfl⟩, b, hb, hs⟩
        · rw [hl] at h2; cases h2

/-- One step from a state in which the held buffers are IN_USE and the buffer being loaded
is LOADING, a release being of a held buffer: each buffer stays as it is or moves along
the edge of the step, and the two facts hold again afterwards. -/
theorem thread_step_inv (w : thread_pool) (held : List Nat) (ev : thread_event)
    (hinv : thread_inv w held) (hrel : thread_release_held held ev = true) :
    (∀ (i : Nat) (b c : layer_buffer), w.pool.buffers[i]? = some b →
      (thread_step w ev).pool.buffers[i]? = some c →
      c = b ∨ event_edge ev b.state c.state = true) ∧
    thread_inv (thread_step w ev) (thread_held_after w held ev) := by
  obtain ⟨hheld, hload⟩ := hinv
  have hedge : ∀ (i : Nat) (b c : layer_buffer), w.pool.buffers[i]? = some b →
      (thread_step w ev).pool.buffers[i]? = some c →
      c = b ∨ event_edge ev b.state c.state = true := by
    intro i b c hb hc
    rw [thread_step_buffers] at hc
    cases ev with
    | request l =>
      dsimp only at hc
      cases hfe : find_empty w.pool.buffers with
      | none => rw [hfe] at hc; dsimp only at hc; rw [hb] at hc; exact Or.inl (Option.some.inj hc).symm
      | some k =>
        rw [hfe] at hc
        dsimp only at hc
        rw [modify_slot _ _ k i b hb] at hc
        have hc2 := (Option.some.inj hc).symm
        by_cases hki : k = i
        · rw [if_pos hki] at hc2
          obtain ⟨⟨b0, hb0, hbe⟩, _⟩ := find_empty_some hfe
          rw [hki, hb] at hb0
          cases hb0
          right
          rw [hc2, hbe]
          rfl
        · rw [if_neg hki] at hc2
          exact Or.inl hc2
    | check k =>
      dsimp only at hc
      rw [hb] at hc
      exact Or.inl (Option.some.inj hc).symm
    | finish r =>
      dsimp only at hc
      cases hl : w.loading with
      | none => rw [hl] at hc; dsimp only at hc; rw [hb] at hc; exact Or.inl (Option.some.inj hc).symm
      | some k =>
        rw [hl] at hc
        dsimp only at hc
        rw [modify_slot _ _ k i b hb] at hc
        have hc2 := (Option.some.inj hc).symm
        by_cases hki : k = i
        · rw [if_pos hki] at hc2
          obtain ⟨b0, hb0, hbl⟩ := hload k hl
          rw [hki, hb] at hb0
          cases hb0
          right
          rw [hc2, hbl]
          cases hok : r.ok <;> simp [prefetch_thread_store, event_edge, hok]
        · rw [if_neg hki] at hc2
          exact Or.inl hc2
    | wait k wtd =>
      dsimp only at hc
      rw [modify_slot _ _ k i b hb] at hc
      have hc2 := (Option.some.inj hc).symm
      by_cases hki : k = i
      · rw [if_pos hki] at hc2
        by_cases hs : b.state = BUF_READY
        · rw [if_pos hs] at hc2
          right
          rw [hc2, hs]
          rfl
        · rw [if_neg hs] at hc2
          exact Or.inl hc2
      · rw [if_neg hki] at hc2
        exact Or.inl hc2
    | release k =>
      dsimp only at hc
      rw [modify_slot _ _ k i b hb] at hc
      have hc2 := (Option.some.inj hc).symm
      by_cases hki : k = i
      · rw [if_pos hki] at hc2
        have hk : k ∈ held := of_decide_eq_true hrel
        have hs : b.state = BUF_IN_USE := hheld k hk b (by rw [hki]; exact hb)
        right
        rw [hc2, hs]
        rfl
      · rw [if_neg hki] at hc2
        exact Or.inl hc2
  refine ⟨hedge, ?_, ?_⟩
  · -- the held buffers are IN_USE
    cases ev with
    | request l => exact pool_step_held w.pool held (pool_event.request l) hheld
    | wait idx wtd => exact pool_step_held w.pool held (pool_event.wait idx wtd) hheld
    | release idx => exact pool_step_held w.pool held (pool_event.release idx) hheld
    | check k =>
      intro j hj c hc
      have hbuf := thread_step_buffers w (thread_event.check k)
      dsimp only at hbuf
      rw [hbuf] at hc
      exact hheld j hj c hc
    | finish r =>
      intro j hj c hc
      have hj0 : j ∈ held := hj
      have hbuf := thread_step_buffers w (thread_event.finish r)
      dsimp only at hbuf
      rw [hbuf] at hc
      cases hl : w.loading with
      | none => rw [hl] at hc; exact hheld j hj0 c hc
      | some k =>
        rw [hl] at hc
        dsimp only at hc
        obtain ⟨b, hb, hcb⟩ := modify_slot_inv _ _ k j c hc
        by_cases hkj : k = j
        · obtain ⟨b0, hb0, hbl⟩ := hload k hl
          rw [hkj, hb] at hb0
          cases hb0
          have := hheld j hj0 b hb
          rw [this] at hbl
          cases hbl
        · rw [if_neg hkj] at hcb
          rw [hcb]
          exact hheld j hj0 b hb
  · -- the buffer being loaded is LOADING
    intro i hi
    have hsrc : ∃ b, w.pool.buffers[i]? = some b ∧ b.state = BUF_LOADING := by
      rcases thread_step_loading w ev i hi with h | ⟨_, h⟩
      · exact hload i h
      · exact h
    obtain ⟨b, hb, hbl⟩ := hsrc
    have hlen : i < (thread_step w ev).pool.buffers.length := by
      have hi2 : i < w.pool.buffers.length := (List.getElem?_eq_some_iff.mp hb).1
      rw [thread_step_buffers]
      cases ev with
      | request l =>
        dsimp only
        cases find_empty w.pool.buffers <;> simp [hi2]
      | check k => exact hi2
      | finish r =>
        dsimp only
        cases w.loading <;> simp [hi2]
      | wait idx wtd => simp [hi2]
      | release idx => simp [hi2]
    obtain ⟨c, hc⟩ : ∃ c, (thread_step w ev).pool.buffers[i]? = some c :=
      ⟨_, List.getElem?_eq_getElem hlen⟩
    refine ⟨c, hc, ?_⟩
    rcases hedge i b c hb hc with h | h
    · rw [h]; exact hbl
    · -- the step moved the buffer: only a finish moves a LOADING buffer, and then no load
      -- is under way
      rw [hbl] at h
      cases ev with
      | request l => simp [event_edge] at h
      | check k => simp [event_edge] at h
      | wait idx wtd => simp [event_edge] at h
      | release idx => simp [event_edge] at h
      | finish r =>
        have h2 : (prefetch_thread_finish w r).loading = some i := hi
        unfold prefetch_thread_finish at h2
        cases hl : w.loading with
        | none => rw [hl] at h2; dsimp only at h2; rw [hl] at h2; cases h2
        | some j => rw [hl] at h2; cases h2

/-- A sequence of steps in which only held buffers are released moves the buffers along
the edges only. -/
theorem thread_run_edges (evs : List thread_event) :
    ∀ (w : thread_pool) (held : List Nat), thread_inv w held →
      thread_releases_held w held evs = true → thread_edges w evs := by
  induction evs with
  | nil => intro w held _ _; exact True.intro
  | cons ev evs ih =>
    intro w held hinv hrel
    have hrel2 : (thread_release_held held ev &&
      thread_releases_held (thread_step w ev) (thread_held_after w held ev) evs) = true := hrel
    rw [Bool.and_eq_true] at hrel2
    obtain ⟨h1, h2⟩ := thread_step_inv w held ev hinv hrel2.1
    exact ⟨h1, ih _ _ h2 hrel2.2⟩

/-- An edge of a step is one of the five edges of the buffer life cycle. -/
theorem event_edge_buffer_edge (ev : thread_event) (s t : buffer_state)
    (h : event_edge ev s t = true) : buffer_edge s t = true := by
  cases ev <;> cases s <;> cases t <;> first | rfl | (simp [event_edge] at h)

/-- A new pool has no buffer in use and no load under way. -/
theorem thread_inv_idle (p : prefetcher) : thread_inv { pool := p, loading := none } [] :=
  ⟨fun idx h => absurd h (List.not_mem_nil idx), fun i h => by cases h⟩
/-- The two halves of a load taken together are the single step worker_complete, as long
as the buffer is still LOADING when the load ends. -/
theorem thread_finish_atomic (w : thread_pool) (held : List Nat) (r : load_result) (i : Nat)
    (hinv : thread_inv w held) (hl : w.loading = some i) :
    (thread_step w (thread_event.finish r)).pool = worker_complete w.pool i r := by
  obtain ⟨b, hb, hbl⟩ := hinv.2 i hl
  have hm : w.pool.buffers.modify (prefetch_thread_store r) i =
      w.pool.buffers.modify (store_load r) i := by
    apply List.ext_getElem?
    intro j
    rw [List.getElem?_modify, List.getElem?_modify]
    by_cases hij : i = j
    · subst hij
      rw [hb]
      simp [store_load, prefetch_thread_store, hbl]
    · simp [hij]
  show (prefetch_thread_finish w r).pool = _
  unfold prefetch_thread_finish worker_complete
  rw [hl]
  dsimp only
  rw [hm]

/-- One step of the pool with the worker is the single steps it amounts to, as long as the
buffer being loaded is LOADING. -/
theorem thread_step_atomic (w : thread_pool) (held : List Nat) (ev : thread_event)
    (hinv : thread_inv w held) :
    (thread_step w ev).pool = pool_run w.pool (thread_atomic w ev) := by
  cases ev with
  | request l => rfl
  | wait idx wtd => rfl
  | release idx => rfl
  | check i =>
    show (prefetch_thread_check w i).pool = w.pool
    unfold prefetch_thread_check
    cases w.loading with
    | some j => rfl
    | none =>
      dsimp only
      cases w.pool.buffers[i]? with
      | none => rfl
      | some b => dsimp only; split <;> rfl
  | finish r =>
    cases hl : w.loading with
    | none =>
      show (prefetch_thread_finish w r).pool = pool_run w.pool (thread_atomic w _)
      unfold prefetch_thread_finish thread_atomic
      rw [hl]
      rfl
    | some i =>
      rw [thread_finish_atomic w held r i hinv hl]
      unfold thread_atomic
      rw [hl]
      rfl

/-- A sequence of steps of the pool with the worker in which only held buffers are
released leaves the pool that the single steps leave, the load of a buffer taken as one
step. -/
theorem thread_run_atomic (evs : List thread_event) :
    ∀ (w : thread_pool) (held : List Nat), thread_inv w held →
      thread_releases_held w held evs = true →
      (thread_run w evs).pool = pool_run w.pool (thread_atomic_run w evs) := by
  induction evs with
  | nil => intro w held _ _; rfl
  | cons ev evs ih =>
    intro w held hinv hrel
    have hrel2 : (thread_release_held held ev &&
      thread_releases_held (thread_step w ev) (thread_held_after w held ev) evs) = true := hrel
    rw [Bool.and_eq_true] at hrel2
    obtain ⟨_, h2⟩ := thread_step_inv w held ev hinv hrel2.1
    have hstep := thread_step_atomic w held ev hinv
    show (thread_run (thread_step w ev) evs).pool =
      pool_run w.pool (thread_atomic w ev ++ thread_atomic_run (thread_step w ev) evs)
    rw [ih _ _ h2 hrel2.2, hstep]
    unfold pool_run
    rw [List.foldl_append]

/-- C5 fails as stated, for the release and for the worker. In the pool where slot 0 is
LOADING again (for layer 1), a second release of the buffer that the wait had handed out
moves it from LOADING to EMPTY. When the worker has already started the load of that
buffer, the end of the load then moves it from EMPTY to READY. Neither is one of the five
edges. -/
theorem release_from_loading :
    (pool_after_rerequest.buffers[0]?).map (fun b => b.state) = some BUF_LOADING ∧
    ((prefetcher_release pool_after_rerequest 0).buffers[0]?).map (fun b => b.state)
      = some BUF_EMPTY ∧
    buffer_edge BUF_LOADING BUF_EMPTY = false ∧
    thread_pool_mid_load.pool = pool_after_rerequest ∧
    thread_pool_mid_load.loading = some 0 ∧
    ((thread_step thread_pool_mid_load (thread_event.release 0)).pool.buffers[0]?).map
      (fun b => b.state) = some BUF_EMPTY ∧
    ((thread_run thread_pool_mid_load
        [thread_event.release 0, thread_event.finish (load_always 1)]).pool.buffers[0]?).map
      (fun b => b.state) = some BUF_READY ∧
    buffer_edge BUF_EMPTY BUF_READY = false := by
  decide

/-- C5, as the code has it. The pool is changed under the lock by prefetcher_request, by
the worker when it finds a buffer LOADING and when the load of that buffer ends, by
prefetcher_wait and by prefetcher_release. As long as the compute thread releases only
buffers that prefetcher_wait has returned and that it has not released since, every step
leaves each buffer as it is or moves its state along the edge of the step: EMPTY ->
LOADING for a request, LOADING -> READY or LOADING -> ERROR for the end of a load, READY ->
IN_USE for a wait, IN_USE -> EMPTY for a release; this holds from every state with no
buffer held and no load under way, such as a new pool. prefetcher_wait returns a buffer
only by moving it from READY to IN_USE. Neither prefetcher_release nor the end of a load
looks at the state: the release sets the buffer to EMPTY and clears layer id, size and
view, and the end of a load stores the view and sets READY or ERROR, whatever the state
is. -/
theorem thread_step_edges :
    (∀ (w : thread_pool) (held : List Nat) (evs : List thread_event),
      thread_inv w held → thread_releases_held w held evs = true → thread_edges w evs) ∧
    (∀ p : prefetcher, thread_inv { pool := p, loading := none } []) ∧
    (∀ (ev : thread_event) (s t : buffer_state),
      event_edge ev s t = true → buffer_edge s t = true) ∧
    (∀ (p : prefetcher) (idx : Nat) (waited : Bool) (k : Nat),
      (prefetcher_wait_poll p idx waited).2 = wait_poll.got k →
      k = idx ∧ ∃ b, p.buffers[idx]? = some b ∧ b.state = BUF_READY ∧
        (prefetcher_wait_poll p idx waited).1.buffers[idx]? =
          some { b with state := BUF_IN_USE }) ∧
    (∀ (p : prefetcher) (idx : Nat) (b : layer_buffer), p.buffers[idx]? = some b →
      (prefetcher_release p idx).buffers[idx]? =
        some { b with state := BUF_EMPTY, layer_id := 0, size := 0,
                      view := layer_view.zero } ∧
      ∀ j, j ≠ idx → (prefetcher_release p idx).buffers[j]? = p.buffers[j]?) ∧
    (∀ (w : thread_pool) (i : Nat) (r : load_result) (b : layer_buffer),
      w.loading = some i → w.pool.buffers[i]? = some b →
      (thread_step w (thread_event.finish r)).pool.buffers[i]? =
        some { b with view := r.view, size := if r.ok then r.used else b.size,
                      state := if r.ok then BUF_READY else BUF_ERROR }) := by
  refine ⟨fun w held evs => thread_run_edges evs w held, thread_inv_idle,
    event_edge_buffer_edge, ?_, ?_, ?_⟩
  · intro p idx waited k h
    exact pool_step_edges_wait p idx waited k h
  · intro p idx b hb
    refine ⟨?_, ?_⟩
    · simp [prefetcher_release, List.getElem?_modify, hb, clear_buffer]
    · intro j hj
      simp only [prefetcher_release, List.getElem?_modify]
      cases p.buffers[j]? <;> simp [Ne.symm hj]
  · intro w i r b hl hb
    rw [thread_step_buffers]
    dsimp only
    rw [hl]
    dsimp only
    rw [modify_slot _ _ i i b hb, if_pos rfl]
    rfl

/-- C5 on an example: in a pool of two EMPTY buffers, a request, the load by the worker,
the wait and the release of the buffer move slot 0 along the edges only. -/
theorem thread_step_edges_witness :
    thread_edges thread_pool_test
      [thread_event.request 0, thread_event.check 0, thread_event.finish (load_always 0),
       thread_event.wait 0 false, thread_event.release 0] :=
  thread_step_edges.1 thread_pool_test [] _ (thread_step_edges.2.1 pool_error_test)
    (by decide)

theorem f32_exponent_ge (q : ℚ) : -126 ≤ f32_exponent q := by
  unfold f32_exponent
  split
  · exact le_refl _
  · exact le_max_right _ _

end Shukuchi
